import Mathlib

/-!
# StVO-PL: frame-to-frame tracking and pose optimisation (`stereoFrameHandler.cpp`)

A shallow embedding of `StVO::StereoFrameHandler`.

* `double`/`float` values are elements of an arbitrary type `D` carrying the operations of
  `DoubleOps`; nothing is assumed about them, so every theorem holds for any interpretation of
  the arithmetic (exact rationals, IEEE doubles with NaN, ...).
* `int` values are `Int`; an `int` operation whose result leaves the 32-bit range is undefined
  behaviour and makes the embedded function return `none`, as does an out-of-range index, a
  dangling feature pointer or a null `curr_frame`.
* `PointFeature*` / `LineFeature*` entries of `matched_pt` / `matched_ls` point into the previous
  frame; they are positions in `prev_frame.stereo_pt` / `prev_frame.stereo_ls`.
* Library routines and routines of other translation units (OpenCV matcher results, Eigen
  solvers, the camera, `auxiliar.cpp`) are the fields of `Ext` and of `KnnMatches`.
* Locals that the source reads before writing them are the fields of `SolverUninit` and
  `PoseUninit`.
-/

set_option linter.unusedSectionVars false

namespace StVO

/-! ## Arithmetic interface -/

/-- Operations on `double` used by the handler.  `lt` and `le` are the C++ comparisons
`a < b`, `a <= b` (`a > b` is `lt b a`). -/
class DoubleOps (D : Type) extends Add D, Sub D, Mul D, Div D, Neg D where
  /-- A literal or an `int` converted to `double`. -/
  lit : ℚ → D
  lt : D → D → Bool
  le : D → D → Bool
  sqrt : D → D
  fabs : D → D
  fabsf : D → D
  pow4 : D → D
  isinf : D → Bool
  isnan : D → Bool

section Numeric

variable {D : Type} [DoubleOps D]

def dlt (a b : D) : Bool := DoubleOps.lt a b

def dgt (a b : D) : Bool := DoubleOps.lt b a

def dle (a b : D) : Bool := DoubleOps.le a b

/-- Function `std::max(a, b)`: `(a < b) ? b : a`. -/
def dmax (a b : D) : D := if dlt a b then b else a

def lit (q : ℚ) : D := DoubleOps.lit q

abbrev Vec2 (D : Type) := Fin 2 → D
abbrev Vec3 (D : Type) := Fin 3 → D
abbrev Vec6 (D : Type) := Fin 6 → D
abbrev Mat2 (D : Type) := Fin 2 → Fin 2 → D
abbrev Mat3 (D : Type) := Fin 3 → Fin 3 → D
abbrev Mat4 (D : Type) := Fin 4 → Fin 4 → D
abbrev Mat6 (D : Type) := Fin 6 → Fin 6 → D

/-- Value `Matrix4d::Identity()`. -/
def Mat4.identity : Mat4 D := fun i j => if i = j then lit 1 else lit 0

/-- Value `Matrix6d::Zero()`. -/
def Mat6.zero : Mat6 D := fun _ _ => lit 0

/-- Value `Vector6d::Zero()`. -/
def Vec6.zero : Vec6 D := fun _ => lit 0

/-- Product of two `Matrix4d`. -/
def Mat4.mul (a b : Mat4 D) : Mat4 D :=
  fun i j => a i 0 * b 0 j + a i 1 * b 1 j + a i 2 * b 2 j + a i 3 * b 3 j

/-- Method `Vector2d::norm()`. -/
def norm2 (v : Vec2 D) : D := DoubleOps.sqrt (v 0 * v 0 + v 1 * v 1)

/-- Method `Vector6d::norm()`. -/
def norm6 (v : Vec6 D) : D :=
  DoubleOps.sqrt (v 0 * v 0 + v 1 * v 1 + v 2 * v 2 + v 3 * v 3 + v 4 * v 4 + v 5 * v 5)

/-- Expression `DT.block(0,0,3,3) * P + DT.col(3).head(3)`. -/
def transformPoint (DT : Mat4 D) (P : Vec3 D) : Vec3 D :=
  fun i => (DT i.castSucc 0 * P 0 + DT i.castSucc 1 * P 1 + DT i.castSucc 2 * P 2)
    + DT i.castSucc 3

end Numeric

/-! ## 32-bit `int` -/

def INT_MAX : Int := 2147483647

def INT_MIN : Int := -2147483648

/-- The value of an `int` expression: `none` when it overflows. -/
def checkedInt (x : Int) : Option Int :=
  if INT_MIN ≤ x ∧ x ≤ INT_MAX then some x else none

/-- Subscript `v[i]` with an `int` index. -/
def getI {α : Type} (l : List α) (i : Int) : Option α :=
  if i < 0 then none else l[i.toNat]?

/-- Store through `v[i]` with an `int` index. -/
def setI {α : Type} (l : List α) (i : Int) (a : α) : List α :=
  l.set i.toNat a

/-! ## Data model -/

structure PointFeature (D : Type) where
  pl : Vec2 D
  disp : D
  P : Vec3 D
  pl_obs : Vec2 D
  inlier : Bool
  idx : Int

structure LineFeature (D : Type) where
  spl : Vec2 D
  sdisp : D
  sP : Vec3 D
  epl : Vec2 D
  edisp : D
  eP : Vec3 D
  le : Vec3 D
  angle : D
  spl_obs : Vec2 D
  epl_obs : Vec2 D
  le_obs : Vec3 D
  inlier : Bool
  idx : Int

structure StereoFrame (D : Type) where
  stereo_pt : List (PointFeature D)
  stereo_ls : List (LineFeature D)
  DT : Mat4 D
  Tfw : Mat4 D
  DT_cov : Mat6 D
  DT_cov_eig : Vec6 D
  err_norm : D

/-- Type `cv::DMatch`. -/
structure DMatch (D : Type) where
  queryIdx : Int
  trainIdx : Int
  distance : D

/-- What the four `knnMatch` calls of `f2fTracking` return (`k = 2`). -/
structure KnnMatches (D : Type) where
  pmatches_12 : List (List (DMatch D))
  pmatches_21 : List (List (DMatch D))
  lmatches_12 : List (List (DMatch D))
  lmatches_21 : List (List (DMatch D))

/-- The values read from the `Config` singleton. -/
structure Config (D : Type) where
  hasPoints : Bool
  hasLines : Bool
  bestLRMatches : Bool
  lrInParallel : Bool
  minRatio12P : D
  maxF2FDisp : D
  descThL : D
  maxF2FAngDiff : D
  f2fFlowTh : D
  minFeatures : Int
  useLevMarquardt : Bool
  maxIters : Int
  maxItersRef : Int
  maxOptimError : D
  useUncertainty : Bool
  minErrorChange : D
  minError : D
  motionPrior : Bool
  lambdaLM : D
  lambdaK : D
  inlierK : D
  homogTh : D
  robustCost : Bool
  scalePointsLines : Bool
  sigmaPx : D

/-- Routines called by the handler whose code lies outside `stereoFrameHandler.cpp`. -/
structure Ext (D : Type) where
  /-- Camera: `getWidth()`, `getFx()`, `getCx()`, `getCy()`, `getB()`. -/
  getWidth : D
  getFx : D
  getCx : D
  getCy : D
  getB : D
  projection : Vec3 D → Vec2 D
  projectionNH : Vec3 D → Vec3 D
  /-- Method `StereoFrame::lineDescriptorMAD`: the outputs `(nn_mad, nn12_mad)`; it is taken to
  leave the match list it is given as it is. -/
  lineDescriptorMAD : List (List (DMatch D)) → D × D
  angDiff : D → D → D
  vector_stdv_mad : List D → D
  is_finite : Mat4 D → Bool
  inverse_transformation : Mat4 D → Mat4 D
  transformation_expmap : Vec6 D → Mat4 D
  /-- Eigen: `LDLT<Matrix6d>(H).solve(g)`. -/
  ldltSolve : Mat6 D → Vec6 D → Vec6 D
  /-- Eigen: `Matrix6d::inverse()`. -/
  inverse6 : Mat6 D → Mat6 D
  /-- Eigen: `MatrixXd::inverse()` on a 2x2 matrix. -/
  inverse2 : Mat2 D → Mat2 D
  /-- Eigen: `SelfAdjointEigenSolver<Matrix6d>(M).eigenvalues()`. -/
  eigenvalues : Mat6 D → Vec6 D
  /-- Constant `numeric_limits<double>::epsilon()`. -/
  epsilon : D

/-- The fields of `StereoFrameHandler` (after `initialize`). -/
structure Handler (D : Type) where
  prev_frame : StereoFrame D
  curr_frame : Option (StereoFrame D)
  matched_pt : List Nat
  matched_ls : List Nat
  n_inliers : Int
  n_inliers_pt : Int
  n_inliers_ls : Int
  max_idx_pt : Int
  max_idx_ls : Int
  prior_inc : Vec6 D
  prior_cov : Mat6 D

/-! ## `f2fTracking` -/

section Tracking

variable {D : Type} [DoubleOps D]

/-- Key of `sort_descriptor_by_queryIdx`: `a[0].queryIdx`. -/
def firstQueryIdx (a : List (DMatch D)) : Option Int := a.head?.map (·.queryIdx)

/-- Call `sort(v.begin(), v.end(), sort_descriptor_by_queryIdx())`.  The comparator reads `a[0]`
of the entries it compares.  Entries with equal keys keep their order (`std::sort` leaves their
order unspecified). -/
def sortByQueryIdx (v : List (List (DMatch D))) : Option (List (List (DMatch D))) :=
  if v.length ≤ 1 then some v
  else if v.all (fun a => !a.isEmpty) then
    some (v.insertionSort (fun a b => (firstQueryIdx a).getD 0 ≤ (firstQueryIdx b).getD 0))
  else none

/-- The value of `rl_tdx` (lines 93-97 and 175-179): `matches_21[lr_tdx][0].trainIdx` with
`bestLRMatches`, else `lr_qdx`. -/
def reverseBest (cfg : Config D) (matches_21 : List (List (DMatch D))) (lr_qdx lr_tdx : Int) :
    Option Int :=
  if cfg.bestLRMatches then do
    let r ← getI matches_21 lr_tdx
    let r0 ← r[0]?
    pure r0.trainIdx
  else some lr_qdx

/-- The list `matches_21` after the conditional sort of lines 84-85 and 167-168. -/
def sortReverse (cfg : Config D) (matches_21 : List (List (DMatch D))) :
    Option (List (List (DMatch D))) :=
  if cfg.bestLRMatches then sortByQueryIdx matches_21 else some matches_21

/-- State of the point half of `f2fTracking`.  `accepted` and `issued` are ghost fields: the
pair `(lr_qdx, lr_tdx)` of every `matched_pt.push_back`, and the value written by every
`idx = max_idx_pt` assignment, in program order. -/
structure PtTrack (D : Type) where
  prev_pt : List (PointFeature D)
  curr_pt : List (PointFeature D)
  matched_pt : List Nat
  max_idx_pt : Int
  accepted : List (Int × Int)
  issued : List Int

/-- One iteration of the loop over `pmatches_12` (lines 88-118); `m` is `pmatches_12[i]`. -/
def pointMatchStep (cfg : Config D) (env : Ext D) (pmatches_21 : List (List (DMatch D)))
    (st : PtTrack D) (m : List (DMatch D)) : Option (PtTrack D) := do
  let nn12_dist_th := cfg.minRatio12P
  let dispTh := cfg.maxF2FDisp * env.getWidth
  let m0 ← m[0]?
  let lr_qdx := m0.queryIdx
  let lr_tdx := m0.trainIdx
  let rl_tdx ← reverseBest cfg pmatches_21 lr_qdx lr_tdx
  let m1 ← m[1]?
  let dist_12 := m0.distance / m1.distance
  let c ← getI st.curr_pt lr_tdx
  let p ← getI st.prev_pt lr_qdx
  let dispL := DoubleOps.fabsf (c.pl 0 - p.pl 0)
  let dispR := DoubleOps.fabsf (c.pl 0 - c.disp - (p.pl 0 - p.disp))
  if lr_qdx == rl_tdx && dgt dist_12 nn12_dist_th && dle dispL dispTh && dle dispR dispTh then
    let point_ : PointFeature D := { p with pl_obs := c.pl, inlier := true }
    pure { st with
      prev_pt := setI st.prev_pt lr_qdx point_
      matched_pt := st.matched_pt ++ [lr_qdx.toNat]
      curr_pt := setI st.curr_pt lr_tdx { c with idx := point_.idx }
      accepted := st.accepted ++ [(lr_qdx, lr_tdx)] }
  else
    let next ← checkedInt (st.max_idx_pt + 1)
    pure { st with
      curr_pt := setI st.curr_pt lr_tdx { c with idx := st.max_idx_pt }
      max_idx_pt := next
      issued := st.issued ++ [st.max_idx_pt] }

/-- The loop over `pmatches_12` (lines 88-118). -/
def pointMatchLoop (cfg : Config D) (env : Ext D) (pmatches_21 : List (List (DMatch D))) :
    List (List (DMatch D)) → PtTrack D → Option (PtTrack D)
  | [], st => some st
  | m :: ms, st => do
    let st' ← pointMatchStep cfg env pmatches_21 st m
    pointMatchLoop cfg env pmatches_21 ms st'

/-- The loop "put index on the rest of the features" (lines 121-128), over the features not yet
visited; returns the features, the counter and the values issued. -/
def pointRestLoop : List (PointFeature D) → Int → Option (List (PointFeature D) × Int × List Int)
  | [], mx => some ([], mx, [])
  | f :: fs, mx =>
    if f.idx = -1 then do
      let next ← checkedInt (mx + 1)
      let rest ← pointRestLoop fs next
      pure ({ f with idx := mx } :: rest.1, rest.2.1, mx :: rest.2.2)
    else do
      let rest ← pointRestLoop fs mx
      pure (f :: rest.1, rest.2.1, rest.2.2)

/-- The body of the guarded point block (lines 54-128), given the `knnMatch` results. -/
def pointBlock (cfg : Config D) (env : Ext D) (km : KnnMatches D) (st : PtTrack D) :
    Option (PtTrack D) := do
  let pmatches_12 ← sortByQueryIdx km.pmatches_12
  let pmatches_21 ← sortReverse cfg km.pmatches_21
  let st1 ← pointMatchLoop cfg env pmatches_21 pmatches_12 st
  let rest ← pointRestLoop st1.curr_pt st1.max_idx_pt
  pure { st1 with curr_pt := rest.1, max_idx_pt := rest.2.1, issued := st1.issued ++ rest.2.2 }

/-- State of the line half of `f2fTracking`; `accepted` and `issued` are ghost fields as in
`PtTrack`. -/
structure LsTrack (D : Type) where
  prev_ls : List (LineFeature D)
  curr_ls : List (LineFeature D)
  matched_ls : List Nat
  max_idx_ls : Int
  accepted : List (Int × Int)
  issued : List Int

/-- One iteration of the loop over `lmatches_12` (lines 170-203); `m` is `lmatches_12[i]` and
`nn12_dist_th` the threshold of line 163. -/
def lineMatchStep (cfg : Config D) (env : Ext D) (lmatches_21 : List (List (DMatch D)))
    (nn12_dist_th : D) (st : LsTrack D) (m : List (DMatch D)) : Option (LsTrack D) := do
  let m0 ← m[0]?
  let lr_qdx := m0.queryIdx
  let lr_tdx := m0.trainIdx
  let rl_tdx ← reverseBest cfg lmatches_21 lr_qdx lr_tdx
  let m1 ← m[1]?
  let dist_12 := m1.distance - m0.distance
  let p ← getI st.prev_ls lr_qdx
  let c ← getI st.curr_ls lr_tdx
  let a1 := p.angle
  let a2 := c.angle
  let x1 : Vec2 D := fun i => p.spl i + p.epl i
  let x2 : Vec2 D := fun i => c.spl i + c.epl i
  if lr_qdx == rl_tdx && dgt dist_12 nn12_dist_th
      && dlt (env.angDiff a1 a2) cfg.maxF2FAngDiff
      && dlt (norm2 (fun i => x2 i - x1 i)) (lit 2 * cfg.f2fFlowTh) then
    let line_ : LineFeature D :=
      { p with spl_obs := c.spl, epl_obs := c.epl, le_obs := c.le, inlier := true }
    pure { st with
      prev_ls := setI st.prev_ls lr_qdx line_
      matched_ls := st.matched_ls ++ [lr_qdx.toNat]
      curr_ls := setI st.curr_ls lr_tdx { c with idx := line_.idx }
      accepted := st.accepted ++ [(lr_qdx, lr_tdx)] }
  else
    let next ← checkedInt (st.max_idx_ls + 1)
    pure { st with
      curr_ls := setI st.curr_ls lr_tdx { c with idx := st.max_idx_ls }
      max_idx_ls := next
      issued := st.issued ++ [st.max_idx_ls] }

/-- The loop over `lmatches_12` (lines 170-203). -/
def lineMatchLoop (cfg : Config D) (env : Ext D) (lmatches_21 : List (List (DMatch D)))
    (nn12_dist_th : D) : List (List (DMatch D)) → LsTrack D → Option (LsTrack D)
  | [], st => some st
  | m :: ms, st => do
    let st' ← lineMatchStep cfg env lmatches_21 nn12_dist_th st m
    lineMatchLoop cfg env lmatches_21 nn12_dist_th ms st'

/-- The loop "put index on the rest of the features" for lines (lines 206-213). -/
def lineRestLoop : List (LineFeature D) → Int → Option (List (LineFeature D) × Int × List Int)
  | [], mx => some ([], mx, [])
  | f :: fs, mx =>
    if f.idx = -1 then do
      let next ← checkedInt (mx + 1)
      let rest ← lineRestLoop fs next
      pure ({ f with idx := mx } :: rest.1, rest.2.1, mx :: rest.2.2)
    else do
      let rest ← lineRestLoop fs mx
      pure (f :: rest.1, rest.2.1, rest.2.2)

/-- The body of the guarded line block (lines 136-213), given the `knnMatch` results. -/
def lineBlock (cfg : Config D) (env : Ext D) (km : KnnMatches D) (st : LsTrack D) :
    Option (LsTrack D) := do
  let nn12_dist_th := (env.lineDescriptorMAD km.lmatches_12).2 * cfg.descThL
  let lmatches_12 ← sortByQueryIdx km.lmatches_12
  let lmatches_21 ← sortReverse cfg km.lmatches_21
  let st1 ← lineMatchLoop cfg env lmatches_21 nn12_dist_th lmatches_12 st
  let rest ← lineRestLoop st1.curr_ls st1.max_idx_ls
  pure { st1 with curr_ls := rest.1, max_idx_ls := rest.2.1, issued := st1.issued ++ rest.2.2 }

/-- Result of `f2fTracking`: the handler, and the ghost logs of both halves. -/
structure TrackResult (D : Type) where
  handler : Handler D
  accepted_pt : List (Int × Int)
  issued_pt : List Int
  accepted_ls : List (Int × Int)
  issued_ls : List Int

/-- "points f2f tracking" (lines 51-130): `matched_pt.clear()` and the guarded block. -/
def pointHalf (cfg : Config D) (env : Ext D) (km : KnnMatches D) (s : Handler D)
    (curr : StereoFrame D) : Option (PtTrack D) :=
  let pt0 : PtTrack D :=
    { prev_pt := s.prev_frame.stereo_pt, curr_pt := curr.stereo_pt, matched_pt := [],
      max_idx_pt := s.max_idx_pt, accepted := [], issued := [] }
  if cfg.hasPoints && !(curr.stereo_pt.length == 0) && !(s.prev_frame.stereo_pt.length == 0) then
    pointBlock cfg env km pt0
  else some pt0

/-- "line segments f2f tracking" (lines 133-215): `matched_ls.clear()` and the guarded block. -/
def lineHalf (cfg : Config D) (env : Ext D) (km : KnnMatches D) (s : Handler D)
    (curr : StereoFrame D) : Option (LsTrack D) :=
  let ls0 : LsTrack D :=
    { prev_ls := s.prev_frame.stereo_ls, curr_ls := curr.stereo_ls, matched_ls := [],
      max_idx_ls := s.max_idx_ls, accepted := [], issued := [] }
  if cfg.hasLines && !(curr.stereo_ls.length == 0) && !(s.prev_frame.stereo_ls.length == 0) then
    lineBlock cfg env km ls0
  else some ls0

/-- Method `StereoFrameHandler::f2fTracking` (lines 47-221). -/
def f2fTracking (cfg : Config D) (env : Ext D) (km : KnnMatches D) (s : Handler D) :
    Option (TrackResult D) := do
  let curr ← s.curr_frame
  let prev := s.prev_frame
  let pt ← pointHalf cfg env km s curr
  let ls ← lineHalf cfg env km s curr
  let n_inliers_pt ← checkedInt pt.matched_pt.length
  let n_inliers_ls ← checkedInt ls.matched_ls.length
  let n_inliers ← checkedInt (n_inliers_pt + n_inliers_ls)
  pure
    { handler :=
        { s with
          prev_frame := { prev with stereo_pt := pt.prev_pt, stereo_ls := ls.prev_ls }
          curr_frame := some { curr with stereo_pt := pt.curr_pt, stereo_ls := ls.curr_ls }
          matched_pt := pt.matched_pt
          matched_ls := ls.matched_ls
          n_inliers := n_inliers
          n_inliers_pt := n_inliers_pt
          n_inliers_ls := n_inliers_ls
          max_idx_pt := pt.max_idx_pt
          max_idx_ls := ls.max_idx_ls }
      accepted_pt := pt.accepted
      issued_pt := pt.issued
      accepted_ls := ls.accepted
      issued_ls := ls.issued }

/-- Method `StereoFrameHandler::updateFrame` (lines 233-239). -/
def updateFrame (s : Handler D) : Option (Handler D) := do
  let curr ← s.curr_frame
  pure { s with matched_pt := [], matched_ls := [], prev_frame := curr, curr_frame := none }

end Tracking

/-! ## Residual construction -/

section Residuals

variable {D : Type} [DoubleOps D]

/-- Sum `A + B` of two `Matrix6d`. -/
def Mat6.add (a b : Mat6 D) : Mat6 D := fun i j => a i j + b i j

/-- Product `A * c` of a `Matrix6d` and a scalar. -/
def Mat6.smul (a : Mat6 D) (c : D) : Mat6 D := fun i j => a i j * c

/-- Sum `a + b` of two `Vector6d`. -/
def Vec6.add (a b : Vec6 D) : Vec6 D := fun i => a i + b i

/-- Product `a * c` of a `Vector6d` and a scalar. -/
def Vec6.smul (a : Vec6 D) (c : D) : Vec6 D := fun i => a i * c

/-- Quotient `a / c` of a `Vector6d` and a scalar. -/
def Vec6.sdiv (a : Vec6 D) (c : D) : Vec6 D := fun i => a i / c

/-- Product `J * J.transpose()`. -/
def outer6 (J : Vec6 D) : Mat6 D := fun i j => J i * J j

/-- Product `M * v` of a `Matrix6d` and a `Vector6d`. -/
def Mat6.mulVec (m : Mat6 D) (v : Vec6 D) : Vec6 D :=
  fun i => m i 0 * v 0 + m i 1 * v 1 + m i 2 * v 2 + m i 3 * v 3 + m i 4 * v 4 + m i 5 * v 5

/-- The six comma-initialised components of `J_aux`, `Js_aux`, `Je_aux`; `(a, b)` is `(dx, dy)`
for a point and `(lx, ly)` for a line end point. -/
def jacobianRow (fgz2 gx gy gz a b : D) : Vec6 D :=
  ![fgz2 * a * gz,
    fgz2 * b * gz,
    -fgz2 * (gx * a + gy * b),
    -fgz2 * (gx * gy * a + gy * gy * b + gz * gz * b),
    fgz2 * (gx * gx * a + gz * gz * a + gx * gy * b),
    fgz2 * (gx * gz * b - gy * gz * a)]

/-- The residual of a line: `err_i(0)`, `err_i(1)` of lines 604-605. -/
def lineResidual (env : Ext D) (DT : Mat4 D) (it : LineFeature D) : Vec2 D :=
  let sP_ := transformPoint DT it.sP
  let spl_proj := env.projection sP_
  let eP_ := transformPoint DT it.eP
  let epl_proj := env.projection eP_
  let l_obs := it.le_obs
  ![l_obs 0 * spl_proj 0 + l_obs 1 * spl_proj 1 + l_obs 2,
    l_obs 0 * epl_proj 0 + l_obs 1 * epl_proj 1 + l_obs 2]

/-- The residual of a point: `err_i = pl_proj - pl_obs`. -/
def pointResidual (env : Ext D) (DT : Mat4 D) (it : PointFeature D) : Vec2 D :=
  let P_ := transformPoint DT it.P
  let pl_proj := env.projection P_
  fun k => pl_proj k - it.pl_obs k

/-- Locals of the point loop of a residual pass, with the previous frame's points. -/
structure PtAcc (D : Type) where
  stereo_pt : List (PointFeature D)
  H_p : Mat6 D
  g_p : Vec6 D
  e_p : D
  N_p : Int
  r_p : List D

/-- Locals of the line loop of a residual pass, with the previous frame's lines. -/
structure LsAcc (D : Type) where
  stereo_ls : List (LineFeature D)
  H_l : Mat6 D
  g_l : Vec6 D
  e_l : D
  N_l : Int
  r_l : List D

/-- Result of a residual pass: the handler and the outputs `H`, `g`, `e`; `N_p`, `N_l` are the
counts whose sum divides `e`. -/
structure Residual (D : Type) where
  handler : Handler D
  H : Mat6 D
  g : Vec6 D
  e : D
  N_p : Int
  N_l : Int

/-- Body of the point loop of `optimizeFunctions_nonweighted` (lines 545-585); `q` is `*it`. -/
def nwPointStep (cfg : Config D) (env : Ext D) (DT : Mat4 D) (acc : PtAcc D) (q : Nat) :
    Option (PtAcc D) := do
  let it ← acc.stereo_pt[q]?
  if it.inlier then
    let P_ := transformPoint DT it.P
    let err_i := pointResidual env DT it
    let err_i_norm := norm2 err_i
    if dgt err_i_norm cfg.homogTh then
      let gx := P_ 0
      let gy := P_ 1
      let gz := P_ 2
      let gz2 := gz * gz
      let fgz2 := env.getFx / dmax (lit 0.0000001) gz2
      let dx := err_i 0
      let dy := err_i 1
      let J_aux := Vec6.sdiv (jacobianRow fgz2 gx gy gz dx dy) (dmax (lit 0.0000001) err_i_norm)
      let w : D := if cfg.robustCost then lit 1 / (lit 1 + err_i_norm * err_i_norm) else lit 1
      let N_p ← checkedInt (acc.N_p + 1)
      pure { acc with
        H_p := Mat6.add acc.H_p (Mat6.smul (outer6 J_aux) w)
        g_p := Vec6.add acc.g_p (Vec6.smul (Vec6.smul J_aux err_i_norm) w)
        e_p := acc.e_p + err_i_norm * err_i_norm * w
        N_p := N_p
        r_p := if cfg.scalePointsLines then acc.r_p ++ [err_i_norm * err_i_norm * w]
               else acc.r_p }
    else
      pure { acc with stereo_pt := acc.stereo_pt.set q { it with inlier := false } }
  else pure acc

/-- Body of the line loop of `optimizeFunctions_nonweighted` (lines 595-656). -/
def nwLineStep (cfg : Config D) (env : Ext D) (DT : Mat4 D) (acc : LsAcc D) (q : Nat) :
    Option (LsAcc D) := do
  let it ← acc.stereo_ls[q]?
  if it.inlier then
    let sP_ := transformPoint DT it.sP
    let eP_ := transformPoint DT it.eP
    let l_obs := it.le_obs
    let err_i := lineResidual env DT it
    let err_i_norm := norm2 err_i
    if dgt err_i_norm cfg.homogTh then
      let ds := err_i 0
      let de := err_i 1
      let lx := l_obs 0
      let ly := l_obs 1
      let Js_aux :=
        jacobianRow (env.getFx / dmax (lit 0.0000001) (sP_ 2 * sP_ 2)) (sP_ 0) (sP_ 1) (sP_ 2) lx ly
      let Je_aux :=
        jacobianRow (env.getFx / dmax (lit 0.0000001) (eP_ 2 * eP_ 2)) (eP_ 0) (eP_ 1) (eP_ 2) lx ly
      let J_aux := Vec6.sdiv (Vec6.add (Vec6.smul Js_aux ds) (Vec6.smul Je_aux de))
        (dmax (lit 0.0000001) err_i_norm)
      let w : D := if cfg.robustCost then lit 1 / (lit 1 + err_i_norm * err_i_norm) else lit 1
      let N_l ← checkedInt (acc.N_l + 1)
      pure { acc with
        H_l := Mat6.add acc.H_l (Mat6.smul (outer6 J_aux) w)
        g_l := Vec6.add acc.g_l (Vec6.smul (Vec6.smul J_aux err_i_norm) w)
        e_l := acc.e_l + err_i_norm * err_i_norm * w
        N_l := N_l
        r_l := if cfg.scalePointsLines then acc.r_l ++ [err_i_norm * err_i_norm * w]
               else acc.r_l }
    else
      pure { acc with stereo_ls := acc.stereo_ls.set q { it with inlier := false } }
  else pure acc

/-- A loop `for (it = matched.begin(); it != matched.end(); it++)` with body `step`. -/
def forMatched {α : Type} (step : α → Nat → Option α) : List Nat → α → Option α
  | [], acc => some acc
  | q :: qs, acc => do
    let acc' ← step acc q
    forMatched step qs acc'

/-- The last part of both residual passes: "sum H, g and err from both points and lines" and
"normalize error" (lines 662-682 and 929-949). -/
def combineResiduals (cfg : Config D) (env : Ext D) (s : Handler D) (p : PtAcc D)
    (l : LsAcc D) : Option (Residual D) := do
  let s' : Handler D :=
    { s with prev_frame := { s.prev_frame with stereo_pt := p.stereo_pt, stereo_ls := l.stereo_ls } }
  let N ← checkedInt (l.N_l + p.N_p)
  if cfg.scalePointsLines && dgt (env.vector_stdv_mad l.r_l) cfg.homogTh
      && dgt (env.vector_stdv_mad p.r_p) cfg.homogTh && cfg.hasPoints && cfg.hasLines then
    let S_l := env.vector_stdv_mad l.r_l
    let S_p := env.vector_stdv_mad p.r_p
    let S_l_inv := lit 1 / S_l
    let S_p_inv := lit 1 / S_p
    let S_l_ := (S_p_inv + S_l_inv) / S_p_inv
    let S_p_ := (S_p_inv + S_l_inv) / S_l_inv
    pure
      { handler := s'
        H := Mat6.add (Mat6.smul p.H_p S_p_) (Mat6.smul l.H_l S_l_)
        g := Vec6.add (Vec6.smul p.g_p S_p_) (Vec6.smul l.g_l S_l_)
        e := (p.e_p * S_p_ + l.e_l * S_l_) / lit N
        N_p := p.N_p
        N_l := l.N_l }
  else
    pure
      { handler := s'
        H := Mat6.add p.H_p l.H_l
        g := Vec6.add p.g_p l.g_l
        e := (p.e_p + l.e_l) / lit N
        N_p := p.N_p
        N_l := l.N_l }

/-- Method `StereoFrameHandler::optimizeFunctions_nonweighted` (lines 529-684). -/
def optimizeFunctions_nonweighted (cfg : Config D) (env : Ext D) (s : Handler D)
    (DT : Mat4 D) : Option (Residual D) := do
  let p ← forMatched (nwPointStep cfg env DT) s.matched_pt
    { stereo_pt := s.prev_frame.stereo_pt, H_p := Mat6.zero, g_p := Vec6.zero, e_p := lit 0,
      N_p := 0, r_p := [] }
  let l ← forMatched (nwLineStep cfg env DT) s.matched_ls
    { stereo_ls := s.prev_frame.stereo_ls, H_l := Mat6.zero, g_l := Vec6.zero, e_l := lit 0,
      N_l := 0, r_l := [] }
  combineResiduals cfg env s p l

/-- The matrix `covP_an` / `covQ_an` after its division by `disp2*disp2` (lines 747-757). -/
def covAn (f px_hat py_hat disp : D) : Mat3 D :=
  let disp2 := disp * disp
  let c00 := disp2 + lit 2 * px_hat * px_hat
  let c01 := lit 2 * px_hat * py_hat
  let c02 := lit 2 * f * px_hat
  let c11 := disp2 + lit 2 * py_hat * py_hat
  let c12 := lit 2 * f * py_hat
  let c22 := lit 2 * f * f
  fun i j => (![![c00, c01, c02], ![c01, c11, c12], ![c02, c12, c22]] i j) / (disp2 * disp2)

/-- Product of a row vector and a 3x3 matrix. -/
def rowMul3 (r : Vec3 D) (m : Mat3 D) : Vec3 D :=
  fun j => r 0 * m 0 j + r 1 * m 1 j + r 2 * m 2 j

/-- Product of a row vector and a column vector of size 3. -/
def dot3 (a b : Vec3 D) : D := a 0 * b 0 + a 1 * b 1 + a 2 * b 2

/-- The scalar `cov_p` / `cov_q` of an end point (lines 843-855): `P_` is the transformed end
point, `(px, py)` its pixel and `disp` its disparity in the previous frame. -/
def endpointCov (env : Ext D) (sigma : D) (R : Mat3 D) (lx ly : D) (P_ : Vec3 D)
    (px py disp : D) : D :=
  let f := env.getFx
  let cx := env.getCx
  let cy := env.getCy
  let bsigma := f * env.getB * sigma
  let bsigma_inv := lit 1 / bsigma
  let cov_an := covAn f (px - cx) (py - cy) disp
  let proj_ := env.projectionNH P_
  let lxpz := lx * proj_ 2
  let lypz := ly * proj_ 2
  let J_ep : Vec3 D :=
    rowMul3 ![lxpz * f, lypz * f, lxpz * cx + lypz * cy - lx * proj_ 0 - ly * proj_ 1] R
  let p4 := DoubleOps.pow4 (proj_ 2)
  let cov := dot3 (rowMul3 J_ep cov_an) J_ep
  let cov := lit 1 / cov
  p4 * cov * lit 0.5 * bsigma_inv

/-- The scalar `wunc` of a point (lines 743-769). -/
def pointWunc (env : Ext D) (sigma : D) (R : Mat3 D) (it : PointFeature D) (P_ : Vec3 D)
    (err_i : Vec2 D) : D :=
  let f := env.getFx
  let bsigma := f * env.getB * sigma
  let sigma2 := sigma * sigma
  let gx := P_ 0
  let gy := P_ 1
  let gz := P_ 2
  let gz2 := gz * gz
  let dx := err_i 0
  let dy := err_i 1
  let covP_an := covAn f (it.pl 0 - env.getCx) (it.pl 1 - env.getCy) it.disp
  let Jhg0 : Vec3 D := rowMul3 ![gz, lit 0, -gx] R
  let Jhg1 : Vec3 D := rowMul3 ![lit 0, gz, -gy] R
  let c00 := dot3 (rowMul3 Jhg0 covP_an) Jhg0
  let c01 := dot3 (rowMul3 Jhg0 covP_an) Jhg1
  let c10 := dot3 (rowMul3 Jhg1 covP_an) Jhg0
  let c11 := dot3 (rowMul3 Jhg1 covP_an) Jhg1
  let q := gz2 * gz2
  let covp : Mat2 D :=
    ![![bsigma * (c00 / q) + sigma2, bsigma * (c01 / q)],
      ![bsigma * (c10 / q), bsigma * (c11 / q) + sigma2]]
  let covp_inv := env.inverse2 covp
  let wunc := (dx * covp_inv 0 0 + dy * covp_inv 1 0) * dx
    + (dx * covp_inv 0 1 + dy * covp_inv 1 1) * dy
  wunc / (dx * dx + dy * dy)

/-- Body of the point loop of `optimizeFunctions_uncweighted` (lines 715-784). -/
def uncPointStep (cfg : Config D) (env : Ext D) (DT : Mat4 D) (acc : PtAcc D) (q : Nat) :
    Option (PtAcc D) := do
  let f := env.getFx
  let R : Mat3 D := fun i j => DT i.castSucc j.castSucc
  let it ← acc.stereo_pt[q]?
  if it.inlier then
    let P_ := transformPoint DT it.P
    let err_i := pointResidual env DT it
    let err_i_norm := norm2 err_i
    if dgt err_i_norm cfg.homogTh then
      let gx := P_ 0
      let gy := P_ 1
      let gz := P_ 2
      let gz2 := gz * gz
      let fgz2 := f / dmax (lit 0.0000001) gz2
      let dx := err_i 0
      let dy := err_i 1
      let J_aux := Vec6.sdiv (jacobianRow fgz2 gx gy gz dx dy) (dmax (lit 0.0000001) err_i_norm)
      let wunc := pointWunc env cfg.sigmaPx R it P_ err_i
      let w : D := if cfg.robustCost then lit 1 / (lit 1 + err_i_norm) else lit 1
      let N_p ← checkedInt (acc.N_p + 1)
      pure { acc with
        H_p := Mat6.add acc.H_p
          (fun i j => Mat6.smul (Mat6.smul (outer6 J_aux) wunc) w i j / err_i_norm)
        g_p := Vec6.add acc.g_p (Vec6.smul (Vec6.smul J_aux w) wunc)
        e_p := acc.e_p + err_i_norm * err_i_norm * wunc * w
        N_p := N_p
        r_p := if cfg.scalePointsLines then acc.r_p ++ [err_i_norm * err_i_norm * w * wunc]
               else acc.r_p }
    else
      pure { acc with stereo_pt := acc.stereo_pt.set q { it with inlier := false } }
  else pure acc

/-- Body of the line loop of `optimizeFunctions_uncweighted` (lines 795-923). -/
def uncLineStep (cfg : Config D) (env : Ext D) (DT : Mat4 D) (acc : LsAcc D) (q : Nat) :
    Option (LsAcc D) := do
  let f := env.getFx
  let R : Mat3 D := fun i j => DT i.castSucc j.castSucc
  let it ← acc.stereo_ls[q]?
  if it.inlier then
    let sP_ := transformPoint DT it.sP
    let eP_ := transformPoint DT it.eP
    let l_obs := it.le_obs
    let err_i := lineResidual env DT it
    let err_i_norm := norm2 err_i
    if dgt err_i_norm cfg.homogTh then
      let ds := err_i 0
      let de := err_i 1
      let lx := l_obs 0
      let ly := l_obs 1
      let Js_aux :=
        jacobianRow (f / dmax (lit 0.0000001) (sP_ 2 * sP_ 2)) (sP_ 0) (sP_ 1) (sP_ 2) lx ly
      let cov_p := endpointCov env cfg.sigmaPx R lx ly sP_ (it.spl 0) (it.spl 1) it.sdisp
      let Je_aux :=
        jacobianRow (env.getFx / dmax (lit 0.0000001) (eP_ 2 * eP_ 2)) (eP_ 0) (eP_ 1) (eP_ 2) lx ly
      let cov_q := endpointCov env cfg.sigmaPx R lx ly eP_ (it.epl 0) (it.epl 1) it.edisp
      if !DoubleOps.isinf cov_p && !DoubleOps.isnan cov_p && !DoubleOps.isinf cov_q
          && !DoubleOps.isnan cov_q then
        let wunc := err_i 0 * err_i 0 * cov_p + err_i 1 * err_i 1 * cov_q
        let wunc := wunc / (err_i 0 * err_i 0 + err_i 1 * err_i 1)
        let J_aux := Vec6.sdiv (Vec6.add (Vec6.smul Js_aux ds) (Vec6.smul Je_aux de))
          (dmax (lit 0.0000001) err_i_norm)
        let w : D := if cfg.robustCost then lit 1 / (lit 1 + err_i_norm) else lit 1
        let N_l ← checkedInt (acc.N_l + 1)
        pure { acc with
          H_l := Mat6.add acc.H_l
            (fun i j => Mat6.smul (Mat6.smul (outer6 J_aux) wunc) w i j / err_i_norm)
          g_l := Vec6.add acc.g_l (Vec6.smul (Vec6.smul J_aux w) wunc)
          e_l := acc.e_l + err_i_norm * err_i_norm * wunc * w
          N_l := N_l
          r_l := if cfg.scalePointsLines then acc.r_l ++ [err_i_norm * err_i_norm * w * wunc]
                 else acc.r_l }
      else
        pure { acc with stereo_ls := acc.stereo_ls.set q { it with inlier := false } }
    else
      pure { acc with stereo_ls := acc.stereo_ls.set q { it with inlier := false } }
  else pure acc

/-- Method `StereoFrameHandler::optimizeFunctions_uncweighted` (lines 686-952). -/
def optimizeFunctions_uncweighted (cfg : Config D) (env : Ext D) (s : Handler D)
    (DT : Mat4 D) : Option (Residual D) := do
  let p ← forMatched (uncPointStep cfg env DT) s.matched_pt
    { stereo_pt := s.prev_frame.stereo_pt, H_p := Mat6.zero, g_p := Vec6.zero, e_p := lit 0,
      N_p := 0, r_p := [] }
  let l ← forMatched (uncLineStep cfg env DT) s.matched_ls
    { stereo_ls := s.prev_frame.stereo_ls, H_l := Mat6.zero, g_l := Vec6.zero, e_l := lit 0,
      N_l := 0, r_l := [] }
  combineResiduals cfg env s p l

end Residuals

/-! ## Solvers, outlier filter and `optimizePose` -/

section Solvers

variable {D : Type} [DoubleOps D]

/-- The residual pass selected by `Config::useUncertainty()` (lines 398-401, 441-444). -/
def optimizeFunctions (cfg : Config D) (env : Ext D) (s : Handler D) (DT : Mat4 D) :
    Option (Residual D) :=
  if cfg.useUncertainty then optimizeFunctions_uncweighted cfg env s DT
  else optimizeFunctions_nonweighted cfg env s DT

/-- The values that the locals `H`, `DT_inc`, `err` of a solver hold before their first write
(they are declared without an initialiser). -/
structure SolverUninit (D : Type) where
  H : Mat6 D
  DT_inc : Vec6 D
  err : D

/-- Locals of a solver loop, with the handler and the in/out argument `DT`. -/
structure SolverState (D : Type) where
  handler : Handler D
  DT : Mat4 D
  H : Mat6 D
  DT_inc : Vec6 D
  err : D
  err_prev : D
  lambda : D

/-- What a solver hands back: the handler and the reference arguments `DT`, `DT_cov`, `err_`. -/
structure SolverResult (D : Type) where
  handler : Handler D
  DT : Mat4 D
  DT_cov : Mat6 D
  err_ : D

/-- The stopping test of lines 403 and 446: `abs(err-err_prev) < minErrorChange || err < minError`. -/
def converged (cfg : Config D) (err err_prev : D) : Bool :=
  dlt (DoubleOps.fabs (err - err_prev)) cfg.minErrorChange || dlt err cfg.minError

/-- The "update step" of `gaussNewtonOptimization` (lines 405-420) after the residual pass `r`. -/
def gnUpdate (cfg : Config D) (env : Ext D) (st : SolverState D) (r : Residual D) :
    SolverState D :=
  let H : Mat6 D :=
    if cfg.motionPrior then Mat6.add r.H (env.inverse6 r.handler.prior_cov) else r.H
  let g : Vec6 D :=
    if cfg.motionPrior then
      Vec6.add r.g (Mat6.mulVec (env.inverse6 r.handler.prior_cov)
        (fun i => st.DT_inc i - r.handler.prior_inc i))
    else r.g
  let DT_inc := env.ldltSolve H g
  let DT := Mat4.mul st.DT (env.inverse_transformation (env.transformation_expmap DT_inc))
  { st with handler := r.handler, DT := DT, H := H, DT_inc := DT_inc, err := r.e }

/-- The loop of `gaussNewtonOptimization` (lines 395-426), with `n` iterations left. -/
def gnLoop (cfg : Config D) (env : Ext D) : Nat → SolverState D → Option (SolverState D)
  | 0, st => some st
  | n + 1, st => do
    let r ← optimizeFunctions cfg env st.handler st.DT
    if converged cfg r.e st.err_prev then
      pure { st with handler := r.handler, H := r.H, err := r.e }
    else if dlt (norm6 (gnUpdate cfg env st r).DT_inc) env.epsilon then
      pure (gnUpdate cfg env st r)
    else gnLoop cfg env n { gnUpdate cfg env st r with err_prev := r.e }

/-- Method `StereoFrameHandler::gaussNewtonOptimization` (lines 390-429). -/
def gaussNewtonOptimization (cfg : Config D) (env : Ext D) (u : SolverUninit D)
    (s : Handler D) (DT : Mat4 D) (max_iters : Int) : Option (SolverResult D) := do
  let st ← gnLoop cfg env max_iters.toNat
    { handler := s, DT := DT, H := u.H, DT_inc := u.DT_inc, err := u.err,
      err_prev := lit 999999999.9, lambda := lit 0 }
  pure { handler := st.handler, DT := st.DT, DT_cov := env.inverse6 st.H, err_ := st.err }

/-- The "update step" and "update lambda" of `levMarquardtOptimization` (lines 448-460) after
the residual pass `r`. -/
def lmUpdate (cfg : Config D) (env : Ext D) (st : SolverState D) (r : Residual D) :
    SolverState D :=
  let lambda_k := cfg.lambdaK
  let H : Mat6 D := fun i j => if i = j then r.H i j + st.lambda * r.H i i else r.H i j
  let DT_inc := env.ldltSolve H r.g
  let DT_ := Mat4.mul st.DT (env.inverse_transformation (env.transformation_expmap DT_inc))
  { st with
    handler := r.handler
    H := H
    DT_inc := DT_inc
    err := r.e
    lambda := if dgt r.e st.err_prev then st.lambda / lambda_k else st.lambda * lambda_k
    DT := if dgt r.e st.err_prev then st.DT else DT_ }

/-- The loop of `levMarquardtOptimization` (lines 438-466), with `n` iterations left. -/
def lmLoop (cfg : Config D) (env : Ext D) : Nat → SolverState D → Option (SolverState D)
  | 0, st => some st
  | n + 1, st => do
    let r ← optimizeFunctions cfg env st.handler st.DT
    if converged cfg r.e st.err_prev then
      pure { st with handler := r.handler, H := r.H, err := r.e }
    else if dlt (norm6 (lmUpdate cfg env st r).DT_inc) env.epsilon then
      pure (lmUpdate cfg env st r)
    else lmLoop cfg env n { lmUpdate cfg env st r with err_prev := r.e }

/-- Method `StereoFrameHandler::levMarquardtOptimization` (lines 431-469). -/
def levMarquardtOptimization (cfg : Config D) (env : Ext D) (u : SolverUninit D)
    (s : Handler D) (DT : Mat4 D) (max_iters : Int) : Option (SolverResult D) := do
  let st ← lmLoop cfg env max_iters.toNat
    { handler := s, DT := DT, H := u.H, DT_inc := u.DT_inc, err := u.err,
      err_prev := lit 999999999.9, lambda := cfg.lambdaLM }
  pure { handler := st.handler, DT := st.DT, DT_cov := env.inverse6 st.H, err_ := st.err }

/-- The solver selected by `Config::useLevMarquardt()` (lines 261-264, 272-275). -/
def runSolver (cfg : Config D) (env : Ext D) (u : SolverUninit D) (s : Handler D)
    (DT : Mat4 D) (max_iters : Int) : Option (SolverResult D) :=
  if cfg.useLevMarquardt then levMarquardtOptimization cfg env u s DT max_iters
  else gaussNewtonOptimization cfg env u s DT max_iters

/-- The vector `res_p` of `removeOutliers` (lines 478-484). -/
def outlierResP (env : Ext D) (DT : Mat4 D) (pts : List (PointFeature D)) :
    List Nat → Option (List D)
  | [] => some []
  | q :: qs => do
    let it ← pts[q]?
    let rest ← outlierResP env DT pts qs
    pure (norm2 (pointResidual env DT it) :: rest)

/-- The vector `res_l` of `removeOutliers` (lines 487-499). -/
def outlierResL (env : Ext D) (DT : Mat4 D) (lns : List (LineFeature D)) :
    List Nat → Option (List D)
  | [] => some []
  | q :: qs => do
    let it ← lns[q]?
    let rest ← outlierResL env DT lns qs
    pure (norm2 (lineResidual env DT it) :: rest)

/-- The loop over `matched_pt` of "filter outliers" (lines 506-515), from position `iter`. -/
def filterPoints (res_p : List D) (inlier_th_p : D) :
    List Nat → Nat → Handler D → Option (Handler D)
  | [], _, s => some s
  | q :: qs, iter, s => do
    let r ← res_p[iter]?
    if dgt r inlier_th_p then
      let it ← s.prev_frame.stereo_pt[q]?
      let n_inliers ← checkedInt (s.n_inliers - 1)
      let n_inliers_pt ← checkedInt (s.n_inliers_pt - 1)
      filterPoints res_p inlier_th_p qs (iter + 1)
        { s with
          prev_frame := { s.prev_frame with
            stereo_pt := s.prev_frame.stereo_pt.set q { it with inlier := false } }
          n_inliers := n_inliers
          n_inliers_pt := n_inliers_pt }
    else filterPoints res_p inlier_th_p qs (iter + 1) s

/-- The loop over `matched_ls` of "filter outliers" (lines 516-525), from position `iter`. -/
def filterLines (res_l : List D) (inlier_th_l : D) :
    List Nat → Nat → Handler D → Option (Handler D)
  | [], _, s => some s
  | q :: qs, iter, s => do
    let r ← res_l[iter]?
    if dgt r inlier_th_l then
      let it ← s.prev_frame.stereo_ls[q]?
      let n_inliers ← checkedInt (s.n_inliers - 1)
      let n_inliers_ls ← checkedInt (s.n_inliers_ls - 1)
      filterLines res_l inlier_th_l qs (iter + 1)
        { s with
          prev_frame := { s.prev_frame with
            stereo_ls := s.prev_frame.stereo_ls.set q { it with inlier := false } }
          n_inliers := n_inliers
          n_inliers_ls := n_inliers_ls }
    else filterLines res_l inlier_th_l qs (iter + 1) s

/-- Method `StereoFrameHandler::removeOutliers` (lines 471-527). -/
def removeOutliers (cfg : Config D) (env : Ext D) (s : Handler D) (DT : Mat4 D) :
    Option (Handler D) := do
  let res_p ← outlierResP env DT s.prev_frame.stereo_pt s.matched_pt
  let res_l ← outlierResL env DT s.prev_frame.stereo_ls s.matched_ls
  let inlier_th_p := cfg.inlierK * env.vector_stdv_mad res_p
  let inlier_th_l := cfg.inlierK * env.vector_stdv_mad res_l
  let s1 ← filterPoints res_p inlier_th_p s.matched_pt 0 s
  filterLines res_l inlier_th_l s1.matched_ls 0 s1

/-- The values that the locals `DT_` and `err` of `optimizePose` hold before their first write,
and those of the locals of the two solver calls. -/
structure PoseUninit (D : Type) where
  DT_ : Mat4 D
  err : D
  first : SolverUninit D
  second : SolverUninit D

/-- Locals of `optimizePose` at line 295 ("set estimated pose"), with the handler. -/
structure PoseLocals (D : Type) where
  handler : Handler D
  DT : Mat4 D
  DT_cov : Mat6 D
  DT_ : Mat4 D
  err : D

/-- The "solver" part of `optimizePose` (lines 257-293 and 330-366, which are the same text),
from the initial `DT`.  The initial `DT_cov = prev_frame->DT_cov` is overwritten on every path
before it is read. -/
def optimizePoseSolve (cfg : Config D) (env : Ext D) (u : PoseUninit D) (s : Handler D)
    (DT : Mat4 D) : Option (PoseLocals D) :=
  if s.n_inliers > cfg.minFeatures then do
    let r1 ← runSolver cfg env u.first s DT cfg.maxIters
    let DT_ := r1.DT
    if env.is_finite DT_ then do
      let s2 ← removeOutliers cfg env r1.handler DT_
      if s2.n_inliers > cfg.minFeatures then do
        let r2 ← runSolver cfg env u.second s2 DT cfg.maxItersRef
        pure { handler := r2.handler, DT := r2.DT, DT_cov := r2.DT_cov, DT_ := DT_,
               err := r2.err_ }
      else
        pure { handler := s2, DT := Mat4.identity, DT_cov := Mat6.zero, DT_ := DT_,
               err := r1.err_ }
    else
      pure { handler := r1.handler, DT := Mat4.identity, DT_cov := Mat6.zero, DT_ := DT_,
             err := r1.err_ }
  else
    pure { handler := s, DT := Mat4.identity, DT_cov := Mat6.zero, DT_ := u.DT_, err := u.err }

/-- The "set estimated pose" part of `optimizePose` (lines 295-313 and 368-386). -/
def optimizePoseStore (cfg : Config D) (env : Ext D) (l : PoseLocals D) :
    Option (Handler D) := do
  let curr ← l.handler.curr_frame
  let prev := l.handler.prev_frame
  if env.is_finite l.DT_ && dlt l.err cfg.maxOptimError then
    let DT := env.inverse_transformation l.DT
    let curr' : StereoFrame D :=
      { curr with
        DT := DT
        Tfw := Mat4.mul prev.Tfw DT
        DT_cov := l.DT_cov
        DT_cov_eig := env.eigenvalues l.DT_cov
        err_norm := l.err }
    pure { l.handler with curr_frame := some curr' }
  else
    let curr' : StereoFrame D :=
      { curr with
        DT := Mat4.identity
        Tfw := prev.Tfw
        DT_cov := Mat6.zero
        DT_cov_eig := env.eigenvalues l.DT_cov
        err_norm := lit (-1) }
    pure { l.handler with curr_frame := some curr' }

/-- Method `StereoFrameHandler::optimizePose()` (lines 241-315). -/
def optimizePose (cfg : Config D) (env : Ext D) (u : PoseUninit D) (s : Handler D) :
    Option (Handler D) := do
  let l ← optimizePoseSolve cfg env u s s.prev_frame.DT
  optimizePoseStore cfg env l

/-- Method `StereoFrameHandler::optimizePose(Matrix4d DT_ini)` (lines 317-388). -/
def optimizePoseIni (cfg : Config D) (env : Ext D) (u : PoseUninit D) (s : Handler D)
    (DT_ini : Mat4 D) : Option (Handler D) := do
  let l ← optimizePoseSolve cfg env u s DT_ini
  optimizePoseStore cfg env l

end Solvers

/-! ## Specification vocabulary -/

section Vocabulary

variable {D : Type}

/-- The counter equation `n_inliers == n_inliers_pt + n_inliers_ls`. -/
def CountersAgree (s : Handler D) : Prop := s.n_inliers = s.n_inliers_pt + s.n_inliers_ls

/-- The handler `s'` differs from `s` at most in the point and line features of the previous
frame. -/
def FlagsOnly (s s' : Handler D) : Prop :=
  ∃ pts lns, s' = { s with prev_frame := { s.prev_frame with stereo_pt := pts, stereo_ls := lns } }

end Vocabulary

section Flags

variable {D : Type}

/-- The inlier flag behind the entry `q` of `matched_pt`. -/
def ptFlag (pts : List (PointFeature D)) (q : Nat) : Bool :=
  match pts[q]? with
  | some f => f.inlier
  | none => false

/-- The inlier flag behind the entry `q` of `matched_ls`. -/
def lsFlag (lns : List (LineFeature D)) (q : Nat) : Bool :=
  match lns[q]? with
  | some f => f.inlier
  | none => false

/-- The number of entries of `matched_pt` and `matched_ls` whose inlier flag is true. -/
def flaggedCount (s : Handler D) : Nat :=
  s.matched_pt.countP (ptFlag s.prev_frame.stereo_pt)
    + s.matched_ls.countP (lsFlag s.prev_frame.stereo_ls)

end Flags

section OutlierVocabulary

variable {D : Type} [DoubleOps D]

/-- The handler `s'` has no inlier flag set that is not set in `s`. -/
def FlagsLowered (s s' : Handler D) : Prop :=
  (∀ q, ptFlag s'.prev_frame.stereo_pt q = true → ptFlag s.prev_frame.stereo_pt q = true) ∧
  (∀ q, lsFlag s'.prev_frame.stereo_ls q = true → lsFlag s.prev_frame.stereo_ls q = true)

/-- The residual magnitude `removeOutliers` computes for the entry `q` of `matched_pt`. -/
def ptResidualNorm (env : Ext D) (DT : Mat4 D) (pts : List (PointFeature D)) (q : Nat) : D :=
  match pts[q]? with
  | some it => norm2 (pointResidual env DT it)
  | none => lit 0

/-- The residual magnitude `removeOutliers` computes for the entry `q` of `matched_ls`. -/
def lsResidualNorm (env : Ext D) (DT : Mat4 D) (lns : List (LineFeature D)) (q : Nat) : D :=
  match lns[q]? with
  | some it => norm2 (lineResidual env DT it)
  | none => lit 0

/-- The threshold `inlier_th_p` of `removeOutliers`. -/
def ptThreshold (cfg : Config D) (env : Ext D) (s : Handler D) (DT : Mat4 D) : D :=
  cfg.inlierK * env.vector_stdv_mad (s.matched_pt.map (ptResidualNorm env DT s.prev_frame.stereo_pt))

/-- The threshold `inlier_th_l` of `removeOutliers`. -/
def lsThreshold (cfg : Config D) (env : Ext D) (s : Handler D) (DT : Mat4 D) : D :=
  cfg.inlierK * env.vector_stdv_mad (s.matched_ls.map (lsResidualNorm env DT s.prev_frame.stereo_ls))

/-- The entry `q` of `matched_pt` has a residual above `inlier_th_p`. -/
def ptExceeds (cfg : Config D) (env : Ext D) (s : Handler D) (DT : Mat4 D) (q : Nat) : Bool :=
  dgt (ptResidualNorm env DT s.prev_frame.stereo_pt q) (ptThreshold cfg env s DT)

/-- The entry `q` of `matched_ls` has a residual above `inlier_th_l`. -/
def lsExceeds (cfg : Config D) (env : Ext D) (s : Handler D) (DT : Mat4 D) (q : Nat) : Bool :=
  dgt (lsResidualNorm env DT s.prev_frame.stereo_ls q) (lsThreshold cfg env s DT)

end OutlierVocabulary

/-- The `n` consecutive integers from `a` on. -/
def consecutive (a : Int) (n : Nat) : List Int :=
  (List.range n).map (fun (k : Nat) => a + (k : Int))

section MatchVocabulary

variable {D : Type}

/-- In the match list `ms`, `t` is the first (nearest) match of the query `q`. -/
def FirstMatch (ms : List (List (DMatch D))) (q t : Int) : Prop :=
  ∃ m ∈ ms, ∃ m0, m[0]? = some m0 ∧ m0.queryIdx = q ∧ m0.trainIdx = t

/-- The match list `ms` holds one entry per query feature: the queries of its entries are
`0, ..., ms.length - 1`, in any order. -/
def OnePerQuery (ms : List (List (DMatch D))) : Prop :=
  (ms.map (fun a => a.head?.map (fun m => m.queryIdx))).Perm
    ((List.range ms.length).map (fun (k : Nat) => some (k : Int)))

end MatchVocabulary

section PoseVocabulary

variable {D : Type} [DoubleOps D]

/-- A run of `optimizePose()` (then `DT` is `prev_frame->DT`) or of `optimizePose(DT_ini)` (then
`DT` is `DT_ini`) on the handler `s`, ending in `s'`. -/
def RunsOptimizePose (cfg : Config D) (env : Ext D) (u : PoseUninit D) (s : Handler D)
    (DT : Mat4 D) (s' : Handler D) : Prop :=
  (DT = s.prev_frame.DT ∧ optimizePose cfg env u s = some s') ∨
    optimizePoseIni cfg env u s DT = some s'

/-- The fallback stored in the current frame `c`: identity relative pose, zero covariance, the
accumulated pose `Tfw` of the previous frame and the error sentinel `-1.0`. -/
def StoresFallback (Tfw : Mat4 D) (c : StereoFrame D) : Prop :=
  c.DT = Mat4.identity ∧ c.DT_cov = Mat6.zero ∧ c.Tfw = Tfw ∧ c.err_norm = lit (-1)

end PoseVocabulary

/-! ## Vocabulary for the outlier filter and the cycle -/

section CycleVocabulary

variable {D : Type}

/-- The number of entries of `matched_pt` whose inlier flag is true. -/
def flaggedPt (s : Handler D) : Nat := s.matched_pt.countP (ptFlag s.prev_frame.stereo_pt)

/-- The number of entries of `matched_ls` whose inlier flag is true. -/
def flaggedLs (s : Handler D) : Nat := s.matched_ls.countP (lsFlag s.prev_frame.stereo_ls)

/-- The number of entries of `matched_pt` whose inlier flag is true in `s` and false in `s'`. -/
def flippedPt (s s' : Handler D) : Nat :=
  s.matched_pt.countP
    (fun q => ptFlag s.prev_frame.stereo_pt q && !ptFlag s'.prev_frame.stereo_pt q)

/-- The number of entries of `matched_ls` whose inlier flag is true in `s` and false in `s'`. -/
def flippedLs (s s' : Handler D) : Nat :=
  s.matched_ls.countP
    (fun q => lsFlag s.prev_frame.stereo_ls q && !lsFlag s'.prev_frame.stereo_ls q)

end CycleVocabulary

/-! ## Vocabulary for the residual passes -/

section PassVocabulary

variable {D : Type} [DoubleOps D]

/-- The point loop of a residual pass from its zeroed accumulators: that of
`optimizeFunctions_uncweighted` (lines 713-785) when `unc` is set, else that of
`optimizeFunctions_nonweighted` (lines 543-586). -/
def pointSums (cfg : Config D) (env : Ext D) (s : Handler D) (DT : Mat4 D) (unc : Bool) :
    Option (PtAcc D) :=
  forMatched (if unc then uncPointStep cfg env DT else nwPointStep cfg env DT) s.matched_pt
    { stereo_pt := s.prev_frame.stereo_pt, H_p := Mat6.zero, g_p := Vec6.zero, e_p := lit 0,
      N_p := 0, r_p := [] }

/-- The line loop of a residual pass from its zeroed accumulators (lines 792-925 when `unc` is
set, else lines 593-658). -/
def lineSums (cfg : Config D) (env : Ext D) (s : Handler D) (DT : Mat4 D) (unc : Bool) :
    Option (LsAcc D) :=
  forMatched (if unc then uncLineStep cfg env DT else nwLineStep cfg env DT) s.matched_ls
    { stereo_ls := s.prev_frame.stereo_ls, H_l := Mat6.zero, g_l := Vec6.zero, e_l := lit 0,
      N_l := 0, r_l := [] }

/-- The residual pass selected by `unc`. -/
def residualPass (cfg : Config D) (env : Ext D) (s : Handler D) (DT : Mat4 D) (unc : Bool) :
    Option (Residual D) :=
  if unc then optimizeFunctions_uncweighted cfg env s DT
  else optimizeFunctions_nonweighted cfg env s DT

/-- The test of lines 663-664 and 930-931, on the residual lists `r_p` and `r_l` whose MAD
scales are `S_p` and `S_l`. -/
def balancingApplies (cfg : Config D) (env : Ext D) (r_p r_l : List D) : Bool :=
  cfg.scalePointsLines && dgt (env.vector_stdv_mad r_l) cfg.homogTh
    && dgt (env.vector_stdv_mad r_p) cfg.homogTh && cfg.hasPoints && cfg.hasLines

/-- The factor `S_p_` of lines 669 and 936. -/
def pointScale (S_p S_l : D) : D := (lit 1 / S_p + lit 1 / S_l) / (lit 1 / S_l)

/-- The factor `S_l_` of lines 668 and 935. -/
def lineScale (S_p S_l : D) : D := (lit 1 / S_p + lit 1 / S_l) / (lit 1 / S_p)

end PassVocabulary

/-! ## Vocabulary for the track IDs of a frame -/

section IdVocabulary

/-- In the ID list `ids`, two positions hold the same value only if it is the sentinel -1. -/
def AssignedDistinct (ids : List Int) : Prop :=
  ∀ (i j : Nat) (v : Int), i ≠ j → ids[i]? = some v → ids[j]? = some v → v = -1

/-- The state of the IDs of the current frame inside a match loop: `prevIds` are the IDs of the
previous frame, `ids` those of the current frame, `acc` the pairs accepted so far, `m0` the
counter at entry and `mx` its present value.  Every current ID is the sentinel, the ID of a
previous feature accepted so far, or a value issued from the counter. -/
def IdInv (prevIds ids : List Int) (acc : List (Int × Int)) (m0 mx : Int) : Prop :=
  m0 ≤ mx ∧ AssignedDistinct ids ∧
    ∀ (i : Nat) (v : Int), ids[i]? = some v →
      v = -1 ∨ (∃ a ∈ acc, getI prevIds a.1 = some v) ∨ (m0 ≤ v ∧ v < mx)

end IdVocabulary

/-! ## The operations of a cycle after association -/

section CycleOps

variable {D : Type} [DoubleOps D]

/-- An operation on the handler between `f2fTracking` and `updateFrame`: a residual pass or the
outlier filter, at the pose `DT`. -/
inductive CycleOp (D : Type) where
  | nonweighted (DT : Mat4 D)
  | uncweighted (DT : Mat4 D)
  | removeOutliers (DT : Mat4 D)

/-- The operation is a call of `removeOutliers`. -/
def CycleOp.isFilter : CycleOp D → Bool
  | .removeOutliers _ => true
  | _ => false

/-- The handler after one operation. -/
def runOp (cfg : Config D) (env : Ext D) (s : Handler D) : CycleOp D → Option (Handler D)
  | .nonweighted DT => (optimizeFunctions_nonweighted cfg env s DT).map (fun r => r.handler)
  | .uncweighted DT => (optimizeFunctions_uncweighted cfg env s DT).map (fun r => r.handler)
  | .removeOutliers DT => removeOutliers cfg env s DT

/-- The handler after a sequence of operations. -/
def runOps (cfg : Config D) (env : Ext D) : List (CycleOp D) → Handler D → Option (Handler D)
  | [], s => some s
  | op :: ops, s => (runOp cfg env s op).bind (runOps cfg env ops)

end CycleOps

/-! ## Vocabulary for the line gates -/

section GateVocabulary

variable {D : Type} [DoubleOps D]

/-- The vector `x2 - x1` of line 188, with `x1 = spl + epl` of the previous segment `p`
(line 186) and `x2 = spl + epl` of the current segment `c` (line 187). -/
def flowVector (p c : LineFeature D) : Vec2 D :=
  fun i => (c.spl i + c.epl i) - (p.spl i + p.epl i)

/-- The flow gate of line 188: `(x2-x1).norm() < 2.0 * Config::f2fFlowTh()`. -/
def flowGate (cfg : Config D) (p c : LineFeature D) : Bool :=
  dlt (norm2 (flowVector p c)) (lit 2 * cfg.f2fFlowTh)

/-- The angle gate of line 188: `angDiff(a1,a2) < Config::maxF2FAngDiff()`. -/
def angleGate (cfg : Config D) (env : Ext D) (p c : LineFeature D) : Bool :=
  dlt (env.angDiff p.angle c.angle) cfg.maxF2FAngDiff

/-- Following the claim's words: the midpoint `(spl + epl) / 2` of a segment. -/
def specMidpoint (f : LineFeature D) : Vec2 D := fun i => (f.spl i + f.epl i) / lit 2

/-- Following the claim's words: the vector from the midpoint of `p` to the midpoint of `c`. -/
def specMidpointFlow (p c : LineFeature D) : Vec2 D :=
  fun i => specMidpoint c i - specMidpoint p i

/-- Following the claim's words: the Euclidean distance between the midpoints of the two
segments is below `Config::f2fFlowTh()`. -/
def specMidpointFlowBelow (cfg : Config D) (p c : LineFeature D) : Bool :=
  dlt (norm2 (specMidpointFlow p c)) cfg.f2fFlowTh

/-- The vector `spl + epl` of a segment (`x1` of line 186, `x2` of line 187). -/
def endSum (f : LineFeature D) : Vec2 D := fun i => f.spl i + f.epl i

end GateVocabulary

/-! ## Vocabulary for the solvers -/

section SolverVocabulary

variable {D : Type} [DoubleOps D]

/-- The pose `P` advanced by one update step with the increment `inc`:
`P * inverse_transformation(transformation_expmap(inc))` (lines 413, 419 and 452). -/
def updatedPose (env : Ext D) (P : Mat4 D) (inc : Vec6 D) : Mat4 D :=
  Mat4.mul P (env.inverse_transformation (env.transformation_expmap inc))

/-- The error `err` is the one of a residual pass made at some pose `P`, and the pose `DT` is
`P` itself or `P` advanced by one update step. -/
def ErrorPrecedesUpdate (cfg : Config D) (env : Ext D) (err : D) (DT : Mat4 D) : Prop :=
  ∃ (h : Handler D) (P : Mat4 D) (res : Residual D),
    optimizeFunctions cfg env h P = some res ∧ err = res.e ∧
      (DT = P ∨ ∃ inc, DT = updatedPose env P inc)

end SolverVocabulary

/-! ## A concrete interpretation: exact rational arithmetic

Used to run the embedding on explicit inputs. -/

section Exact

/-- Newton iteration for the integer square root of `n`, from the upper bound `x`. -/
def sqrtIter : Nat → Nat → Nat → Nat
  | 0, _, x => x
  | fuel + 1, n, x => if (x + n / x) / 2 < x then sqrtIter fuel n ((x + n / x) / 2) else x

/-- The integer square root. -/
def natSqrt (n : Nat) : Nat := if n ≤ 1 then n else sqrtIter n n n

/-- The square root of a rational: exact on squares of rationals. -/
def exactSqrt (q : ℚ) : ℚ := (natSqrt q.num.toNat : ℚ) / (natSqrt q.den : ℚ)

/-- Exact rational arithmetic: no rounding, no NaN or infinity, `x / 0 = 0`. -/
instance ratOps : DoubleOps ℚ where
  lit := id
  lt a b := decide (a < b)
  le a b := decide (a ≤ b)
  sqrt := exactSqrt
  fabs := fun x => |x|
  fabsf := fun x => |x|
  pow4 := fun x => x ^ 4
  isinf := fun _ => false
  isnan := fun _ => false

/-- A MAD-based scale estimate: `1.4826` times the median absolute deviation from the median. -/
def exactMad (residues : List ℚ) : ℚ :=
  if residues.length = 0 then 0
  else
    let n := residues.length
    let sorted := residues.insertionSort (· ≤ ·)
    let median := sorted.getD (n / 2) 0
    let dev := (residues.map (fun r => |r - median|)).insertionSort (· ≤ ·)
    1.4826 * dev.getD (n / 2) 0

/-- The inverse `[Rᵀ | -Rᵀ t]` of a rigid transformation `[R | t]`. -/
def exactInverse (T : Mat4 ℚ) : Mat4 ℚ :=
  ![![T 0 0, T 1 0, T 2 0, -(T 0 0 * T 0 3 + T 1 0 * T 1 3 + T 2 0 * T 2 3)],
    ![T 0 1, T 1 1, T 2 1, -(T 0 1 * T 0 3 + T 1 1 * T 1 3 + T 2 1 * T 2 3)],
    ![T 0 2, T 1 2, T 2 2, -(T 0 2 * T 0 3 + T 1 2 * T 1 3 + T 2 2 * T 2 3)],
    ![0, 0, 0, 1]]

/-- The exponential map of a twist `(t, ω)`, to first order in the rotation `ω`; exact when
`ω = 0`. -/
def exactExpmap (x : Vec6 ℚ) : Mat4 ℚ :=
  ![![1, -x 5, x 4, x 0],
    ![x 5, 1, -x 3, x 1],
    ![-x 4, x 3, 1, x 2],
    ![0, 0, 0, 1]]

/-- A solution of `H x = g` without rotation or depth components: Cramer's rule on the leading
2x2 block.  It solves the whole system when every Jacobian row contributing to `H` and `g` agrees
with the residual it stands for on such increments. -/
def exactSolve (H : Mat6 ℚ) (g : Vec6 ℚ) : Vec6 ℚ :=
  let det := H 0 0 * H 1 1 - H 0 1 * H 1 0
  ![(g 0 * H 1 1 - H 0 1 * g 1) / det, (H 0 0 * g 1 - g 0 * H 1 0) / det, 0, 0, 0, 0]

/-- A pinhole stereo rig with unit focal length and baseline and principal point `(0, 0)`,
with the routines above.  `inverse6` and `eigenvalues` only feed `DT_cov` and `DT_cov_eig`, which
no evaluation below reads; they are simple total functions. -/
def exactEnv : Ext ℚ where
  getWidth := 640
  getFx := 1
  getCx := 0
  getCy := 0
  getB := 1
  projection := fun P => ![P 0 / P 2, P 1 / P 2]
  projectionNH := fun P => ![P 0, P 1, P 2]
  lineDescriptorMAD := fun _ => (0, 0)
  angDiff := fun a b => |a - b|
  vector_stdv_mad := exactMad
  is_finite := fun _ => true
  inverse_transformation := exactInverse
  transformation_expmap := exactExpmap
  ldltSolve := exactSolve
  inverse6 := fun _ => Mat6.zero
  inverse2 := fun m =>
    let det := m 0 0 * m 1 1 - m 0 1 * m 1 0
    ![![m 1 1 / det, -m 0 1 / det], ![-m 1 0 / det, m 0 0 / det]]
  eigenvalues := fun m i => m i i
  epsilon := 1 / 4503599627370496

def demoConfig : Config ℚ where
  hasPoints := true
  hasLines := true
  bestLRMatches := true
  lrInParallel := false
  minRatio12P := 0.1
  maxF2FDisp := 0.1
  descThL := 0.1
  maxF2FAngDiff := 0.2
  f2fFlowTh := 50
  minFeatures := 1
  useLevMarquardt := false
  maxIters := 1
  maxItersRef := 1
  maxOptimError := 100
  useUncertainty := false
  minErrorChange := 0.000001
  minError := 0.000001
  motionPrior := false
  lambdaLM := 0.01
  lambdaK := 5
  inlierK := 4
  homogTh := 0.0000001
  robustCost := false
  scalePointsLines := false
  sigmaPx := 1

/-- The configuration `demoConfig` with a ceiling of 50 on the final error. -/
def strictConfig : Config ℚ := { demoConfig with maxOptimError := 50 }

/-- A point at `P` seen at pixel `pl`, with disparity 1 and no track yet. -/
def demoPoint (pl : Vec2 ℚ) (P : Vec3 ℚ) (idx : Int) : PointFeature ℚ :=
  { pl := pl, disp := 1, P := P, pl_obs := ![0, 0], inlier := false, idx := idx }

def demoFrame (pts : List (PointFeature ℚ)) : StereoFrame ℚ :=
  { stereo_pt := pts, stereo_ls := [], DT := Mat4.identity, Tfw := Mat4.identity,
    DT_cov := Mat6.zero, DT_cov_eig := Vec6.zero, err_norm := 0 }

/-- The handler after `initialize` on two points and the arrival of a frame in which they moved
by `(3, 4)` and `(10, 0)` pixels. -/
def demoHandler : Handler ℚ where
  prev_frame := demoFrame [demoPoint ![0, 0] ![0, 0, 1] 0, demoPoint ![1, 0] ![1, 0, 1] 1]
  curr_frame := some (demoFrame [demoPoint ![3, 4] ![3, 4, 1] (-1),
    demoPoint ![11, 0] ![11, 0, 1] (-1)])
  matched_pt := []
  matched_ls := []
  n_inliers := 0
  n_inliers_pt := 0
  n_inliers_ls := 0
  max_idx_pt := 2
  max_idx_ls := 0
  prior_inc := Vec6.zero
  prior_cov := Mat6.zero

/-- The handler after `initialize` on two points and the arrival of a frame taken from the same
place: both points are seen at the pixels they had. -/
def restHandler : Handler ℚ :=
  { demoHandler with
    curr_frame := some (demoFrame [demoPoint ![0, 0] ![0, 0, 1] (-1),
      demoPoint ![1, 0] ![1, 0, 1] (-1)]) }

/-- The matcher's answer for `demoHandler` and `restHandler`: each point's nearest neighbour is
its own image. -/
def demoMatches : KnnMatches ℚ where
  pmatches_12 := [[⟨0, 0, 10⟩, ⟨0, 1, 20⟩], [⟨1, 1, 10⟩, ⟨1, 0, 20⟩]]
  pmatches_21 := [[⟨0, 0, 10⟩, ⟨0, 1, 20⟩], [⟨1, 1, 10⟩, ⟨1, 0, 20⟩]]
  lmatches_12 := []
  lmatches_21 := []

/-- The matcher's answer when both previous points are nearest to the first current point;
the distances are `d(0,0) = 10`, `d(1,0) = 12`, `d(0,1) = d(1,1) = 20`. -/
def crowdedMatches : KnnMatches ℚ where
  pmatches_12 := [[⟨0, 0, 10⟩, ⟨0, 1, 20⟩], [⟨1, 0, 12⟩, ⟨1, 1, 20⟩]]
  pmatches_21 := [[⟨0, 0, 10⟩, ⟨0, 1, 12⟩], [⟨1, 1, 20⟩, ⟨1, 0, 20⟩]]
  lmatches_12 := []
  lmatches_21 := []

/-- No matches at all. -/
def noMatches : KnnMatches ℚ where
  pmatches_12 := []
  pmatches_21 := []
  lmatches_12 := []
  lmatches_21 := []

/-- A handler whose previous frame holds no point, facing a frame with two points. -/
def blindHandler : Handler ℚ :=
  { demoHandler with prev_frame := demoFrame [], max_idx_pt := 0 }

def demoUninit : PoseUninit ℚ where
  DT_ := Mat4.identity
  err := 0
  first := { H := Mat6.zero, DT_inc := Vec6.zero, err := 0 }
  second := { H := Mat6.zero, DT_inc := Vec6.zero, err := 0 }

end Exact

section ExactTriple

/-- The handler after `initialize` on three points and the arrival of a frame in which the first
point is seen where it was and the other two moved by `(3, 4)` pixels. -/
def tripleHandler : Handler ℚ :=
  { demoHandler with
    prev_frame := demoFrame [demoPoint ![0, 0] ![0, 0, 1] 0, demoPoint ![1, 0] ![1, 0, 1] 1,
      demoPoint ![0, 1] ![0, 1, 1] 2]
    curr_frame := some (demoFrame [demoPoint ![0, 0] ![0, 0, 1] (-1),
      demoPoint ![4, 4] ![4, 4, 1] (-1), demoPoint ![3, 5] ![3, 5, 1] (-1)])
    max_idx_pt := 3 }

/-- The matcher's answer for `tripleHandler`: each point's nearest neighbour is its own image. -/
def tripleMatches : KnnMatches ℚ where
  pmatches_12 := [[⟨0, 0, 10⟩, ⟨0, 1, 20⟩], [⟨1, 1, 10⟩, ⟨1, 0, 20⟩], [⟨2, 2, 10⟩, ⟨2, 0, 20⟩]]
  pmatches_21 := [[⟨0, 0, 10⟩, ⟨0, 1, 20⟩], [⟨1, 1, 10⟩, ⟨1, 0, 20⟩], [⟨2, 2, 10⟩, ⟨2, 0, 20⟩]]
  lmatches_12 := []
  lmatches_21 := []

/-- The pose that translates by `(3, 4, 0)`: the motion of the two moving points of
`tripleHandler`. -/
def shiftPose : Mat4 ℚ :=
  ![![1, 0, 0, 3], ![0, 1, 0, 4], ![0, 0, 1, 0], ![0, 0, 0, 1]]

end ExactTriple

section ExactMixed

/-- A line segment seen from pixel `s` to pixel `e` at depth 1 (disparity 1), with line
equation `le`, orientation `angle` and no track yet. -/
def demoLine (s e : Vec2 ℚ) (le : Vec3 ℚ) (angle : ℚ) (idx : Int) : LineFeature ℚ :=
  { spl := s, sdisp := 1, sP := ![s 0, s 1, 1], epl := e, edisp := 1, eP := ![e 0, e 1, 1],
    le := le, angle := angle, spl_obs := ![0, 0], epl_obs := ![0, 0], le_obs := ![0, 0, 0],
    inlier := false, idx := idx }

/-- The handler `demoHandler` with two line segments added to each frame.  In the previous frame
they run from `(0, 33)` to `(60, 44)` and from `(100, 33/2)` to `(130, 22)`; in the current
frame both lie on the line `y = 0`, from `(18, 0)` to `(78, 0)` and from `(109, 0)` to
`(139, 0)`. -/
def mixedHandler : Handler ℚ :=
  { demoHandler with
    prev_frame :=
      { demoHandler.prev_frame with
        stereo_ls :=
          [demoLine ![0, 33] ![60, 44] ![-11 / 61, 60 / 61, -1980 / 61] 0.1813 0,
           demoLine ![100, 33 / 2] ![130, 22] ![-11 / 61, 60 / 61, 110 / 61] 0.1813 1] }
    curr_frame := some
      { demoFrame [demoPoint ![3, 4] ![3, 4, 1] (-1), demoPoint ![11, 0] ![11, 0, 1] (-1)] with
        stereo_ls :=
          [demoLine ![18, 0] ![78, 0] ![0, 1, 0] 0 (-1),
           demoLine ![109, 0] ![139, 0] ![0, 1, 0] 0 (-1)] }
    max_idx_ls := 2 }

/-- The matcher's answer for `mixedHandler`: each feature's nearest neighbour is its own image. -/
def mixedMatches : KnnMatches ℚ where
  pmatches_12 := [[⟨0, 0, 10⟩, ⟨0, 1, 20⟩], [⟨1, 1, 10⟩, ⟨1, 0, 20⟩]]
  pmatches_21 := [[⟨0, 0, 10⟩, ⟨0, 1, 20⟩], [⟨1, 1, 10⟩, ⟨1, 0, 20⟩]]
  lmatches_12 := [[⟨0, 0, 10⟩, ⟨0, 1, 20⟩], [⟨1, 1, 10⟩, ⟨1, 0, 20⟩]]
  lmatches_21 := [[⟨0, 0, 10⟩, ⟨0, 1, 20⟩], [⟨1, 1, 10⟩, ⟨1, 0, 20⟩]]

/-- The configuration `demoConfig` with point/line balancing switched on. -/
def balancedConfig : Config ℚ := { demoConfig with scalePointsLines := true }

/-- The configuration `demoConfig` with the robust cost switched on. -/
def robustConfig : Config ℚ := { demoConfig with robustCost := true }

end ExactMixed

/-! ## A second interpretation: exact values with infinities and NaN

The rationals of `ratOps` have no NaN (`x / 0 = 0` there).  `Dbl` adds the two infinities and NaN
with the IEEE 754 rules for them; finite results are not rounded and zero carries no sign. -/

section ExtendedValues

/-- A `double` without rounding: a finite value, `+inf` / `-inf`, or NaN. -/
inductive Dbl where
  | fin (q : ℚ)
  | inf (negative : Bool)
  | nan
  deriving DecidableEq

def Dbl.neg : Dbl → Dbl
  | .fin q => .fin (-q)
  | .inf b => .inf (!b)
  | .nan => .nan

/-- Sum: `inf + (-inf)` is NaN. -/
def Dbl.add : Dbl → Dbl → Dbl
  | .fin a, .fin b => .fin (a + b)
  | .fin _, .inf b => .inf b
  | .inf a, .fin _ => .inf a
  | .inf a, .inf b => if a = b then .inf a else .nan
  | .nan, _ => .nan
  | _, .nan => .nan

/-- Product: `0 * inf` is NaN. -/
def Dbl.mul : Dbl → Dbl → Dbl
  | .fin a, .fin b => .fin (a * b)
  | .fin a, .inf b => if a = 0 then .nan else .inf (xor (decide (a < 0)) b)
  | .inf a, .fin b => if b = 0 then .nan else .inf (xor a (decide (b < 0)))
  | .inf a, .inf b => .inf (xor a b)
  | .nan, _ => .nan
  | _, .nan => .nan

/-- Quotient: `0 / 0` and `inf / inf` are NaN, `x / 0` is an infinity for `x` other than 0. -/
def Dbl.div : Dbl → Dbl → Dbl
  | .fin a, .fin b =>
    if b = 0 then (if a = 0 then .nan else .inf (decide (a < 0))) else .fin (a / b)
  | .fin _, .inf _ => .fin 0
  | .inf a, .fin b => .inf (xor a (decide (b < 0)))
  | .inf _, .inf _ => .nan
  | .nan, _ => .nan
  | _, .nan => .nan

/-- Comparison `a < b`: false when an operand is NaN. -/
def Dbl.lt : Dbl → Dbl → Bool
  | .fin a, .fin b => decide (a < b)
  | .fin _, .inf b => !b
  | .inf a, .fin _ => a
  | .inf a, .inf b => a && !b
  | .nan, _ => false
  | _, .nan => false

/-- Comparison `a <= b`: false when an operand is NaN. -/
def Dbl.le : Dbl → Dbl → Bool
  | .fin a, .fin b => decide (a ≤ b)
  | .fin _, .inf b => !b
  | .inf a, .fin _ => a
  | .inf a, .inf b => a || !b
  | .nan, _ => false
  | _, .nan => false

def Dbl.sqrt : Dbl → Dbl
  | .fin q => if q < 0 then .nan else .fin (exactSqrt q)
  | .inf b => if b then .nan else .inf false
  | .nan => .nan

def Dbl.fabs : Dbl → Dbl
  | .fin q => .fin |q|
  | .inf _ => .inf false
  | .nan => .nan

def Dbl.isinf : Dbl → Bool
  | .inf _ => true
  | _ => false

def Dbl.isnan : Dbl → Bool
  | .nan => true
  | _ => false

instance : Add Dbl := ⟨Dbl.add⟩

instance : Sub Dbl := ⟨fun a b => Dbl.add a (Dbl.neg b)⟩

instance : Mul Dbl := ⟨Dbl.mul⟩

instance : Div Dbl := ⟨Dbl.div⟩

instance : Neg Dbl := ⟨Dbl.neg⟩

instance (n : Nat) : OfNat Dbl n := ⟨Dbl.fin n⟩

instance dblOps : DoubleOps Dbl where
  lit := Dbl.fin
  lt := Dbl.lt
  le := Dbl.le
  sqrt := Dbl.sqrt
  fabs := Dbl.fabs
  fabsf := Dbl.fabs
  pow4 := fun x => Dbl.mul (Dbl.mul x x) (Dbl.mul x x)
  isinf := Dbl.isinf
  isnan := Dbl.isnan

/-- The finite values of a list, when all are finite. -/
def finiteValues : List Dbl → Option (List ℚ)
  | [] => some []
  | .fin q :: xs => (finiteValues xs).map (fun qs => q :: qs)
  | _ :: _ => none

/-- The rig of `exactEnv` over `Dbl`: the same pinhole camera and the same formulas; the MAD of
a list with a non-finite entry is NaN. -/
def dblEnv : Ext Dbl where
  getWidth := 640
  getFx := 1
  getCx := 0
  getCy := 0
  getB := 1
  projection := fun P => ![P 0 / P 2, P 1 / P 2]
  projectionNH := fun P => ![P 0, P 1, P 2]
  lineDescriptorMAD := fun _ => (0, 0)
  angDiff := fun a b => Dbl.fabs (a - b)
  vector_stdv_mad := fun xs =>
    match finiteValues xs with
    | some qs => .fin (exactMad qs)
    | none => .nan
  is_finite := fun T =>
    (List.finRange 4).all fun i => (List.finRange 4).all fun j =>
      !Dbl.isinf (T i j) && !Dbl.isnan (T i j)
  inverse_transformation := fun T =>
    ![![T 0 0, T 1 0, T 2 0, -(T 0 0 * T 0 3 + T 1 0 * T 1 3 + T 2 0 * T 2 3)],
      ![T 0 1, T 1 1, T 2 1, -(T 0 1 * T 0 3 + T 1 1 * T 1 3 + T 2 1 * T 2 3)],
      ![T 0 2, T 1 2, T 2 2, -(T 0 2 * T 0 3 + T 1 2 * T 1 3 + T 2 2 * T 2 3)],
      ![0, 0, 0, 1]]
  transformation_expmap := fun x =>
    ![![1, -x 5, x 4, x 0],
      ![x 5, 1, -x 3, x 1],
      ![-x 4, x 3, 1, x 2],
      ![0, 0, 0, 1]]
  ldltSolve := fun H g =>
    let det := H 0 0 * H 1 1 - H 0 1 * H 1 0
    ![(g 0 * H 1 1 - H 0 1 * g 1) / det, (H 0 0 * g 1 - g 0 * H 1 0) / det, 0, 0, 0, 0]
  inverse6 := fun _ => Mat6.zero
  inverse2 := fun m =>
    let det := m 0 0 * m 1 1 - m 0 1 * m 1 0
    ![![m 1 1 / det, -m 0 1 / det], ![-m 1 0 / det, m 0 0 / det]]
  eigenvalues := fun m i => m i i
  epsilon := .fin (1 / 4503599627370496)

/-- The values of `demoConfig`, over `Dbl`. -/
def dblConfig : Config Dbl where
  hasPoints := true
  hasLines := true
  bestLRMatches := true
  lrInParallel := false
  minRatio12P := .fin 0.1
  maxF2FDisp := .fin 0.1
  descThL := .fin 0.1
  maxF2FAngDiff := .fin 0.2
  f2fFlowTh := 50
  minFeatures := 1
  useLevMarquardt := false
  maxIters := 1
  maxItersRef := 1
  maxOptimError := 100
  useUncertainty := false
  minErrorChange := .fin 0.000001
  minError := .fin 0.000001
  motionPrior := false
  lambdaLM := .fin 0.01
  lambdaK := 5
  inlierK := 4
  homogTh := .fin 0.0000001
  robustCost := false
  scalePointsLines := false
  sigmaPx := 1

/-- A point at `P` seen at pixel `pl`, with disparity 1, over `Dbl`. -/
def dblPoint (pl : Vec2 Dbl) (P : Vec3 Dbl) (idx : Int) : PointFeature Dbl :=
  { pl := pl, disp := 1, P := P, pl_obs := ![0, 0], inlier := false, idx := idx }

def dblFrame (pts : List (PointFeature Dbl)) : StereoFrame Dbl :=
  { stereo_pt := pts, stereo_ls := [], DT := Mat4.identity, Tfw := Mat4.identity,
    DT_cov := Mat6.zero, DT_cov_eig := Vec6.zero, err_norm := 0 }

/-- The handler `restHandler` over `Dbl`: two points, and a second frame taken from the same
place, in which both are seen at the pixels they had. -/
def stillHandler : Handler Dbl where
  prev_frame := dblFrame [dblPoint ![0, 0] ![0, 0, 1] 0, dblPoint ![1, 0] ![1, 0, 1] 1]
  curr_frame := some (dblFrame [dblPoint ![0, 0] ![0, 0, 1] (-1),
    dblPoint ![1, 0] ![1, 0, 1] (-1)])
  matched_pt := []
  matched_ls := []
  n_inliers := 0
  n_inliers_pt := 0
  n_inliers_ls := 0
  max_idx_pt := 2
  max_idx_ls := 0
  prior_inc := Vec6.zero
  prior_cov := Mat6.zero

/-- The matcher's answer for `stillHandler`: each point's nearest neighbour is its own image. -/
def stillMatches : KnnMatches Dbl where
  pmatches_12 := [[⟨0, 0, 10⟩, ⟨0, 1, 20⟩], [⟨1, 1, 10⟩, ⟨1, 0, 20⟩]]
  pmatches_21 := [[⟨0, 0, 10⟩, ⟨0, 1, 20⟩], [⟨1, 1, 10⟩, ⟨1, 0, 20⟩]]
  lmatches_12 := []
  lmatches_21 := []

end ExtendedValues

section ExactTurn

/-- The pose that turns by a quarter about the optical axis and translates by `(11, 4, 0)`. -/
def turnPose : Mat4 ℚ :=
  ![![0, -1, 0, 11], ![1, 0, 0, 4], ![0, 0, 1, 0], ![0, 0, 0, 1]]

end ExactTurn
/-! ## A third interpretation: IEEE 754 binary64

The values are those of `Dbl`; every operation rounds its exact result to the nearest `double`. -/

section Binary64

/-- A binary floating-point format: `prec` bits of significand, the exponent `emin` of the
smallest normal binade, and the exponent `emax` from which on magnitudes are infinite. -/
structure Format where
  prec : Nat
  emin : Int
  emax : Int

/-- The format of `double`. -/
def binary64 : Format := ⟨53, -1022, 1024⟩

/-- The format of `float`. -/
def binary32 : Format := ⟨24, -126, 128⟩

/-- The power of two `2^k`. -/
def pow2 (k : Int) : ℚ :=
  if 0 ≤ k then ((2 ^ k.toNat : Nat) : ℚ) else 1 / ((2 ^ (-k).toNat : Nat) : ℚ)

/-- The loop behind `bitLog`: halve `n` until it is below 2, counting in `acc`. -/
def bitLogAux : Nat → Nat → Nat → Nat
  | 0, _, acc => acc
  | fuel + 1, n, acc => if n < 2 then acc else bitLogAux fuel (n / 2) (acc + 1)

/-- The position of the leading bit of `n`: the `k` with `2^k <= n < 2^(k+1)`, for `n > 0`. -/
def bitLog (n : Nat) : Nat := bitLogAux n n 0

/-- The exponent of the binade of `q`: the `k` with `2^k <= |q| < 2^(k+1)`, for `q` other
than 0. -/
def ilog2 (q : ℚ) : Int :=
  let k0 : Int := (bitLog q.num.natAbs : Int) - (bitLog q.den : Int)
  if pow2 k0 ≤ |q| then k0 else k0 - 1

/-- The integer nearest to `q`, the even one of the two when `q` lies half way. -/
def roundEven (q : ℚ) : Int :=
  if q - ⌊q⌋ < 1 / 2 then ⌊q⌋
  else if 1 / 2 < q - ⌊q⌋ then ⌊q⌋ + 1
  else if ⌊q⌋ % 2 = 0 then ⌊q⌋ else ⌊q⌋ + 1

/-- The unit in the last place at `q`: `2^(e - prec + 1)` with `e` the exponent of the binade
of `q`, or `emin` for a subnormal `q`. -/
def ulpOf (f : Format) (q : ℚ) : ℚ := pow2 (max (ilog2 q) f.emin - (f.prec - 1))

/-- The multiple of the unit in the last place nearest to `q`, ties to even: `q` rounded to
the format, as long as the exponent range is not exceeded. -/
def roundQ (f : Format) (q : ℚ) : ℚ :=
  if q = 0 then 0 else roundEven (q / ulpOf f q) * ulpOf f q

/-- The value of the format nearest to `q`: an infinity when the rounded magnitude reaches
`2^emax`. -/
def roundTo (f : Format) (q : ℚ) : Dbl :=
  if pow2 f.emax ≤ |roundQ f q| then .inf (decide (q < 0)) else .fin (roundQ f q)

/-- The significand of the square root of `t`, rounded to the nearest integer, ties to even:
`n = floor(sqrt t)`, and `sqrt t` is compared with `n + 1/2` through `t` and `(n + 1/2)^2`. -/
def sqrtSig (t : ℚ) : Int :=
  if t < ((natSqrt ⌊t⌋.toNat : Int) + 1 / 2) * ((natSqrt ⌊t⌋.toNat : Int) + 1 / 2) then
    natSqrt ⌊t⌋.toNat
  else if ((natSqrt ⌊t⌋.toNat : Int) + 1 / 2) * ((natSqrt ⌊t⌋.toNat : Int) + 1 / 2) < t then
    natSqrt ⌊t⌋.toNat + 1
  else if (natSqrt ⌊t⌋.toNat : Int) % 2 = 0 then natSqrt ⌊t⌋.toNat
  else natSqrt ⌊t⌋.toNat + 1

/-- The unit in the last place of the square root of `q > 0`, which lies in the binade of
exponent `ilog2 q / 2`. -/
def sqrtUlp (f : Format) (q : ℚ) : ℚ := pow2 (ilog2 q / 2 - (f.prec - 1))

/-- The square root of `q > 0`, correctly rounded. -/
def sqrtQ (f : Format) (q : ℚ) : ℚ :=
  sqrtSig (q / (sqrtUlp f q * sqrtUlp f q)) * sqrtUlp f q

/-- The exact result of an operation, rounded to the format. -/
def Dbl.round (f : Format) : Dbl → Dbl
  | .fin q => roundTo f q
  | x => x

/-- The square root in binary64: NaN for a negative argument. -/
def Dbl.sqrt64 : Dbl → Dbl
  | .fin q => if q < 0 then .nan else if q = 0 then .fin 0 else .fin (sqrtQ binary64 q)
  | .inf b => if b then .nan else .inf false
  | .nan => .nan

/-- A binary64 `double`: the values of `Dbl`, with the arithmetic of `ieeeOps`. -/
def F64 : Type := Dbl

instance : DecidableEq F64 := inferInstanceAs (DecidableEq Dbl)

/-- IEEE 754 binary64 arithmetic, round to nearest, ties to even: every operation returns the
exact result rounded once, a rounded magnitude of `2^1024` or more is an infinity, results below
`2^-1022` are subnormal, `sqrt` is correctly rounded and `fabsf` converts to binary32 first.
Zero carries no sign (`x / 0` has the sign of `x`), and operations are not fused. -/
instance ieeeOps : DoubleOps F64 where
  add a b := Dbl.round binary64 (Dbl.add a b)
  sub a b := Dbl.round binary64 (Dbl.add a (Dbl.neg b))
  mul a b := Dbl.round binary64 (Dbl.mul a b)
  div a b := Dbl.round binary64 (Dbl.div a b)
  neg := Dbl.neg
  lit := roundTo binary64
  lt := Dbl.lt
  le := Dbl.le
  sqrt := Dbl.sqrt64
  fabs := Dbl.fabs
  fabsf := fun x => Dbl.fabs (Dbl.round binary32 x)
  pow4 := fun x => Dbl.round binary64 (Dbl.mul (Dbl.mul x x) (Dbl.mul x x))
  isinf := Dbl.isinf
  isnan := Dbl.isnan

/-- The rational `q` is zero or of a magnitude between `2^-510` and `2^511`: its square does
not overflow, also when added to another one, and a quarter of its square is not subnormal. -/
def Moderate (q : ℚ) : Prop := q = 0 ∨ (pow2 (-510) ≤ |q| ∧ |q| ≤ pow2 511)

instance (q : ℚ) : Decidable (Moderate q) := by
  unfold Moderate
  infer_instance

/-- The value is finite, and zero or of a magnitude between `2^-510` and `2^511`. -/
def Dbl.moderate : Dbl → Bool
  | .fin q => decide (Moderate q)
  | _ => false

/-- The values that the flow gate reads are moderate: the components of `spl + epl` of both
segments and of `x2 - x1` are finite, and zero or of a magnitude between `2^-510` and `2^511`,
and so is `Config::f2fFlowTh()`, which is a value of binary64. -/
def ModerateFlow (cfg : Config F64) (p c : LineFeature F64) : Prop :=
  (∀ i, Dbl.moderate (endSum p i) = true) ∧ (∀ i, Dbl.moderate (endSum c i) = true) ∧
    (∀ i, Dbl.moderate (flowVector p c i) = true) ∧ Dbl.moderate cfg.f2fFlowTh = true ∧
    Dbl.round binary64 cfg.f2fFlowTh = cfg.f2fFlowTh

instance (cfg : Config F64) (p c : LineFeature F64) : Decidable (ModerateFlow cfg p c) := by
  unfold ModerateFlow
  infer_instance

instance (n : Nat) : OfNat F64 n := ⟨Dbl.fin n⟩

/-- A line segment from pixel `s` to pixel `e` at depth 1 (disparity 1), with orientation
`angle` and no track yet, over binary64. -/
def ieeeLine (s e : Vec2 F64) (angle : F64) (idx : Int) : LineFeature F64 :=
  { spl := s, sdisp := 1, sP := ![s 0, s 1, 1], epl := e, edisp := 1, eP := ![e 0, e 1, 1],
    le := ![0, 1, 0], angle := angle, spl_obs := ![0, 0], epl_obs := ![0, 0],
    le_obs := ![0, 0, 0], inlier := false, idx := idx }

/-- The values of `demoConfig`, converted to binary64. -/
def ieeeConfig : Config F64 where
  hasPoints := true
  hasLines := true
  bestLRMatches := true
  lrInParallel := false
  minRatio12P := lit 0.1
  maxF2FDisp := lit 0.1
  descThL := lit 0.1
  maxF2FAngDiff := lit 0.2
  f2fFlowTh := 50
  minFeatures := 1
  useLevMarquardt := false
  maxIters := 1
  maxItersRef := 1
  maxOptimError := 100
  useUncertainty := false
  minErrorChange := lit 0.000001
  minError := lit 0.000001
  motionPrior := false
  lambdaLM := lit 0.01
  lambdaK := 5
  inlierK := 4
  homogTh := lit 0.0000001
  robustCost := false
  scalePointsLines := false
  sigmaPx := 1

/-- The configuration `ieeeConfig` with the flow threshold `2^512`. -/
def wideConfig : Config F64 := { ieeeConfig with f2fFlowTh := Dbl.fin (pow2 512) }

/-- A segment from `(0, 0)` to `(0, 2)`. -/
def nearLine : LineFeature F64 := ieeeLine ![0, 0] ![0, 2] 0 0

/-- The segment `nearLine` moved by `2^511` pixels along the x axis. -/
def farLine : LineFeature F64 :=
  ieeeLine ![Dbl.fin (pow2 511), 0] ![Dbl.fin (pow2 511), 2] 0 (-1)

/-- A segment from `(0.1, 33.3)` to `(60.7, 44.2)`. -/
def tiltedLine : LineFeature F64 := ieeeLine ![lit 0.1, lit 33.3] ![lit 60.7, lit 44.2] (lit 0.18) 0

/-- A segment from `(18.4, 0.3)` to `(78.9, 0.6)`. -/
def flatLine : LineFeature F64 := ieeeLine ![lit 18.4, lit 0.3] ![lit 78.9, lit 0.6] (lit 0.005) (-1)

/-- The rig of `exactEnv` over binary64: the same pinhole camera and the same formulas, each
operation rounded; the MAD of a list with a non-finite entry is NaN. -/
def ieeeEnv : Ext F64 where
  getWidth := 640
  getFx := 1
  getCx := 0
  getCy := 0
  getB := 1
  projection := fun P => ![P 0 / P 2, P 1 / P 2]
  projectionNH := fun P => ![P 0, P 1, P 2]
  lineDescriptorMAD := fun _ => (0, 0)
  angDiff := fun a b => Dbl.fabs (a - b)
  vector_stdv_mad := fun xs =>
    match finiteValues xs with
    | some qs => roundTo binary64 (exactMad qs)
    | none => Dbl.nan
  is_finite := fun T =>
    (List.finRange 4).all fun i => (List.finRange 4).all fun j =>
      !Dbl.isinf (T i j) && !Dbl.isnan (T i j)
  inverse_transformation := fun T =>
    ![![T 0 0, T 1 0, T 2 0, -(T 0 0 * T 0 3 + T 1 0 * T 1 3 + T 2 0 * T 2 3)],
      ![T 0 1, T 1 1, T 2 1, -(T 0 1 * T 0 3 + T 1 1 * T 1 3 + T 2 1 * T 2 3)],
      ![T 0 2, T 1 2, T 2 2, -(T 0 2 * T 0 3 + T 1 2 * T 1 3 + T 2 2 * T 2 3)],
      ![0, 0, 0, 1]]
  transformation_expmap := fun x =>
    ![![1, -x 5, x 4, x 0],
      ![x 5, 1, -x 3, x 1],
      ![-x 4, x 3, 1, x 2],
      ![0, 0, 0, 1]]
  ldltSolve := fun H g =>
    let det := H 0 0 * H 1 1 - H 0 1 * H 1 0
    ![(g 0 * H 1 1 - H 0 1 * g 1) / det, (H 0 0 * g 1 - g 0 * H 1 0) / det, 0, 0, 0, 0]
  inverse6 := fun _ => Mat6.zero
  inverse2 := fun m =>
    let det := m 0 0 * m 1 1 - m 0 1 * m 1 0
    ![![m 1 1 / det, -m 0 1 / det], ![-m 1 0 / det, m 0 0 / det]]
  eigenvalues := fun m i => m i i
  epsilon := Dbl.fin (1 / 4503599627370496)

/-- A frame without points. -/
def ieeeFrame (lns : List (LineFeature F64)) : StereoFrame F64 :=
  { stereo_pt := [], stereo_ls := lns, DT := Mat4.identity, Tfw := Mat4.identity,
    DT_cov := Mat6.zero, DT_cov_eig := Vec6.zero, err_norm := 0 }

/-- A handler with no point and one line segment in each frame: `tiltedLine`, seen as
`flatLine` in the current frame. -/
def lineHandler : Handler F64 where
  prev_frame := ieeeFrame [tiltedLine]
  curr_frame := some (ieeeFrame [flatLine])
  matched_pt := []
  matched_ls := []
  n_inliers := 0
  n_inliers_pt := 0
  n_inliers_ls := 0
  max_idx_pt := 0
  max_idx_ls := 1
  prior_inc := Vec6.zero
  prior_cov := Mat6.zero

/-- The matcher's answer for `lineHandler`: the two segments are each other's nearest
neighbour. -/
def lineMatches : KnnMatches F64 where
  pmatches_12 := []
  pmatches_21 := []
  lmatches_12 := [[⟨0, 0, 10⟩, ⟨0, 0, 20⟩]]
  lmatches_21 := [[⟨0, 0, 10⟩, ⟨0, 0, 20⟩]]

end Binary64
section DriftData

/-- The configuration `dblConfig` with `minFeatures = 0`. -/
def zeroFloor : Config Dbl := { dblConfig with minFeatures := 0 }

/-- The handler `stillHandler` facing a frame in which the first point is seen 6 pixels to the
right and the second 5 pixels down. -/
def driftHandler : Handler Dbl :=
  { stillHandler with
    curr_frame := some (dblFrame [dblPoint ![6, 0] ![6, 0, 1] (-1),
      dblPoint ![1, 5] ![1, 5, 1] (-1)]) }

/-- The values of `demoUninit`, over `Dbl`. -/
def dblUninit : PoseUninit Dbl where
  DT_ := Mat4.identity
  err := 0
  first := { H := Mat6.zero, DT_inc := Vec6.zero, err := 0 }
  second := { H := Mat6.zero, DT_inc := Vec6.zero, err := 0 }

end DriftData

/-! ## Theorems -/

theorem checkedInt_eq_some {x y : Int} (h : checkedInt x = some y) : y = x := by
  unfold checkedInt at h
  split at h
  · exact (Option.some.inj h).symm
  · exact absurd h (by simp)

section Frame

variable {D : Type}

theorem FlagsOnly.refl (s : Handler D) : FlagsOnly s s :=
  ⟨s.prev_frame.stereo_pt, s.prev_frame.stereo_ls, rfl⟩

theorem FlagsOnly.trans {a b c : Handler D} (h1 : FlagsOnly a b) (h2 : FlagsOnly b c) :
    FlagsOnly a c := by
  obtain ⟨p, l, rfl⟩ := h1
  obtain ⟨p', l', rfl⟩ := h2
  exact ⟨p', l', rfl⟩

theorem FlagsOnly.counters {a b : Handler D} (h : FlagsOnly a b) (ha : CountersAgree a) :
    CountersAgree b := by
  obtain ⟨p, l, rfl⟩ := h
  exact ha

end Frame

section Lemmas

variable {D : Type} [DoubleOps D]

theorem combineResiduals_flagsOnly {cfg : Config D} {env : Ext D} {s : Handler D} {p : PtAcc D}
    {l : LsAcc D} {r : Residual D} (h : combineResiduals cfg env s p l = some r) :
    r.handler = { s with prev_frame :=
      { s.prev_frame with stereo_pt := p.stereo_pt, stereo_ls := l.stereo_ls } } := by
  simp only [combineResiduals, Option.bind_eq_bind, Option.bind_eq_some, Option.pure_def] at h
  obtain ⟨N, -, h⟩ := h
  split at h <;> · cases h; rfl

theorem nonweighted_flagsOnly {cfg : Config D} {env : Ext D} {s : Handler D} {DT : Mat4 D}
    {r : Residual D} (h : optimizeFunctions_nonweighted cfg env s DT = some r) :
    FlagsOnly s r.handler := by
  simp only [optimizeFunctions_nonweighted, Option.bind_eq_bind, Option.bind_eq_some] at h
  obtain ⟨p, -, l, -, h⟩ := h
  exact ⟨_, _, combineResiduals_flagsOnly h⟩

theorem uncweighted_flagsOnly {cfg : Config D} {env : Ext D} {s : Handler D} {DT : Mat4 D}
    {r : Residual D} (h : optimizeFunctions_uncweighted cfg env s DT = some r) :
    FlagsOnly s r.handler := by
  simp only [optimizeFunctions_uncweighted, Option.bind_eq_bind, Option.bind_eq_some] at h
  obtain ⟨p, -, l, -, h⟩ := h
  exact ⟨_, _, combineResiduals_flagsOnly h⟩

theorem optimizeFunctions_flagsOnly {cfg : Config D} {env : Ext D} {s : Handler D} {DT : Mat4 D}
    {r : Residual D} (h : optimizeFunctions cfg env s DT = some r) :
    FlagsOnly s r.handler := by
  unfold optimizeFunctions at h
  split at h
  · exact uncweighted_flagsOnly h
  · exact nonweighted_flagsOnly h

theorem gnLoop_flagsOnly (cfg : Config D) (env : Ext D) (n : Nat) :
    ∀ (st st' : SolverState D), gnLoop cfg env n st = some st' →
      FlagsOnly st.handler st'.handler := by
  induction n with
  | zero =>
    intro st st' h
    simp only [gnLoop, Option.some.injEq] at h
    subst h
    exact FlagsOnly.refl _
  | succ n ih =>
    intro st st' h
    simp only [gnLoop, Option.bind_eq_bind, Option.bind_eq_some] at h
    obtain ⟨r, hr, h⟩ := h
    have hf := optimizeFunctions_flagsOnly hr
    split at h
    · simp only [Option.pure_def, Option.some.injEq] at h
      subst h
      exact hf
    · split at h
      · simp only [Option.pure_def, Option.some.injEq] at h
        subst h
        exact hf
      · exact hf.trans (ih _ _ h)

theorem lmLoop_flagsOnly (cfg : Config D) (env : Ext D) (n : Nat) :
    ∀ (st st' : SolverState D), lmLoop cfg env n st = some st' →
      FlagsOnly st.handler st'.handler := by
  induction n with
  | zero =>
    intro st st' h
    simp only [lmLoop, Option.some.injEq] at h
    subst h
    exact FlagsOnly.refl _
  | succ n ih =>
    intro st st' h
    simp only [lmLoop, Option.bind_eq_bind, Option.bind_eq_some] at h
    obtain ⟨r, hr, h⟩ := h
    have hf := optimizeFunctions_flagsOnly hr
    split at h
    · simp only [Option.pure_def, Option.some.injEq] at h
      subst h
      exact hf
    · split at h
      · simp only [Option.pure_def, Option.some.injEq] at h
        subst h
        exact hf
      · exact hf.trans (ih _ _ h)

theorem gaussNewton_flagsOnly {cfg : Config D} {env : Ext D} {u : SolverUninit D}
    {s : Handler D} {DT : Mat4 D} {n : Int} {r : SolverResult D}
    (h : gaussNewtonOptimization cfg env u s DT n = some r) : FlagsOnly s r.handler := by
  simp only [gaussNewtonOptimization, Option.bind_eq_bind, Option.bind_eq_some,
    Option.pure_def, Option.some.injEq] at h
  obtain ⟨st, hst, rfl⟩ := h
  exact gnLoop_flagsOnly cfg env _ _ _ hst

theorem levMarquardt_flagsOnly {cfg : Config D} {env : Ext D} {u : SolverUninit D}
    {s : Handler D} {DT : Mat4 D} {n : Int} {r : SolverResult D}
    (h : levMarquardtOptimization cfg env u s DT n = some r) : FlagsOnly s r.handler := by
  simp only [levMarquardtOptimization, Option.bind_eq_bind, Option.bind_eq_some,
    Option.pure_def, Option.some.injEq] at h
  obtain ⟨st, hst, rfl⟩ := h
  exact lmLoop_flagsOnly cfg env _ _ _ hst

theorem runSolver_flagsOnly {cfg : Config D} {env : Ext D} {u : SolverUninit D}
    {s : Handler D} {DT : Mat4 D} {n : Int} {r : SolverResult D}
    (h : runSolver cfg env u s DT n = some r) : FlagsOnly s r.handler := by
  unfold runSolver at h
  split at h
  · exact levMarquardt_flagsOnly h
  · exact gaussNewton_flagsOnly h

theorem filterPoints_counters (res_p : List D) (th : D) :
    ∀ (qs : List Nat) (iter : Nat) (s s' : Handler D),
      filterPoints res_p th qs iter s = some s' → CountersAgree s → CountersAgree s' := by
  intro qs
  induction qs with
  | nil =>
    intro iter s s' h hs
    simp only [filterPoints, Option.some.injEq] at h
    subst h
    exact hs
  | cons q qs ih =>
    intro iter s s' h hs
    simp only [filterPoints, Option.bind_eq_bind, Option.bind_eq_some] at h
    obtain ⟨r, -, h⟩ := h
    split at h
    · simp only [Option.bind_eq_some] at h
      obtain ⟨it, -, n, hn, np, hnp, h⟩ := h
      refine ih _ _ _ h ?_
      have h1 := checkedInt_eq_some hn
      have h2 := checkedInt_eq_some hnp
      simp only [CountersAgree] at hs ⊢
      omega
    · exact ih _ _ _ h hs

theorem filterLines_counters (res_l : List D) (th : D) :
    ∀ (qs : List Nat) (iter : Nat) (s s' : Handler D),
      filterLines res_l th qs iter s = some s' → CountersAgree s → CountersAgree s' := by
  intro qs
  induction qs with
  | nil =>
    intro iter s s' h hs
    simp only [filterLines, Option.some.injEq] at h
    subst h
    exact hs
  | cons q qs ih =>
    intro iter s s' h hs
    simp only [filterLines, Option.bind_eq_bind, Option.bind_eq_some] at h
    obtain ⟨r, -, h⟩ := h
    split at h
    · simp only [Option.bind_eq_some] at h
      obtain ⟨it, -, n, hn, np, hnp, h⟩ := h
      refine ih _ _ _ h ?_
      have h1 := checkedInt_eq_some hn
      have h2 := checkedInt_eq_some hnp
      simp only [CountersAgree] at hs ⊢
      omega
    · exact ih _ _ _ h hs

theorem removeOutliers_counters {cfg : Config D} {env : Ext D} {s s' : Handler D} {DT : Mat4 D}
    (h : removeOutliers cfg env s DT = some s') (hs : CountersAgree s) : CountersAgree s' := by
  simp only [removeOutliers, Option.bind_eq_bind, Option.bind_eq_some] at h
  obtain ⟨res_p, -, res_l, -, s1, h1, h2⟩ := h
  exact filterLines_counters _ _ _ _ _ _ h2 (filterPoints_counters _ _ _ _ _ _ h1 hs)

theorem f2fTracking_counters {cfg : Config D} {env : Ext D} {km : KnnMatches D} {s : Handler D}
    {r : TrackResult D} (h : f2fTracking cfg env km s = some r) : CountersAgree r.handler := by
  simp only [f2fTracking, Option.bind_eq_bind, Option.bind_eq_some, Option.pure_def,
    Option.some.injEq] at h
  obtain ⟨curr, -, pt, -, ls, -, np, hnp, nl, hnl, n, hn, rfl⟩ := h
  simp only [CountersAgree]
  exact checkedInt_eq_some hn


end Lemmas

section TrackLemmas

variable {D : Type} [DoubleOps D]

theorem getI_eq_some {α : Type} {l : List α} {i : Int} {a : α} (h : getI l i = some a) :
    0 ≤ i ∧ i.toNat < l.length ∧ l[i.toNat]? = some a := by
  unfold getI at h
  split at h
  · exact absurd h (by simp)
  · refine ⟨by omega, ?_, h⟩
    exact (List.getElem?_eq_some.mp h).1

/-- What one iteration of the point match loop does: either the accepting branch or the branch
that issues a fresh ID. -/
theorem pointMatchStep_cases {cfg : Config D} {env : Ext D} {pm21 : List (List (DMatch D))}
    {st st' : PtTrack D} {m : List (DMatch D)}
    (h : pointMatchStep cfg env pm21 st m = some st') :
    ∃ m0 c p, m[0]? = some m0 ∧ getI st.curr_pt m0.trainIdx = some c ∧
      getI st.prev_pt m0.queryIdx = some p ∧
      ((reverseBest cfg pm21 m0.queryIdx m0.trainIdx = some m0.queryIdx ∧
          st' = { st with
            prev_pt := setI st.prev_pt m0.queryIdx { p with pl_obs := c.pl, inlier := true }
            matched_pt := st.matched_pt ++ [m0.queryIdx.toNat]
            curr_pt := setI st.curr_pt m0.trainIdx { c with idx := p.idx }
            accepted := st.accepted ++ [(m0.queryIdx, m0.trainIdx)] }) ∨
        (checkedInt (st.max_idx_pt + 1) = some (st.max_idx_pt + 1) ∧
          st' = { st with
            curr_pt := setI st.curr_pt m0.trainIdx { c with idx := st.max_idx_pt }
            max_idx_pt := st.max_idx_pt + 1
            issued := st.issued ++ [st.max_idx_pt] })) := by
  simp only [pointMatchStep, Option.bind_eq_bind, Option.bind_eq_some] at h
  obtain ⟨m0, hm0, rl, hrl, m1, -, c, hc, p, hp, h⟩ := h
  refine ⟨m0, c, p, hm0, hc, hp, ?_⟩
  split at h
  · rename_i hcond
    simp only [Option.pure_def, Option.some.injEq] at h
    simp only [Bool.and_eq_true, beq_iff_eq] at hcond
    left
    refine ⟨?_, h.symm⟩
    rw [hrl, hcond.1.1.1]
  · simp only [Option.pure_def, Option.bind_eq_some, Option.some.injEq] at h
    obtain ⟨next, hnext, h⟩ := h
    have := checkedInt_eq_some hnext
    subst this
    right
    exact ⟨hnext, h.symm⟩

/-- What one iteration of the line match loop does. -/
theorem lineMatchStep_cases {cfg : Config D} {env : Ext D} {lm21 : List (List (DMatch D))}
    {th : D} {st st' : LsTrack D} {m : List (DMatch D)}
    (h : lineMatchStep cfg env lm21 th st m = some st') :
    ∃ m0 c p, m[0]? = some m0 ∧ getI st.curr_ls m0.trainIdx = some c ∧
      getI st.prev_ls m0.queryIdx = some p ∧
      ((reverseBest cfg lm21 m0.queryIdx m0.trainIdx = some m0.queryIdx ∧
          st' = { st with
            prev_ls := setI st.prev_ls m0.queryIdx
              { p with spl_obs := c.spl, epl_obs := c.epl, le_obs := c.le, inlier := true }
            matched_ls := st.matched_ls ++ [m0.queryIdx.toNat]
            curr_ls := setI st.curr_ls m0.trainIdx { c with idx := p.idx }
            accepted := st.accepted ++ [(m0.queryIdx, m0.trainIdx)] }) ∨
        (checkedInt (st.max_idx_ls + 1) = some (st.max_idx_ls + 1) ∧
          st' = { st with
            curr_ls := setI st.curr_ls m0.trainIdx { c with idx := st.max_idx_ls }
            max_idx_ls := st.max_idx_ls + 1
            issued := st.issued ++ [st.max_idx_ls] })) := by
  simp only [lineMatchStep, Option.bind_eq_bind, Option.bind_eq_some] at h
  obtain ⟨m0, hm0, rl, hrl, m1, -, p, hp, c, hc, h⟩ := h
  refine ⟨m0, c, p, hm0, hc, hp, ?_⟩
  split at h
  · rename_i hcond
    simp only [Option.pure_def, Option.some.injEq] at h
    simp only [Bool.and_eq_true, beq_iff_eq] at hcond
    left
    refine ⟨?_, h.symm⟩
    rw [hrl, hcond.1.1.1]
  · simp only [Option.pure_def, Option.bind_eq_some, Option.some.injEq] at h
    obtain ⟨next, hnext, h⟩ := h
    have := checkedInt_eq_some hnext
    subst this
    right
    exact ⟨hnext, h.symm⟩

/-- Invariants of the point match loop. -/
theorem pointMatchLoop_induct {cfg : Config D} {env : Ext D} {pm21 : List (List (DMatch D))}
    (P : PtTrack D → Prop) :
    ∀ (ms : List (List (DMatch D))),
      (∀ m ∈ ms, ∀ st st', pointMatchStep cfg env pm21 st m = some st' → P st → P st') →
      ∀ st st', pointMatchLoop cfg env pm21 ms st = some st' → P st → P st' := by
  intro ms
  induction ms with
  | nil =>
    intro _ st st' h hP
    simp only [pointMatchLoop, Option.some.injEq] at h
    exact h ▸ hP
  | cons m ms ih =>
    intro hstep st st' h hP
    simp only [pointMatchLoop, Option.bind_eq_bind, Option.bind_eq_some] at h
    obtain ⟨st1, h1, h2⟩ := h
    exact ih (fun m' hm' => hstep m' (List.mem_cons_of_mem _ hm')) st1 st' h2
      (hstep m (List.mem_cons_self _ _) st st1 h1 hP)

/-- Invariants of the line match loop. -/
theorem lineMatchLoop_induct {cfg : Config D} {env : Ext D} {lm21 : List (List (DMatch D))}
    {th : D} (P : LsTrack D → Prop) :
    ∀ (ms : List (List (DMatch D))),
      (∀ m ∈ ms, ∀ st st', lineMatchStep cfg env lm21 th st m = some st' → P st → P st') →
      ∀ st st', lineMatchLoop cfg env lm21 th ms st = some st' → P st → P st' := by
  intro ms
  induction ms with
  | nil =>
    intro _ st st' h hP
    simp only [lineMatchLoop, Option.some.injEq] at h
    exact h ▸ hP
  | cons m ms ih =>
    intro hstep st st' h hP
    simp only [lineMatchLoop, Option.bind_eq_bind, Option.bind_eq_some] at h
    obtain ⟨st1, h1, h2⟩ := h
    exact ih (fun m' hm' => hstep m' (List.mem_cons_of_mem _ hm')) st1 st' h2
      (hstep m (List.mem_cons_self _ _) st st1 h1 hP)

end TrackLemmas

section FlagLemmas

variable {D : Type} [DoubleOps D]

theorem ptFlag_setI {l : List (PointFeature D)} {i : Int} {p x : PointFeature D}
    (h : getI l i = some p) (q : Nat) :
    ptFlag (setI l i x) q = if q = i.toNat then x.inlier else ptFlag l q := by
  obtain ⟨-, hlt, -⟩ := getI_eq_some h
  unfold ptFlag setI
  rw [List.getElem?_set]
  by_cases hq : i.toNat = q
  · subst hq
    simp [hlt]
  · have : ¬ q = i.toNat := fun h => hq h.symm
    simp [hq, this]

theorem lsFlag_setI {l : List (LineFeature D)} {i : Int} {p x : LineFeature D}
    (h : getI l i = some p) (q : Nat) :
    lsFlag (setI l i x) q = if q = i.toNat then x.inlier else lsFlag l q := by
  obtain ⟨-, hlt, -⟩ := getI_eq_some h
  unfold lsFlag setI
  rw [List.getElem?_set]
  by_cases hq : i.toNat = q
  · subst hq
    simp [hlt]
  · have : ¬ q = i.toNat := fun h => hq h.symm
    simp [hq, this]

theorem pointMatchStep_flagged {cfg : Config D} {env : Ext D} {pm21 : List (List (DMatch D))}
    {st st' : PtTrack D} {m : List (DMatch D)}
    (h : pointMatchStep cfg env pm21 st m = some st')
    (hP : ∀ q ∈ st.matched_pt, ptFlag st.prev_pt q = true) :
    ∀ q ∈ st'.matched_pt, ptFlag st'.prev_pt q = true := by
  obtain ⟨m0, c, p, -, -, hp, h | h⟩ := pointMatchStep_cases h
  · obtain ⟨-, rfl⟩ := h
    intro q hq
    simp only [List.mem_append, List.mem_singleton] at hq
    rw [ptFlag_setI hp]
    split
    · rfl
    · rcases hq with hq | hq
      · exact hP q hq
      · contradiction
  · obtain ⟨-, rfl⟩ := h
    exact hP

theorem lineMatchStep_flagged {cfg : Config D} {env : Ext D} {lm21 : List (List (DMatch D))}
    {th : D} {st st' : LsTrack D} {m : List (DMatch D)}
    (h : lineMatchStep cfg env lm21 th st m = some st')
    (hP : ∀ q ∈ st.matched_ls, lsFlag st.prev_ls q = true) :
    ∀ q ∈ st'.matched_ls, lsFlag st'.prev_ls q = true := by
  obtain ⟨m0, c, p, -, -, hp, h | h⟩ := lineMatchStep_cases h
  · obtain ⟨-, rfl⟩ := h
    intro q hq
    simp only [List.mem_append, List.mem_singleton] at hq
    rw [lsFlag_setI hp]
    split
    · rfl
    · rcases hq with hq | hq
      · exact hP q hq
      · contradiction
  · obtain ⟨-, rfl⟩ := h
    exact hP

theorem pointHalf_flagged {cfg : Config D} {env : Ext D} {km : KnnMatches D} {s : Handler D}
    {curr : StereoFrame D} {pt : PtTrack D} (h : pointHalf cfg env km s curr = some pt) :
    ∀ q ∈ pt.matched_pt, ptFlag pt.prev_pt q = true := by
  unfold pointHalf at h
  simp only at h
  split at h
  · simp only [pointBlock, Option.bind_eq_bind, Option.bind_eq_some, Option.pure_def,
      Option.some.injEq] at h
    obtain ⟨pm12, -, pm21, -, st1, hloop, rest, -, rfl⟩ := h
    have := pointMatchLoop_induct (fun st => ∀ q ∈ st.matched_pt, ptFlag st.prev_pt q = true) _
      (fun _ _ _ _ hs hP => pointMatchStep_flagged hs hP) _ _ hloop
      (by intro q hq; simp at hq)
    exact this
  · simp only [Option.some.injEq] at h
    subst h
    intro q hq
    simp at hq

theorem lineHalf_flagged {cfg : Config D} {env : Ext D} {km : KnnMatches D} {s : Handler D}
    {curr : StereoFrame D} {ls : LsTrack D} (h : lineHalf cfg env km s curr = some ls) :
    ∀ q ∈ ls.matched_ls, lsFlag ls.prev_ls q = true := by
  unfold lineHalf at h
  simp only at h
  split at h
  · simp only [lineBlock, Option.bind_eq_bind, Option.bind_eq_some, Option.pure_def,
      Option.some.injEq] at h
    obtain ⟨lm12, -, lm21, -, st1, hloop, rest, -, rfl⟩ := h
    have := lineMatchLoop_induct (fun st => ∀ q ∈ st.matched_ls, lsFlag st.prev_ls q = true) _
      (fun _ _ _ _ hs hP => lineMatchStep_flagged hs hP) _ _ hloop
      (by intro q hq; simp at hq)
    exact this
  · simp only [Option.some.injEq] at h
    subst h
    intro q hq
    simp at hq

/-- What `f2fTracking` returns, in terms of its two halves. -/
theorem f2fTracking_eq_some {cfg : Config D} {env : Ext D} {km : KnnMatches D} {s : Handler D}
    {r : TrackResult D} (h : f2fTracking cfg env km s = some r) :
    ∃ curr pt ls, s.curr_frame = some curr ∧ pointHalf cfg env km s curr = some pt ∧
      lineHalf cfg env km s curr = some ls ∧
      r = { handler :=
              { s with
                prev_frame := { s.prev_frame with stereo_pt := pt.prev_pt, stereo_ls := ls.prev_ls }
                curr_frame := some { curr with stereo_pt := pt.curr_pt, stereo_ls := ls.curr_ls }
                matched_pt := pt.matched_pt
                matched_ls := ls.matched_ls
                n_inliers := (pt.matched_pt.length : Int) + (ls.matched_ls.length : Int)
                n_inliers_pt := pt.matched_pt.length
                n_inliers_ls := ls.matched_ls.length
                max_idx_pt := pt.max_idx_pt
                max_idx_ls := ls.max_idx_ls }
            accepted_pt := pt.accepted
            issued_pt := pt.issued
            accepted_ls := ls.accepted
            issued_ls := ls.issued } := by
  simp only [f2fTracking, Option.bind_eq_bind, Option.bind_eq_some, Option.pure_def,
    Option.some.injEq] at h
  obtain ⟨curr, hc, pt, hpt, ls, hls, np, hnp, nl, hnl, n, hn, rfl⟩ := h
  have h1 := checkedInt_eq_some hnp
  have h2 := checkedInt_eq_some hnl
  have h3 := checkedInt_eq_some hn
  subst h1 h2 h3
  exact ⟨curr, pt, ls, hc, hpt, hls, rfl⟩

theorem f2fTracking_flagged {cfg : Config D} {env : Ext D} {km : KnnMatches D} {s : Handler D}
    {r : TrackResult D} (h : f2fTracking cfg env km s = some r) :
    r.handler.n_inliers = (flaggedCount r.handler : Int) := by
  obtain ⟨curr, pt, ls, -, hpt, hls, rfl⟩ := f2fTracking_eq_some h
  simp only [flaggedCount]
  rw [List.countP_eq_length.mpr (pointHalf_flagged hpt),
    List.countP_eq_length.mpr (lineHalf_flagged hls)]
  push_cast
  rfl

theorem forMatched_induct {α : Type} {step : α → Nat → Option α} (P : α → Prop) :
    ∀ (qs : List Nat), (∀ q ∈ qs, ∀ a a', step a q = some a' → P a → P a') →
      ∀ a a', forMatched step qs a = some a' → P a → P a' := by
  intro qs
  induction qs with
  | nil =>
    intro _ a a' h hP
    simp only [forMatched, Option.some.injEq] at h
    exact h ▸ hP
  | cons q qs ih =>
    intro hstep a a' h hP
    simp only [forMatched, Option.bind_eq_bind, Option.bind_eq_some] at h
    obtain ⟨a1, h1, h2⟩ := h
    exact ih (fun q' hq' => hstep q' (List.mem_cons_of_mem _ hq')) a1 a' h2
      (hstep q (List.mem_cons_self _ _) a a1 h1 hP)

theorem ptFlag_set_false {l : List (PointFeature D)} {q : Nat} {x : PointFeature D}
    (hx : x.inlier = false) (q' : Nat) (h : ptFlag (l.set q x) q' = true) :
    ptFlag l q' = true := by
  unfold ptFlag at h ⊢
  rw [List.getElem?_set] at h
  by_cases hq : q = q'
  · subst hq
    by_cases hlt : q < l.length
    · simp [hlt, hx] at h
    · simp [hlt] at h
  · simpa [hq] using h

theorem lsFlag_set_false {l : List (LineFeature D)} {q : Nat} {x : LineFeature D}
    (hx : x.inlier = false) (q' : Nat) (h : lsFlag (l.set q x) q' = true) :
    lsFlag l q' = true := by
  unfold lsFlag at h ⊢
  rw [List.getElem?_set] at h
  by_cases hq : q = q'
  · subst hq
    by_cases hlt : q < l.length
    · simp [hlt, hx] at h
    · simp [hlt] at h
  · simpa [hq] using h

/-- A point step of a residual pass leaves the features alone or clears the flag of `q`. -/
theorem nwPointStep_features {cfg : Config D} {env : Ext D} {DT : Mat4 D} {acc acc' : PtAcc D}
    {q : Nat} (h : nwPointStep cfg env DT acc q = some acc') :
    acc'.stereo_pt = acc.stereo_pt ∨
      ∃ it : PointFeature D, acc'.stereo_pt = acc.stereo_pt.set q { it with inlier := false } := by
  simp only [nwPointStep, Option.bind_eq_bind, Option.bind_eq_some] at h
  obtain ⟨it, -, h⟩ := h
  split at h
  · split at h
    · simp only [Option.pure_def, Option.bind_eq_some, Option.some.injEq] at h
      obtain ⟨N, -, rfl⟩ := h
      exact Or.inl rfl
    · simp only [Option.pure_def, Option.some.injEq] at h
      subst h
      exact Or.inr ⟨it, rfl⟩
  · simp only [Option.pure_def, Option.some.injEq] at h
    subst h
    exact Or.inl rfl

theorem uncPointStep_features {cfg : Config D} {env : Ext D} {DT : Mat4 D} {acc acc' : PtAcc D}
    {q : Nat} (h : uncPointStep cfg env DT acc q = some acc') :
    acc'.stereo_pt = acc.stereo_pt ∨
      ∃ it : PointFeature D, acc'.stereo_pt = acc.stereo_pt.set q { it with inlier := false } := by
  simp only [uncPointStep, Option.bind_eq_bind, Option.bind_eq_some] at h
  obtain ⟨it, -, h⟩ := h
  split at h
  · split at h
    · simp only [Option.pure_def, Option.bind_eq_some, Option.some.injEq] at h
      obtain ⟨N, -, rfl⟩ := h
      exact Or.inl rfl
    · simp only [Option.pure_def, Option.some.injEq] at h
      subst h
      exact Or.inr ⟨it, rfl⟩
  · simp only [Option.pure_def, Option.some.injEq] at h
    subst h
    exact Or.inl rfl

theorem nwLineStep_features {cfg : Config D} {env : Ext D} {DT : Mat4 D} {acc acc' : LsAcc D}
    {q : Nat} (h : nwLineStep cfg env DT acc q = some acc') :
    acc'.stereo_ls = acc.stereo_ls ∨
      ∃ it : LineFeature D, acc'.stereo_ls = acc.stereo_ls.set q { it with inlier := false } := by
  simp only [nwLineStep, Option.bind_eq_bind, Option.bind_eq_some] at h
  obtain ⟨it, -, h⟩ := h
  split at h
  · split at h
    · simp only [Option.pure_def, Option.bind_eq_some, Option.some.injEq] at h
      obtain ⟨N, -, rfl⟩ := h
      exact Or.inl rfl
    · simp only [Option.pure_def, Option.some.injEq] at h
      subst h
      exact Or.inr ⟨it, rfl⟩
  · simp only [Option.pure_def, Option.some.injEq] at h
    subst h
    exact Or.inl rfl

theorem uncLineStep_features {cfg : Config D} {env : Ext D} {DT : Mat4 D} {acc acc' : LsAcc D}
    {q : Nat} (h : uncLineStep cfg env DT acc q = some acc') :
    acc'.stereo_ls = acc.stereo_ls ∨
      ∃ it : LineFeature D, acc'.stereo_ls = acc.stereo_ls.set q { it with inlier := false } := by
  simp only [uncLineStep, Option.bind_eq_bind, Option.bind_eq_some] at h
  obtain ⟨it, -, h⟩ := h
  split at h
  · split at h
    · split at h
      · simp only [Option.pure_def, Option.bind_eq_some, Option.some.injEq] at h
        obtain ⟨N, -, rfl⟩ := h
        exact Or.inl rfl
      · simp only [Option.pure_def, Option.some.injEq] at h
        subst h
        exact Or.inr ⟨it, rfl⟩
    · simp only [Option.pure_def, Option.some.injEq] at h
      subst h
      exact Or.inr ⟨it, rfl⟩
  · simp only [Option.pure_def, Option.some.injEq] at h
    subst h
    exact Or.inl rfl

theorem outlierResP_eq {env : Ext D} {DT : Mat4 D} {pts : List (PointFeature D)} :
    ∀ {qs : List Nat} {res : List D}, outlierResP env DT pts qs = some res →
      res = qs.map (ptResidualNorm env DT pts) := by
  intro qs
  induction qs with
  | nil =>
    intro res h
    simp only [outlierResP, Option.some.injEq] at h
    simp [← h]
  | cons q qs ih =>
    intro res h
    simp only [outlierResP, Option.bind_eq_bind, Option.bind_eq_some, Option.pure_def,
      Option.some.injEq] at h
    obtain ⟨it, hit, rest, hrest, rfl⟩ := h
    simp only [List.map_cons, ptResidualNorm, hit, ← ih hrest]

theorem outlierResL_eq {env : Ext D} {DT : Mat4 D} {lns : List (LineFeature D)} :
    ∀ {qs : List Nat} {res : List D}, outlierResL env DT lns qs = some res →
      res = qs.map (lsResidualNorm env DT lns) := by
  intro qs
  induction qs with
  | nil =>
    intro res h
    simp only [outlierResL, Option.some.injEq] at h
    simp [← h]
  | cons q qs ih =>
    intro res h
    simp only [outlierResL, Option.bind_eq_bind, Option.bind_eq_some, Option.pure_def,
      Option.some.injEq] at h
    obtain ⟨it, hit, rest, hrest, rfl⟩ := h
    simp only [List.map_cons, lsResidualNorm, hit, ← ih hrest]

theorem drop_eq_cons_getElem? {α : Type} {l : List α} {n : Nat} {a : α} {t : List α}
    (h : l.drop n = a :: t) : l[n]? = some a ∧ l.drop (n + 1) = t := by
  constructor
  · have : (l.drop n)[0]? = some a := by rw [h]; simp
    rw [List.getElem?_drop] at this
    simpa using this
  · have : (l.drop n).drop 1 = t := by rw [h]; rfl
    simpa [List.drop_drop, Nat.add_comm] using this

theorem ptFlag_set_false_iff {l : List (PointFeature D)} {q : Nat} {it x : PointFeature D}
    (hit : l[q]? = some it) (hx : x.inlier = false) (q' : Nat) :
    ptFlag (l.set q x) q' = true ↔ ptFlag l q' = true ∧ q' ≠ q := by
  have hlt : q < l.length := (List.getElem?_eq_some.mp hit).1
  unfold ptFlag
  rw [List.getElem?_set]
  by_cases hq : q = q'
  · subst hq
    simp [hlt, hx]
  · have : q' ≠ q := fun h => hq h.symm
    simp [hq, this]

theorem lsFlag_set_false_iff {l : List (LineFeature D)} {q : Nat} {it x : LineFeature D}
    (hit : l[q]? = some it) (hx : x.inlier = false) (q' : Nat) :
    lsFlag (l.set q x) q' = true ↔ lsFlag l q' = true ∧ q' ≠ q := by
  have hlt : q < l.length := (List.getElem?_eq_some.mp hit).1
  unfold lsFlag
  rw [List.getElem?_set]
  by_cases hq : q = q'
  · subst hq
    simp [hlt, hx]
  · have : q' ≠ q := fun h => hq h.symm
    simp [hq, this]

/-- The point filter loop: counters drop once per entry above the threshold, and exactly the
flags of those entries are cleared. -/
theorem filterPoints_spec {res : List D} {th : D} (G : Nat → D) :
    ∀ (qs : List Nat) (iter : Nat) (s s' : Handler D),
      filterPoints res th qs iter s = some s' → res.drop iter = qs.map G →
      s'.n_inliers = s.n_inliers - (qs.countP (fun q => dgt (G q) th) : Nat) ∧
      s'.n_inliers_pt = s.n_inliers_pt - (qs.countP (fun q => dgt (G q) th) : Nat) ∧
      (∃ pts, s' = { s with
          prev_frame := { s.prev_frame with stereo_pt := pts }
          n_inliers := s'.n_inliers
          n_inliers_pt := s'.n_inliers_pt }) ∧
      (∀ q', ptFlag s'.prev_frame.stereo_pt q' = true ↔
        ptFlag s.prev_frame.stereo_pt q' = true ∧ ¬ (q' ∈ qs ∧ dgt (G q') th = true)) := by
  intro qs
  induction qs with
  | nil =>
    intro iter s s' h _
    simp only [filterPoints, Option.some.injEq] at h
    subst h
    refine ⟨by simp, by simp, ⟨s.prev_frame.stereo_pt, rfl⟩, by simp⟩
  | cons q qs ih =>
    intro iter s s' h hres
    rw [List.map_cons] at hres
    obtain ⟨hget, hdrop⟩ := drop_eq_cons_getElem? hres
    simp only [filterPoints, Option.bind_eq_bind, Option.bind_eq_some] at h
    obtain ⟨r, hr, h⟩ := h
    rw [hget] at hr
    cases hr
    split at h
    · rename_i hE
      simp only [Option.bind_eq_some] at h
      obtain ⟨it, hit, n, hn, np, hnp, h⟩ := h
      have h1 := checkedInt_eq_some hn
      have h2 := checkedInt_eq_some hnp
      subst h1 h2
      obtain ⟨e1, e2, ⟨pts, e3⟩, e4⟩ := ih _ _ _ h hdrop
      simp only at e1 e2 e4
      refine ⟨?_, ?_, ⟨pts, ?_⟩, ?_⟩
      · rw [e1, List.countP_cons]; simp [hE]; ring
      · rw [e2, List.countP_cons]; simp [hE]; ring
      · rw [e3]
      · intro q'
        rw [e4, ptFlag_set_false_iff hit rfl]
        simp only [List.mem_cons]
        constructor
        · rintro ⟨⟨hf, hne⟩, hno⟩
          refine ⟨hf, ?_⟩
          rintro ⟨hq | hq, hE'⟩
          · exact hne hq
          · exact hno ⟨hq, hE'⟩
        · rintro ⟨hf, hno⟩
          refine ⟨⟨hf, ?_⟩, fun ⟨hq, hE'⟩ => hno ⟨Or.inr hq, hE'⟩⟩
          rintro rfl
          exact hno ⟨Or.inl rfl, hE⟩
    · rename_i hE
      obtain ⟨e1, e2, e3, e4⟩ := ih _ _ _ h hdrop
      refine ⟨?_, ?_, e3, ?_⟩
      · rw [e1, List.countP_cons]; simp [hE]
      · rw [e2, List.countP_cons]; simp [hE]
      · intro q'
        rw [e4]
        simp only [List.mem_cons]
        constructor
        · rintro ⟨hf, hno⟩
          refine ⟨hf, ?_⟩
          rintro ⟨hq | hq, hE'⟩
          · subst hq
            exact hE hE'
          · exact hno ⟨hq, hE'⟩
        · rintro ⟨hf, hno⟩
          exact ⟨hf, fun ⟨hq, hE'⟩ => hno ⟨Or.inr hq, hE'⟩⟩

/-- The line filter loop: counters drop once per entry above the threshold, and exactly the
flags of those entries are cleared. -/
theorem filterLines_spec {res : List D} {th : D} (G : Nat → D) :
    ∀ (qs : List Nat) (iter : Nat) (s s' : Handler D),
      filterLines res th qs iter s = some s' → res.drop iter = qs.map G →
      s'.n_inliers = s.n_inliers - (qs.countP (fun q => dgt (G q) th) : Nat) ∧
      s'.n_inliers_ls = s.n_inliers_ls - (qs.countP (fun q => dgt (G q) th) : Nat) ∧
      (∃ lns, s' = { s with
          prev_frame := { s.prev_frame with stereo_ls := lns }
          n_inliers := s'.n_inliers
          n_inliers_ls := s'.n_inliers_ls }) ∧
      (∀ q', lsFlag s'.prev_frame.stereo_ls q' = true ↔
        lsFlag s.prev_frame.stereo_ls q' = true ∧ ¬ (q' ∈ qs ∧ dgt (G q') th = true)) := by
  intro qs
  induction qs with
  | nil =>
    intro iter s s' h _
    simp only [filterLines, Option.some.injEq] at h
    subst h
    refine ⟨by simp, by simp, ⟨s.prev_frame.stereo_ls, rfl⟩, by simp⟩
  | cons q qs ih =>
    intro iter s s' h hres
    rw [List.map_cons] at hres
    obtain ⟨hget, hdrop⟩ := drop_eq_cons_getElem? hres
    simp only [filterLines, Option.bind_eq_bind, Option.bind_eq_some] at h
    obtain ⟨r, hr, h⟩ := h
    rw [hget] at hr
    cases hr
    split at h
    · rename_i hE
      simp only [Option.bind_eq_some] at h
      obtain ⟨it, hit, n, hn, np, hnp, h⟩ := h
      have h1 := checkedInt_eq_some hn
      have h2 := checkedInt_eq_some hnp
      subst h1 h2
      obtain ⟨e1, e2, ⟨lns, e3⟩, e4⟩ := ih _ _ _ h hdrop
      simp only at e1 e2 e4
      refine ⟨?_, ?_, ⟨lns, ?_⟩, ?_⟩
      · rw [e1, List.countP_cons]; simp [hE]; ring
      · rw [e2, List.countP_cons]; simp [hE]; ring
      · rw [e3]
      · intro q'
        rw [e4, lsFlag_set_false_iff hit rfl]
        simp only [List.mem_cons]
        constructor
        · rintro ⟨⟨hf, hne⟩, hno⟩
          refine ⟨hf, ?_⟩
          rintro ⟨hq | hq, hE'⟩
          · exact hne hq
          · exact hno ⟨hq, hE'⟩
        · rintro ⟨hf, hno⟩
          refine ⟨⟨hf, ?_⟩, fun ⟨hq, hE'⟩ => hno ⟨Or.inr hq, hE'⟩⟩
          rintro rfl
          exact hno ⟨Or.inl rfl, hE⟩
    · rename_i hE
      obtain ⟨e1, e2, e3, e4⟩ := ih _ _ _ h hdrop
      refine ⟨?_, ?_, e3, ?_⟩
      · rw [e1, List.countP_cons]; simp [hE]
      · rw [e2, List.countP_cons]; simp [hE]
      · intro q'
        rw [e4]
        simp only [List.mem_cons]
        constructor
        · rintro ⟨hf, hno⟩
          refine ⟨hf, ?_⟩
          rintro ⟨hq | hq, hE'⟩
          · subst hq
            exact hE hE'
          · exact hno ⟨hq, hE'⟩
        · rintro ⟨hf, hno⟩
          exact ⟨hf, fun ⟨hq, hE'⟩ => hno ⟨Or.inr hq, hE'⟩⟩

/-- What `removeOutliers` does: each counter drops once per entry above its threshold, exactly
the flags of those entries are cleared, and nothing else changes. -/
theorem removeOutliers_spec {cfg : Config D} {env : Ext D} {s s' : Handler D} {DT : Mat4 D}
    (h : removeOutliers cfg env s DT = some s') :
    s'.n_inliers = s.n_inliers - (s.matched_pt.countP (ptExceeds cfg env s DT) : Nat)
      - (s.matched_ls.countP (lsExceeds cfg env s DT) : Nat) ∧
    s'.n_inliers_pt = s.n_inliers_pt - (s.matched_pt.countP (ptExceeds cfg env s DT) : Nat) ∧
    s'.n_inliers_ls = s.n_inliers_ls - (s.matched_ls.countP (lsExceeds cfg env s DT) : Nat) ∧
    (∃ pts lns, s' = { s with
        prev_frame := { s.prev_frame with stereo_pt := pts, stereo_ls := lns }
        n_inliers := s'.n_inliers
        n_inliers_pt := s'.n_inliers_pt
        n_inliers_ls := s'.n_inliers_ls }) ∧
    (∀ q, ptFlag s'.prev_frame.stereo_pt q = true ↔
      ptFlag s.prev_frame.stereo_pt q = true ∧
        ¬ (q ∈ s.matched_pt ∧ ptExceeds cfg env s DT q = true)) ∧
    (∀ q, lsFlag s'.prev_frame.stereo_ls q = true ↔
      lsFlag s.prev_frame.stereo_ls q = true ∧
        ¬ (q ∈ s.matched_ls ∧ lsExceeds cfg env s DT q = true)) := by
  simp only [removeOutliers, Option.bind_eq_bind, Option.bind_eq_some] at h
  obtain ⟨res_p, hp, res_l, hl, s1, h1, h2⟩ := h
  have ep := outlierResP_eq hp
  have el := outlierResL_eq hl
  obtain ⟨a1, a2, ⟨pts, a3⟩, a4⟩ := filterPoints_spec
    (ptResidualNorm env DT s.prev_frame.stereo_pt) _ _ _ _ h1 (by simpa using ep)
  have hm : s1.matched_ls = s.matched_ls := by rw [a3]
  have hl1 : s1.prev_frame.stereo_ls = s.prev_frame.stereo_ls := by rw [a3]
  have hnl : s1.n_inliers_ls = s.n_inliers_ls := by rw [a3]
  rw [hm] at h2
  obtain ⟨b1, b2, ⟨lns, b3⟩, b4⟩ := filterLines_spec
    (lsResidualNorm env DT s.prev_frame.stereo_ls) _ _ _ _ h2 (by simpa using el)
  have hpt : s'.prev_frame.stereo_pt = s1.prev_frame.stereo_pt := by rw [b3]
  have hnp : s'.n_inliers_pt = s1.n_inliers_pt := by rw [b3]
  subst ep el
  refine ⟨?_, ?_, ?_, ⟨s'.prev_frame.stereo_pt, lns, ?_⟩, ?_, ?_⟩
  · rw [b1, a1]; rfl
  · rw [hnp, a2]; rfl
  · rw [b2, hnl]; rfl
  · rw [b3, a3]
  · intro q
    rw [hpt, a4]
    rfl
  · intro q
    rw [b4, hl1]
    rfl

theorem forMatched_pt_lowered {step : PtAcc D → Nat → Option (PtAcc D)}
    (hstep : ∀ acc q acc', step acc q = some acc' →
      acc'.stereo_pt = acc.stereo_pt ∨
        ∃ it : PointFeature D, acc'.stereo_pt = acc.stereo_pt.set q { it with inlier := false })
    {qs : List Nat} {acc acc' : PtAcc D} (h : forMatched step qs acc = some acc') :
    ∀ q, ptFlag acc'.stereo_pt q = true → ptFlag acc.stereo_pt q = true := by
  refine forMatched_induct
    (fun a => ∀ q, ptFlag a.stereo_pt q = true → ptFlag acc.stereo_pt q = true) qs ?_ _ _ h
    (fun _ hq => hq)
  intro q _ a a' hs hP q' hq'
  rcases hstep a q a' hs with e | ⟨it, e⟩
  · rw [e] at hq'
    exact hP q' hq'
  · rw [e] at hq'
    exact hP q' (ptFlag_set_false rfl q' hq')

theorem forMatched_ls_lowered {step : LsAcc D → Nat → Option (LsAcc D)}
    (hstep : ∀ acc q acc', step acc q = some acc' →
      acc'.stereo_ls = acc.stereo_ls ∨
        ∃ it : LineFeature D, acc'.stereo_ls = acc.stereo_ls.set q { it with inlier := false })
    {qs : List Nat} {acc acc' : LsAcc D} (h : forMatched step qs acc = some acc') :
    ∀ q, lsFlag acc'.stereo_ls q = true → lsFlag acc.stereo_ls q = true := by
  refine forMatched_induct
    (fun a => ∀ q, lsFlag a.stereo_ls q = true → lsFlag acc.stereo_ls q = true) qs ?_ _ _ h
    (fun _ hq => hq)
  intro q _ a a' hs hP q' hq'
  rcases hstep a q a' hs with e | ⟨it, e⟩
  · rw [e] at hq'
    exact hP q' hq'
  · rw [e] at hq'
    exact hP q' (lsFlag_set_false rfl q' hq')

theorem nonweighted_lowered {cfg : Config D} {env : Ext D} {s : Handler D} {DT : Mat4 D}
    {r : Residual D} (h : optimizeFunctions_nonweighted cfg env s DT = some r) :
    FlagsLowered s r.handler := by
  simp only [optimizeFunctions_nonweighted, Option.bind_eq_bind, Option.bind_eq_some] at h
  obtain ⟨p, hp, l, hl, h⟩ := h
  rw [combineResiduals_flagsOnly h]
  exact ⟨forMatched_pt_lowered (fun _ _ _ hs => nwPointStep_features hs) hp,
    forMatched_ls_lowered (fun _ _ _ hs => nwLineStep_features hs) hl⟩

theorem uncweighted_lowered {cfg : Config D} {env : Ext D} {s : Handler D} {DT : Mat4 D}
    {r : Residual D} (h : optimizeFunctions_uncweighted cfg env s DT = some r) :
    FlagsLowered s r.handler := by
  simp only [optimizeFunctions_uncweighted, Option.bind_eq_bind, Option.bind_eq_some] at h
  obtain ⟨p, hp, l, hl, h⟩ := h
  rw [combineResiduals_flagsOnly h]
  exact ⟨forMatched_pt_lowered (fun _ _ _ hs => uncPointStep_features hs) hp,
    forMatched_ls_lowered (fun _ _ _ hs => uncLineStep_features hs) hl⟩

theorem flaggedCount_le {s s' : Handler D} (hf : FlagsOnly s s') (hl : FlagsLowered s s') :
    flaggedCount s' ≤ flaggedCount s := by
  obtain ⟨pts, lns, rfl⟩ := hf
  unfold flaggedCount
  exact Nat.add_le_add (List.countP_mono_left (fun q _ hq => hl.1 q hq))
    (List.countP_mono_left (fun q _ hq => hl.2 q hq))

theorem FlagsOnly.n_inliers {s s' : Handler D} (hf : FlagsOnly s s') :
    s'.n_inliers = s.n_inliers := by
  obtain ⟨pts, lns, rfl⟩ := hf
  rfl

/-- After `removeOutliers`, started where every entry is flagged and `n_inliers` counts them,
`n_inliers` again counts the flagged entries. -/
theorem removeOutliers_flagged {cfg : Config D} {env : Ext D} {s s' : Handler D} {DT : Mat4 D}
    (h : removeOutliers cfg env s DT = some s')
    (hp : ∀ q ∈ s.matched_pt, ptFlag s.prev_frame.stereo_pt q = true)
    (hl : ∀ q ∈ s.matched_ls, lsFlag s.prev_frame.stereo_ls q = true)
    (hn : s.n_inliers = (flaggedCount s : Int)) :
    s'.n_inliers = (flaggedCount s' : Int) := by
  obtain ⟨e1, -, -, ⟨pts, lns, e4⟩, e5, e6⟩ := removeOutliers_spec h
  have hmp : s'.matched_pt = s.matched_pt := by rw [e4]
  have hml : s'.matched_ls = s.matched_ls := by rw [e4]
  have c1 : s'.matched_pt.countP (ptFlag s'.prev_frame.stereo_pt)
      = s.matched_pt.countP (fun q => !ptExceeds cfg env s DT q) := by
    rw [hmp]
    apply List.countP_congr
    intro q hq
    rw [e5]
    simp [hp q hq, hq]
  have c2 : s'.matched_ls.countP (lsFlag s'.prev_frame.stereo_ls)
      = s.matched_ls.countP (fun q => !lsExceeds cfg env s DT q) := by
    rw [hml]
    apply List.countP_congr
    intro q hq
    rw [e6]
    simp [hl q hq, hq]
  have d1 := List.length_eq_countP_add_countP (ptExceeds cfg env s DT) s.matched_pt
  have d2 := List.length_eq_countP_add_countP (lsExceeds cfg env s DT) s.matched_ls
  have f1 : s.matched_pt.countP (ptFlag s.prev_frame.stereo_pt) = s.matched_pt.length :=
    List.countP_eq_length.mpr hp
  have f2 : s.matched_ls.countP (lsFlag s.prev_frame.stereo_ls) = s.matched_ls.length :=
    List.countP_eq_length.mpr hl
  have g1 : s.matched_pt.countP (fun q => !ptExceeds cfg env s DT q)
      = s.matched_pt.countP (fun a => ¬ ptExceeds cfg env s DT a = true) := by
    apply List.countP_congr; intro q _; simp
  have g2 : s.matched_ls.countP (fun q => !lsExceeds cfg env s DT q)
      = s.matched_ls.countP (fun a => ¬ lsExceeds cfg env s DT a = true) := by
    apply List.countP_congr; intro q _; simp
  unfold flaggedCount at hn ⊢
  rw [e1, hn, c1, c2, f1, f2, g1, g2]
  omega

end FlagLemmas

theorem consecutive_zero (a : Int) : consecutive a 0 = [] := rfl

theorem consecutive_succ (a : Int) (n : Nat) :
    consecutive a (n + 1) = consecutive a n ++ [a + (n : Int)] := by
  simp [consecutive, List.range_succ]

theorem consecutive_cons (a : Int) (n : Nat) :
    consecutive a (n + 1) = a :: consecutive (a + 1) n := by
  simp only [consecutive, List.range_succ_eq_map, List.map_cons, List.map_map]
  refine congrArg₂ _ (by simp) (List.map_congr_left ?_)
  intro k _
  simp only [Function.comp, Nat.cast_succ]
  ring

theorem mem_consecutive {a v : Int} {n : Nat} : v ∈ consecutive a n ↔ a ≤ v ∧ v < a + (n : Int) := by
  simp only [consecutive, List.mem_map, List.mem_range]
  constructor
  · rintro ⟨k, hk, rfl⟩
    omega
  · rintro ⟨h1, h2⟩
    refine ⟨(v - a).toNat, ?_, ?_⟩ <;> omega

theorem consecutive_nodup (a : Int) (n : Nat) : (consecutive a n).Nodup := by
  unfold consecutive
  refine List.Nodup.map ?_ (List.nodup_range n)
  intro x y h
  simpa using h

section IdLemmas

variable {D : Type} [DoubleOps D]

/-- The rest loop: every feature ends with an ID other than -1, and the values issued are the
consecutive integers from the counter at entry up to the counter at exit. -/
theorem pointRestLoop_spec :
    ∀ (fs : List (PointFeature D)) (mx : Int) (rest : List (PointFeature D) × Int × List Int),
      pointRestLoop fs mx = some rest →
      mx ≤ rest.2.1 ∧ rest.2.2 = consecutive mx (rest.2.1 - mx).toNat ∧
      (0 ≤ mx → ∀ f ∈ rest.1, f.idx ≠ -1) := by
  intro fs
  induction fs with
  | nil =>
    intro mx rest h
    simp only [pointRestLoop, Option.some.injEq] at h
    subst h
    simp [consecutive]
  | cons f fs ih =>
    intro mx rest h
    simp only [pointRestLoop] at h
    split at h
    · simp only [Option.bind_eq_bind, Option.bind_eq_some, Option.pure_def,
        Option.some.injEq] at h
      obtain ⟨next, hnext, r, hr, rfl⟩ := h
      have := checkedInt_eq_some hnext
      subst this
      obtain ⟨h1, h2, h3⟩ := ih _ _ hr
      refine ⟨by simp only; omega, ?_, ?_⟩
      · simp only
        rw [h2]
        have : (r.2.1 - mx).toNat = (r.2.1 - (mx + 1)).toNat + 1 := by omega
        rw [this, consecutive_cons]
      · intro hmx g hg
        simp only [List.mem_cons] at hg
        rcases hg with rfl | hg
        · simp only; omega
        · exact h3 (by omega) g hg
    · rename_i hne
      simp only [Option.bind_eq_bind, Option.bind_eq_some, Option.pure_def,
        Option.some.injEq] at h
      obtain ⟨r, hr, rfl⟩ := h
      obtain ⟨h1, h2, h3⟩ := ih _ _ hr
      refine ⟨h1, h2, ?_⟩
      intro hmx g hg
      simp only [List.mem_cons] at hg
      rcases hg with rfl | hg
      · exact hne
      · exact h3 hmx g hg

theorem lineRestLoop_spec :
    ∀ (fs : List (LineFeature D)) (mx : Int) (rest : List (LineFeature D) × Int × List Int),
      lineRestLoop fs mx = some rest →
      mx ≤ rest.2.1 ∧ rest.2.2 = consecutive mx (rest.2.1 - mx).toNat ∧
      (0 ≤ mx → ∀ f ∈ rest.1, f.idx ≠ -1) := by
  intro fs
  induction fs with
  | nil =>
    intro mx rest h
    simp only [lineRestLoop, Option.some.injEq] at h
    subst h
    simp [consecutive]
  | cons f fs ih =>
    intro mx rest h
    simp only [lineRestLoop] at h
    split at h
    · simp only [Option.bind_eq_bind, Option.bind_eq_some, Option.pure_def,
        Option.some.injEq] at h
      obtain ⟨next, hnext, r, hr, rfl⟩ := h
      have := checkedInt_eq_some hnext
      subst this
      obtain ⟨h1, h2, h3⟩ := ih _ _ hr
      refine ⟨by simp only; omega, ?_, ?_⟩
      · simp only
        rw [h2]
        have : (r.2.1 - mx).toNat = (r.2.1 - (mx + 1)).toNat + 1 := by omega
        rw [this, consecutive_cons]
      · intro hmx g hg
        simp only [List.mem_cons] at hg
        rcases hg with rfl | hg
        · simp only; omega
        · exact h3 (by omega) g hg
    · rename_i hne
      simp only [Option.bind_eq_bind, Option.bind_eq_some, Option.pure_def,
        Option.some.injEq] at h
      obtain ⟨r, hr, rfl⟩ := h
      obtain ⟨h1, h2, h3⟩ := ih _ _ hr
      refine ⟨h1, h2, ?_⟩
      intro hmx g hg
      simp only [List.mem_cons] at hg
      rcases hg with rfl | hg
      · exact hne
      · exact h3 hmx g hg

/-- The match loop never lowers the counter, and logs the consecutive integers in between. -/
theorem pointMatchLoop_issued {cfg : Config D} {env : Ext D} {pm21 : List (List (DMatch D))}
    {ms : List (List (DMatch D))} {st st' : PtTrack D}
    (h : pointMatchLoop cfg env pm21 ms st = some st') :
    st.max_idx_pt ≤ st'.max_idx_pt ∧
      st'.issued = st.issued ++ consecutive st.max_idx_pt (st'.max_idx_pt - st.max_idx_pt).toNat := by
  refine pointMatchLoop_induct
    (fun x => st.max_idx_pt ≤ x.max_idx_pt ∧
      x.issued = st.issued ++ consecutive st.max_idx_pt (x.max_idx_pt - st.max_idx_pt).toNat)
    ms ?_ _ _ h ⟨le_refl _, by simp [consecutive]⟩
  intro m _ a a' hs ⟨h1, h2⟩
  obtain ⟨m0, c, p, -, -, -, ha | ha⟩ := pointMatchStep_cases hs
  · obtain ⟨-, rfl⟩ := ha
    exact ⟨h1, h2⟩
  · obtain ⟨-, rfl⟩ := ha
    refine ⟨by simp only; omega, ?_⟩
    simp only
    rw [h2, List.append_assoc]
    congr 1
    have : (a.max_idx_pt + 1 - st.max_idx_pt).toNat = (a.max_idx_pt - st.max_idx_pt).toNat + 1 := by
      omega
    rw [this, consecutive_succ]
    congr 2
    omega

theorem lineMatchLoop_issued {cfg : Config D} {env : Ext D} {lm21 : List (List (DMatch D))}
    {th : D} {ms : List (List (DMatch D))} {st st' : LsTrack D}
    (h : lineMatchLoop cfg env lm21 th ms st = some st') :
    st.max_idx_ls ≤ st'.max_idx_ls ∧
      st'.issued = st.issued ++ consecutive st.max_idx_ls (st'.max_idx_ls - st.max_idx_ls).toNat := by
  refine lineMatchLoop_induct
    (fun x => st.max_idx_ls ≤ x.max_idx_ls ∧
      x.issued = st.issued ++ consecutive st.max_idx_ls (x.max_idx_ls - st.max_idx_ls).toNat)
    ms ?_ _ _ h ⟨le_refl _, by simp [consecutive]⟩
  intro m _ a a' hs ⟨h1, h2⟩
  obtain ⟨m0, c, p, -, -, -, ha | ha⟩ := lineMatchStep_cases hs
  · obtain ⟨-, rfl⟩ := ha
    exact ⟨h1, h2⟩
  · obtain ⟨-, rfl⟩ := ha
    refine ⟨by simp only; omega, ?_⟩
    simp only
    rw [h2, List.append_assoc]
    congr 1
    have : (a.max_idx_ls + 1 - st.max_idx_ls).toNat = (a.max_idx_ls - st.max_idx_ls).toNat + 1 := by
      omega
    rw [this, consecutive_succ]
    congr 2
    omega

theorem consecutive_append {a b c : Int} (h1 : a ≤ b) (h2 : b ≤ c) :
    consecutive a (b - a).toNat ++ consecutive b (c - b).toNat = consecutive a (c - a).toNat := by
  have hc : (c - a).toNat = (b - a).toNat + (c - b).toNat := by omega
  rw [hc]
  simp only [consecutive, List.range_add, List.map_append, List.map_map]
  congr 1
  apply List.map_congr_left
  intro k _
  simp only [Function.comp, Nat.cast_add]
  have : ((b - a).toNat : Int) = b - a := by omega
  rw [this]
  ring


theorem pointBlock_eq_some {cfg : Config D} {env : Ext D} {km : KnnMatches D}
    {st st' : PtTrack D} (h : pointBlock cfg env km st = some st') :
    ∃ pm12 pm21 st1 rest, sortByQueryIdx km.pmatches_12 = some pm12 ∧
      sortReverse cfg km.pmatches_21 = some pm21 ∧
      pointMatchLoop cfg env pm21 pm12 st = some st1 ∧
      pointRestLoop st1.curr_pt st1.max_idx_pt = some rest ∧
      st' = { st1 with curr_pt := rest.1, max_idx_pt := rest.2.1,
                       issued := st1.issued ++ rest.2.2 } := by
  simp only [pointBlock, Option.bind_eq_bind, Option.bind_eq_some, Option.pure_def,
    Option.some.injEq] at h
  obtain ⟨pm12, h1, pm21, h2, st1, h3, rest, h4, rfl⟩ := h
  exact ⟨pm12, pm21, st1, rest, h1, h2, h3, h4, rfl⟩

theorem lineBlock_eq_some {cfg : Config D} {env : Ext D} {km : KnnMatches D}
    {st st' : LsTrack D} (h : lineBlock cfg env km st = some st') :
    ∃ lm12 lm21 st1 rest, sortByQueryIdx km.lmatches_12 = some lm12 ∧
      sortReverse cfg km.lmatches_21 = some lm21 ∧
      lineMatchLoop cfg env lm21 ((env.lineDescriptorMAD km.lmatches_12).2 * cfg.descThL)
        lm12 st = some st1 ∧
      lineRestLoop st1.curr_ls st1.max_idx_ls = some rest ∧
      st' = { st1 with curr_ls := rest.1, max_idx_ls := rest.2.1,
                       issued := st1.issued ++ rest.2.2 } := by
  simp only [lineBlock, Option.bind_eq_bind, Option.bind_eq_some, Option.pure_def,
    Option.some.injEq] at h
  obtain ⟨lm12, h1, lm21, h2, st1, h3, rest, h4, rfl⟩ := h
  exact ⟨lm12, lm21, st1, rest, h1, h2, h3, h4, rfl⟩

/-- The initial state of the point half. -/
theorem pointHalf_cases {cfg : Config D} {env : Ext D} {km : KnnMatches D} {s : Handler D}
    {curr : StereoFrame D} {pt : PtTrack D} (h : pointHalf cfg env km s curr = some pt) :
    (cfg.hasPoints = true ∧ curr.stereo_pt ≠ [] ∧ s.prev_frame.stereo_pt ≠ [] ∧
      pointBlock cfg env km
        { prev_pt := s.prev_frame.stereo_pt, curr_pt := curr.stereo_pt, matched_pt := [],
          max_idx_pt := s.max_idx_pt, accepted := [], issued := [] } = some pt) ∨
    ((cfg.hasPoints = false ∨ curr.stereo_pt = [] ∨ s.prev_frame.stereo_pt = []) ∧
      pt = { prev_pt := s.prev_frame.stereo_pt, curr_pt := curr.stereo_pt, matched_pt := [],
             max_idx_pt := s.max_idx_pt, accepted := [], issued := [] }) := by
  unfold pointHalf at h
  simp only at h
  split at h
  · rename_i hg
    simp only [Bool.and_eq_true, Bool.not_eq_true', beq_eq_false_iff_ne, ne_eq,
      List.length_eq_zero] at hg
    exact Or.inl ⟨hg.1.1, hg.1.2, hg.2, h⟩
  · rename_i hg
    simp only [Bool.and_eq_true, Bool.not_eq_true', beq_eq_false_iff_ne, ne_eq,
      List.length_eq_zero, not_and, not_not] at hg
    simp only [Option.some.injEq] at h
    refine Or.inr ⟨?_, h.symm⟩
    by_cases h1 : cfg.hasPoints = true
    · by_cases h2 : curr.stereo_pt = []
      · exact Or.inr (Or.inl h2)
      · exact Or.inr (Or.inr (hg ⟨h1, h2⟩))
    · exact Or.inl (by simpa using h1)

/-- The initial state of the line half. -/
theorem lineHalf_cases {cfg : Config D} {env : Ext D} {km : KnnMatches D} {s : Handler D}
    {curr : StereoFrame D} {ls : LsTrack D} (h : lineHalf cfg env km s curr = some ls) :
    (cfg.hasLines = true ∧ curr.stereo_ls ≠ [] ∧ s.prev_frame.stereo_ls ≠ [] ∧
      lineBlock cfg env km
        { prev_ls := s.prev_frame.stereo_ls, curr_ls := curr.stereo_ls, matched_ls := [],
          max_idx_ls := s.max_idx_ls, accepted := [], issued := [] } = some ls) ∨
    ((cfg.hasLines = false ∨ curr.stereo_ls = [] ∨ s.prev_frame.stereo_ls = []) ∧
      ls = { prev_ls := s.prev_frame.stereo_ls, curr_ls := curr.stereo_ls, matched_ls := [],
             max_idx_ls := s.max_idx_ls, accepted := [], issued := [] }) := by
  unfold lineHalf at h
  simp only at h
  split at h
  · rename_i hg
    simp only [Bool.and_eq_true, Bool.not_eq_true', beq_eq_false_iff_ne, ne_eq,
      List.length_eq_zero] at hg
    exact Or.inl ⟨hg.1.1, hg.1.2, hg.2, h⟩
  · rename_i hg
    simp only [Bool.and_eq_true, Bool.not_eq_true', beq_eq_false_iff_ne, ne_eq,
      List.length_eq_zero, not_and, not_not] at hg
    simp only [Option.some.injEq] at h
    refine Or.inr ⟨?_, h.symm⟩
    by_cases h1 : cfg.hasLines = true
    · by_cases h2 : curr.stereo_ls = []
      · exact Or.inr (Or.inl h2)
      · exact Or.inr (Or.inr (hg ⟨h1, h2⟩))
    · exact Or.inl (by simpa using h1)

theorem pointHalf_issued {cfg : Config D} {env : Ext D} {km : KnnMatches D} {s : Handler D}
    {curr : StereoFrame D} {pt : PtTrack D} (h : pointHalf cfg env km s curr = some pt) :
    s.max_idx_pt ≤ pt.max_idx_pt ∧
      pt.issued = consecutive s.max_idx_pt (pt.max_idx_pt - s.max_idx_pt).toNat := by
  rcases pointHalf_cases h with ⟨-, -, -, hb⟩ | ⟨-, rfl⟩
  · obtain ⟨pm12, pm21, st1, rest, -, -, hloop, hrest, rfl⟩ := pointBlock_eq_some hb
    obtain ⟨a1, a2⟩ := pointMatchLoop_issued hloop
    obtain ⟨b1, b2, -⟩ := pointRestLoop_spec _ _ _ hrest
    simp only [List.nil_append] at a1 a2
    refine ⟨le_trans a1 b1, ?_⟩
    simp only
    rw [a2, b2, consecutive_append a1 b1]
  · simp [consecutive]

theorem lineHalf_issued {cfg : Config D} {env : Ext D} {km : KnnMatches D} {s : Handler D}
    {curr : StereoFrame D} {ls : LsTrack D} (h : lineHalf cfg env km s curr = some ls) :
    s.max_idx_ls ≤ ls.max_idx_ls ∧
      ls.issued = consecutive s.max_idx_ls (ls.max_idx_ls - s.max_idx_ls).toNat := by
  rcases lineHalf_cases h with ⟨-, -, -, hb⟩ | ⟨-, rfl⟩
  · obtain ⟨lm12, lm21, st1, rest, -, -, hloop, hrest, rfl⟩ := lineBlock_eq_some hb
    obtain ⟨a1, a2⟩ := lineMatchLoop_issued hloop
    obtain ⟨b1, b2, -⟩ := lineRestLoop_spec _ _ _ hrest
    simp only [List.nil_append] at a1 a2
    refine ⟨le_trans a1 b1, ?_⟩
    simp only
    rw [a2, b2, consecutive_append a1 b1]
  · simp [consecutive]

theorem pointHalf_ids {cfg : Config D} {env : Ext D} {km : KnnMatches D} {s : Handler D}
    {curr : StereoFrame D} {pt : PtTrack D} (h : pointHalf cfg env km s curr = some pt)
    (hp : cfg.hasPoints = true) (hne : s.prev_frame.stereo_pt ≠ []) (h0 : 0 ≤ s.max_idx_pt) :
    ∀ f ∈ pt.curr_pt, f.idx ≠ -1 := by
  rcases pointHalf_cases h with ⟨-, -, -, hb⟩ | ⟨hskip, rfl⟩
  · obtain ⟨pm12, pm21, st1, rest, -, -, hloop, hrest, rfl⟩ := pointBlock_eq_some hb
    obtain ⟨a1, -⟩ := pointMatchLoop_issued hloop
    obtain ⟨-, -, b3⟩ := pointRestLoop_spec _ _ _ hrest
    exact b3 (le_trans h0 a1)
  · rcases hskip with h1 | h1 | h1
    · rw [hp] at h1; cases h1
    · simp [h1]
    · exact absurd h1 hne

theorem lineHalf_ids {cfg : Config D} {env : Ext D} {km : KnnMatches D} {s : Handler D}
    {curr : StereoFrame D} {ls : LsTrack D} (h : lineHalf cfg env km s curr = some ls)
    (hp : cfg.hasLines = true) (hne : s.prev_frame.stereo_ls ≠ []) (h0 : 0 ≤ s.max_idx_ls) :
    ∀ f ∈ ls.curr_ls, f.idx ≠ -1 := by
  rcases lineHalf_cases h with ⟨-, -, -, hb⟩ | ⟨hskip, rfl⟩
  · obtain ⟨lm12, lm21, st1, rest, -, -, hloop, hrest, rfl⟩ := lineBlock_eq_some hb
    obtain ⟨a1, -⟩ := lineMatchLoop_issued hloop
    obtain ⟨-, -, b3⟩ := lineRestLoop_spec _ _ _ hrest
    exact b3 (le_trans h0 a1)
  · rcases hskip with h1 | h1 | h1
    · rw [hp] at h1; cases h1
    · simp [h1]
    · exact absurd h1 hne

theorem pointHalf_skipped {cfg : Config D} {env : Ext D} {km : KnnMatches D} {s : Handler D}
    {curr : StereoFrame D} {pt : PtTrack D} (h : pointHalf cfg env km s curr = some pt)
    (hs : cfg.hasPoints = false ∨ s.prev_frame.stereo_pt = []) :
    pt.curr_pt = curr.stereo_pt := by
  rcases pointHalf_cases h with ⟨h1, -, h3, -⟩ | ⟨-, rfl⟩
  · rcases hs with hs | hs
    · rw [h1] at hs; cases hs
    · exact absurd hs h3
  · rfl

theorem lineHalf_skipped {cfg : Config D} {env : Ext D} {km : KnnMatches D} {s : Handler D}
    {curr : StereoFrame D} {ls : LsTrack D} (h : lineHalf cfg env km s curr = some ls)
    (hs : cfg.hasLines = false ∨ s.prev_frame.stereo_ls = []) :
    ls.curr_ls = curr.stereo_ls := by
  rcases lineHalf_cases h with ⟨h1, -, h3, -⟩ | ⟨-, rfl⟩
  · rcases hs with hs | hs
    · rw [h1] at hs; cases hs
    · exact absurd hs h3
  · rfl
end IdLemmas

section MutualLemmas

variable {D : Type} [DoubleOps D]

theorem sortByQueryIdx_perm {v v' : List (List (DMatch D))}
    (h : sortByQueryIdx v = some v') : v'.Perm v := by
  unfold sortByQueryIdx at h
  split at h
  · cases h; exact List.Perm.refl _
  · split at h
    · cases h; exact List.perm_insertionSort _ _
    · cases h

theorem sortByQueryIdx_sorted {v v' : List (List (DMatch D))}
    (h : sortByQueryIdx v = some v') :
    v'.Sorted (fun a b => (firstQueryIdx a).getD 0 ≤ (firstQueryIdx b).getD 0) := by
  unfold sortByQueryIdx at h
  split at h
  · rename_i hlen
    cases h
    match v, hlen with
    | [], _ => exact List.sorted_nil
    | [a], _ => exact List.sorted_singleton a
    | _ :: _ :: _, hlen => simp at hlen
  · split at h
    · cases h
      have : IsTotal (List (DMatch D))
          (fun a b => (firstQueryIdx a).getD 0 ≤ (firstQueryIdx b).getD 0) :=
        ⟨fun a b => le_total _ _⟩
      have : IsTrans (List (DMatch D))
          (fun a b => (firstQueryIdx a).getD 0 ≤ (firstQueryIdx b).getD 0) :=
        ⟨fun a b c hab hbc => le_trans hab hbc⟩
      exact List.sorted_insertionSort _ _
    · cases h

theorem sorted_range_cast (n : Nat) :
    ((List.range n).map (fun (k : Nat) => (k : Int))).Sorted (· ≤ ·) := by
  rw [List.Sorted, List.pairwise_map]
  exact (List.pairwise_lt_range n).imp (fun h => by exact_mod_cast Nat.le_of_lt h)

/-- After the sort, the entry at position `j` of a list with one entry per query is the entry
of query `j`. -/
theorem sortByQueryIdx_position {v v' : List (List (DMatch D))}
    (h : sortByQueryIdx v = some v') (hone : OnePerQuery v) {j : Nat} {a : List (DMatch D)}
    (ha : v'[j]? = some a) : firstQueryIdx a = some (j : Int) := by
  have hperm := sortByQueryIdx_perm h
  have hsorted := sortByQueryIdx_sorted h
  have hkeys : (v'.map firstQueryIdx).Perm
      ((List.range v.length).map (fun (k : Nat) => some (k : Int))) :=
    (hperm.map _).trans hone
  have hkeys' : (v'.map (fun a => (firstQueryIdx a).getD 0)).Perm
      ((List.range v.length).map (fun (k : Nat) => (k : Int))) := by
    have := hkeys.map (fun o => o.getD 0)
    simpa [List.map_map, Function.comp] using this
  have hs : (v'.map (fun a => (firstQueryIdx a).getD 0)).Sorted (· ≤ ·) := by
    rw [List.Sorted, List.pairwise_map]
    exact hsorted
  have heq := List.eq_of_perm_of_sorted hkeys' hs (sorted_range_cast _)
  have hj : j < v'.length := (List.getElem?_eq_some.mp ha).1
  have hlen : v'.length = v.length := hperm.length_eq
  have h1 : (v'.map (fun a => (firstQueryIdx a).getD 0))[j]? = some ((firstQueryIdx a).getD 0) := by
    rw [List.getElem?_map, ha]; rfl
  rw [heq, List.getElem?_map, List.getElem?_range (by omega)] at h1
  simp only [Option.map_some', Option.some.injEq] at h1
  have hmem : firstQueryIdx a ∈ (List.range v.length).map (fun (k : Nat) => some (k : Int)) :=
    hkeys.subset (List.mem_map.mpr ⟨a, List.getElem?_mem ha, rfl⟩)
  obtain ⟨k, -, hk⟩ := List.mem_map.mp hmem
  rw [← hk] at h1 ⊢
  simp only [Option.getD_some] at h1
  rw [h1]

theorem FirstMatch.of_perm {ms ms' : List (List (DMatch D))} {q t : Int}
    (hp : ms'.Perm ms) (h : FirstMatch ms' q t) : FirstMatch ms q t := by
  obtain ⟨m, hm, m0, h0, h1, h2⟩ := h
  exact ⟨m, hp.subset hm, m0, h0, h1, h2⟩

theorem sortReverse_of_best {cfg : Config D} {v v' : List (List (DMatch D))}
    (hb : cfg.bestLRMatches = true) (h : sortReverse cfg v = some v') :
    sortByQueryIdx v = some v' := by
  unfold sortReverse at h
  rw [if_pos hb] at h
  exact h

/-- With `bestLRMatches`, `rl_tdx == lr_qdx` means that `lr_qdx` is the first match of `lr_tdx`
in the sorted reverse list. -/
theorem reverseBest_firstMatch {cfg : Config D} {v v' : List (List (DMatch D))} {q t : Int}
    (hb : cfg.bestLRMatches = true) (hs : sortByQueryIdx v = some v') (hone : OnePerQuery v)
    (h : reverseBest cfg v' q t = some q) : FirstMatch v t q := by
  unfold reverseBest at h
  rw [if_pos hb] at h
  simp only [Option.bind_eq_bind, Option.bind_eq_some, Option.pure_def, Option.some.injEq] at h
  obtain ⟨r, hr, r0, hr0, hq⟩ := h
  obtain ⟨ht, -, hget⟩ := getI_eq_some hr
  have hkey := sortByQueryIdx_position hs hone hget
  refine FirstMatch.of_perm (sortByQueryIdx_perm hs) ⟨r, List.getElem?_mem hget, r0, hr0, ?_, hq⟩
  unfold firstQueryIdx at hkey
  rw [List.head?_eq_getElem?, hr0] at hkey
  simp only [Option.map_some', Option.some.injEq] at hkey
  rw [hkey]
  omega

theorem pointHalf_mutual {cfg : Config D} {env : Ext D} {km : KnnMatches D} {s : Handler D}
    {curr : StereoFrame D} {pt : PtTrack D} (h : pointHalf cfg env km s curr = some pt)
    (hb : cfg.bestLRMatches = true) (hone : OnePerQuery km.pmatches_21) :
    ∀ qt ∈ pt.accepted,
      FirstMatch km.pmatches_12 qt.1 qt.2 ∧ FirstMatch km.pmatches_21 qt.2 qt.1 := by
  rcases pointHalf_cases h with ⟨-, -, -, hblk⟩ | ⟨-, rfl⟩
  · obtain ⟨pm12, pm21, st1, rest, h12, h21, hloop, -, rfl⟩ := pointBlock_eq_some hblk
    have h21' := sortReverse_of_best hb h21
    have := pointMatchLoop_induct
      (fun st => ∀ qt ∈ st.accepted,
        FirstMatch km.pmatches_12 qt.1 qt.2 ∧ FirstMatch km.pmatches_21 qt.2 qt.1) pm12
      (by
        intro m hm a a' hs hP
        obtain ⟨m0, c, p, hm0, -, -, ha | ha⟩ := pointMatchStep_cases hs
        · obtain ⟨hrev, rfl⟩ := ha
          intro qt hqt
          simp only [List.mem_append, List.mem_singleton] at hqt
          rcases hqt with hqt | rfl
          · exact hP qt hqt
          · exact ⟨FirstMatch.of_perm (sortByQueryIdx_perm h12) ⟨m, hm, m0, hm0, rfl, rfl⟩,
              reverseBest_firstMatch hb h21' hone hrev⟩
        · obtain ⟨-, rfl⟩ := ha
          exact hP) _ _ hloop (by intro qt hqt; simp at hqt)
    exact this
  · intro qt hqt
    simp at hqt

theorem lineHalf_mutual {cfg : Config D} {env : Ext D} {km : KnnMatches D} {s : Handler D}
    {curr : StereoFrame D} {ls : LsTrack D} (h : lineHalf cfg env km s curr = some ls)
    (hb : cfg.bestLRMatches = true) (hone : OnePerQuery km.lmatches_21) :
    ∀ qt ∈ ls.accepted,
      FirstMatch km.lmatches_12 qt.1 qt.2 ∧ FirstMatch km.lmatches_21 qt.2 qt.1 := by
  rcases lineHalf_cases h with ⟨-, -, -, hblk⟩ | ⟨-, rfl⟩
  · obtain ⟨lm12, lm21, st1, rest, h12, h21, hloop, -, rfl⟩ := lineBlock_eq_some hblk
    have h21' := sortReverse_of_best hb h21
    have := lineMatchLoop_induct
      (fun st => ∀ qt ∈ st.accepted,
        FirstMatch km.lmatches_12 qt.1 qt.2 ∧ FirstMatch km.lmatches_21 qt.2 qt.1) lm12
      (by
        intro m hm a a' hs hP
        obtain ⟨m0, c, p, hm0, -, -, ha | ha⟩ := lineMatchStep_cases hs
        · obtain ⟨hrev, rfl⟩ := ha
          intro qt hqt
          simp only [List.mem_append, List.mem_singleton] at hqt
          rcases hqt with hqt | rfl
          · exact hP qt hqt
          · exact ⟨FirstMatch.of_perm (sortByQueryIdx_perm h12) ⟨m, hm, m0, hm0, rfl, rfl⟩,
              reverseBest_firstMatch hb h21' hone hrev⟩
        · obtain ⟨-, rfl⟩ := ha
          exact hP) _ _ hloop (by intro qt hqt; simp at hqt)
    exact this
  · intro qt hqt
    simp at hqt

end MutualLemmas

section PoseLemmas

variable {D : Type} [DoubleOps D]


/-- The paths through the "solver" part of `optimizePose`. -/
theorem optimizePoseSolve_cases {cfg : Config D} {env : Ext D} {u : PoseUninit D}
    {s : Handler D} {DT : Mat4 D} {l : PoseLocals D}
    (h : optimizePoseSolve cfg env u s DT = some l) :
    (s.n_inliers ≤ cfg.minFeatures ∧
      l = { handler := s, DT := Mat4.identity, DT_cov := Mat6.zero, DT_ := u.DT_,
            err := u.err }) ∨
    (s.n_inliers > cfg.minFeatures ∧
      ∃ r1, runSolver cfg env u.first s DT cfg.maxIters = some r1 ∧
        ((env.is_finite r1.DT = false ∧
            l = { handler := r1.handler, DT := Mat4.identity, DT_cov := Mat6.zero,
                  DT_ := r1.DT, err := r1.err_ }) ∨
          (env.is_finite r1.DT = true ∧
            ∃ s2, removeOutliers cfg env r1.handler r1.DT = some s2 ∧
              ((s2.n_inliers ≤ cfg.minFeatures ∧
                  l = { handler := s2, DT := Mat4.identity, DT_cov := Mat6.zero,
                        DT_ := r1.DT, err := r1.err_ }) ∨
                (s2.n_inliers > cfg.minFeatures ∧
                  ∃ r2, runSolver cfg env u.second s2 DT cfg.maxItersRef = some r2 ∧
                    l = { handler := r2.handler, DT := r2.DT, DT_cov := r2.DT_cov,
                          DT_ := r1.DT, err := r2.err_ }))))) := by
  unfold optimizePoseSolve at h
  split at h
  · rename_i hn
    right
    simp only [Option.bind_eq_bind, Option.bind_eq_some] at h
    obtain ⟨r1, hr1, h⟩ := h
    refine ⟨hn, r1, hr1, ?_⟩
    split at h
    · rename_i hfin
      right
      simp only [Option.bind_eq_bind, Option.bind_eq_some] at h
      obtain ⟨s2, hs2, h⟩ := h
      refine ⟨hfin, s2, hs2, ?_⟩
      split at h
      · rename_i hn2
        right
        simp only [Option.bind_eq_bind, Option.bind_eq_some, Option.pure_def,
          Option.some.injEq] at h
        obtain ⟨r2, hr2, rfl⟩ := h
        exact ⟨hn2, r2, hr2, rfl⟩
      · rename_i hn2
        left
        simp only [Option.pure_def, Option.some.injEq] at h
        exact ⟨by omega, h.symm⟩
    · rename_i hfin
      left
      simp only [Option.pure_def, Option.some.injEq] at h
      exact ⟨by simpa using hfin, h.symm⟩
  · rename_i hn
    left
    simp only [Option.pure_def, Option.some.injEq] at h
    exact ⟨by omega, h.symm⟩

/-- The accepting branch of "set estimated pose". -/
theorem optimizePoseStore_accept {cfg : Config D} {env : Ext D} {l : PoseLocals D}
    {curr : StereoFrame D} (hc : l.handler.curr_frame = some curr)
    (hf : env.is_finite l.DT_ = true) (he : dlt l.err cfg.maxOptimError = true) :
    optimizePoseStore cfg env l = some { l.handler with
      curr_frame := some ({ curr with
        DT := env.inverse_transformation l.DT
        Tfw := Mat4.mul l.handler.prev_frame.Tfw (env.inverse_transformation l.DT)
        DT_cov := l.DT_cov
        DT_cov_eig := env.eigenvalues l.DT_cov
        err_norm := l.err } : StereoFrame D) } := by
  simp [optimizePoseStore, hc, hf, he]

/-- The rejecting branch of "set estimated pose". -/
theorem optimizePoseStore_reject {cfg : Config D} {env : Ext D} {l : PoseLocals D}
    {curr : StereoFrame D} (hc : l.handler.curr_frame = some curr)
    (hr : env.is_finite l.DT_ = false ∨ dlt l.err cfg.maxOptimError = false) :
    optimizePoseStore cfg env l = some { l.handler with
      curr_frame := some ({ curr with
        DT := Mat4.identity
        Tfw := l.handler.prev_frame.Tfw
        DT_cov := Mat6.zero
        DT_cov_eig := env.eigenvalues l.DT_cov
        err_norm := lit (-1) } : StereoFrame D) } := by
  rcases hr with hr | hr <;> simp [optimizePoseStore, hc, hr]

theorem optimizePoseStore_curr {cfg : Config D} {env : Ext D} {l : PoseLocals D}
    {s' : Handler D} (h : optimizePoseStore cfg env l = some s') :
    ∃ curr, l.handler.curr_frame = some curr := by
  simp only [optimizePoseStore, Option.bind_eq_bind, Option.bind_eq_some] at h
  obtain ⟨curr, hc, -⟩ := h
  exact ⟨curr, hc⟩

/-- Outlier filtering changes only the features of the previous frame and the counters. -/
theorem removeOutliers_frame {cfg : Config D} {env : Ext D} {s s' : Handler D} {DT : Mat4 D}
    (h : removeOutliers cfg env s DT = some s') :
    s'.curr_frame = s.curr_frame ∧ s'.prev_frame.Tfw = s.prev_frame.Tfw := by
  obtain ⟨-, -, -, ⟨pts, lns, e⟩, -, -⟩ := removeOutliers_spec h
  rw [e]
  exact ⟨rfl, rfl⟩

theorem FlagsOnly.frame {s s' : Handler D} (h : FlagsOnly s s') :
    s'.curr_frame = s.curr_frame ∧ s'.prev_frame.Tfw = s.prev_frame.Tfw := by
  obtain ⟨pts, lns, rfl⟩ := h
  exact ⟨rfl, rfl⟩

/-- The "solver" part leaves the current frame and the accumulated pose of the previous frame
alone. -/
theorem optimizePoseSolve_frame {cfg : Config D} {env : Ext D} {u : PoseUninit D}
    {s : Handler D} {DT : Mat4 D} {l : PoseLocals D}
    (h : optimizePoseSolve cfg env u s DT = some l) :
    l.handler.curr_frame = s.curr_frame ∧ l.handler.prev_frame.Tfw = s.prev_frame.Tfw := by
  rcases optimizePoseSolve_cases h with ⟨-, rfl⟩ | ⟨-, r1, hr1, h⟩
  · exact ⟨rfl, rfl⟩
  · have f1 := (runSolver_flagsOnly hr1).frame
    rcases h with ⟨-, rfl⟩ | ⟨-, s2, hs2, h⟩
    · exact f1
    · have f2 := removeOutliers_frame hs2
      rcases h with ⟨-, rfl⟩ | ⟨-, r2, hr2, rfl⟩
      · exact ⟨f2.1.trans f1.1, f2.2.trans f1.2⟩
      · have f3 := (runSolver_flagsOnly hr2).frame
        exact ⟨f3.1.trans (f2.1.trans f1.1), f3.2.trans (f2.2.trans f1.2)⟩

end PoseLemmas

section GhostLemmas

variable {D : Type} [DoubleOps D]

theorem pointHalf_matched {cfg : Config D} {env : Ext D} {km : KnnMatches D} {s : Handler D}
    {curr : StereoFrame D} {pt : PtTrack D} (h : pointHalf cfg env km s curr = some pt) :
    pt.matched_pt = pt.accepted.map (fun qt => qt.1.toNat) := by
  rcases pointHalf_cases h with ⟨-, -, -, hblk⟩ | ⟨-, rfl⟩
  · obtain ⟨pm12, pm21, st1, rest, -, -, hloop, -, rfl⟩ := pointBlock_eq_some hblk
    have := pointMatchLoop_induct
      (fun st => st.matched_pt = st.accepted.map (fun qt => qt.1.toNat)) pm12
      (by
        intro m _ a a' hs hP
        obtain ⟨m0, c, p, -, -, -, ha | ha⟩ := pointMatchStep_cases hs
        · obtain ⟨-, rfl⟩ := ha
          simp only [List.map_append, List.map_cons, List.map_nil]
          rw [hP]
        · obtain ⟨-, rfl⟩ := ha
          exact hP) _ _ hloop rfl
    exact this
  · rfl

theorem lineHalf_matched {cfg : Config D} {env : Ext D} {km : KnnMatches D} {s : Handler D}
    {curr : StereoFrame D} {ls : LsTrack D} (h : lineHalf cfg env km s curr = some ls) :
    ls.matched_ls = ls.accepted.map (fun qt => qt.1.toNat) := by
  rcases lineHalf_cases h with ⟨-, -, -, hblk⟩ | ⟨-, rfl⟩
  · obtain ⟨lm12, lm21, st1, rest, -, -, hloop, -, rfl⟩ := lineBlock_eq_some hblk
    have := lineMatchLoop_induct
      (fun st => st.matched_ls = st.accepted.map (fun qt => qt.1.toNat)) lm12
      (by
        intro m _ a a' hs hP
        obtain ⟨m0, c, p, -, -, -, ha | ha⟩ := lineMatchStep_cases hs
        · obtain ⟨-, rfl⟩ := ha
          simp only [List.map_append, List.map_cons, List.map_nil]
          rw [hP]
        · obtain ⟨-, rfl⟩ := ha
          exact hP) _ _ hloop rfl
    exact this
  · rfl

/-- The ghost logs of accepted pairs list exactly the entries of the correspondence sets: the
`k`-th accepted pair `(q, t)` is the `k`-th `push_back`, of the previous-frame feature `q`. -/
theorem f2fTracking_matched_eq_accepted {cfg : Config D} {env : Ext D} {km : KnnMatches D}
    {s : Handler D} {r : TrackResult D} (h : f2fTracking cfg env km s = some r) :
    r.handler.matched_pt = r.accepted_pt.map (fun qt => qt.1.toNat) ∧
      r.handler.matched_ls = r.accepted_ls.map (fun qt => qt.1.toNat) := by
  obtain ⟨curr, pt, ls, -, hpt, hls, rfl⟩ := f2fTracking_eq_some h
  exact ⟨pointHalf_matched hpt, lineHalf_matched hls⟩

end GhostLemmas

section Claims

variable {D : Type} [DoubleOps D]

/-- C1: `n_inliers == n_inliers_pt + n_inliers_ls` holds after `f2fTracking`, and every residual
pass, every solver (`gaussNewtonOptimization`, `levMarquardtOptimization`) and `removeOutliers`
preserve it, for every pose and every correspondence set. -/
theorem counters_agree_preserved (cfg : Config D) (env : Ext D) :
    (∀ km s r, f2fTracking cfg env km s = some r → CountersAgree r.handler) ∧
    (∀ s DT r, optimizeFunctions_nonweighted cfg env s DT = some r →
      CountersAgree s → CountersAgree r.handler) ∧
    (∀ s DT r, optimizeFunctions_uncweighted cfg env s DT = some r →
      CountersAgree s → CountersAgree r.handler) ∧
    (∀ u s DT n r, gaussNewtonOptimization cfg env u s DT n = some r →
      CountersAgree s → CountersAgree r.handler) ∧
    (∀ u s DT n r, levMarquardtOptimization cfg env u s DT n = some r →
      CountersAgree s → CountersAgree r.handler) ∧
    (∀ s DT s', removeOutliers cfg env s DT = some s' → CountersAgree s → CountersAgree s') :=
  ⟨fun _ _ _ h => f2fTracking_counters h,
   fun _ _ _ h hs => (nonweighted_flagsOnly h).counters hs,
   fun _ _ _ h hs => (uncweighted_flagsOnly h).counters hs,
   fun _ _ _ _ _ h hs => (gaussNewton_flagsOnly h).counters hs,
   fun _ _ _ _ _ h hs => (levMarquardt_flagsOnly h).counters hs,
   fun _ _ _ h hs => removeOutliers_counters h hs⟩

end Claims

section Witnesses

theorem demo_tracks :
    (f2fTracking demoConfig exactEnv demoMatches demoHandler).isSome = true := by decide!

theorem demo_solves :
    (gaussNewtonOptimization demoConfig exactEnv demoUninit.first
      ((f2fTracking demoConfig exactEnv demoMatches demoHandler).get demo_tracks).handler
      Mat4.identity 1).isSome = true := by decide!

theorem demo_filters :
    (removeOutliers demoConfig exactEnv
      ((gaussNewtonOptimization demoConfig exactEnv demoUninit.first
        ((f2fTracking demoConfig exactEnv demoMatches demoHandler).get demo_tracks).handler
        Mat4.identity 1).get demo_solves).handler
      ((gaussNewtonOptimization demoConfig exactEnv demoUninit.first
        ((f2fTracking demoConfig exactEnv demoMatches demoHandler).get demo_tracks).handler
        Mat4.identity 1).get demo_solves).DT).isSome = true := by decide!

/-- The cycle on `demoHandler` (association, a Gauss-Newton pass, outlier filtering) runs and
keeps the counter equation. -/
theorem counters_agree_witness :
    ∃ r r1 s2, f2fTracking demoConfig exactEnv demoMatches demoHandler = some r ∧
      gaussNewtonOptimization demoConfig exactEnv demoUninit.first r.handler Mat4.identity 1
        = some r1 ∧
      removeOutliers demoConfig exactEnv r1.handler r1.DT = some s2 ∧
      CountersAgree r.handler ∧ CountersAgree r1.handler ∧ CountersAgree s2 :=
  have e0 := (Option.some_get demo_tracks).symm
  have e1 := (Option.some_get demo_solves).symm
  have e2 := (Option.some_get demo_filters).symm
  have T := counters_agree_preserved demoConfig exactEnv
  have c0 := T.1 _ _ _ e0
  have c1 := T.2.2.2.1 _ _ _ _ _ e1 c0
  ⟨_, _, _, e0, e1, e2, c0, c1, T.2.2.2.2.2 _ _ _ e2 c1⟩

end Witnesses

section ClaimC2

variable {D : Type} [DoubleOps D]

/-- C2 (amended): after `f2fTracking` every entry of `matched_pt` and `matched_ls` is flagged and
`n_inliers` is the number of flagged entries; a residual pass leaves `n_inliers` unchanged and
can only clear flags; `removeOutliers` keeps `n_inliers` equal to the number of flagged entries
when it starts with every entry flagged and the equality in force; `updateFrame` empties both
sets and leaves `n_inliers` unchanged. -/
theorem flagged_count_after (cfg : Config D) (env : Ext D) :
    (∀ km s r, f2fTracking cfg env km s = some r →
      r.handler.n_inliers = (flaggedCount r.handler : Int) ∧
      (∀ q ∈ r.handler.matched_pt, ptFlag r.handler.prev_frame.stereo_pt q = true) ∧
      (∀ q ∈ r.handler.matched_ls, lsFlag r.handler.prev_frame.stereo_ls q = true)) ∧
    (∀ s DT r, optimizeFunctions_nonweighted cfg env s DT = some r →
      r.handler.n_inliers = s.n_inliers ∧ flaggedCount r.handler ≤ flaggedCount s) ∧
    (∀ s DT r, optimizeFunctions_uncweighted cfg env s DT = some r →
      r.handler.n_inliers = s.n_inliers ∧ flaggedCount r.handler ≤ flaggedCount s) ∧
    (∀ s DT s', removeOutliers cfg env s DT = some s' →
      (∀ q ∈ s.matched_pt, ptFlag s.prev_frame.stereo_pt q = true) →
      (∀ q ∈ s.matched_ls, lsFlag s.prev_frame.stereo_ls q = true) →
      s.n_inliers = (flaggedCount s : Int) → s'.n_inliers = (flaggedCount s' : Int)) ∧
    (∀ s s' : Handler D, updateFrame s = some s' →
      s'.n_inliers = s.n_inliers ∧ flaggedCount s' = 0) := by
  refine ⟨?_, ?_, ?_, ?_, ?_⟩
  · intro km s r h
    refine ⟨f2fTracking_flagged h, ?_, ?_⟩
    · obtain ⟨curr, pt, ls, -, hpt, -, rfl⟩ := f2fTracking_eq_some h
      exact pointHalf_flagged hpt
    · obtain ⟨curr, pt, ls, -, -, hls, rfl⟩ := f2fTracking_eq_some h
      exact lineHalf_flagged hls
  · intro s DT r h
    exact ⟨(nonweighted_flagsOnly h).n_inliers,
      flaggedCount_le (nonweighted_flagsOnly h) (nonweighted_lowered h)⟩
  · intro s DT r h
    exact ⟨(uncweighted_flagsOnly h).n_inliers,
      flaggedCount_le (uncweighted_flagsOnly h) (uncweighted_lowered h)⟩
  · intro s DT s' h hp hl hn
    exact removeOutliers_flagged h hp hl hn
  · intro s s' h
    simp only [updateFrame, Option.bind_eq_bind, Option.bind_eq_some, Option.pure_def,
      Option.some.injEq] at h
    obtain ⟨curr, -, rfl⟩ := h
    exact ⟨rfl, rfl⟩

end ClaimC2

section WitnessC2

theorem demo_filters_tracked :
    (removeOutliers demoConfig exactEnv
      ((f2fTracking demoConfig exactEnv demoMatches demoHandler).get demo_tracks).handler
      Mat4.identity).isSome = true := by decide!

/-- On `demoHandler`, association followed by outlier filtering keeps `n_inliers` equal to the
number of flagged entries. -/
theorem flagged_count_witness :
    ∃ r s', f2fTracking demoConfig exactEnv demoMatches demoHandler = some r ∧
      removeOutliers demoConfig exactEnv r.handler Mat4.identity = some s' ∧
      r.handler.n_inliers = (flaggedCount r.handler : Int) ∧
      s'.n_inliers = (flaggedCount s' : Int) :=
  have e0 := (Option.some_get demo_tracks).symm
  have e1 := (Option.some_get demo_filters_tracked).symm
  have T := flagged_count_after demoConfig exactEnv
  have c0 := T.1 _ _ _ e0
  ⟨_, _, e0, e1, c0.1, T.2.2.2.1 _ _ _ e1 c0.2.1 c0.2.2 c0.1⟩

/-- C2 as stated fails: when the camera has not moved (`restHandler`), association leaves
`n_inliers = 2` with two flagged entries, and after the first residual pass, after
`removeOutliers` and after `updateFrame` `n_inliers` is still 2 while no entry is flagged. -/
theorem flagged_count_diverges :
    ((f2fTracking demoConfig exactEnv demoMatches restHandler).bind fun r =>
      (optimizeFunctions_nonweighted demoConfig exactEnv r.handler Mat4.identity).bind fun p =>
      (removeOutliers demoConfig exactEnv p.handler Mat4.identity).bind fun s2 =>
      (updateFrame s2).map fun s3 =>
        [(r.handler.n_inliers, flaggedCount r.handler),
         (p.handler.n_inliers, flaggedCount p.handler),
         (s2.n_inliers, flaggedCount s2),
         (s3.n_inliers, flaggedCount s3)])
      = some [(2, 2), (2, 0), (2, 0), (2, 0)] := by decide!

end WitnessC2

section ClaimC3

variable {D : Type} [DoubleOps D]

/-- C3 (amended): after `f2fTracking`, every current-frame feature of a modality that is enabled
and has at least one feature in the previous frame carries an ID other than -1, provided the
modality's counter is not negative; the features of a modality whose block is skipped (disabled,
or no feature in the previous frame) are left as they came. -/
theorem ids_assigned_when_tracked (cfg : Config D) (env : Ext D) (km : KnnMatches D)
    (s : Handler D) (r : TrackResult D) (h : f2fTracking cfg env km s = some r) :
    ∃ c0 c, s.curr_frame = some c0 ∧ r.handler.curr_frame = some c ∧
      (cfg.hasPoints = true → s.prev_frame.stereo_pt ≠ [] → 0 ≤ s.max_idx_pt →
        ∀ f ∈ c.stereo_pt, f.idx ≠ -1) ∧
      (cfg.hasLines = true → s.prev_frame.stereo_ls ≠ [] → 0 ≤ s.max_idx_ls →
        ∀ f ∈ c.stereo_ls, f.idx ≠ -1) ∧
      ((cfg.hasPoints = false ∨ s.prev_frame.stereo_pt = []) → c.stereo_pt = c0.stereo_pt) ∧
      ((cfg.hasLines = false ∨ s.prev_frame.stereo_ls = []) → c.stereo_ls = c0.stereo_ls) := by
  obtain ⟨curr, pt, ls, hc, hpt, hls, rfl⟩ := f2fTracking_eq_some h
  exact ⟨curr, _, hc, rfl, fun h1 h2 h3 => pointHalf_ids hpt h1 h2 h3,
    fun h1 h2 h3 => lineHalf_ids hls h1 h2 h3, fun h1 => pointHalf_skipped hpt h1,
    fun h1 => lineHalf_skipped hls h1⟩

end ClaimC3

section WitnessC3

/-- On `demoHandler` both current points end with an ID other than -1. -/
theorem ids_assigned_witness :
    ∃ r c, f2fTracking demoConfig exactEnv demoMatches demoHandler = some r ∧
      r.handler.curr_frame = some c ∧ ∀ f ∈ c.stereo_pt, f.idx ≠ -1 :=
  have e0 := (Option.some_get demo_tracks).symm
  match ids_assigned_when_tracked demoConfig exactEnv demoMatches demoHandler _ e0 with
  | ⟨_, c, _, hc, hp, _, _, _⟩ => ⟨_, c, e0, hc, hp rfl (by simp [demoHandler, demoFrame]) (by decide)⟩

/-- C3 as stated fails: with no point in the previous frame the point block is skipped and
both current points keep the sentinel ID -1. -/
theorem skipped_modality_keeps_sentinel :
    (f2fTracking demoConfig exactEnv noMatches blindHandler).map
        (fun r => r.handler.curr_frame.map (fun c => c.stereo_pt.map (fun f => f.idx)))
      = some (some [-1, -1]) := by decide!

end WitnessC3

section EvidenceC4

/-- C4 fails on the code: with `crowdedMatches` the pair `(0, 0)` is accepted, previous point 0
(ID 0) enters `matched_pt`, and the next iteration, which rejects the pair `(1, 0)`, overwrites
the ID of current point 0 with the fresh ID 2. -/
theorem accepted_id_overwritten :
    (f2fTracking demoConfig exactEnv crowdedMatches demoHandler).map
        (fun r => (r.accepted_pt, r.handler.matched_pt,
          r.handler.prev_frame.stereo_pt.map (fun f => f.idx),
          r.handler.curr_frame.map (fun c => c.stereo_pt.map (fun f => f.idx))))
      = some ([(0, 0)], [0], [0, 1], some [2, 3]) := by decide!

end EvidenceC4

section ClaimC5

variable {D : Type} [DoubleOps D]

/-- C5: across a call of `f2fTracking` neither `max_idx_pt` nor `max_idx_ls` decreases; the
values written from a counter are, in order, the consecutive integers from its value at entry
up to its value at exit minus one, so no value is written twice, and a later call, which starts
from a counter not below this exit value, writes none of them again. -/
theorem fresh_ids_consecutive (cfg : Config D) (env : Ext D) (km : KnnMatches D)
    (s : Handler D) (r : TrackResult D) (h : f2fTracking cfg env km s = some r) :
    s.max_idx_pt ≤ r.handler.max_idx_pt ∧ s.max_idx_ls ≤ r.handler.max_idx_ls ∧
    r.issued_pt = consecutive s.max_idx_pt (r.handler.max_idx_pt - s.max_idx_pt).toNat ∧
    r.issued_ls = consecutive s.max_idx_ls (r.handler.max_idx_ls - s.max_idx_ls).toNat ∧
    r.issued_pt.Nodup ∧ r.issued_ls.Nodup ∧
    (∀ (cfg' : Config D) (env' : Ext D) (km' : KnnMatches D) (s2 : Handler D)
        (r2 : TrackResult D), f2fTracking cfg' env' km' s2 = some r2 →
      (r.handler.max_idx_pt ≤ s2.max_idx_pt → ∀ v ∈ r.issued_pt, v ∉ r2.issued_pt) ∧
      (r.handler.max_idx_ls ≤ s2.max_idx_ls → ∀ v ∈ r.issued_ls, v ∉ r2.issued_ls)) := by
  obtain ⟨curr, pt, ls, -, hpt, hls, rfl⟩ := f2fTracking_eq_some h
  obtain ⟨p1, p2⟩ := pointHalf_issued hpt
  obtain ⟨l1, l2⟩ := lineHalf_issued hls
  refine ⟨p1, l1, p2, l2, ?_, ?_, ?_⟩
  · simp only; rw [p2]; exact consecutive_nodup _ _
  · simp only; rw [l2]; exact consecutive_nodup _ _
  · intro cfg' env' km' s2 r2 h2
    obtain ⟨curr', pt', ls', -, hpt', hls', rfl⟩ := f2fTracking_eq_some h2
    obtain ⟨p1', p2'⟩ := pointHalf_issued hpt'
    obtain ⟨l1', l2'⟩ := lineHalf_issued hls'
    constructor
    · intro hle v hv hv'
      simp only at hle hv hv'
      rw [p2] at hv
      rw [p2'] at hv'
      have a := mem_consecutive.mp hv
      have b := mem_consecutive.mp hv'
      omega
    · intro hle v hv hv'
      simp only at hle hv hv'
      rw [l2] at hv
      rw [l2'] at hv'
      have a := mem_consecutive.mp hv
      have b := mem_consecutive.mp hv'
      omega

end ClaimC5

section WitnessC5

theorem crowded_tracks :
    (f2fTracking demoConfig exactEnv crowdedMatches demoHandler).isSome = true := by decide!

/-- With `crowdedMatches` the call moves `max_idx_pt` from 2 to 4 and issues 2 and 3. -/
theorem fresh_ids_witness :
    ∃ r, f2fTracking demoConfig exactEnv crowdedMatches demoHandler = some r ∧
      r.handler.max_idx_pt = 4 ∧ r.issued_pt = consecutive 2 2 ∧ r.issued_pt.Nodup :=
  have e0 := (Option.some_get crowded_tracks).symm
  have T := fresh_ids_consecutive demoConfig exactEnv crowdedMatches demoHandler _ e0
  have hm : ((f2fTracking demoConfig exactEnv crowdedMatches demoHandler).get
      crowded_tracks).handler.max_idx_pt = 4 := by decide!
  ⟨_, e0, hm, by rw [T.2.2.1, hm]; rfl, T.2.2.2.2.1⟩

end WitnessC5

section ClaimC6

variable {D : Type} [DoubleOps D]

/-- C6: with `bestLRMatches`, every pair `(q, t)` accepted by `f2fTracking` has `t` as the first
match of `q` in the forward list, and, when the reverse list holds one entry per current-frame
feature, `q` as the first match of `t` in the reverse list: it is a mutual best match.  This
holds for points and for lines. -/
theorem accepted_are_mutual_best (cfg : Config D) (env : Ext D) (km : KnnMatches D)
    (s : Handler D) (r : TrackResult D) (hb : cfg.bestLRMatches = true)
    (h : f2fTracking cfg env km s = some r) :
    (OnePerQuery km.pmatches_21 → ∀ qt ∈ r.accepted_pt,
      FirstMatch km.pmatches_12 qt.1 qt.2 ∧ FirstMatch km.pmatches_21 qt.2 qt.1) ∧
    (OnePerQuery km.lmatches_21 → ∀ qt ∈ r.accepted_ls,
      FirstMatch km.lmatches_12 qt.1 qt.2 ∧ FirstMatch km.lmatches_21 qt.2 qt.1) := by
  obtain ⟨curr, pt, ls, -, hpt, hls, rfl⟩ := f2fTracking_eq_some h
  exact ⟨fun hp => pointHalf_mutual hpt hb hp, fun hl => lineHalf_mutual hls hb hl⟩

end ClaimC6

section WitnessC6

/-- On `demoHandler` the pairs `(0, 0)` and `(1, 1)` are accepted, and they are mutual best
matches. -/
theorem mutual_best_witness :
    ∃ r, f2fTracking demoConfig exactEnv demoMatches demoHandler = some r ∧
      r.accepted_pt = [(0, 0), (1, 1)] ∧
      ∀ qt ∈ r.accepted_pt,
        FirstMatch demoMatches.pmatches_12 qt.1 qt.2 ∧
          FirstMatch demoMatches.pmatches_21 qt.2 qt.1 :=
  have e0 := (Option.some_get demo_tracks).symm
  ⟨_, e0, by decide!,
    (accepted_are_mutual_best demoConfig exactEnv demoMatches demoHandler _ rfl e0).1
      (List.Perm.refl _)⟩

end WitnessC6

section ClaimC7

variable {D : Type} [DoubleOps D]

/-- C7: when `n_inliers <= Config::minFeatures()`, `optimizePose()` and `optimizePose(DT_ini)`
both store `curr_frame->DT = identity`, `curr_frame->DT_cov = zero` and
`curr_frame->Tfw = prev_frame->Tfw`, whatever the solver choice, `DT_ini`, the correspondence
sets and the uninitialised locals are; only `err_norm` depends on the uninitialised `err`.  The
arithmetic facts used are that the inverse of the identity is the identity and that
`prev_frame->Tfw * identity` is `prev_frame->Tfw`. -/
theorem insufficient_inliers_identity (cfg : Config D) (env : Ext D) (u : PoseUninit D)
    (s : Handler D) (DT_ini : Mat4 D) (curr : StereoFrame D)
    (hn : s.n_inliers ≤ cfg.minFeatures) (hc : s.curr_frame = some curr)
    (hI : env.inverse_transformation Mat4.identity = Mat4.identity)
    (hT : Mat4.mul s.prev_frame.Tfw Mat4.identity = s.prev_frame.Tfw) :
    ∃ e, (e = u.err ∨ e = lit (-1)) ∧
      optimizePose cfg env u s = some { s with
        curr_frame := some ({ curr with
          DT := Mat4.identity
          Tfw := s.prev_frame.Tfw
          DT_cov := Mat6.zero
          DT_cov_eig := env.eigenvalues Mat6.zero
          err_norm := e } : StereoFrame D) } ∧
      optimizePoseIni cfg env u s DT_ini = some { s with
        curr_frame := some ({ curr with
          DT := Mat4.identity
          Tfw := s.prev_frame.Tfw
          DT_cov := Mat6.zero
          DT_cov_eig := env.eigenvalues Mat6.zero
          err_norm := e } : StereoFrame D) } := by
  have hs : ∀ DT, optimizePoseSolve cfg env u s DT
      = some { handler := s, DT := Mat4.identity, DT_cov := Mat6.zero, DT_ := u.DT_,
               err := u.err } := by
    intro DT
    unfold optimizePoseSolve
    rw [if_neg (by omega)]
    rfl
  by_cases hacc : env.is_finite u.DT_ = true ∧ dlt u.err cfg.maxOptimError = true
  · refine ⟨u.err, Or.inl rfl, ?_, ?_⟩
    · simp only [optimizePose, hs, Option.bind_eq_bind, Option.some_bind]
      rw [optimizePoseStore_accept hc hacc.1 hacc.2]
      simp only [hI, hT]
    · simp only [optimizePoseIni, hs, Option.bind_eq_bind, Option.some_bind]
      rw [optimizePoseStore_accept hc hacc.1 hacc.2]
      simp only [hI, hT]
  · have hr : env.is_finite u.DT_ = false ∨ dlt u.err cfg.maxOptimError = false := by
      by_cases h1 : env.is_finite u.DT_ = true
      · right
        by_cases h2 : dlt u.err cfg.maxOptimError = true
        · exact absurd ⟨h1, h2⟩ hacc
        · simpa using h2
      · left
        simpa using h1
    refine ⟨lit (-1), Or.inr rfl, ?_, ?_⟩
    · simp only [optimizePose, hs, Option.bind_eq_bind, Option.some_bind]
      rw [optimizePoseStore_reject hc hr]
    · simp only [optimizePoseIni, hs, Option.bind_eq_bind, Option.some_bind]
      rw [optimizePoseStore_reject hc hr]

end ClaimC7

section WitnessC7

theorem exactInverse_identity :
    exactEnv.inverse_transformation Mat4.identity = (Mat4.identity : Mat4 ℚ) := by
  funext i j
  fin_cases i <;> fin_cases j <;> decide!

theorem demo_Tfw_identity :
    Mat4.mul demoHandler.prev_frame.Tfw Mat4.identity = demoHandler.prev_frame.Tfw := by
  funext i j
  fin_cases i <;> fin_cases j <;> decide!

/-- Before association `demoHandler` has `n_inliers = 0 <= 1 = minFeatures`: both overloads
store the identity, and here the error sentinel. -/
theorem insufficient_inliers_witness :
    ∃ curr e, demoHandler.curr_frame = some curr ∧
      optimizePose demoConfig exactEnv demoUninit demoHandler = some { demoHandler with
        curr_frame := some ({ curr with
          DT := Mat4.identity
          Tfw := demoHandler.prev_frame.Tfw
          DT_cov := Mat6.zero
          DT_cov_eig := exactEnv.eigenvalues Mat6.zero
          err_norm := e } : StereoFrame ℚ) } :=
  match insufficient_inliers_identity demoConfig exactEnv demoUninit demoHandler Mat4.identity
      _ (by decide) rfl exactInverse_identity demo_Tfw_identity with
  | ⟨e, _, h, _⟩ => ⟨_, e, rfl, h⟩

end WitnessC7

section PoseRuns

variable {D : Type} [DoubleOps D]

theorem RunsOptimizePose.stages {cfg : Config D} {env : Ext D} {u : PoseUninit D}
    {s s' : Handler D} {DT : Mat4 D} (h : RunsOptimizePose cfg env u s DT s') :
    ∃ l, optimizePoseSolve cfg env u s DT = some l ∧ optimizePoseStore cfg env l = some s' := by
  rcases h with ⟨rfl, h⟩ | h
  · simpa only [optimizePose, Option.bind_eq_bind, Option.bind_eq_some] using h
  · simpa only [optimizePoseIni, Option.bind_eq_bind, Option.bind_eq_some] using h

end PoseRuns

section ClaimC8

variable {D : Type} [DoubleOps D]

/-- C8 (amended): in either overload of `optimizePose`, when the first solver pass yields a
finite pose and `n_inliers` is still above `Config::minFeatures()` after `removeOutliers`, the
selected solver is run a second time for `Config::maxItersRef()` iterations on the filtered
handler with the initial pose `DT` (`prev_frame->DT` or `DT_ini`) as its starting pose; the pose
of the first pass only serves `removeOutliers` and the finiteness test. -/
theorem refinement_starts_from_initial (cfg : Config D) (env : Ext D) (u : PoseUninit D)
    (s s' : Handler D) (DT : Mat4 D) (r1 : SolverResult D) (s2 : Handler D)
    (hrun : RunsOptimizePose cfg env u s DT s')
    (hn : s.n_inliers > cfg.minFeatures)
    (hr1 : runSolver cfg env u.first s DT cfg.maxIters = some r1)
    (hfin : env.is_finite r1.DT = true)
    (hs2 : removeOutliers cfg env r1.handler r1.DT = some s2)
    (hn2 : s2.n_inliers > cfg.minFeatures) :
    ∃ r2, runSolver cfg env u.second s2 DT cfg.maxItersRef = some r2 ∧
      optimizePoseStore cfg env
        { handler := r2.handler, DT := r2.DT, DT_cov := r2.DT_cov, DT_ := r1.DT,
          err := r2.err_ } = some s' := by
  obtain ⟨l, hl, hstore⟩ := hrun.stages
  rcases optimizePoseSolve_cases hl with ⟨h0, -⟩ | ⟨-, r1', hr1', h⟩
  · omega
  · rw [hr1] at hr1'
    cases hr1'
    rcases h with ⟨hf, -⟩ | ⟨-, s2', hs2', h⟩
    · rw [hfin] at hf; cases hf
    · rw [hs2] at hs2'
      cases hs2'
      rcases h with ⟨h0, -⟩ | ⟨-, r2, hr2, rfl⟩
      · omega
      · exact ⟨r2, hr2, hstore⟩

end ClaimC8

section WitnessC8

theorem demo_pose_runs :
    (optimizePose demoConfig exactEnv demoUninit
      ((f2fTracking demoConfig exactEnv demoMatches demoHandler).get demo_tracks).handler).isSome
      = true := by decide!

theorem demo_first_pass :
    (runSolver demoConfig exactEnv demoUninit.first
      ((f2fTracking demoConfig exactEnv demoMatches demoHandler).get demo_tracks).handler
      ((f2fTracking demoConfig exactEnv demoMatches demoHandler).get
        demo_tracks).handler.prev_frame.DT demoConfig.maxIters).isSome = true := by decide!

theorem demo_first_filter :
    (removeOutliers demoConfig exactEnv
      ((runSolver demoConfig exactEnv demoUninit.first
        ((f2fTracking demoConfig exactEnv demoMatches demoHandler).get demo_tracks).handler
        ((f2fTracking demoConfig exactEnv demoMatches demoHandler).get
          demo_tracks).handler.prev_frame.DT demoConfig.maxIters).get demo_first_pass).handler
      ((runSolver demoConfig exactEnv demoUninit.first
        ((f2fTracking demoConfig exactEnv demoMatches demoHandler).get demo_tracks).handler
        ((f2fTracking demoConfig exactEnv demoMatches demoHandler).get
          demo_tracks).handler.prev_frame.DT demoConfig.maxIters).get demo_first_pass).DT).isSome
      = true := by decide!

/-- The cycle on `demoHandler` runs a refinement pass, from the initial pose. -/
theorem refinement_witness :
    ∃ t s' r1 s2 r2, f2fTracking demoConfig exactEnv demoMatches demoHandler = some t ∧
      optimizePose demoConfig exactEnv demoUninit t.handler = some s' ∧
      runSolver demoConfig exactEnv demoUninit.first t.handler t.handler.prev_frame.DT
        demoConfig.maxIters = some r1 ∧
      removeOutliers demoConfig exactEnv r1.handler r1.DT = some s2 ∧
      runSolver demoConfig exactEnv demoUninit.second s2 t.handler.prev_frame.DT
        demoConfig.maxItersRef = some r2 ∧
      optimizePoseStore demoConfig exactEnv
        { handler := r2.handler, DT := r2.DT, DT_cov := r2.DT_cov, DT_ := r1.DT,
          err := r2.err_ } = some s' :=
  have e0 := (Option.some_get demo_tracks).symm
  have e1 := (Option.some_get demo_pose_runs).symm
  have e2 := (Option.some_get demo_first_pass).symm
  have e3 := (Option.some_get demo_first_filter).symm
  match refinement_starts_from_initial demoConfig exactEnv demoUninit _ _ _ _ _
      (Or.inl ⟨rfl, e1⟩) (by decide!) e2 (by decide!) e3 (by decide!) with
  | ⟨r2, h2, h3⟩ => ⟨_, _, _, _, r2, e0, e1, e2, e3, h2, h3⟩

/-- C8 as stated fails: on the cycle of `demoHandler` the first pass is finite and both
correspondences stay inliers, yet the pose stored by `optimizePose` (x-translation -10) is not
the one obtained when the refinement starts from the pose of the first pass (x-translation 0). -/
theorem refinement_ignores_first_pass :
    ((f2fTracking demoConfig exactEnv demoMatches demoHandler).bind fun t =>
      (runSolver demoConfig exactEnv demoUninit.first t.handler t.handler.prev_frame.DT
        demoConfig.maxIters).bind fun r1 =>
      (removeOutliers demoConfig exactEnv r1.handler r1.DT).bind fun s2 =>
      (runSolver demoConfig exactEnv demoUninit.second s2 r1.DT
        demoConfig.maxItersRef).bind fun r2 =>
      (optimizePoseStore demoConfig exactEnv
        { handler := r2.handler, DT := r2.DT, DT_cov := r2.DT_cov, DT_ := r1.DT,
          err := r2.err_ }).bind fun fromFirstPass =>
      (optimizePose demoConfig exactEnv demoUninit t.handler).map fun stored =>
        (exactEnv.is_finite r1.DT, decide (s2.n_inliers > demoConfig.minFeatures),
          fromFirstPass.curr_frame.map (fun c => c.DT 0 3),
          stored.curr_frame.map (fun c => c.DT 0 3)))
      = some (true, true, some 0, some (-10)) := by decide!

end WitnessC8

section SolveCheck

/-- On the cycle of `demoHandler`, the increment that `exactSolve` returns solves `H x = g`,
both at the initial pose and at the pose of the first pass. -/
theorem demo_increments_solve :
    ((f2fTracking demoConfig exactEnv demoMatches demoHandler).bind fun t =>
      (optimizeFunctions demoConfig exactEnv t.handler t.handler.prev_frame.DT).bind fun a =>
      (runSolver demoConfig exactEnv demoUninit.first t.handler t.handler.prev_frame.DT
        demoConfig.maxIters).bind fun r1 =>
      (optimizeFunctions demoConfig exactEnv r1.handler r1.DT).map fun b =>
        (List.ofFn (exactSolve a.H a.g),
          decide (List.ofFn (Mat6.mulVec a.H (exactSolve a.H a.g)) = List.ofFn a.g),
          List.ofFn (exactSolve b.H b.g),
          decide (List.ofFn (Mat6.mulVec b.H (exactSolve b.H b.g)) = List.ofFn b.g)))
      = some ([-10, 5 / 4, 0, 0, 0, 0], true, [10, -5 / 4, 0, 0, 0, 0], true) := by decide!

end SolveCheck
section LastPass

variable {D : Type} [DoubleOps D]

theorem gnLoop_last_pass {cfg : Config D} {env : Ext D} (n : Nat) :
    ∀ (st st' : SolverState D), gnLoop cfg env (n + 1) st = some st' →
      ErrorPrecedesUpdate cfg env st'.err st'.DT := by
  induction n with
  | zero =>
    intro st st' h
    simp only [gnLoop, Option.bind_eq_bind, Option.bind_eq_some] at h
    obtain ⟨r, hr, h⟩ := h
    refine ⟨st.handler, st.DT, r, hr, ?_⟩
    split at h
    · cases h
      exact ⟨rfl, Or.inl rfl⟩
    · split at h
      · cases h
        exact ⟨rfl, Or.inr ⟨_, rfl⟩⟩
      · cases h
        exact ⟨rfl, Or.inr ⟨_, rfl⟩⟩
  | succ n ih =>
    intro st st' h
    rw [gnLoop] at h
    simp only [Option.bind_eq_bind, Option.bind_eq_some] at h
    obtain ⟨r, hr, h⟩ := h
    split at h
    · cases h
      exact ⟨st.handler, st.DT, r, hr, rfl, Or.inl rfl⟩
    · split at h
      · cases h
        exact ⟨st.handler, st.DT, r, hr, rfl, Or.inr ⟨_, rfl⟩⟩
      · exact ih _ _ h

theorem lmLoop_last_pass {cfg : Config D} {env : Ext D} (n : Nat) :
    ∀ (st st' : SolverState D), lmLoop cfg env (n + 1) st = some st' →
      ErrorPrecedesUpdate cfg env st'.err st'.DT := by
  have key : ∀ (st : SolverState D) (r : Residual D),
      (lmUpdate cfg env st r).DT = st.DT ∨
        ∃ inc, (lmUpdate cfg env st r).DT = updatedPose env st.DT inc := by
    intro st r
    by_cases hg : dgt r.e st.err_prev = true
    · left
      simp only [lmUpdate, hg, if_true]
    · right
      exact ⟨_, by simp only [lmUpdate, hg, updatedPose]; rfl⟩
  induction n with
  | zero =>
    intro st st' h
    simp only [lmLoop, Option.bind_eq_bind, Option.bind_eq_some] at h
    obtain ⟨r, hr, h⟩ := h
    refine ⟨st.handler, st.DT, r, hr, ?_⟩
    split at h
    · cases h
      exact ⟨rfl, Or.inl rfl⟩
    · split at h
      · cases h
        exact ⟨rfl, key st r⟩
      · cases h
        exact ⟨rfl, key st r⟩
  | succ n ih =>
    intro st st' h
    rw [lmLoop] at h
    simp only [Option.bind_eq_bind, Option.bind_eq_some] at h
    obtain ⟨r, hr, h⟩ := h
    split at h
    · cases h
      exact ⟨st.handler, st.DT, r, hr, rfl, Or.inl rfl⟩
    · split at h
      · cases h
        exact ⟨st.handler, st.DT, r, hr, rfl, key st r⟩
      · exact ih _ _ h

/-- A solver that makes at least one iteration hands back the error of its last residual pass,
made at the pose that its last update step, when there is one, starts from. -/
theorem runSolver_last_pass {cfg : Config D} {env : Ext D} {u : SolverUninit D} {s : Handler D}
    {DT : Mat4 D} {max_iters : Int} {r : SolverResult D}
    (h : runSolver cfg env u s DT max_iters = some r) (hpos : 0 < max_iters) :
    ErrorPrecedesUpdate cfg env r.err_ r.DT := by
  obtain ⟨n, hn⟩ : ∃ n : Nat, max_iters.toNat = n + 1 :=
    ⟨max_iters.toNat - 1, by omega⟩
  simp only [runSolver] at h
  split at h
  · simp only [levMarquardtOptimization, Option.bind_eq_bind, Option.bind_eq_some, hn,
      Option.pure_def, Option.some.injEq] at h
    obtain ⟨st, hst, rfl⟩ := h
    exact lmLoop_last_pass n _ _ hst
  · simp only [gaussNewtonOptimization, Option.bind_eq_bind, Option.bind_eq_some, hn,
      Option.pure_def, Option.some.injEq] at h
    obtain ⟨st, hst, rfl⟩ := h
    exact gnLoop_last_pass n _ _ hst

end LastPass

section ClaimC9

variable {D : Type} [DoubleOps D]

end ClaimC9

section WitnessC9

theorem demo_pose_solves :
    (optimizePoseSolve demoConfig exactEnv demoUninit
      ((f2fTracking demoConfig exactEnv demoMatches demoHandler).get demo_tracks).handler
      ((f2fTracking demoConfig exactEnv demoMatches demoHandler).get
        demo_tracks).handler.prev_frame.DT).isSome = true := by decide!

end WitnessC9

section Rejections

variable {D : Type} [DoubleOps D]

/-- The rejections that the test of line 296 makes: in every run of `optimizePose` (either
overload), when the pose of the first solver pass is not finite, or the local `DT_` is not
finite, or the final error `err` is not below `Config::maxOptimError()`, the current frame
receives `DT = identity`, `DT_cov = zero`, `Tfw = prev_frame->Tfw` and `err_norm = -1.0`. -/
theorem rejected_estimate (cfg : Config D) (env : Ext D) (u : PoseUninit D)
    (s s' : Handler D) (DT : Mat4 D) (l : PoseLocals D)
    (hrun : RunsOptimizePose cfg env u s DT s')
    (hl : optimizePoseSolve cfg env u s DT = some l) :
    ∃ c, s'.curr_frame = some c ∧
      (∀ r1, s.n_inliers > cfg.minFeatures →
        runSolver cfg env u.first s DT cfg.maxIters = some r1 →
        env.is_finite r1.DT = false → StoresFallback s.prev_frame.Tfw c) ∧
      (env.is_finite l.DT_ = false → StoresFallback s.prev_frame.Tfw c) ∧
      (dlt l.err cfg.maxOptimError = false → StoresFallback s.prev_frame.Tfw c) := by
  obtain ⟨l', hl', hstore⟩ := hrun.stages
  rw [hl] at hl'
  cases hl'
  obtain ⟨curr, hc⟩ := optimizePoseStore_curr hstore
  have hTfw := (optimizePoseSolve_frame hl).2
  have key : (env.is_finite l.DT_ = false ∨ dlt l.err cfg.maxOptimError = false) →
      ∃ c, s'.curr_frame = some c ∧ StoresFallback s.prev_frame.Tfw c := by
    intro hr
    rw [optimizePoseStore_reject hc hr] at hstore
    cases hstore
    exact ⟨_, rfl, rfl, rfl, hTfw, rfl⟩
  obtain ⟨c, hcs⟩ : ∃ c, s'.curr_frame = some c := by
    simp only [optimizePoseStore, Option.bind_eq_bind, Option.bind_eq_some] at hstore
    obtain ⟨curr', -, hstore⟩ := hstore
    split at hstore <;>
    · simp only [Option.pure_def, Option.some.injEq] at hstore
      subst hstore
      exact ⟨_, rfl⟩
  have key' : (env.is_finite l.DT_ = false ∨ dlt l.err cfg.maxOptimError = false) →
      StoresFallback s.prev_frame.Tfw c := by
    intro hr
    obtain ⟨c', hc', hf⟩ := key hr
    rw [hcs] at hc'
    cases hc'
    exact hf
  refine ⟨c, hcs, ?_, fun h => key' (Or.inl h), fun h => key' (Or.inr h)⟩
  intro r1 hn hr1 hfin
  apply key'
  left
  rcases optimizePoseSolve_cases hl with ⟨h0, -⟩ | ⟨-, r1', hr1', h⟩
  · omega
  · rw [hr1] at hr1'
    cases hr1'
    rcases h with ⟨-, rfl⟩ | ⟨hf, -⟩
    · exact hfin
    · rw [hfin] at hf; cases hf

end Rejections

section RejectionExample

theorem strict_pose_runs :
    (optimizePose strictConfig exactEnv demoUninit
      ((f2fTracking demoConfig exactEnv demoMatches demoHandler).get demo_tracks).handler).isSome
      = true := by decide!

theorem strict_pose_solves :
    (optimizePoseSolve strictConfig exactEnv demoUninit
      ((f2fTracking demoConfig exactEnv demoMatches demoHandler).get demo_tracks).handler
      ((f2fTracking demoConfig exactEnv demoMatches demoHandler).get
        demo_tracks).handler.prev_frame.DT).isSome = true := by decide!

/-- With the ceiling 50 the cycle on `demoHandler`, whose final error is 125/2, is rejected and
the fallback is stored. -/
theorem rejected_estimate_witness :
    ∃ t s' c, f2fTracking demoConfig exactEnv demoMatches demoHandler = some t ∧
      optimizePose strictConfig exactEnv demoUninit t.handler = some s' ∧
      s'.curr_frame = some c ∧ StoresFallback t.handler.prev_frame.Tfw c :=
  have e0 := (Option.some_get demo_tracks).symm
  have e1 := (Option.some_get strict_pose_runs).symm
  have e2 := (Option.some_get strict_pose_solves).symm
  match rejected_estimate strictConfig exactEnv demoUninit _ _ _ _ (Or.inl ⟨rfl, e1⟩) e2 with
  | ⟨c, hc, _, _, herr⟩ => ⟨_, _, c, e0, e1, hc, herr (by decide!)⟩

end RejectionExample

section ClaimC10

variable {D : Type} [DoubleOps D]

end ClaimC10

section WitnessC10

theorem drift_tracks :
    (f2fTracking zeroFloor dblEnv stillMatches driftHandler).isSome = true := by decide!

theorem drift_pose_runs :
    (optimizePose zeroFloor dblEnv dblUninit
      ((f2fTracking zeroFloor dblEnv stillMatches driftHandler).get drift_tracks).handler).isSome
      = true := by decide!

theorem drift_first_pass :
    (runSolver zeroFloor dblEnv dblUninit.first
      ((f2fTracking zeroFloor dblEnv stillMatches driftHandler).get drift_tracks).handler
      ((f2fTracking zeroFloor dblEnv stillMatches driftHandler).get
        drift_tracks).handler.prev_frame.DT zeroFloor.maxIters).isSome = true := by decide!

theorem drift_filter :
    (removeOutliers zeroFloor dblEnv
      ((runSolver zeroFloor dblEnv dblUninit.first
        ((f2fTracking zeroFloor dblEnv stillMatches driftHandler).get drift_tracks).handler
        ((f2fTracking zeroFloor dblEnv stillMatches driftHandler).get
          drift_tracks).handler.prev_frame.DT zeroFloor.maxIters).get drift_first_pass).handler
      ((runSolver zeroFloor dblEnv dblUninit.first
        ((f2fTracking zeroFloor dblEnv stillMatches driftHandler).get drift_tracks).handler
        ((f2fTracking zeroFloor dblEnv stillMatches driftHandler).get
          drift_tracks).handler.prev_frame.DT zeroFloor.maxIters).get drift_first_pass).DT).isSome
      = true := by decide!

theorem drift_refinement :
    (runSolver zeroFloor dblEnv dblUninit.second
      ((removeOutliers zeroFloor dblEnv
        ((runSolver zeroFloor dblEnv dblUninit.first
          ((f2fTracking zeroFloor dblEnv stillMatches driftHandler).get drift_tracks).handler
          ((f2fTracking zeroFloor dblEnv stillMatches driftHandler).get
            drift_tracks).handler.prev_frame.DT zeroFloor.maxIters).get drift_first_pass).handler
        ((runSolver zeroFloor dblEnv dblUninit.first
          ((f2fTracking zeroFloor dblEnv stillMatches driftHandler).get drift_tracks).handler
          ((f2fTracking zeroFloor dblEnv stillMatches driftHandler).get
            drift_tracks).handler.prev_frame.DT zeroFloor.maxIters).get drift_first_pass).DT).get
        drift_filter)
      ((f2fTracking zeroFloor dblEnv stillMatches driftHandler).get
        drift_tracks).handler.prev_frame.DT zeroFloor.maxItersRef).isSome = true := by decide!

end WitnessC10

section ClaimC11

variable {D : Type} [DoubleOps D]

theorem countP_and_of_imp {l : List Nat} {p f : Nat → Bool}
    (h : ∀ q ∈ l, p q = true → f q = true) :
    l.countP (fun q => f q && p q) = l.countP p := by
  apply List.countP_congr
  intro q hq
  by_cases hp : p q = true
  · simp [hp, h q hq hp]
  · simp [hp]

/-- C11 (amended): `removeOutliers` removes no entry from `matched_pt` or `matched_ls`; it sets
`inlier = false` on each entry whose recomputed residual magnitude exceeds `Config::inlierK()`
times the MAD of its modality's residual magnitudes and leaves the other flags as they are; it
lowers `n_inliers_pt` (resp. `n_inliers_ls`) and `n_inliers` by the number of point (resp. line)
entries over the threshold, whether their flag was true or already false.  When every entry over
the threshold is flagged on entry, that number is the number of entries whose flag flips from
true to false; a single entry over the threshold lowers its modality counter and the total by
exactly one. -/
theorem outliers_lower_counters (cfg : Config D) (env : Ext D) (s s' : Handler D) (DT : Mat4 D)
    (h : removeOutliers cfg env s DT = some s') :
    (s'.matched_pt = s.matched_pt ∧ s'.matched_ls = s.matched_ls) ∧
    (∀ q ∈ s.matched_pt, ptFlag s'.prev_frame.stereo_pt q =
      (ptFlag s.prev_frame.stereo_pt q && !ptExceeds cfg env s DT q)) ∧
    (∀ q ∈ s.matched_ls, lsFlag s'.prev_frame.stereo_ls q =
      (lsFlag s.prev_frame.stereo_ls q && !lsExceeds cfg env s DT q)) ∧
    (s'.n_inliers_pt = s.n_inliers_pt - (s.matched_pt.countP (ptExceeds cfg env s DT) : Nat) ∧
      s'.n_inliers_ls = s.n_inliers_ls - (s.matched_ls.countP (lsExceeds cfg env s DT) : Nat) ∧
      s'.n_inliers = s.n_inliers - (s.matched_pt.countP (ptExceeds cfg env s DT) : Nat)
        - (s.matched_ls.countP (lsExceeds cfg env s DT) : Nat)) ∧
    ((∀ q ∈ s.matched_pt, ptExceeds cfg env s DT q = true →
        ptFlag s.prev_frame.stereo_pt q = true) →
      s.matched_pt.countP (ptExceeds cfg env s DT) = flippedPt s s') ∧
    ((∀ q ∈ s.matched_ls, lsExceeds cfg env s DT q = true →
        lsFlag s.prev_frame.stereo_ls q = true) →
      s.matched_ls.countP (lsExceeds cfg env s DT) = flippedLs s s') ∧
    (s.matched_pt.countP (ptExceeds cfg env s DT) = 1 →
      s.matched_ls.countP (lsExceeds cfg env s DT) = 0 →
      s'.n_inliers_pt = s.n_inliers_pt - 1 ∧ s'.n_inliers_ls = s.n_inliers_ls ∧
        s'.n_inliers = s.n_inliers - 1) ∧
    (s.matched_pt.countP (ptExceeds cfg env s DT) = 0 →
      s.matched_ls.countP (lsExceeds cfg env s DT) = 1 →
      s'.n_inliers_pt = s.n_inliers_pt ∧ s'.n_inliers_ls = s.n_inliers_ls - 1 ∧
        s'.n_inliers = s.n_inliers - 1) := by
  obtain ⟨e1, e2, e3, ⟨pts, lns, e4⟩, e5, e6⟩ := removeOutliers_spec h
  have fp : ∀ q ∈ s.matched_pt, ptFlag s'.prev_frame.stereo_pt q =
      (ptFlag s.prev_frame.stereo_pt q && !ptExceeds cfg env s DT q) := by
    intro q hq
    apply Bool.eq_iff_iff.mpr
    rw [e5 q]
    simp [hq]
  have fl : ∀ q ∈ s.matched_ls, lsFlag s'.prev_frame.stereo_ls q =
      (lsFlag s.prev_frame.stereo_ls q && !lsExceeds cfg env s DT q) := by
    intro q hq
    apply Bool.eq_iff_iff.mpr
    rw [e6 q]
    simp [hq]
  refine ⟨⟨by rw [e4], by rw [e4]⟩, fp, fl, ⟨e2, e3, e1⟩, ?_, ?_, ?_, ?_⟩
  · intro hf
    unfold flippedPt
    rw [← countP_and_of_imp hf]
    apply List.countP_congr
    intro q hq
    rw [fp q hq]
    cases ptFlag s.prev_frame.stereo_pt q <;> cases ptExceeds cfg env s DT q <;> simp
  · intro hf
    unfold flippedLs
    rw [← countP_and_of_imp hf]
    apply List.countP_congr
    intro q hq
    rw [fl q hq]
    cases lsFlag s.prev_frame.stereo_ls q <;> cases lsExceeds cfg env s DT q <;> simp
  · intro hp hl
    rw [hp] at e1 e2
    rw [hl] at e1 e3
    refine ⟨by simpa using e2, by simpa using e3, by simpa using e1⟩
  · intro hp hl
    rw [hp] at e1 e2
    rw [hl] at e1 e3
    refine ⟨by simpa using e2, by simpa using e3, by simpa using e1⟩

end ClaimC11

section WitnessC11

/-- On `demoHandler`, association followed by outlier filtering at the identity pose: no entry
is over the threshold, the sets and the counters are unchanged. -/
theorem outliers_lower_counters_witness :
    ∃ r s', f2fTracking demoConfig exactEnv demoMatches demoHandler = some r ∧
      removeOutliers demoConfig exactEnv r.handler Mat4.identity = some s' ∧
      s'.matched_pt = r.handler.matched_pt ∧
      s'.n_inliers_pt = r.handler.n_inliers_pt
        - (r.handler.matched_pt.countP (ptExceeds demoConfig exactEnv r.handler Mat4.identity) : Nat) :=
  have e0 := (Option.some_get demo_tracks).symm
  have e1 := (Option.some_get demo_filters_tracked).symm
  have T := outliers_lower_counters demoConfig exactEnv _ _ _ e1
  ⟨_, _, e0, e1, T.1.1, T.2.2.2.1.1⟩

/-- C11 as stated fails: on `tripleHandler` the residual pass at the identity clears the flag of
the unmoved point (its residual is zero); `removeOutliers` at `shiftPose` then finds that entry
over the threshold and lowers `n_inliers_pt` and `n_inliers` from 3 to 2, although it flips no
flag from true to false. -/
theorem outlier_counter_without_flip :
    ((f2fTracking demoConfig exactEnv tripleMatches tripleHandler).bind fun t =>
      (optimizeFunctions_nonweighted demoConfig exactEnv t.handler Mat4.identity).bind fun p =>
      (removeOutliers demoConfig exactEnv p.handler shiftPose).map fun s' =>
        (p.handler.matched_pt.map (ptFlag p.handler.prev_frame.stereo_pt),
         s'.matched_pt.map (ptFlag s'.prev_frame.stereo_pt),
         flippedPt p.handler s',
         [p.handler.n_inliers_pt, s'.n_inliers_pt, p.handler.n_inliers, s'.n_inliers]))
      = some ([false, true, true], [false, true, true], 0, [3, 2, 3, 2]) := by decide!

end WitnessC11

section DegenerateLemmas

variable {D : Type} [DoubleOps D]

/-- The two branches of a point step that add nothing: the entry is not flagged, or its residual
is not above `homogTh`. -/
theorem nwPointStep_degenerate {cfg : Config D} {env : Ext D} {DT : Mat4 D} {acc acc' : PtAcc D}
    {q : Nat} (h : nwPointStep cfg env DT acc q = some acc') :
    ∃ it, acc.stereo_pt[q]? = some it ∧ (it.inlier = false → acc' = acc) ∧
      (it.inlier = true → dgt (norm2 (pointResidual env DT it)) cfg.homogTh = false →
        acc' = { acc with stereo_pt := acc.stereo_pt.set q { it with inlier := false } }) := by
  simp only [nwPointStep, Option.bind_eq_bind, Option.bind_eq_some] at h
  obtain ⟨it, hit, h⟩ := h
  refine ⟨it, hit, ?_, ?_⟩
  · intro hi
    simp only [hi, Bool.false_eq_true, if_false, Option.pure_def, Option.some.injEq] at h
    exact h.symm
  · intro hi hd
    simp only [hi, hd, if_true, Bool.false_eq_true, if_false, Option.pure_def,
      Option.some.injEq] at h
    exact h.symm

theorem uncPointStep_degenerate {cfg : Config D} {env : Ext D} {DT : Mat4 D} {acc acc' : PtAcc D}
    {q : Nat} (h : uncPointStep cfg env DT acc q = some acc') :
    ∃ it, acc.stereo_pt[q]? = some it ∧ (it.inlier = false → acc' = acc) ∧
      (it.inlier = true → dgt (norm2 (pointResidual env DT it)) cfg.homogTh = false →
        acc' = { acc with stereo_pt := acc.stereo_pt.set q { it with inlier := false } }) := by
  simp only [uncPointStep, Option.bind_eq_bind, Option.bind_eq_some] at h
  obtain ⟨it, hit, h⟩ := h
  refine ⟨it, hit, ?_, ?_⟩
  · intro hi
    simp only [hi, Bool.false_eq_true, if_false, Option.pure_def, Option.some.injEq] at h
    exact h.symm
  · intro hi hd
    simp only [hi, hd, if_true, Bool.false_eq_true, if_false, Option.pure_def,
      Option.some.injEq] at h
    exact h.symm

theorem nwLineStep_degenerate {cfg : Config D} {env : Ext D} {DT : Mat4 D} {acc acc' : LsAcc D}
    {q : Nat} (h : nwLineStep cfg env DT acc q = some acc') :
    ∃ it, acc.stereo_ls[q]? = some it ∧ (it.inlier = false → acc' = acc) ∧
      (it.inlier = true → dgt (norm2 (lineResidual env DT it)) cfg.homogTh = false →
        acc' = { acc with stereo_ls := acc.stereo_ls.set q { it with inlier := false } }) := by
  simp only [nwLineStep, Option.bind_eq_bind, Option.bind_eq_some] at h
  obtain ⟨it, hit, h⟩ := h
  refine ⟨it, hit, ?_, ?_⟩
  · intro hi
    simp only [hi, Bool.false_eq_true, if_false, Option.pure_def, Option.some.injEq] at h
    exact h.symm
  · intro hi hd
    simp only [hi, hd, if_true, Bool.false_eq_true, if_false, Option.pure_def,
      Option.some.injEq] at h
    exact h.symm

theorem uncLineStep_degenerate {cfg : Config D} {env : Ext D} {DT : Mat4 D} {acc acc' : LsAcc D}
    {q : Nat} (h : uncLineStep cfg env DT acc q = some acc') :
    ∃ it, acc.stereo_ls[q]? = some it ∧ (it.inlier = false → acc' = acc) ∧
      (it.inlier = true → dgt (norm2 (lineResidual env DT it)) cfg.homogTh = false →
        acc' = { acc with stereo_ls := acc.stereo_ls.set q { it with inlier := false } }) := by
  simp only [uncLineStep, Option.bind_eq_bind, Option.bind_eq_some] at h
  obtain ⟨it, hit, h⟩ := h
  refine ⟨it, hit, ?_, ?_⟩
  · intro hi
    simp only [hi, Bool.false_eq_true, if_false, Option.pure_def, Option.some.injEq] at h
    exact h.symm
  · intro hi hd
    simp only [hi, hd, if_true, Bool.false_eq_true, if_false, Option.pure_def,
      Option.some.injEq] at h
    exact h.symm

/-- A point loop over entries that are all unflagged or degenerate: the accumulators keep their
values, every entry ends unflagged and no flag is raised. -/
theorem forMatched_pt_degenerate {cfg : Config D} {env : Ext D} {DT : Mat4 D}
    {step : PtAcc D → Nat → Option (PtAcc D)}
    (hstep : ∀ acc q acc', step acc q = some acc' →
      ∃ it, acc.stereo_pt[q]? = some it ∧ (it.inlier = false → acc' = acc) ∧
        (it.inlier = true → dgt (norm2 (pointResidual env DT it)) cfg.homogTh = false →
          acc' = { acc with stereo_pt := acc.stereo_pt.set q { it with inlier := false } }))
    (pts0 : List (PointFeature D)) :
    ∀ (qs : List Nat) (acc acc' : PtAcc D), forMatched step qs acc = some acc' →
      (∀ q ∈ qs, ptFlag pts0 q = true → dgt (ptResidualNorm env DT pts0 q) cfg.homogTh = false) →
      (∀ q : Nat, acc.stereo_pt[q]? = pts0[q]? ∨
        ∃ it : PointFeature D, pts0[q]? = some it ∧
          acc.stereo_pt[q]? = some { it with inlier := false }) →
      acc' = { acc with stereo_pt := acc'.stereo_pt } ∧
      (∀ q ∈ qs, ptFlag acc'.stereo_pt q = false) ∧
      (∀ q, ptFlag acc'.stereo_pt q = true → ptFlag acc.stereo_pt q = true) := by
  intro qs
  induction qs with
  | nil =>
    intro acc acc' h _ _
    simp only [forMatched, Option.some.injEq] at h
    subst h
    exact ⟨rfl, by simp, fun _ hq => hq⟩
  | cons q qs ih =>
    intro acc acc' h hdeg hinv
    simp only [forMatched, Option.bind_eq_bind, Option.bind_eq_some] at h
    obtain ⟨acc1, h1, h2⟩ := h
    obtain ⟨it, hit, hA, hB⟩ := hstep _ _ _ h1
    have key : (acc1 = acc ∧ it.inlier = false) ∨
        (acc1 = { acc with stereo_pt := acc.stereo_pt.set q { it with inlier := false } } ∧
          pts0[q]? = some it) := by
      cases hi : it.inlier with
      | false => exact Or.inl ⟨hA hi, rfl⟩
      | true =>
        rcases hinv q with e | ⟨it0, -, e⟩
        · rw [hit] at e
          have hf : ptFlag pts0 q = true := by simp [ptFlag, ← e, hi]
          have hd := hdeg q (List.mem_cons_self _ _) hf
          simp only [ptResidualNorm, ← e] at hd
          exact Or.inr ⟨hB hi hd, e.symm⟩
        · rw [hit] at e
          cases e
          cases hi
    have hinv1 : ∀ q' : Nat, acc1.stereo_pt[q']? = pts0[q']? ∨
        ∃ it : PointFeature D, pts0[q']? = some it ∧
          acc1.stereo_pt[q']? = some { it with inlier := false } := by
      rcases key with ⟨e, -⟩ | ⟨e, e0⟩
      · rw [e]; exact hinv
      · intro q'
        rw [e]
        simp only [List.getElem?_set]
        by_cases hq : q = q'
        · subst hq
          have hlt : q < acc.stereo_pt.length := (List.getElem?_eq_some.mp hit).1
          exact Or.inr ⟨it, e0, by simp [hlt]⟩
        · simp only [hq, if_false]
          exact hinv q'
    have hflag1 : ptFlag acc1.stereo_pt q = false := by
      rcases key with ⟨e, hi⟩ | ⟨e, -⟩
      · rw [e]; simp [ptFlag, hit, hi]
      · rw [e]
        have hlt : q < acc.stereo_pt.length := (List.getElem?_eq_some.mp hit).1
        simp [ptFlag, List.getElem?_set, hlt]
    have hlow1 : ∀ q', ptFlag acc1.stereo_pt q' = true → ptFlag acc.stereo_pt q' = true := by
      rcases key with ⟨e, -⟩ | ⟨e, -⟩
      · rw [e]; exact fun _ hq => hq
      · rw [e]; exact fun q' hq' => ptFlag_set_false rfl q' hq'
    have hacc1 : acc1 = { acc with stereo_pt := acc1.stereo_pt } := by
      rcases key with ⟨e, -⟩ | ⟨e, -⟩ <;> rw [e]
    obtain ⟨r1, r2, r3⟩ := ih acc1 acc' h2
      (fun q' hq' => hdeg q' (List.mem_cons_of_mem _ hq')) hinv1
    refine ⟨?_, ?_, fun q' hq' => hlow1 q' (r3 q' hq')⟩
    · rw [r1, hacc1]
    · intro q' hq'
      simp only [List.mem_cons] at hq'
      rcases hq' with rfl | hq'
      · cases hf : ptFlag acc'.stereo_pt q' with
        | false => rfl
        | true => rw [r3 q' hf] at hflag1; cases hflag1
      · exact r2 q' hq'

/-- A line loop over entries that are all unflagged or degenerate. -/
theorem forMatched_ls_degenerate {cfg : Config D} {env : Ext D} {DT : Mat4 D}
    {step : LsAcc D → Nat → Option (LsAcc D)}
    (hstep : ∀ acc q acc', step acc q = some acc' →
      ∃ it, acc.stereo_ls[q]? = some it ∧ (it.inlier = false → acc' = acc) ∧
        (it.inlier = true → dgt (norm2 (lineResidual env DT it)) cfg.homogTh = false →
          acc' = { acc with stereo_ls := acc.stereo_ls.set q { it with inlier := false } }))
    (lns0 : List (LineFeature D)) :
    ∀ (qs : List Nat) (acc acc' : LsAcc D), forMatched step qs acc = some acc' →
      (∀ q ∈ qs, lsFlag lns0 q = true → dgt (lsResidualNorm env DT lns0 q) cfg.homogTh = false) →
      (∀ q : Nat, acc.stereo_ls[q]? = lns0[q]? ∨
        ∃ it : LineFeature D, lns0[q]? = some it ∧
          acc.stereo_ls[q]? = some { it with inlier := false }) →
      acc' = { acc with stereo_ls := acc'.stereo_ls } ∧
      (∀ q ∈ qs, lsFlag acc'.stereo_ls q = false) ∧
      (∀ q, lsFlag acc'.stereo_ls q = true → lsFlag acc.stereo_ls q = true) := by
  intro qs
  induction qs with
  | nil =>
    intro acc acc' h _ _
    simp only [forMatched, Option.some.injEq] at h
    subst h
    exact ⟨rfl, by simp, fun _ hq => hq⟩
  | cons q qs ih =>
    intro acc acc' h hdeg hinv
    simp only [forMatched, Option.bind_eq_bind, Option.bind_eq_some] at h
    obtain ⟨acc1, h1, h2⟩ := h
    obtain ⟨it, hit, hA, hB⟩ := hstep _ _ _ h1
    have key : (acc1 = acc ∧ it.inlier = false) ∨
        (acc1 = { acc with stereo_ls := acc.stereo_ls.set q { it with inlier := false } } ∧
          lns0[q]? = some it) := by
      cases hi : it.inlier with
      | false => exact Or.inl ⟨hA hi, rfl⟩
      | true =>
        rcases hinv q with e | ⟨it0, -, e⟩
        · rw [hit] at e
          have hf : lsFlag lns0 q = true := by simp [lsFlag, ← e, hi]
          have hd := hdeg q (List.mem_cons_self _ _) hf
          simp only [lsResidualNorm, ← e] at hd
          exact Or.inr ⟨hB hi hd, e.symm⟩
        · rw [hit] at e
          cases e
          cases hi
    have hinv1 : ∀ q' : Nat, acc1.stereo_ls[q']? = lns0[q']? ∨
        ∃ it : LineFeature D, lns0[q']? = some it ∧
          acc1.stereo_ls[q']? = some { it with inlier := false } := by
      rcases key with ⟨e, -⟩ | ⟨e, e0⟩
      · rw [e]; exact hinv
      · intro q'
        rw [e]
        simp only [List.getElem?_set]
        by_cases hq : q = q'
        · subst hq
          have hlt : q < acc.stereo_ls.length := (List.getElem?_eq_some.mp hit).1
          exact Or.inr ⟨it, e0, by simp [hlt]⟩
        · simp only [hq, if_false]
          exact hinv q'
    have hflag1 : lsFlag acc1.stereo_ls q = false := by
      rcases key with ⟨e, hi⟩ | ⟨e, -⟩
      · rw [e]; simp [lsFlag, hit, hi]
      · rw [e]
        have hlt : q < acc.stereo_ls.length := (List.getElem?_eq_some.mp hit).1
        simp [lsFlag, List.getElem?_set, hlt]
    have hlow1 : ∀ q', lsFlag acc1.stereo_ls q' = true → lsFlag acc.stereo_ls q' = true := by
      rcases key with ⟨e, -⟩ | ⟨e, -⟩
      · rw [e]; exact fun _ hq => hq
      · rw [e]; exact fun q' hq' => lsFlag_set_false rfl q' hq'
    have hacc1 : acc1 = { acc with stereo_ls := acc1.stereo_ls } := by
      rcases key with ⟨e, -⟩ | ⟨e, -⟩ <;> rw [e]
    obtain ⟨r1, r2, r3⟩ := ih acc1 acc' h2
      (fun q' hq' => hdeg q' (List.mem_cons_of_mem _ hq')) hinv1
    refine ⟨?_, ?_, fun q' hq' => hlow1 q' (r3 q' hq')⟩
    · rw [r1, hacc1]
    · intro q' hq'
      simp only [List.mem_cons] at hq'
      rcases hq' with rfl | hq'
      · cases hf : lsFlag acc'.stereo_ls q' with
        | false => rfl
        | true => rw [r3 q' hf] at hflag1; cases hflag1
      · exact r2 q' hq'

end DegenerateLemmas

section CombineLemmas

variable {D : Type} [DoubleOps D]

theorem residualPass_eq {cfg : Config D} {env : Ext D} {s : Handler D} {DT : Mat4 D}
    {unc : Bool} {r : Residual D} (h : residualPass cfg env s DT unc = some r) :
    ∃ p l, pointSums cfg env s DT unc = some p ∧ lineSums cfg env s DT unc = some l ∧
      combineResiduals cfg env s p l = some r := by
  cases unc with
  | false =>
    simp only [residualPass, Bool.false_eq_true, if_false, optimizeFunctions_nonweighted,
      Option.bind_eq_bind, Option.bind_eq_some] at h
    obtain ⟨p, hp, l, hl, h⟩ := h
    exact ⟨p, l, by simpa [pointSums] using hp, by simpa [lineSums] using hl, h⟩
  | true =>
    simp only [residualPass, if_true, optimizeFunctions_uncweighted,
      Option.bind_eq_bind, Option.bind_eq_some] at h
    obtain ⟨p, hp, l, hl, h⟩ := h
    exact ⟨p, l, by simpa [pointSums] using hp, by simpa [lineSums] using hl, h⟩

/-- What "sum H, g and err from both points and lines" and "normalize error" compute. -/
theorem combineResiduals_eq {cfg : Config D} {env : Ext D} {s : Handler D} {p : PtAcc D}
    {l : LsAcc D} {r : Residual D} (h : combineResiduals cfg env s p l = some r) :
    r.N_p = p.N_p ∧ r.N_l = l.N_l ∧
    (balancingApplies cfg env p.r_p l.r_l = true →
      r.H = Mat6.add
          (Mat6.smul p.H_p (pointScale (env.vector_stdv_mad p.r_p) (env.vector_stdv_mad l.r_l)))
          (Mat6.smul l.H_l (lineScale (env.vector_stdv_mad p.r_p) (env.vector_stdv_mad l.r_l))) ∧
      r.g = Vec6.add
          (Vec6.smul p.g_p (pointScale (env.vector_stdv_mad p.r_p) (env.vector_stdv_mad l.r_l)))
          (Vec6.smul l.g_l (lineScale (env.vector_stdv_mad p.r_p) (env.vector_stdv_mad l.r_l))) ∧
      r.e = (p.e_p * pointScale (env.vector_stdv_mad p.r_p) (env.vector_stdv_mad l.r_l)
          + l.e_l * lineScale (env.vector_stdv_mad p.r_p) (env.vector_stdv_mad l.r_l))
        / lit ((l.N_l + p.N_p : Int) : ℚ)) ∧
    (balancingApplies cfg env p.r_p l.r_l = false →
      r.H = Mat6.add p.H_p l.H_l ∧ r.g = Vec6.add p.g_p l.g_l ∧
      r.e = (p.e_p + l.e_l) / lit ((l.N_l + p.N_p : Int) : ℚ)) := by
  simp only [combineResiduals, Option.bind_eq_bind, Option.bind_eq_some, Option.pure_def] at h
  obtain ⟨N, hN, h⟩ := h
  have := checkedInt_eq_some hN
  subst this
  split at h
  · rename_i hb
    cases h
    refine ⟨rfl, rfl, fun _ => ⟨rfl, rfl, rfl⟩, fun hb' => ?_⟩
    rw [balancingApplies, hb] at hb'
    cases hb'
  · rename_i hb
    cases h
    refine ⟨rfl, rfl, fun hb' => ?_, fun _ => ⟨rfl, rfl, rfl⟩⟩
    rw [balancingApplies] at hb'
    exact absurd hb' hb

/-- A residual pass over correspondence sets whose flagged entries all have a residual that is
not above `homogTh`: every entry ends unflagged, nothing is added to the accumulators, and the
error is a quotient by `N_l + N_p = 0`. -/
theorem degenerate_pass {cfg : Config D} {env : Ext D} {s : Handler D} {DT : Mat4 D}
    {unc : Bool} {r : Residual D} (h : residualPass cfg env s DT unc = some r)
    (hp : ∀ q ∈ s.matched_pt, ptFlag s.prev_frame.stereo_pt q = true →
      dgt (ptResidualNorm env DT s.prev_frame.stereo_pt q) cfg.homogTh = false)
    (hl : ∀ q ∈ s.matched_ls, lsFlag s.prev_frame.stereo_ls q = true →
      dgt (lsResidualNorm env DT s.prev_frame.stereo_ls q) cfg.homogTh = false) :
    (∀ q ∈ s.matched_pt, ptFlag r.handler.prev_frame.stereo_pt q = false) ∧
    (∀ q ∈ s.matched_ls, lsFlag r.handler.prev_frame.stereo_ls q = false) ∧
    (∃ p l, pointSums cfg env s DT unc = some p ∧ lineSums cfg env s DT unc = some l ∧
      p.H_p = Mat6.zero ∧ p.g_p = Vec6.zero ∧ p.e_p = lit 0 ∧
      l.H_l = Mat6.zero ∧ l.g_l = Vec6.zero ∧ l.e_l = lit 0) ∧
    r.N_l + r.N_p = 0 ∧ ∃ x, r.e = x / lit 0 := by
  obtain ⟨p, l, hps, hls, hc⟩ := residualPass_eq h
  have hps' := hps
  have hls' := hls
  unfold pointSums at hps'
  unfold lineSums at hls'
  have P := @forMatched_pt_degenerate D _ cfg env DT
    (if unc then uncPointStep cfg env DT else nwPointStep cfg env DT)
    (by
      intro a q a' ha
      cases unc with
      | false => exact nwPointStep_degenerate (by simpa using ha)
      | true => exact uncPointStep_degenerate (by simpa using ha))
    s.prev_frame.stereo_pt _ _ _ hps' hp (fun _ => Or.inl rfl)
  have L := @forMatched_ls_degenerate D _ cfg env DT
    (if unc then uncLineStep cfg env DT else nwLineStep cfg env DT)
    (by
      intro a q a' ha
      cases unc with
      | false => exact nwLineStep_degenerate (by simpa using ha)
      | true => exact uncLineStep_degenerate (by simpa using ha))
    s.prev_frame.stereo_ls _ _ _ hls' hl (fun _ => Or.inl rfl)
  obtain ⟨p1, p2, -⟩ := P
  obtain ⟨l1, l2, -⟩ := L
  have hh := combineResiduals_flagsOnly hc
  obtain ⟨c1, c2, c3, c4⟩ := combineResiduals_eq hc
  have np : p.N_p = 0 := by rw [p1]
  have nl : l.N_l = 0 := by rw [l1]
  refine ⟨?_, ?_, ⟨p, l, hps, hls, by rw [p1], by rw [p1], by rw [p1], by rw [l1], by rw [l1],
    by rw [l1]⟩, by rw [c1, c2, np, nl]; rfl, ?_⟩
  · intro q hq
    rw [hh]
    exact p2 q hq
  · intro q hq
    rw [hh]
    exact l2 q hq
  · cases hb : balancingApplies cfg env p.r_p l.r_l with
    | true =>
      have e := (c3 hb).2.2
      simp only [np, nl, add_zero, Int.cast_zero] at e
      exact ⟨_, e⟩
    | false =>
      have e := (c4 hb).2.2
      simp only [np, nl, add_zero, Int.cast_zero] at e
      exact ⟨_, e⟩

end CombineLemmas

section ClaimC12

/-- C12 fails on the code: with an unmoved camera (`stillHandler`) every residual is zero, so
both residual passes mark every entry outlier and add nothing to `H` and `g`; the number of
contributing residuals `N_l + N_p` is 0 and the normalisation `e /= (N_l+N_p)` computes `0 / 0`,
which is NaN. -/
theorem degenerate_error_is_nan :
    ((f2fTracking dblConfig dblEnv stillMatches stillHandler).bind fun t =>
      (optimizeFunctions_nonweighted dblConfig dblEnv t.handler Mat4.identity).bind fun r =>
      (optimizeFunctions_uncweighted dblConfig dblEnv t.handler Mat4.identity).map fun u =>
        (t.handler.matched_pt.map (ptFlag t.handler.prev_frame.stereo_pt),
         (r.handler.matched_pt.map (ptFlag r.handler.prev_frame.stereo_pt), r.N_l + r.N_p,
           [decide (r.H = Mat6.zero), decide (r.g = Vec6.zero), DoubleOps.isnan r.e]),
         (u.handler.matched_pt.map (ptFlag u.handler.prev_frame.stereo_pt), u.N_l + u.N_p,
           [decide (u.H = Mat6.zero), decide (u.g = Vec6.zero), DoubleOps.isnan u.e])))
      = some ([true, true], ([false, false], 0, [true, true, true]),
          ([false, false], 0, [true, true, true])) := by decide!

end ClaimC12

section ClaimC13

variable {D : Type} [DoubleOps D]

/-- C13 (amended): in every Gauss-Newton iteration that performs an update (the residual pass
at `DT_old` returned and the error test did not stop the loop), the pose is composed on the
right with the inverse of the exponential map of the increment,
`DT_new = DT_old * inverse_transformation(transformation_expmap(DT_inc))`, where `DT_inc` is
what the LDLT solver returns for the `H` and `g` of that iteration: those of the residual pass,
to which the motion prior, when enabled, adds `prior_cov^-1` and
`prior_cov^-1 * (DT_inc_old - prior_inc)`.  The loop then stops if `DT_inc.norm()` is below
epsilon and goes on from `DT_new` otherwise. -/
theorem gauss_newton_update (cfg : Config D) (env : Ext D) (n : Nat) (st : SolverState D)
    (r : Residual D) (hr : optimizeFunctions cfg env st.handler st.DT = some r)
    (hc : converged cfg r.e st.err_prev = false) :
    ∃ H g DT_inc DT_new,
      H = (if cfg.motionPrior then Mat6.add r.H (env.inverse6 st.handler.prior_cov) else r.H) ∧
      g = (if cfg.motionPrior then
          Vec6.add r.g (Mat6.mulVec (env.inverse6 st.handler.prior_cov)
            (fun i => st.DT_inc i - st.handler.prior_inc i))
        else r.g) ∧
      DT_inc = env.ldltSolve H g ∧
      DT_new = Mat4.mul st.DT (env.inverse_transformation (env.transformation_expmap DT_inc)) ∧
      gnLoop cfg env (n + 1) st =
        (if dlt (norm6 DT_inc) env.epsilon then
          some { st with handler := r.handler, DT := DT_new, H := H, DT_inc := DT_inc, err := r.e }
        else
          gnLoop cfg env n
            { st with handler := r.handler, DT := DT_new, H := H, DT_inc := DT_inc, err := r.e,
                      err_prev := r.e }) := by
  obtain ⟨pts, lns, hf⟩ := optimizeFunctions_flagsOnly hr
  have h1 : r.handler.prior_cov = st.handler.prior_cov := by rw [hf]
  have h2 : r.handler.prior_inc = st.handler.prior_inc := by rw [hf]
  refine ⟨_, _, _, _, rfl, rfl, rfl, rfl, ?_⟩
  simp only [gnLoop, hr, Option.bind_eq_bind, Option.some_bind, hc, Bool.false_eq_true, if_false,
    gnUpdate, h1, h2, Option.pure_def]

end ClaimC13

section WitnessC13

theorem demo_residuals_turned :
    (optimizeFunctions demoConfig exactEnv
      ((f2fTracking demoConfig exactEnv demoMatches demoHandler).get demo_tracks).handler
      turnPose).isSome = true := by decide!

theorem demo_turned_goes_on :
    converged demoConfig
      ((optimizeFunctions demoConfig exactEnv
        ((f2fTracking demoConfig exactEnv demoMatches demoHandler).get demo_tracks).handler
        turnPose).get demo_residuals_turned).e 999999999.9 = false := by decide!

/-- The first Gauss-Newton iteration on the tracked `demoHandler` from `turnPose` performs an
update: the pose after it is `turnPose` composed on the right. -/
theorem gauss_newton_update_witness :
    ∃ t r DT_inc, f2fTracking demoConfig exactEnv demoMatches demoHandler = some t ∧
      optimizeFunctions demoConfig exactEnv t.handler turnPose = some r ∧
      converged demoConfig r.e 999999999.9 = false ∧
      gnLoop demoConfig exactEnv 1
          { handler := t.handler, DT := turnPose, H := Mat6.zero, DT_inc := Vec6.zero, err := 0,
            err_prev := 999999999.9, lambda := 0 } =
        (if dlt (norm6 DT_inc) exactEnv.epsilon then
          some { handler := r.handler,
                 DT := Mat4.mul turnPose (exactInverse (exactExpmap DT_inc)), H := r.H,
                 DT_inc := DT_inc, err := r.e, err_prev := 999999999.9, lambda := 0 }
        else
          gnLoop demoConfig exactEnv 0
            { handler := r.handler,
              DT := Mat4.mul turnPose (exactInverse (exactExpmap DT_inc)), H := r.H,
              DT_inc := DT_inc, err := r.e, err_prev := r.e, lambda := 0 }) :=
  have e0 := (Option.some_get demo_tracks).symm
  have e1 := (Option.some_get demo_residuals_turned).symm
  match gauss_newton_update demoConfig exactEnv 0
      { handler := ((f2fTracking demoConfig exactEnv demoMatches demoHandler).get
          demo_tracks).handler,
        DT := turnPose, H := Mat6.zero, DT_inc := Vec6.zero, err := 0,
        err_prev := 999999999.9, lambda := 0 } _ e1 demo_turned_goes_on with
  | ⟨_, _, _, _, rfl, rfl, rfl, rfl, h⟩ => ⟨_, _, _, e0, e1, demo_turned_goes_on, h⟩

/-- C13 as stated fails: on the tracked `demoHandler`, one Gauss-Newton iteration from
`turnPose` finds the increment `(8, 5, 0, 0, 0, 0)`; the new pose is
`turnPose * inverse_transformation(transformation_expmap(DT_inc))`, with translation
`(16, -4, 0)`, and not the left composition, whose translation is `(3, -1, 0)`. -/
theorem update_composes_on_the_right :
    ((f2fTracking demoConfig exactEnv demoMatches demoHandler).bind fun t =>
      (gaussNewtonOptimization demoConfig exactEnv demoUninit.first t.handler turnPose 1).bind
        fun r =>
      (gnLoop demoConfig exactEnv 1
        { handler := t.handler, DT := turnPose, H := Mat6.zero, DT_inc := Vec6.zero, err := 0,
          err_prev := 999999999.9, lambda := 0 }).map fun st =>
        (List.ofFn st.DT_inc,
         [decide (r.DT = Mat4.mul turnPose (exactInverse (exactExpmap st.DT_inc))),
          decide (r.DT = Mat4.mul (exactInverse (exactExpmap st.DT_inc)) turnPose)],
         List.ofFn (fun i => r.DT i 3),
         List.ofFn (fun i => Mat4.mul (exactInverse (exactExpmap st.DT_inc)) turnPose i 3)))
      = some ([8, 5, 0, 0, 0, 0], [true, false], [16, -4, 0, 1], [3, -1, 0, 1]) := by decide!

end WitnessC13

section ClaimC14

variable {D : Type} [DoubleOps D]

/-- C14 (amended): for every residual that contributes (entry flagged, residual norm `n` above
`Config::homogTh()`, and for a line of the uncertainty-weighted pass finite end-point
covariances), `optimizeFunctions_nonweighted` uses the robust weight `w = 1/(1 + n^2)` and
`optimizeFunctions_uncweighted` uses `w = 1/(1 + n)` when `Config::robustCost()` is enabled; both
use `w = 1` when it is disabled.  The uncertainty-weighted pass multiplies `w` with the
uncertainty weight `wunc` in its contributions to `H`, `g` and the error.  This holds for points
and for lines. -/
theorem robust_weights (cfg : Config D) (env : Ext D) (DT : Mat4 D) :
    (∀ acc q acc' it, nwPointStep cfg env DT acc q = some acc' → acc.stereo_pt[q]? = some it →
      it.inlier = true → dgt (norm2 (pointResidual env DT it)) cfg.homogTh = true →
      ∃ J n w, n = norm2 (pointResidual env DT it) ∧
        w = (if cfg.robustCost then lit 1 / (lit 1 + n * n) else lit 1) ∧
        acc'.H_p = Mat6.add acc.H_p (Mat6.smul (outer6 J) w) ∧
        acc'.g_p = Vec6.add acc.g_p (Vec6.smul (Vec6.smul J n) w) ∧
        acc'.e_p = acc.e_p + n * n * w) ∧
    (∀ acc q acc' it, nwLineStep cfg env DT acc q = some acc' → acc.stereo_ls[q]? = some it →
      it.inlier = true → dgt (norm2 (lineResidual env DT it)) cfg.homogTh = true →
      ∃ J n w, n = norm2 (lineResidual env DT it) ∧
        w = (if cfg.robustCost then lit 1 / (lit 1 + n * n) else lit 1) ∧
        acc'.H_l = Mat6.add acc.H_l (Mat6.smul (outer6 J) w) ∧
        acc'.g_l = Vec6.add acc.g_l (Vec6.smul (Vec6.smul J n) w) ∧
        acc'.e_l = acc.e_l + n * n * w) ∧
    (∀ acc q acc' it, uncPointStep cfg env DT acc q = some acc' → acc.stereo_pt[q]? = some it →
      it.inlier = true → dgt (norm2 (pointResidual env DT it)) cfg.homogTh = true →
      ∃ J n wunc w, n = norm2 (pointResidual env DT it) ∧
        wunc = pointWunc env cfg.sigmaPx (fun i j => DT i.castSucc j.castSucc) it
          (transformPoint DT it.P) (pointResidual env DT it) ∧
        w = (if cfg.robustCost then lit 1 / (lit 1 + n) else lit 1) ∧
        acc'.H_p = Mat6.add acc.H_p
          (fun i j => Mat6.smul (Mat6.smul (outer6 J) wunc) w i j / n) ∧
        acc'.g_p = Vec6.add acc.g_p (Vec6.smul (Vec6.smul J w) wunc) ∧
        acc'.e_p = acc.e_p + n * n * wunc * w) ∧
    (∀ acc q acc' it cov_p cov_q, uncLineStep cfg env DT acc q = some acc' →
      acc.stereo_ls[q]? = some it → it.inlier = true →
      dgt (norm2 (lineResidual env DT it)) cfg.homogTh = true →
      cov_p = endpointCov env cfg.sigmaPx (fun i j => DT i.castSucc j.castSucc) (it.le_obs 0)
        (it.le_obs 1) (transformPoint DT it.sP) (it.spl 0) (it.spl 1) it.sdisp →
      cov_q = endpointCov env cfg.sigmaPx (fun i j => DT i.castSucc j.castSucc) (it.le_obs 0)
        (it.le_obs 1) (transformPoint DT it.eP) (it.epl 0) (it.epl 1) it.edisp →
      (!DoubleOps.isinf cov_p && !DoubleOps.isnan cov_p && !DoubleOps.isinf cov_q
        && !DoubleOps.isnan cov_q) = true →
      ∃ J n wunc w, n = norm2 (lineResidual env DT it) ∧
        wunc = (lineResidual env DT it 0 * lineResidual env DT it 0 * cov_p
            + lineResidual env DT it 1 * lineResidual env DT it 1 * cov_q)
          / (lineResidual env DT it 0 * lineResidual env DT it 0
            + lineResidual env DT it 1 * lineResidual env DT it 1) ∧
        w = (if cfg.robustCost then lit 1 / (lit 1 + n) else lit 1) ∧
        acc'.H_l = Mat6.add acc.H_l
          (fun i j => Mat6.smul (Mat6.smul (outer6 J) wunc) w i j / n) ∧
        acc'.g_l = Vec6.add acc.g_l (Vec6.smul (Vec6.smul J w) wunc) ∧
        acc'.e_l = acc.e_l + n * n * wunc * w) := by
  refine ⟨?_, ?_, ?_, ?_⟩
  · intro acc q acc' it h hit hi hd
    simp only [nwPointStep, Option.bind_eq_bind, hit, Option.some_bind, hi, if_true, hd,
      Option.bind_eq_some, Option.pure_def, Option.some.injEq] at h
    obtain ⟨N, -, rfl⟩ := h
    exact ⟨_, _, _, rfl, rfl, rfl, rfl, rfl⟩
  · intro acc q acc' it h hit hi hd
    simp only [nwLineStep, Option.bind_eq_bind, hit, Option.some_bind, hi, if_true, hd,
      Option.bind_eq_some, Option.pure_def, Option.some.injEq] at h
    obtain ⟨N, -, rfl⟩ := h
    exact ⟨_, _, _, rfl, rfl, rfl, rfl, rfl⟩
  · intro acc q acc' it h hit hi hd
    simp only [uncPointStep, Option.bind_eq_bind, hit, Option.some_bind, hi, if_true, hd,
      Option.bind_eq_some, Option.pure_def, Option.some.injEq] at h
    obtain ⟨N, -, rfl⟩ := h
    exact ⟨_, _, _, _, rfl, rfl, rfl, rfl, rfl, rfl⟩
  · intro acc q acc' it cov_p cov_q h hit hi hd hp hq hfin
    subst hp hq
    simp only [uncLineStep, Option.bind_eq_bind, hit, Option.some_bind, hi, if_true, hd, hfin,
      Option.bind_eq_some, Option.pure_def, Option.some.injEq] at h
    obtain ⟨N, -, rfl⟩ := h
    exact ⟨_, _, _, _, rfl, rfl, rfl, rfl, rfl, rfl⟩

end ClaimC14

section WitnessC14

theorem robust_demo_tracks :
    (f2fTracking robustConfig exactEnv demoMatches demoHandler).isSome = true := by decide!

theorem robust_step_runs :
    (uncPointStep robustConfig exactEnv Mat4.identity
      { stereo_pt := ((f2fTracking robustConfig exactEnv demoMatches demoHandler).get
          robust_demo_tracks).handler.prev_frame.stereo_pt,
        H_p := Mat6.zero, g_p := Vec6.zero, e_p := 0, N_p := 0, r_p := [] } 0).isSome = true := by
  decide!

theorem robust_step_entry :
    (((f2fTracking robustConfig exactEnv demoMatches demoHandler).get
      robust_demo_tracks).handler.prev_frame.stereo_pt[0]?).isSome = true := by decide!

theorem robust_step_flagged :
    ((((f2fTracking robustConfig exactEnv demoMatches demoHandler).get
      robust_demo_tracks).handler.prev_frame.stereo_pt[0]?).get robust_step_entry).inlier = true
      ∧ dgt (norm2 (pointResidual exactEnv Mat4.identity
          ((((f2fTracking robustConfig exactEnv demoMatches demoHandler).get
            robust_demo_tracks).handler.prev_frame.stereo_pt[0]?).get robust_step_entry)))
        robustConfig.homogTh = true := by decide!

/-- The first step of the uncertainty-weighted point loop on the tracked `demoHandler` with the
robust cost enabled: the error contribution is `n^2 * wunc * w` with `w = 1/(1 + n)`. -/
theorem robust_weights_witness :
    ∃ acc acc' it n wunc w,
      uncPointStep robustConfig exactEnv Mat4.identity acc 0 = some acc' ∧
      acc.stereo_pt[0]? = some it ∧ it.inlier = true ∧
      n = norm2 (pointResidual exactEnv Mat4.identity it) ∧
      w = (if robustConfig.robustCost then lit 1 / (lit 1 + n) else lit 1) ∧
      acc'.e_p = acc.e_p + n * n * wunc * w :=
  have e1 := (Option.some_get robust_step_runs).symm
  have e2 := (Option.some_get robust_step_entry).symm
  match (robust_weights robustConfig exactEnv Mat4.identity).2.2.1 _ _ _ _ e1 e2
      robust_step_flagged.1 robust_step_flagged.2 with
  | ⟨_, n, wunc, w, hn, _, hw, _, _, he⟩ =>
    ⟨_, _, _, n, wunc, w, e1, e2, robust_step_flagged.1, hn, hw, he⟩

/-- C14 as stated fails: on the tracked `demoHandler` (residual norms 5 and 10, uncertainty
weights 1/2 and 1/2) with the robust cost enabled, the non-weighted pass returns the error
`(25/(1+25) + 100/(1+100)) / 2` and the uncertainty-weighted pass
`(25 * 1/2 * 1/(1+5) + 100 * 1/2 * 1/(1+10)) / 2`, not
`(25 * 1/2 * 1/(1+25) + 100 * 1/2 * 1/(1+100)) / 2`. -/
theorem uncweighted_weight_not_squared :
    ((f2fTracking robustConfig exactEnv demoMatches demoHandler).bind fun t =>
      (optimizeFunctions_nonweighted robustConfig exactEnv t.handler Mat4.identity).bind fun r =>
      (optimizeFunctions_uncweighted robustConfig exactEnv t.handler Mat4.identity).bind fun u =>
      (optimizeFunctions_uncweighted demoConfig exactEnv t.handler Mat4.identity).map fun v =>
        ([r.e, u.e, v.e],
         [decide (r.e = (25 / (1 + 25) + 100 / (1 + 100)) / 2),
          decide (v.e = (25 * (1 / 2) + 100 * (1 / 2)) / 2),
          decide (u.e = (25 * (1 / 2) * (1 / (1 + 5)) + 100 * (1 / 2) * (1 / (1 + 10))) / 2),
          decide (u.e = (25 * (1 / 2) * (1 / (1 + 25)) + 100 * (1 / 2) * (1 / (1 + 100))) / 2)]))
      = some ([5125 / 5252, 875 / 264, 125 / 4], [true, true, true, false]) := by decide!

end WitnessC14

section IdInvariant

theorem getI_map {α β : Type} (f : α → β) (l : List α) (i : Int) :
    getI (l.map f) i = (getI l i).map f := by
  unfold getI
  split
  · rfl
  · simp

theorem getI_mem {α : Type} {l : List α} {i : Int} {a : α} (h : getI l i = some a) : a ∈ l :=
  List.getElem?_mem (getI_eq_some h).2.2

theorem getI_inj {l : List Int} {i j : Int} {v : Int} (hn : l.Nodup)
    (hi : getI l i = some v) (hj : getI l j = some v) : i = j := by
  obtain ⟨i0, i1, i2⟩ := getI_eq_some hi
  obtain ⟨j0, j1, j2⟩ := getI_eq_some hj
  have e1 := (List.getElem?_eq_some.mp i2).2
  have e2 := (List.getElem?_eq_some.mp j2).2
  have : i.toNat = j.toNat :=
    (@List.Nodup.getElem_inj_iff _ l hn i.toNat i1 j.toNat j1).mp (by rw [e1, e2])
  omega

theorem map_set_same {α β : Type} (f : α → β) {l : List α} {i : Nat} {a p : α}
    (hp : l[i]? = some p) (hf : f a = f p) : (l.set i a).map f = l.map f := by
  apply List.ext_getElem?
  intro n
  rw [List.map_set, List.getElem?_set, List.getElem?_map]
  by_cases h : i = n
  · subst h
    have hlt : i < l.length := (List.getElem?_eq_some.mp hp).1
    simp [hlt, hp, hf]
  · simp [h]

theorem assignedDistinct_set {ids : List Int} {t : Nat} {v : Int} (hd : AssignedDistinct ids)
    (hv : ∀ j : Nat, j ≠ t → ids[j]? = some v → v = -1) : AssignedDistinct (ids.set t v) := by
  intro i j w hij hi hj
  rw [List.getElem?_set] at hi hj
  by_cases h1 : t = i
  · have h2 : ¬ t = j := fun h => hij (h1.symm.trans h)
    rw [if_pos h1] at hi
    rw [if_neg h2] at hj
    split at hi
    · cases hi
      exact hv j (fun h => h2 h.symm) hj
    · cases hi
  · rw [if_neg h1] at hi
    by_cases h2 : t = j
    · rw [if_pos h2] at hj
      split at hj
      · cases hj
        exact hv i (fun h => h1 h.symm) hi
      · cases hj
    · rw [if_neg h2] at hj
      exact hd i j w hij hi hj

/-- Writing the counter's value to a current feature and advancing the counter keeps `IdInv`. -/
theorem idInv_fresh {prevIds ids : List Int} {acc : List (Int × Int)} {m0 mx : Int} (t : Nat)
    (h : IdInv prevIds ids acc m0 mx) (hb : ∀ v ∈ prevIds, v < m0) :
    IdInv prevIds (ids.set t mx) acc m0 (mx + 1) := by
  obtain ⟨h1, h2, h3⟩ := h
  refine ⟨by omega, assignedDistinct_set h2 ?_, ?_⟩
  · intro j _ hj
    rcases h3 j mx hj with e | ⟨a, _, ha⟩ | ⟨_, e⟩
    · exact e
    · have := hb mx (getI_mem ha)
      omega
    · omega
  · intro i v hi
    rw [List.getElem?_set] at hi
    split at hi
    · split at hi
      · cases hi
        exact Or.inr (Or.inr ⟨h1, by omega⟩)
      · cases hi
    · rcases h3 i v hi with e | e | ⟨e1, e2⟩
      · exact Or.inl e
      · exact Or.inr (Or.inl e)
      · exact Or.inr (Or.inr ⟨e1, by omega⟩)

/-- Copying the ID of a previous feature that has not been accepted before keeps `IdInv`. -/
theorem idInv_inherit {prevIds ids : List Int} {acc : List (Int × Int)} {m0 mx : Int}
    (t : Nat) {q t' v : Int} (h : IdInv prevIds ids acc m0 mx) (hn : prevIds.Nodup)
    (hb : ∀ v ∈ prevIds, v < m0) (hq : getI prevIds q = some v) (hnew : ∀ a ∈ acc, a.1 ≠ q) :
    IdInv prevIds (ids.set t v) (acc ++ [(q, t')]) m0 mx := by
  obtain ⟨h1, h2, h3⟩ := h
  refine ⟨h1, assignedDistinct_set h2 ?_, ?_⟩
  · intro j _ hj
    rcases h3 j v hj with e | ⟨a, ha, hav⟩ | ⟨e, _⟩
    · exact e
    · exact absurd (getI_inj hn hav hq) (hnew a ha)
    · have := hb v (getI_mem hq)
      omega
  · intro i w hi
    rw [List.getElem?_set] at hi
    split at hi
    · split at hi
      · cases hi
        exact Or.inr (Or.inl ⟨(q, t'), by simp, hq⟩)
      · cases hi
    · rcases h3 i w hi with e | ⟨a, ha, hav⟩ | e
      · exact Or.inl e
      · exact Or.inr (Or.inl ⟨a, List.mem_append_left _ ha, hav⟩)
      · exact Or.inr (Or.inr e)

theorem assignedDistinct_pairwise {ids : List Int} (h : AssignedDistinct ids) :
    ids.Pairwise (fun a b => a = b → a = -1) := by
  rw [List.pairwise_iff_getElem]
  intro i j hi hj hij hab
  exact h i j ids[i] (by omega) (List.getElem?_eq_getElem hi)
    (by rw [List.getElem?_eq_getElem hj, hab])

end IdInvariant

section PointIds

variable {D : Type} [DoubleOps D]

/-- The point match loop keeps `IdInv`, when no two entries of the match list have the same
query and no query of the list has been accepted before. -/
theorem pointMatchLoop_ids {cfg : Config D} {env : Ext D} {pm21 : List (List (DMatch D))}
    {prevIds : List Int} {m0 : Int} (hn : prevIds.Nodup) (hb : ∀ v ∈ prevIds, v < m0) :
    ∀ (ms : List (List (DMatch D))) (st st' : PtTrack D),
      pointMatchLoop cfg env pm21 ms st = some st' → (ms.map firstQueryIdx).Nodup →
      st.prev_pt.map (fun f => f.idx) = prevIds →
      IdInv prevIds (st.curr_pt.map (fun f => f.idx)) st.accepted m0 st.max_idx_pt →
      (∀ a ∈ st.accepted, some a.1 ∉ ms.map firstQueryIdx) →
      IdInv prevIds (st'.curr_pt.map (fun f => f.idx)) st'.accepted m0 st'.max_idx_pt := by
  intro ms
  induction ms with
  | nil =>
    intro st st' h _ _ hinv _
    simp only [pointMatchLoop, Option.some.injEq] at h
    subst h
    exact hinv
  | cons m ms ih =>
    intro st st' h hnd hprev hinv hacc
    simp only [pointMatchLoop, Option.bind_eq_bind, Option.bind_eq_some] at h
    obtain ⟨st1, h1, h2⟩ := h
    rw [List.map_cons, List.nodup_cons] at hnd
    obtain ⟨m0', c, p, hm0, hc, hp, hcase⟩ := pointMatchStep_cases h1
    have hfq : firstQueryIdx m = some m0'.queryIdx := by
      unfold firstQueryIdx
      cases m with
      | nil => simp at hm0
      | cons a t =>
        simp only [List.getElem?_cons_zero, Option.some.injEq] at hm0
        simp [hm0]
    obtain ⟨-, -, hpq⟩ := getI_eq_some hp
    rcases hcase with ⟨-, rfl⟩ | ⟨-, rfl⟩
    · refine ih _ _ h2 hnd.2 ?_ ?_ ?_
      · have e := map_set_same (fun f : PointFeature D => f.idx) hpq
          (show ({ p with pl_obs := c.pl, inlier := true } : PointFeature D).idx = p.idx from rfl)
        exact e.trans hprev
      · simp only [setI, List.map_set]
        refine idInv_inherit _ hinv hn hb ?_ ?_
        · rw [← hprev, getI_map, hp]
          rfl
        · intro a ha hq
          apply hacc a ha
          rw [List.map_cons, hfq, hq]
          exact List.mem_cons_self _ _
      · intro a ha
        simp only [List.mem_append, List.mem_singleton] at ha
        rcases ha with ha | rfl
        · intro hmem
          exact hacc a ha (by rw [List.map_cons]; exact List.mem_cons_of_mem _ hmem)
        · intro hmem
          exact hnd.1 (by rw [hfq]; exact hmem)
    · refine ih _ _ h2 hnd.2 hprev ?_ ?_
      · simp only [setI, List.map_set]
        exact idInv_fresh _ hinv hb
      · intro a ha hmem
        exact hacc a ha (by rw [List.map_cons]; exact List.mem_cons_of_mem _ hmem)

/-- The rest loop on IDs that are distinct where assigned and below the counter: afterwards all
IDs are distinct and below the counter. -/
theorem pointRestLoop_distinct :
    ∀ (fs : List (PointFeature D)) (mx : Int) (rest : List (PointFeature D) × Int × List Int),
      pointRestLoop fs mx = some rest →
      (fs.map (fun f => f.idx)).Pairwise (fun a b => a = b → a = -1) →
      (∀ f ∈ fs, f.idx ≠ -1 → f.idx < mx) →
      (rest.1.map (fun f => f.idx)).Nodup ∧ mx ≤ rest.2.1 ∧
      (∀ v ∈ rest.1.map (fun f => f.idx),
        v < rest.2.1 ∧ ((v ∈ fs.map (fun f => f.idx) ∧ v ≠ -1) ∨ mx ≤ v)) := by
  intro fs
  induction fs with
  | nil =>
    intro mx rest h _ _
    simp only [pointRestLoop, Option.some.injEq] at h
    subst h
    simp
  | cons f fs ih =>
    intro mx rest h hpw hlt
    rw [List.map_cons, List.pairwise_cons] at hpw
    simp only [pointRestLoop] at h
    split at h
    · rename_i hneg
      simp only [Option.bind_eq_bind, Option.bind_eq_some, Option.pure_def,
        Option.some.injEq] at h
      obtain ⟨next, hnext, r, hr, rfl⟩ := h
      have := checkedInt_eq_some hnext
      subst this
      obtain ⟨a1, a2, a3⟩ := ih _ _ hr hpw.2
        (fun g hg hne => by have := hlt g (List.mem_cons_of_mem _ hg) hne; omega)
      refine ⟨?_, by simp only; omega, ?_⟩
      · simp only [List.map_cons, List.nodup_cons]
        refine ⟨?_, a1⟩
        intro hmem
        rcases (a3 mx hmem).2 with ⟨hm, hne⟩ | hge
        · obtain ⟨g, hg, hgv⟩ := List.mem_map.mp hm
          have := hlt g (List.mem_cons_of_mem _ hg) (by rw [hgv]; exact hne)
          omega
        · omega
      · intro v hv
        simp only [List.map_cons, List.mem_cons] at hv
        rcases hv with rfl | hv
        · exact ⟨by simp only; omega, Or.inr (le_refl _)⟩
        · obtain ⟨b1, b2⟩ := a3 v hv
          refine ⟨b1, ?_⟩
          rcases b2 with ⟨hm, hne⟩ | hge
          · exact Or.inl ⟨by rw [List.map_cons]; exact List.mem_cons_of_mem _ hm, hne⟩
          · exact Or.inr (by omega)
    · rename_i hneg
      simp only [Option.bind_eq_bind, Option.bind_eq_some, Option.pure_def,
        Option.some.injEq] at h
      obtain ⟨r, hr, rfl⟩ := h
      obtain ⟨a1, a2, a3⟩ := ih _ _ hr hpw.2
        (fun g hg hne => hlt g (List.mem_cons_of_mem _ hg) hne)
      have hf := hlt f (List.mem_cons_self _ _) hneg
      refine ⟨?_, a2, ?_⟩
      · simp only [List.map_cons, List.nodup_cons]
        refine ⟨?_, a1⟩
        intro hmem
        rcases (a3 f.idx hmem).2 with ⟨hm, -⟩ | hge
        · exact hneg (hpw.1 f.idx hm rfl)
        · omega
      · intro v hv
        simp only [List.map_cons, List.mem_cons] at hv
        rcases hv with rfl | hv
        · exact ⟨by simp only; omega,
            Or.inl ⟨by rw [List.map_cons]; exact List.mem_cons_self _ _, hneg⟩⟩
        · obtain ⟨b1, b2⟩ := a3 v hv
          refine ⟨b1, ?_⟩
          rcases b2 with ⟨hm, hne⟩ | hge
          · exact Or.inl ⟨by rw [List.map_cons]; exact List.mem_cons_of_mem _ hm, hne⟩
          · exact Or.inr hge

/-- The point half on a previous frame with distinct IDs below the counter, a current frame
without IDs and a match list with at most one entry per previous point. -/
theorem pointHalf_distinct {cfg : Config D} {env : Ext D} {km : KnnMatches D} {s : Handler D}
    {curr : StereoFrame D} {pt : PtTrack D} (h : pointHalf cfg env km s curr = some pt)
    (hp : cfg.hasPoints = true) (hc : curr.stereo_pt ≠ []) (hne : s.prev_frame.stereo_pt ≠ [])
    (hn : (s.prev_frame.stereo_pt.map (fun f => f.idx)).Nodup)
    (hb : ∀ f ∈ s.prev_frame.stereo_pt, f.idx < s.max_idx_pt)
    (h0 : ∀ f ∈ curr.stereo_pt, f.idx = -1)
    (hq : (km.pmatches_12.map firstQueryIdx).Nodup) :
    (pt.curr_pt.map (fun f => f.idx)).Nodup ∧ ∀ f ∈ pt.curr_pt, f.idx < pt.max_idx_pt := by
  rcases pointHalf_cases h with ⟨-, -, -, hblock⟩ | ⟨hskip, -⟩
  · obtain ⟨pm12, pm21, st1, rest, hs12, -, hloop, hrest, rfl⟩ := pointBlock_eq_some hblock
    have hb' : ∀ v ∈ s.prev_frame.stereo_pt.map (fun f => f.idx), v < s.max_idx_pt := by
      intro v hv
      obtain ⟨f, hf, rfl⟩ := List.mem_map.mp hv
      exact hb f hf
    have hq' : (pm12.map firstQueryIdx).Nodup :=
      ((sortByQueryIdx_perm hs12).map _).nodup_iff.mpr hq
    have hinit : IdInv (s.prev_frame.stereo_pt.map (fun f => f.idx))
        (curr.stereo_pt.map (fun f => f.idx)) [] s.max_idx_pt s.max_idx_pt := by
      have hall : ∀ (i : Nat) (v : Int),
          (curr.stereo_pt.map (fun f => f.idx))[i]? = some v → v = -1 := by
        intro i v hi
        obtain ⟨f, hf, rfl⟩ := List.mem_map.mp (List.getElem?_mem hi)
        exact h0 f hf
      exact ⟨le_refl _, fun i _ v _ hi _ => hall i v hi, fun i v hi => Or.inl (hall i v hi)⟩
    obtain ⟨i1, i2, i3⟩ := pointMatchLoop_ids hn hb' pm12 _ _ hloop hq' rfl hinit (by simp)
    obtain ⟨r1, -, r3⟩ := pointRestLoop_distinct _ _ _ hrest (assignedDistinct_pairwise i2)
      (by
        intro f hf hne1
        obtain ⟨i, hi⟩ := List.mem_iff_getElem?.mp hf
        have hi' : (st1.curr_pt.map (fun f => f.idx))[i]? = some f.idx := by
          rw [List.getElem?_map, hi]; rfl
        rcases i3 i f.idx hi' with e | ⟨a, -, ha⟩ | ⟨-, e⟩
        · exact absurd e hne1
        · have := hb' f.idx (getI_mem ha)
          omega
        · exact e)
    refine ⟨r1, fun f hf => (r3 f.idx (List.mem_map.mpr ⟨f, hf, rfl⟩)).1⟩
  · rcases hskip with h1 | h1 | h1
    · rw [hp] at h1; cases h1
    · exact absurd h1 hc
    · exact absurd h1 hne

end PointIds

section LineIds

variable {D : Type} [DoubleOps D]

/-- The line match loop keeps `IdInv`, when no two entries of the match list have the same
query and no query of the list has been accepted before. -/
theorem lineMatchLoop_ids {cfg : Config D} {env : Ext D} {pm21 : List (List (DMatch D))}
    {th : D} {prevIds : List Int} {m0 : Int} (hn : prevIds.Nodup) (hb : ∀ v ∈ prevIds, v < m0) :
    ∀ (ms : List (List (DMatch D))) (st st' : LsTrack D),
      lineMatchLoop cfg env pm21 th ms st = some st' → (ms.map firstQueryIdx).Nodup →
      st.prev_ls.map (fun f => f.idx) = prevIds →
      IdInv prevIds (st.curr_ls.map (fun f => f.idx)) st.accepted m0 st.max_idx_ls →
      (∀ a ∈ st.accepted, some a.1 ∉ ms.map firstQueryIdx) →
      IdInv prevIds (st'.curr_ls.map (fun f => f.idx)) st'.accepted m0 st'.max_idx_ls := by
  intro ms
  induction ms with
  | nil =>
    intro st st' h _ _ hinv _
    simp only [lineMatchLoop, Option.some.injEq] at h
    subst h
    exact hinv
  | cons m ms ih =>
    intro st st' h hnd hprev hinv hacc
    simp only [lineMatchLoop, Option.bind_eq_bind, Option.bind_eq_some] at h
    obtain ⟨st1, h1, h2⟩ := h
    rw [List.map_cons, List.nodup_cons] at hnd
    obtain ⟨m0', c, p, hm0, hc, hp, hcase⟩ := lineMatchStep_cases h1
    have hfq : firstQueryIdx m = some m0'.queryIdx := by
      unfold firstQueryIdx
      cases m with
      | nil => simp at hm0
      | cons a t =>
        simp only [List.getElem?_cons_zero, Option.some.injEq] at hm0
        simp [hm0]
    obtain ⟨-, -, hpq⟩ := getI_eq_some hp
    rcases hcase with ⟨-, rfl⟩ | ⟨-, rfl⟩
    · refine ih _ _ h2 hnd.2 ?_ ?_ ?_
      · have e := map_set_same (fun f : LineFeature D => f.idx) hpq
          (show ({ p with spl_obs := c.spl, epl_obs := c.epl, le_obs := c.le, inlier := true } : LineFeature D).idx = p.idx from rfl)
        exact e.trans hprev
      · simp only [setI, List.map_set]
        refine idInv_inherit _ hinv hn hb ?_ ?_
        · rw [← hprev, getI_map, hp]
          rfl
        · intro a ha hq
          apply hacc a ha
          rw [List.map_cons, hfq, hq]
          exact List.mem_cons_self _ _
      · intro a ha
        simp only [List.mem_append, List.mem_singleton] at ha
        rcases ha with ha | rfl
        · intro hmem
          exact hacc a ha (by rw [List.map_cons]; exact List.mem_cons_of_mem _ hmem)
        · intro hmem
          exact hnd.1 (by rw [hfq]; exact hmem)
    · refine ih _ _ h2 hnd.2 hprev ?_ ?_
      · simp only [setI, List.map_set]
        exact idInv_fresh _ hinv hb
      · intro a ha hmem
        exact hacc a ha (by rw [List.map_cons]; exact List.mem_cons_of_mem _ hmem)

/-- The rest loop for lines on IDs that are distinct where assigned and below the counter: afterwards all
IDs are distinct and below the counter. -/
theorem lineRestLoop_distinct :
    ∀ (fs : List (LineFeature D)) (mx : Int) (rest : List (LineFeature D) × Int × List Int),
      lineRestLoop fs mx = some rest →
      (fs.map (fun f => f.idx)).Pairwise (fun a b => a = b → a = -1) →
      (∀ f ∈ fs, f.idx ≠ -1 → f.idx < mx) →
      (rest.1.map (fun f => f.idx)).Nodup ∧ mx ≤ rest.2.1 ∧
      (∀ v ∈ rest.1.map (fun f => f.idx),
        v < rest.2.1 ∧ ((v ∈ fs.map (fun f => f.idx) ∧ v ≠ -1) ∨ mx ≤ v)) := by
  intro fs
  induction fs with
  | nil =>
    intro mx rest h _ _
    simp only [lineRestLoop, Option.some.injEq] at h
    subst h
    simp
  | cons f fs ih =>
    intro mx rest h hpw hlt
    rw [List.map_cons, List.pairwise_cons] at hpw
    simp only [lineRestLoop] at h
    split at h
    · rename_i hneg
      simp only [Option.bind_eq_bind, Option.bind_eq_some, Option.pure_def,
        Option.some.injEq] at h
      obtain ⟨next, hnext, r, hr, rfl⟩ := h
      have := checkedInt_eq_some hnext
      subst this
      obtain ⟨a1, a2, a3⟩ := ih _ _ hr hpw.2
        (fun g hg hne => by have := hlt g (List.mem_cons_of_mem _ hg) hne; omega)
      refine ⟨?_, by simp only; omega, ?_⟩
      · simp only [List.map_cons, List.nodup_cons]
        refine ⟨?_, a1⟩
        intro hmem
        rcases (a3 mx hmem).2 with ⟨hm, hne⟩ | hge
        · obtain ⟨g, hg, hgv⟩ := List.mem_map.mp hm
          have := hlt g (List.mem_cons_of_mem _ hg) (by rw [hgv]; exact hne)
          omega
        · omega
      · intro v hv
        simp only [List.map_cons, List.mem_cons] at hv
        rcases hv with rfl | hv
        · exact ⟨by simp only; omega, Or.inr (le_refl _)⟩
        · obtain ⟨b1, b2⟩ := a3 v hv
          refine ⟨b1, ?_⟩
          rcases b2 with ⟨hm, hne⟩ | hge
          · exact Or.inl ⟨by rw [List.map_cons]; exact List.mem_cons_of_mem _ hm, hne⟩
          · exact Or.inr (by omega)
    · rename_i hneg
      simp only [Option.bind_eq_bind, Option.bind_eq_some, Option.pure_def,
        Option.some.injEq] at h
      obtain ⟨r, hr, rfl⟩ := h
      obtain ⟨a1, a2, a3⟩ := ih _ _ hr hpw.2
        (fun g hg hne => hlt g (List.mem_cons_of_mem _ hg) hne)
      have hf := hlt f (List.mem_cons_self _ _) hneg
      refine ⟨?_, a2, ?_⟩
      · simp only [List.map_cons, List.nodup_cons]
        refine ⟨?_, a1⟩
        intro hmem
        rcases (a3 f.idx hmem).2 with ⟨hm, -⟩ | hge
        · exact hneg (hpw.1 f.idx hm rfl)
        · omega
      · intro v hv
        simp only [List.map_cons, List.mem_cons] at hv
        rcases hv with rfl | hv
        · exact ⟨by simp only; omega,
            Or.inl ⟨by rw [List.map_cons]; exact List.mem_cons_self _ _, hneg⟩⟩
        · obtain ⟨b1, b2⟩ := a3 v hv
          refine ⟨b1, ?_⟩
          rcases b2 with ⟨hm, hne⟩ | hge
          · exact Or.inl ⟨by rw [List.map_cons]; exact List.mem_cons_of_mem _ hm, hne⟩
          · exact Or.inr hge

/-- The line half on a previous frame with distinct IDs below the counter, a current frame
without IDs and a match list with at most one entry per previous line. -/
theorem lineHalf_distinct {cfg : Config D} {env : Ext D} {km : KnnMatches D} {s : Handler D}
    {curr : StereoFrame D} {ls : LsTrack D} (h : lineHalf cfg env km s curr = some ls)
    (hp : cfg.hasLines = true) (hc : curr.stereo_ls ≠ []) (hne : s.prev_frame.stereo_ls ≠ [])
    (hn : (s.prev_frame.stereo_ls.map (fun f => f.idx)).Nodup)
    (hb : ∀ f ∈ s.prev_frame.stereo_ls, f.idx < s.max_idx_ls)
    (h0 : ∀ f ∈ curr.stereo_ls, f.idx = -1)
    (hq : (km.lmatches_12.map firstQueryIdx).Nodup) :
    (ls.curr_ls.map (fun f => f.idx)).Nodup ∧ ∀ f ∈ ls.curr_ls, f.idx < ls.max_idx_ls := by
  rcases lineHalf_cases h with ⟨-, -, -, hblock⟩ | ⟨hskip, -⟩
  · obtain ⟨pm12, pm21, st1, rest, hs12, -, hloop, hrest, rfl⟩ := lineBlock_eq_some hblock
    have hb' : ∀ v ∈ s.prev_frame.stereo_ls.map (fun f => f.idx), v < s.max_idx_ls := by
      intro v hv
      obtain ⟨f, hf, rfl⟩ := List.mem_map.mp hv
      exact hb f hf
    have hq' : (pm12.map firstQueryIdx).Nodup :=
      ((sortByQueryIdx_perm hs12).map _).nodup_iff.mpr hq
    have hinit : IdInv (s.prev_frame.stereo_ls.map (fun f => f.idx))
        (curr.stereo_ls.map (fun f => f.idx)) [] s.max_idx_ls s.max_idx_ls := by
      have hall : ∀ (i : Nat) (v : Int),
          (curr.stereo_ls.map (fun f => f.idx))[i]? = some v → v = -1 := by
        intro i v hi
        obtain ⟨f, hf, rfl⟩ := List.mem_map.mp (List.getElem?_mem hi)
        exact h0 f hf
      exact ⟨le_refl _, fun i _ v _ hi _ => hall i v hi, fun i v hi => Or.inl (hall i v hi)⟩
    obtain ⟨i1, i2, i3⟩ := lineMatchLoop_ids hn hb' pm12 _ _ hloop hq' rfl hinit (by simp)
    obtain ⟨r1, -, r3⟩ := lineRestLoop_distinct _ _ _ hrest (assignedDistinct_pairwise i2)
      (by
        intro f hf hne1
        obtain ⟨i, hi⟩ := List.mem_iff_getElem?.mp hf
        have hi' : (st1.curr_ls.map (fun f => f.idx))[i]? = some f.idx := by
          rw [List.getElem?_map, hi]; rfl
        rcases i3 i f.idx hi' with e | ⟨a, -, ha⟩ | ⟨-, e⟩
        · exact absurd e hne1
        · have := hb' f.idx (getI_mem ha)
          omega
        · exact e)
    refine ⟨r1, fun f hf => (r3 f.idx (List.mem_map.mpr ⟨f, hf, rfl⟩)).1⟩
  · rcases hskip with h1 | h1 | h1
    · rw [hp] at h1; cases h1
    · exact absurd h1 hc
    · exact absurd h1 hne

end LineIds

section ClaimC15

variable {D : Type} [DoubleOps D]

/-- C15: if the previous frame's point IDs are pairwise distinct and all smaller than
`max_idx_pt`, points are enabled and both frames hold at least one point, then after
`f2fTracking` the current frame's point IDs are pairwise distinct and all smaller than the
updated `max_idx_pt`; the same holds for lines with `max_idx_ls`.  The current frame comes
without IDs (every `idx` is -1, as `extractStereoFeatures` leaves it) and the match list is one
that the matcher can return: it has at most one entry per previous feature.  Nothing is assumed
about the nearest neighbours themselves, which several previous features may share. -/
theorem current_ids_distinct (cfg : Config D) (env : Ext D) (km : KnnMatches D)
    (s : Handler D) (r : TrackResult D) (h : f2fTracking cfg env km s = some r) :
    ∃ c0 c, s.curr_frame = some c0 ∧ r.handler.curr_frame = some c ∧
      (cfg.hasPoints = true → c0.stereo_pt ≠ [] → s.prev_frame.stereo_pt ≠ [] →
        (s.prev_frame.stereo_pt.map (fun f => f.idx)).Nodup →
        (∀ f ∈ s.prev_frame.stereo_pt, f.idx < s.max_idx_pt) →
        (∀ f ∈ c0.stereo_pt, f.idx = -1) →
        (km.pmatches_12.map firstQueryIdx).Nodup →
        (c.stereo_pt.map (fun f => f.idx)).Nodup ∧
          ∀ f ∈ c.stereo_pt, f.idx < r.handler.max_idx_pt) ∧
      (cfg.hasLines = true → c0.stereo_ls ≠ [] → s.prev_frame.stereo_ls ≠ [] →
        (s.prev_frame.stereo_ls.map (fun f => f.idx)).Nodup →
        (∀ f ∈ s.prev_frame.stereo_ls, f.idx < s.max_idx_ls) →
        (∀ f ∈ c0.stereo_ls, f.idx = -1) →
        (km.lmatches_12.map firstQueryIdx).Nodup →
        (c.stereo_ls.map (fun f => f.idx)).Nodup ∧
          ∀ f ∈ c.stereo_ls, f.idx < r.handler.max_idx_ls) := by
  obtain ⟨curr, pt, ls, hc, hpt, hls, rfl⟩ := f2fTracking_eq_some h
  exact ⟨curr, _, hc, rfl,
    fun h1 h2 h3 h4 h5 h6 h7 => pointHalf_distinct hpt h1 h2 h3 h4 h5 h6 h7,
    fun h1 h2 h3 h4 h5 h6 h7 => lineHalf_distinct hls h1 h2 h3 h4 h5 h6 h7⟩

end ClaimC15

section WitnessC15

theorem mixed_demo_tracks :
    (f2fTracking demoConfig exactEnv mixedMatches mixedHandler).isSome = true := by decide!

/-- On `mixedHandler` (two points and two lines per frame) the current frame ends with distinct
point IDs and distinct line IDs, all below the counters; and on `demoHandler` with
`crowdedMatches`, where both previous points have the first current point as nearest neighbour,
the current frame ends with distinct point IDs below the counter. -/
theorem current_ids_witness :
    (∃ r c, f2fTracking demoConfig exactEnv mixedMatches mixedHandler = some r ∧
      r.handler.curr_frame = some c ∧
      ((c.stereo_pt.map (fun f => f.idx)).Nodup ∧
        ∀ f ∈ c.stereo_pt, f.idx < r.handler.max_idx_pt) ∧
      ((c.stereo_ls.map (fun f => f.idx)).Nodup ∧
        ∀ f ∈ c.stereo_ls, f.idx < r.handler.max_idx_ls)) ∧
    (∃ r c, f2fTracking demoConfig exactEnv crowdedMatches demoHandler = some r ∧
      r.handler.curr_frame = some c ∧
      (c.stereo_pt.map (fun f => f.idx)).Nodup ∧
        ∀ f ∈ c.stereo_pt, f.idx < r.handler.max_idx_pt) := by
  constructor
  · have e0 := (Option.some_get mixed_demo_tracks).symm
    obtain ⟨c0, c, hc0, hc, hp, hl⟩ :=
      current_ids_distinct demoConfig exactEnv mixedMatches mixedHandler _ e0
    have e := Option.some.inj hc0
    subst e
    refine ⟨_, c, e0, hc, hp rfl ?_ ?_ ?_ ?_ ?_ ?_, hl rfl ?_ ?_ ?_ ?_ ?_ ?_⟩
    · simp [mixedHandler, demoFrame]
    · simp [mixedHandler, demoHandler, demoFrame]
    · decide
    · decide
    · decide
    · decide
    · simp [mixedHandler, demoFrame]
    · simp [mixedHandler, demoHandler, demoFrame]
    · decide
    · decide
    · decide
    · decide
  · have e0 := (Option.some_get crowded_tracks).symm
    obtain ⟨c0, c, hc0, hc, hp, -⟩ :=
      current_ids_distinct demoConfig exactEnv crowdedMatches demoHandler _ e0
    have e := Option.some.inj hc0
    subst e
    refine ⟨_, c, e0, hc, hp rfl ?_ ?_ ?_ ?_ ?_ ?_⟩
    · simp [demoHandler, demoFrame]
    · simp [demoHandler, demoFrame]
    · decide
    · decide
    · decide
    · decide

end WitnessC15

section PointPairs

variable {D : Type} [DoubleOps D]

theorem firstQueryIdx_eq {m : List (DMatch D)} {m0 : DMatch D} (h : m[0]? = some m0) :
    firstQueryIdx m = some m0.queryIdx := by
  unfold firstQueryIdx
  cases m with
  | nil => simp at h
  | cons a t =>
    simp only [List.getElem?_cons_zero, Option.some.injEq] at h
    simp [h]

/-- Invariants of the point match loop over a match list in which no two entries have the same
query: an iteration may use that its query has not been accepted before. -/
theorem pointMatchLoop_induct_queries {cfg : Config D} {env : Ext D}
    {pm21 : List (List (DMatch D))} (P : PtTrack D → Prop) :
    ∀ (ms : List (List (DMatch D))), (ms.map firstQueryIdx).Nodup →
      (∀ m ∈ ms, ∀ st st', pointMatchStep cfg env pm21 st m = some st' → P st →
        (∀ a ∈ st.accepted, some a.1 ≠ firstQueryIdx m) → P st') →
      ∀ st st', pointMatchLoop cfg env pm21 ms st = some st' →
        (∀ a ∈ st.accepted, some a.1 ∉ ms.map firstQueryIdx) → P st → P st' := by
  intro ms
  induction ms with
  | nil =>
    intro _ _ st st' h _ hP
    simp only [pointMatchLoop, Option.some.injEq] at h
    exact h ▸ hP
  | cons m ms ih =>
    intro hnd hstep st st' h hacc hP
    simp only [pointMatchLoop, Option.bind_eq_bind, Option.bind_eq_some] at h
    obtain ⟨st1, h1, h2⟩ := h
    rw [List.map_cons, List.nodup_cons] at hnd
    have hP1 := hstep m (List.mem_cons_self _ _) st st1 h1 hP
      (fun a ha e => hacc a ha (by rw [List.map_cons, e]; exact List.mem_cons_self _ _))
    refine ih hnd.2 (fun m' hm' => hstep m' (List.mem_cons_of_mem _ hm')) st1 st' h2 ?_ hP1
    obtain ⟨m0, c, p, hm0, -, -, hcase⟩ := pointMatchStep_cases h1
    have hfq := firstQueryIdx_eq hm0
    rcases hcase with ⟨-, rfl⟩ | ⟨-, rfl⟩
    · intro a ha
      simp only [List.mem_append, List.mem_singleton] at ha
      rcases ha with ha | rfl
      · exact fun hmem => hacc a ha (by rw [List.map_cons]; exact List.mem_cons_of_mem _ hmem)
      · exact fun hmem => hnd.1 (by rw [hfq]; exact hmem)
    · exact fun a ha hmem =>
        hacc a ha (by rw [List.map_cons]; exact List.mem_cons_of_mem _ hmem)

theorem reverseBest_unique {cfg : Config D} {pm21 : List (List (DMatch D))} {q q' t : Int}
    (hb : cfg.bestLRMatches = true) (h : reverseBest cfg pm21 q t = some q)
    (h' : reverseBest cfg pm21 q' t = some q') : q = q' := by
  unfold reverseBest at h h'
  rw [if_pos hb] at h h'
  rw [h] at h'
  exact Option.some.inj h'

theorem getI_setI_ne {α : Type} {l : List α} {i j : Int} {a : α} (hi : 0 ≤ i) (hj : 0 ≤ j)
    (hne : i ≠ j) : getI (setI l i a) j = getI l j := by
  unfold getI setI
  split
  · rfl
  · rw [List.getElem?_set_ne]
    omega

theorem getI_setI_self {α : Type} {l : List α} {i : Int} {a b : α} (h : getI l i = some b) :
    getI (setI l i a) i = some a := by
  obtain ⟨h0, h1, -⟩ := getI_eq_some h
  unfold getI setI
  rw [if_neg (by omega)]
  exact List.getElem?_set_self h1

/-- What the point match loop keeps about the accepted pairs: no previous point is accepted
twice, every accepted pair passed the mutual test, and the previous point of an accepted pair
is flagged and holds the pixel of the pair's current point as its observation. -/
theorem pointMatchLoop_pairs {cfg : Config D} {env : Ext D} {pm21 : List (List (DMatch D))}
    {ms : List (List (DMatch D))} {st0 st' : PtTrack D}
    (hnd : (ms.map firstQueryIdx).Nodup) (h : pointMatchLoop cfg env pm21 ms st0 = some st')
    (h0 : st0.accepted = []) :
    (st'.accepted.map Prod.fst).Nodup ∧
    st'.curr_pt.map (fun f => f.pl) = st0.curr_pt.map (fun f => f.pl) ∧
    ∀ a ∈ st'.accepted, 0 ≤ a.1 ∧ reverseBest cfg pm21 a.1 a.2 = some a.1 ∧
      ∃ p c, getI st'.prev_pt a.1 = some p ∧ getI st0.curr_pt a.2 = some c ∧
        p.inlier = true ∧ p.pl_obs = c.pl := by
  refine pointMatchLoop_induct_queries
    (fun st => (st.accepted.map Prod.fst).Nodup ∧
      st.curr_pt.map (fun f => f.pl) = st0.curr_pt.map (fun f => f.pl) ∧
      ∀ a ∈ st.accepted, 0 ≤ a.1 ∧ reverseBest cfg pm21 a.1 a.2 = some a.1 ∧
        ∃ p c, getI st.prev_pt a.1 = some p ∧ getI st0.curr_pt a.2 = some c ∧
          p.inlier = true ∧ p.pl_obs = c.pl)
    ms hnd ?_ st0 st' h (by rw [h0]; simp) ⟨by rw [h0]; simp, rfl, by rw [h0]; simp⟩
  intro m _ st st1 hs ⟨i1, i2, i3⟩ hnew
  obtain ⟨m0, c, p, hm0, hc, hp, hcase⟩ := pointMatchStep_cases hs
  have hfq := firstQueryIdx_eq hm0
  obtain ⟨hq0, -, -⟩ := getI_eq_some hp
  obtain ⟨-, -, hct⟩ := getI_eq_some hc
  rcases hcase with ⟨hrev, rfl⟩ | ⟨-, rfl⟩
  · refine ⟨?_, ?_, ?_⟩
    · simp only [List.map_append, List.map_cons, List.map_nil]
      rw [List.nodup_append]
      refine ⟨i1, List.nodup_singleton _, ?_⟩
      intro x hx hx'
      simp only [List.mem_singleton] at hx'
      subst hx'
      obtain ⟨a, ha, hax⟩ := List.mem_map.mp hx
      exact hnew a ha (by rw [hfq, hax])
    · have e := map_set_same (fun f : PointFeature D => f.pl) hct
        (show ({ c with idx := p.idx } : PointFeature D).pl = c.pl from rfl)
      exact e.trans i2
    · intro a ha
      simp only [List.mem_append, List.mem_singleton] at ha
      rcases ha with ha | rfl
      · obtain ⟨b0, b1, p', c', b2, b3, b4, b5⟩ := i3 a ha
        refine ⟨b0, b1, p', c', ?_, b3, b4, b5⟩
        have hne : m0.queryIdx ≠ a.1 := fun e => hnew a ha (by rw [hfq, e])
        simp only
        rw [getI_setI_ne hq0 b0 hne]
        exact b2
      · have hpl : (getI st0.curr_pt m0.trainIdx).map (fun f => f.pl) = some c.pl := by
          rw [← getI_map, ← i2, getI_map, hc]
          rfl
        obtain ⟨c', hc', hcpl⟩ := Option.map_eq_some'.mp hpl
        exact ⟨hq0, hrev, _, c', getI_setI_self hp, hc', rfl, hcpl.symm⟩
  · refine ⟨i1, ?_, i3⟩
    have e := map_set_same (fun f : PointFeature D => f.pl) hct
      (show ({ c with idx := st.max_idx_pt } : PointFeature D).pl = c.pl from rfl)
    exact e.trans i2

theorem pairs_injective {acc : List (Int × Int)}
    (hu : ∀ a ∈ acc, ∀ b ∈ acc, a.2 = b.2 → a.1 = b.1) :
    ∀ a ∈ acc, ∀ b ∈ acc, a.2 = b.2 → a = b := by
  intro a ha b hb hab
  exact Prod.ext (hu a ha b hb hab) hab

theorem nodup_map_toNat {acc : List (Int × Int)} (hn : (acc.map Prod.fst).Nodup)
    (h0 : ∀ a ∈ acc, 0 ≤ a.1) : (acc.map (fun a => a.1.toNat)).Nodup := by
  have e : acc.map (fun a => a.1.toNat) = (acc.map Prod.fst).map Int.toNat := by
    rw [List.map_map]
    rfl
  rw [e]
  refine List.Nodup.map_on ?_ hn
  intro x hx y hy hxy
  obtain ⟨a, ha, rfl⟩ := List.mem_map.mp hx
  obtain ⟨b, hb, rfl⟩ := List.mem_map.mp hy
  have := h0 a ha
  have := h0 b hb
  omega

/-- The accepted point pairs of the point half, with `bestLRMatches` and a match list with at
most one entry per previous point. -/
theorem pointHalf_pairs {cfg : Config D} {env : Ext D} {km : KnnMatches D} {s : Handler D}
    {curr : StereoFrame D} {pt : PtTrack D} (h : pointHalf cfg env km s curr = some pt)
    (hb : cfg.bestLRMatches = true) (hq : (km.pmatches_12.map firstQueryIdx).Nodup) :
    pt.matched_pt.Nodup ∧
    (∀ a ∈ pt.accepted, ∀ b ∈ pt.accepted, a.2 = b.2 → a = b) ∧
    (∀ a ∈ pt.accepted, ∃ p c, pt.prev_pt[a.1.toNat]? = some p ∧
      getI curr.stereo_pt a.2 = some c ∧ p.inlier = true ∧ p.pl_obs = c.pl) := by
  rw [pointHalf_matched h]
  rcases pointHalf_cases h with ⟨-, -, -, hblk⟩ | ⟨-, rfl⟩
  · obtain ⟨pm12, pm21, st1, rest, hs12, -, hloop, -, rfl⟩ := pointBlock_eq_some hblk
    have hq' : (pm12.map firstQueryIdx).Nodup :=
      ((sortByQueryIdx_perm hs12).map _).nodup_iff.mpr hq
    obtain ⟨a1, -, a3⟩ := pointMatchLoop_pairs hq' hloop rfl
    refine ⟨nodup_map_toNat a1 (fun a ha => (a3 a ha).1), ?_, ?_⟩
    · exact pairs_injective (fun a ha b hb' hab =>
        reverseBest_unique hb (a3 a ha).2.1 (by rw [hab]; exact (a3 b hb').2.1))
    · intro a ha
      obtain ⟨-, -, p, c, b1, b2, b3, b4⟩ := a3 a ha
      exact ⟨p, c, (getI_eq_some b1).2.2, b2, b3, b4⟩
  · simp

end PointPairs

section LinePairs

variable {D : Type} [DoubleOps D]

/-- Invariants of the line match loop over a match list in which no two entries have the same
query: an iteration may use that its query has not been accepted before. -/
theorem lineMatchLoop_induct_queries {cfg : Config D} {env : Ext D}
    {pm21 : List (List (DMatch D))} {th : D} (P : LsTrack D → Prop) :
    ∀ (ms : List (List (DMatch D))), (ms.map firstQueryIdx).Nodup →
      (∀ m ∈ ms, ∀ st st', lineMatchStep cfg env pm21 th st m = some st' → P st →
        (∀ a ∈ st.accepted, some a.1 ≠ firstQueryIdx m) → P st') →
      ∀ st st', lineMatchLoop cfg env pm21 th ms st = some st' →
        (∀ a ∈ st.accepted, some a.1 ∉ ms.map firstQueryIdx) → P st → P st' := by
  intro ms
  induction ms with
  | nil =>
    intro _ _ st st' h _ hP
    simp only [lineMatchLoop, Option.some.injEq] at h
    exact h ▸ hP
  | cons m ms ih =>
    intro hnd hstep st st' h hacc hP
    simp only [lineMatchLoop, Option.bind_eq_bind, Option.bind_eq_some] at h
    obtain ⟨st1, h1, h2⟩ := h
    rw [List.map_cons, List.nodup_cons] at hnd
    have hP1 := hstep m (List.mem_cons_self _ _) st st1 h1 hP
      (fun a ha e => hacc a ha (by rw [List.map_cons, e]; exact List.mem_cons_self _ _))
    refine ih hnd.2 (fun m' hm' => hstep m' (List.mem_cons_of_mem _ hm')) st1 st' h2 ?_ hP1
    obtain ⟨m0, c, p, hm0, -, -, hcase⟩ := lineMatchStep_cases h1
    have hfq := firstQueryIdx_eq hm0
    rcases hcase with ⟨-, rfl⟩ | ⟨-, rfl⟩
    · intro a ha
      simp only [List.mem_append, List.mem_singleton] at ha
      rcases ha with ha | rfl
      · exact fun hmem => hacc a ha (by rw [List.map_cons]; exact List.mem_cons_of_mem _ hmem)
      · exact fun hmem => hnd.1 (by rw [hfq]; exact hmem)
    · exact fun a ha hmem =>
        hacc a ha (by rw [List.map_cons]; exact List.mem_cons_of_mem _ hmem)

/-- What the line match loop keeps about the accepted pairs: no previous line is accepted
twice, every accepted pair passed the mutual test, and the previous line of an accepted pair
is flagged and holds the end points and the equation of the pair's current line as its
observation. -/
theorem lineMatchLoop_pairs {cfg : Config D} {env : Ext D} {pm21 : List (List (DMatch D))}
    {th : D} {ms : List (List (DMatch D))} {st0 st' : LsTrack D}
    (hnd : (ms.map firstQueryIdx).Nodup) (h : lineMatchLoop cfg env pm21 th ms st0 = some st')
    (h0 : st0.accepted = []) :
    (st'.accepted.map Prod.fst).Nodup ∧
    st'.curr_ls.map (fun f => (f.spl, f.epl, f.le)) = st0.curr_ls.map (fun f => (f.spl, f.epl, f.le)) ∧
    ∀ a ∈ st'.accepted, 0 ≤ a.1 ∧ reverseBest cfg pm21 a.1 a.2 = some a.1 ∧
      ∃ p c, getI st'.prev_ls a.1 = some p ∧ getI st0.curr_ls a.2 = some c ∧
        p.inlier = true ∧ (p.spl_obs, p.epl_obs, p.le_obs) = (c.spl, c.epl, c.le) := by
  refine lineMatchLoop_induct_queries
    (fun st => (st.accepted.map Prod.fst).Nodup ∧
      st.curr_ls.map (fun f => (f.spl, f.epl, f.le)) = st0.curr_ls.map (fun f => (f.spl, f.epl, f.le)) ∧
      ∀ a ∈ st.accepted, 0 ≤ a.1 ∧ reverseBest cfg pm21 a.1 a.2 = some a.1 ∧
        ∃ p c, getI st.prev_ls a.1 = some p ∧ getI st0.curr_ls a.2 = some c ∧
          p.inlier = true ∧ (p.spl_obs, p.epl_obs, p.le_obs) = (c.spl, c.epl, c.le))
    ms hnd ?_ st0 st' h (by rw [h0]; simp) ⟨by rw [h0]; simp, rfl, by rw [h0]; simp⟩
  intro m _ st st1 hs ⟨i1, i2, i3⟩ hnew
  obtain ⟨m0, c, p, hm0, hc, hp, hcase⟩ := lineMatchStep_cases hs
  have hfq := firstQueryIdx_eq hm0
  obtain ⟨hq0, -, -⟩ := getI_eq_some hp
  obtain ⟨-, -, hct⟩ := getI_eq_some hc
  rcases hcase with ⟨hrev, rfl⟩ | ⟨-, rfl⟩
  · refine ⟨?_, ?_, ?_⟩
    · simp only [List.map_append, List.map_cons, List.map_nil]
      rw [List.nodup_append]
      refine ⟨i1, List.nodup_singleton _, ?_⟩
      intro x hx hx'
      simp only [List.mem_singleton] at hx'
      subst hx'
      obtain ⟨a, ha, hax⟩ := List.mem_map.mp hx
      exact hnew a ha (by rw [hfq, hax])
    · have e := map_set_same (fun f : LineFeature D => (f.spl, f.epl, f.le)) hct
        (show (fun f : LineFeature D => (f.spl, f.epl, f.le)) { c with idx := p.idx }
          = (fun f : LineFeature D => (f.spl, f.epl, f.le)) c from rfl)
      exact e.trans i2
    · intro a ha
      simp only [List.mem_append, List.mem_singleton] at ha
      rcases ha with ha | rfl
      · obtain ⟨b0, b1, p', c', b2, b3, b4, b5⟩ := i3 a ha
        refine ⟨b0, b1, p', c', ?_, b3, b4, b5⟩
        have hne : m0.queryIdx ≠ a.1 := fun e => hnew a ha (by rw [hfq, e])
        simp only
        rw [getI_setI_ne hq0 b0 hne]
        exact b2
      · have hpl : (getI st0.curr_ls m0.trainIdx).map (fun f => (f.spl, f.epl, f.le)) = some (c.spl, c.epl, c.le) := by
          rw [← getI_map, ← i2, getI_map, hc]
          rfl
        obtain ⟨c', hc', hcpl⟩ := Option.map_eq_some'.mp hpl
        exact ⟨hq0, hrev, _, c', getI_setI_self hp, hc', rfl, hcpl.symm⟩
  · refine ⟨i1, ?_, i3⟩
    have e := map_set_same (fun f : LineFeature D => (f.spl, f.epl, f.le)) hct
      (show (fun f : LineFeature D => (f.spl, f.epl, f.le)) { c with idx := st.max_idx_ls }
        = (fun f : LineFeature D => (f.spl, f.epl, f.le)) c from rfl)
    exact e.trans i2

/-- The accepted line pairs of the line half, with `bestLRMatches` and a match list with at
most one entry per previous line. -/
theorem lineHalf_pairs {cfg : Config D} {env : Ext D} {km : KnnMatches D} {s : Handler D}
    {curr : StereoFrame D} {ls : LsTrack D} (h : lineHalf cfg env km s curr = some ls)
    (hb : cfg.bestLRMatches = true) (hq : (km.lmatches_12.map firstQueryIdx).Nodup) :
    ls.matched_ls.Nodup ∧
    (∀ a ∈ ls.accepted, ∀ b ∈ ls.accepted, a.2 = b.2 → a = b) ∧
    (∀ a ∈ ls.accepted, ∃ p c, ls.prev_ls[a.1.toNat]? = some p ∧
      getI curr.stereo_ls a.2 = some c ∧ p.inlier = true ∧ (p.spl_obs, p.epl_obs, p.le_obs) = (c.spl, c.epl, c.le)) := by
  rw [lineHalf_matched h]
  rcases lineHalf_cases h with ⟨-, -, -, hblk⟩ | ⟨-, rfl⟩
  · obtain ⟨pm12, pm21, st1, rest, hs12, -, hloop, -, rfl⟩ := lineBlock_eq_some hblk
    have hq' : (pm12.map firstQueryIdx).Nodup :=
      ((sortByQueryIdx_perm hs12).map _).nodup_iff.mpr hq
    obtain ⟨a1, -, a3⟩ := lineMatchLoop_pairs hq' hloop rfl
    refine ⟨nodup_map_toNat a1 (fun a ha => (a3 a ha).1), ?_, ?_⟩
    · exact pairs_injective (fun a ha b hb' hab =>
        reverseBest_unique hb (a3 a ha).2.1 (by rw [hab]; exact (a3 b hb').2.1))
    · intro a ha
      obtain ⟨-, -, p, c, b1, b2, b3, b4⟩ := a3 a ha
      exact ⟨p, c, (getI_eq_some b1).2.2, b2, b3, b4⟩
  · simp

end LinePairs

section ClaimC16

variable {D : Type} [DoubleOps D]

/-- C16: with `Config::bestLRMatches()` enabled and a forward match list with at most one entry
per previous feature (what `knnMatch` returns), the correspondences accepted by `f2fTracking`
form an injective partial map from previous-frame to current-frame features: `matched_pt` holds
no previous point twice, two accepted pairs with the same current point are the same pair, and
the previous point of each accepted pair `(q, t)` is flagged and holds the pixel of current
point `t` as its observation.  The same holds for `matched_ls`, with the end points and the line
equation as observation. -/
theorem accepted_injective (cfg : Config D) (env : Ext D) (km : KnnMatches D)
    (s : Handler D) (r : TrackResult D) (hb : cfg.bestLRMatches = true)
    (h : f2fTracking cfg env km s = some r) :
    ∃ c0, s.curr_frame = some c0 ∧
      ((km.pmatches_12.map firstQueryIdx).Nodup →
        r.handler.matched_pt.Nodup ∧
        r.handler.matched_pt = r.accepted_pt.map (fun a => a.1.toNat) ∧
        (∀ a ∈ r.accepted_pt, ∀ b ∈ r.accepted_pt, a.2 = b.2 → a = b) ∧
        (∀ a ∈ r.accepted_pt, ∃ p c,
          r.handler.prev_frame.stereo_pt[a.1.toNat]? = some p ∧
          getI c0.stereo_pt a.2 = some c ∧ p.inlier = true ∧ p.pl_obs = c.pl)) ∧
      ((km.lmatches_12.map firstQueryIdx).Nodup →
        r.handler.matched_ls.Nodup ∧
        r.handler.matched_ls = r.accepted_ls.map (fun a => a.1.toNat) ∧
        (∀ a ∈ r.accepted_ls, ∀ b ∈ r.accepted_ls, a.2 = b.2 → a = b) ∧
        (∀ a ∈ r.accepted_ls, ∃ p c,
          r.handler.prev_frame.stereo_ls[a.1.toNat]? = some p ∧
          getI c0.stereo_ls a.2 = some c ∧ p.inlier = true ∧
          p.spl_obs = c.spl ∧ p.epl_obs = c.epl ∧ p.le_obs = c.le)) := by
  obtain ⟨curr, pt, ls, hc, hpt, hls, rfl⟩ := f2fTracking_eq_some h
  refine ⟨curr, hc, ?_, ?_⟩
  · intro hq
    obtain ⟨a1, a2, a3⟩ := pointHalf_pairs hpt hb hq
    exact ⟨a1, pointHalf_matched hpt, a2, a3⟩
  · intro hq
    obtain ⟨a1, a2, a3⟩ := lineHalf_pairs hls hb hq
    refine ⟨a1, lineHalf_matched hls, a2, ?_⟩
    intro a ha
    obtain ⟨p, c, b1, b2, b3, b4⟩ := a3 a ha
    simp only [Prod.mk.injEq] at b4
    exact ⟨p, c, b1, b2, b3, b4.1, b4.2.1, b4.2.2⟩

end ClaimC16

section WitnessC16

/-- On `mixedHandler` both points and both lines are matched, each once, to distinct features of
the current frame. -/
theorem accepted_injective_witness :
    ∃ r, f2fTracking demoConfig exactEnv mixedMatches mixedHandler = some r ∧
      r.accepted_pt = [(0, 0), (1, 1)] ∧ r.accepted_ls = [(0, 0), (1, 1)] ∧
      r.handler.matched_pt.Nodup ∧ r.handler.matched_ls.Nodup ∧
      (∀ a ∈ r.accepted_pt, ∀ b ∈ r.accepted_pt, a.2 = b.2 → a = b) ∧
      (∀ a ∈ r.accepted_ls, ∀ b ∈ r.accepted_ls, a.2 = b.2 → a = b) := by
  have e0 := (Option.some_get mixed_demo_tracks).symm
  obtain ⟨c0, -, hp, hl⟩ :=
    accepted_injective demoConfig exactEnv mixedMatches mixedHandler _ rfl e0
  have hp' := hp (by decide)
  have hl' := hl (by decide)
  exact ⟨_, e0, by decide!, by decide!, hp'.1, hl'.1, hp'.2.2.1, hl'.2.2.1⟩

end WitnessC16

section CycleLemmas

variable {D : Type} [DoubleOps D]

/-- A residual pass changes nothing but flags, and raises none. -/
theorem runOp_pass {cfg : Config D} {env : Ext D} {s s' : Handler D} {op : CycleOp D}
    (h : runOp cfg env s op = some s') (hop : op.isFilter = false) :
    FlagsOnly s s' ∧ FlagsLowered s s' := by
  cases op with
  | nonweighted DT =>
    simp only [runOp, Option.map_eq_some'] at h
    obtain ⟨r, hr, rfl⟩ := h
    exact ⟨nonweighted_flagsOnly hr, nonweighted_lowered hr⟩
  | uncweighted DT =>
    simp only [runOp, Option.map_eq_some'] at h
    obtain ⟨r, hr, rfl⟩ := h
    exact ⟨uncweighted_flagsOnly hr, uncweighted_lowered hr⟩
  | removeOutliers DT => cases hop

theorem removeOutliers_lowered {cfg : Config D} {env : Ext D} {s s' : Handler D} {DT : Mat4 D}
    (h : removeOutliers cfg env s DT = some s') : FlagsLowered s s' := by
  obtain ⟨-, -, -, -, e5, e6⟩ := removeOutliers_spec h
  exact ⟨fun q hq => ((e5 q).mp hq).1, fun q hq => ((e6 q).mp hq).1⟩

theorem runOp_lowered {cfg : Config D} {env : Ext D} {s s' : Handler D} {op : CycleOp D}
    (h : runOp cfg env s op = some s') : FlagsLowered s s' := by
  cases hop : op.isFilter with
  | false => exact (runOp_pass h hop).2
  | true =>
    cases op with
    | nonweighted DT => cases hop
    | uncweighted DT => cases hop
    | removeOutliers DT => exact removeOutliers_lowered h

theorem flagged_le_of_pass {s s' : Handler D} (hf : FlagsOnly s s') (hl : FlagsLowered s s') :
    flaggedPt s' ≤ flaggedPt s ∧ flaggedLs s' ≤ flaggedLs s := by
  obtain ⟨pts, lns, rfl⟩ := hf
  exact ⟨List.countP_mono_left (fun q _ hq => hl.1 q hq),
    List.countP_mono_left (fun q _ hq => hl.2 q hq)⟩

/-- After `removeOutliers`, started with counters equal to the sizes of the correspondence
sets, the flagged entries are at most as many as the counters say. -/
theorem removeOutliers_bounds {cfg : Config D} {env : Ext D} {s s' : Handler D} {DT : Mat4 D}
    (h : removeOutliers cfg env s DT = some s')
    (hp : s.n_inliers_pt = (s.matched_pt.length : Int))
    (hl : s.n_inliers_ls = (s.matched_ls.length : Int)) :
    (flaggedPt s' : Int) ≤ s'.n_inliers_pt ∧ (flaggedLs s' : Int) ≤ s'.n_inliers_ls := by
  obtain ⟨-, e2, e3, ⟨pts, lns, e4⟩, e5, e6⟩ := removeOutliers_spec h
  have hmp : s'.matched_pt = s.matched_pt := by rw [e4]
  have hml : s'.matched_ls = s.matched_ls := by rw [e4]
  have c1 : s'.matched_pt.countP (ptFlag s'.prev_frame.stereo_pt)
      ≤ s.matched_pt.countP (fun a => ¬ ptExceeds cfg env s DT a = true) := by
    rw [hmp]
    apply List.countP_mono_left
    intro q hq hf
    have := ((e5 q).mp hf).2
    simpa [hq] using this
  have c2 : s'.matched_ls.countP (lsFlag s'.prev_frame.stereo_ls)
      ≤ s.matched_ls.countP (fun a => ¬ lsExceeds cfg env s DT a = true) := by
    rw [hml]
    apply List.countP_mono_left
    intro q hq hf
    have := ((e6 q).mp hf).2
    simpa [hq] using this
  have d1 := List.length_eq_countP_add_countP (ptExceeds cfg env s DT) s.matched_pt
  have d2 := List.length_eq_countP_add_countP (lsExceeds cfg env s DT) s.matched_ls
  unfold flaggedPt flaggedLs
  rw [e2, e3, hp, hl]
  constructor <;> omega

/-- A sequence of residual passes keeps the counters and lowers the numbers of flagged
entries. -/
theorem runOps_passes {cfg : Config D} {env : Ext D} :
    ∀ (ops : List (CycleOp D)) (s s' : Handler D), runOps cfg env ops s = some s' →
      ops.countP CycleOp.isFilter = 0 →
      FlagsOnly s s' ∧ flaggedPt s' ≤ flaggedPt s ∧ flaggedLs s' ≤ flaggedLs s := by
  intro ops
  induction ops with
  | nil =>
    intro s s' h _
    simp only [runOps, Option.some.injEq] at h
    subst h
    exact ⟨FlagsOnly.refl _, le_refl _, le_refl _⟩
  | cons op ops ih =>
    intro s s' h hc
    simp only [runOps, Option.bind_eq_some] at h
    obtain ⟨s1, h1, h2⟩ := h
    have hop : op.isFilter = false := by
      cases hf : op.isFilter with
      | false => rfl
      | true => rw [List.countP_cons_of_pos _ _ hf] at hc; omega
    rw [List.countP_cons_of_neg _ _ (by simp [hop])] at hc
    obtain ⟨f1, l1⟩ := runOp_pass h1 hop
    obtain ⟨f2, a2, b2⟩ := ih s1 s' h2 hc
    obtain ⟨a1, b1⟩ := flagged_le_of_pass f1 l1
    exact ⟨f1.trans f2, le_trans a2 a1, le_trans b2 b1⟩

/-- A sequence of operations with at most one `removeOutliers`, started with counters equal to
the sizes of the correspondence sets: the flagged entries are at most as many as the counters
say, and the counter equation holds. -/
theorem runOps_bounds {cfg : Config D} {env : Ext D} :
    ∀ (ops : List (CycleOp D)) (s s' : Handler D), runOps cfg env ops s = some s' →
      ops.countP CycleOp.isFilter ≤ 1 →
      s.n_inliers_pt = (s.matched_pt.length : Int) →
      s.n_inliers_ls = (s.matched_ls.length : Int) → CountersAgree s →
      (flaggedPt s' : Int) ≤ s'.n_inliers_pt ∧ (flaggedLs s' : Int) ≤ s'.n_inliers_ls ∧
        CountersAgree s' := by
  intro ops
  induction ops with
  | nil =>
    intro s s' h _ hp hl hc
    simp only [runOps, Option.some.injEq] at h
    subst h
    refine ⟨?_, ?_, hc⟩
    · rw [hp]
      exact_mod_cast List.countP_le_length _
    · rw [hl]
      exact_mod_cast List.countP_le_length _
  | cons op ops ih =>
    intro s s' h hone hp hl hc
    simp only [runOps, Option.bind_eq_some] at h
    obtain ⟨s1, h1, h2⟩ := h
    cases hop : op.isFilter with
    | false =>
      rw [List.countP_cons_of_neg _ _ (by simp [hop])] at hone
      obtain ⟨f1, -⟩ := runOp_pass h1 hop
      obtain ⟨pts, lns, rfl⟩ := f1
      exact ih _ s' h2 hone hp hl hc
    | true =>
      rw [List.countP_cons_of_pos _ _ hop] at hone
      have hz : ops.countP CycleOp.isFilter = 0 := by omega
      cases op with
      | nonweighted DT => cases hop
      | uncweighted DT => cases hop
      | removeOutliers DT =>
        obtain ⟨b1, b2⟩ := removeOutliers_bounds h1 hp hl
        have hc1 := removeOutliers_counters h1 hc
        obtain ⟨f2, a2, a3⟩ := runOps_passes ops s1 s' h2 hz
        have hc2 := f2.counters hc1
        have hn1 : s'.n_inliers_pt = s1.n_inliers_pt := by
          obtain ⟨pts, lns, e⟩ := f2
          rw [e]
        have hn2 : s'.n_inliers_ls = s1.n_inliers_ls := by
          obtain ⟨pts, lns, e⟩ := f2
          rw [e]
        have q1 : (flaggedPt s' : Int) ≤ (flaggedPt s1 : Int) := by exact_mod_cast a2
        have q2 : (flaggedLs s' : Int) ≤ (flaggedLs s1 : Int) := by exact_mod_cast a3
        refine ⟨?_, ?_, hc2⟩
        · rw [hn1]
          exact le_trans q1 b1
        · rw [hn2]
          exact le_trans q2 b2

end CycleLemmas

section ClaimC17

variable {D : Type} [DoubleOps D]

/-- C17: in a cycle made of `f2fTracking` followed by residual passes and at most one
`removeOutliers` call, in any order and at any poses, after every operation the number of
entries of `matched_pt` flagged inlier is at most `n_inliers_pt`, the number of entries of
`matched_ls` flagged inlier is at most `n_inliers_ls`, and neither counter nor `n_inliers` is
negative; and no operation turns a flag from false to true. -/
theorem flagged_within_counters (cfg : Config D) (env : Ext D) (km : KnnMatches D)
    (s : Handler D) (r : TrackResult D) (ops : List (CycleOp D))
    (h : f2fTracking cfg env km s = some r) (hone : ops.countP CycleOp.isFilter ≤ 1) :
    (∀ (k : Nat) (sk : Handler D), runOps cfg env (ops.take k) r.handler = some sk →
      (flaggedPt sk : Int) ≤ sk.n_inliers_pt ∧ (flaggedLs sk : Int) ≤ sk.n_inliers_ls ∧
        0 ≤ sk.n_inliers_pt ∧ 0 ≤ sk.n_inliers_ls ∧ 0 ≤ sk.n_inliers) ∧
    (∀ (a b : Handler D) (op : CycleOp D), runOp cfg env a op = some b → FlagsLowered a b) := by
  refine ⟨?_, fun a b op hop => runOp_lowered hop⟩
  intro k sk hk
  have hcount : (ops.take k).countP CycleOp.isFilter ≤ 1 :=
    le_trans (List.Sublist.countP_le _ (List.take_sublist k ops)) hone
  have hc := f2fTracking_counters h
  obtain ⟨curr, pt, ls, -, -, -, rfl⟩ := f2fTracking_eq_some h
  obtain ⟨a1, a2, a3⟩ := runOps_bounds _ _ _ hk hcount rfl rfl hc
  have p1 : (0 : Int) ≤ (flaggedPt sk : Int) := Int.ofNat_nonneg _
  have p2 : (0 : Int) ≤ (flaggedLs sk : Int) := Int.ofNat_nonneg _
  unfold CountersAgree at a3
  refine ⟨a1, a2, ?_, ?_, ?_⟩ <;> omega

end ClaimC17

section WitnessC17

theorem demo_cycle_runs :
    (runOps demoConfig exactEnv
      [CycleOp.nonweighted Mat4.identity, CycleOp.removeOutliers Mat4.identity,
        CycleOp.uncweighted Mat4.identity]
      ((f2fTracking demoConfig exactEnv demoMatches demoHandler).get demo_tracks).handler).isSome
      = true := by decide!

/-- On `demoHandler`: association, a non-weighted pass, the outlier filter and an
uncertainty-weighted pass, all at the identity pose. -/
theorem flagged_within_counters_witness :
    ∃ r sk, f2fTracking demoConfig exactEnv demoMatches demoHandler = some r ∧
      runOps demoConfig exactEnv
        [CycleOp.nonweighted Mat4.identity, CycleOp.removeOutliers Mat4.identity,
          CycleOp.uncweighted Mat4.identity] r.handler = some sk ∧
      (flaggedPt sk : Int) ≤ sk.n_inliers_pt ∧ (flaggedLs sk : Int) ≤ sk.n_inliers_ls ∧
      0 ≤ sk.n_inliers_pt ∧ 0 ≤ sk.n_inliers_ls ∧ 0 ≤ sk.n_inliers :=
  have e0 := (Option.some_get demo_tracks).symm
  have e1 := (Option.some_get demo_cycle_runs).symm
  ⟨_, _, e0, e1,
    (flagged_within_counters demoConfig exactEnv demoMatches demoHandler _
      [CycleOp.nonweighted Mat4.identity, CycleOp.removeOutliers Mat4.identity,
        CycleOp.uncweighted Mat4.identity] e0 (by decide)).1 3 _ e1⟩

end WitnessC17

section ClaimC18

variable {D : Type} [DoubleOps D]

/-- C18 (amended): in both residual passes, when point/line balancing applies
(`Config::scalePointsLines()`, both modalities enabled, and both MAD scales `S_p` and `S_l`
above `Config::homogTh()`), the point contribution to `H`, `g` and the error is multiplied by
`(1/S_p + 1/S_l) / (1/S_l)` and the line contribution by `(1/S_p + 1/S_l) / (1/S_p)`: the sum of
the inverse MADs relative to the other modality's inverse MAD.  Otherwise the two contributions
are summed with factor 1.  In both cases the error is then divided by `N_l + N_p`. -/
theorem balancing_factors (cfg : Config D) (env : Ext D) (s : Handler D) (DT : Mat4 D)
    (unc : Bool) (r : Residual D) (h : residualPass cfg env s DT unc = some r) :
    ∃ p l S_p S_l, pointSums cfg env s DT unc = some p ∧ lineSums cfg env s DT unc = some l ∧
      S_p = env.vector_stdv_mad p.r_p ∧ S_l = env.vector_stdv_mad l.r_l ∧
      (balancingApplies cfg env p.r_p l.r_l = true ↔
        cfg.scalePointsLines = true ∧ cfg.hasPoints = true ∧ cfg.hasLines = true ∧
          dgt S_p cfg.homogTh = true ∧ dgt S_l cfg.homogTh = true) ∧
      (balancingApplies cfg env p.r_p l.r_l = true →
        r.H = Mat6.add (Mat6.smul p.H_p ((lit 1 / S_p + lit 1 / S_l) / (lit 1 / S_l)))
            (Mat6.smul l.H_l ((lit 1 / S_p + lit 1 / S_l) / (lit 1 / S_p))) ∧
        r.g = Vec6.add (Vec6.smul p.g_p ((lit 1 / S_p + lit 1 / S_l) / (lit 1 / S_l)))
            (Vec6.smul l.g_l ((lit 1 / S_p + lit 1 / S_l) / (lit 1 / S_p))) ∧
        r.e = (p.e_p * ((lit 1 / S_p + lit 1 / S_l) / (lit 1 / S_l))
            + l.e_l * ((lit 1 / S_p + lit 1 / S_l) / (lit 1 / S_p)))
          / lit ((l.N_l + p.N_p : Int) : ℚ)) ∧
      (balancingApplies cfg env p.r_p l.r_l = false →
        r.H = Mat6.add p.H_p l.H_l ∧ r.g = Vec6.add p.g_p l.g_l ∧
        r.e = (p.e_p + l.e_l) / lit ((l.N_l + p.N_p : Int) : ℚ)) := by
  obtain ⟨p, l, hp, hl, hc⟩ := residualPass_eq h
  obtain ⟨-, -, c3, c4⟩ := combineResiduals_eq hc
  refine ⟨p, l, _, _, hp, hl, rfl, rfl, ?_, c3, c4⟩
  simp only [balancingApplies, Bool.and_eq_true]
  tauto

end ClaimC18

section WitnessC18

theorem mixed_tracks :
    (f2fTracking balancedConfig exactEnv mixedMatches mixedHandler).isSome = true := by decide!

theorem mixed_pass_runs :
    (residualPass balancedConfig exactEnv
      ((f2fTracking balancedConfig exactEnv mixedMatches mixedHandler).get mixed_tracks).handler
      Mat4.identity false).isSome = true := by decide!

/-- On `mixedHandler` with balancing switched on, the non-weighted pass at the identity pose
runs, balancing applies, and the error is the scaled sum divided by `N_l + N_p`. -/
theorem balancing_factors_witness :
    ∃ t r p l, f2fTracking balancedConfig exactEnv mixedMatches mixedHandler = some t ∧
      residualPass balancedConfig exactEnv t.handler Mat4.identity false = some r ∧
      pointSums balancedConfig exactEnv t.handler Mat4.identity false = some p ∧
      lineSums balancedConfig exactEnv t.handler Mat4.identity false = some l ∧
      (balancingApplies balancedConfig exactEnv p.r_p l.r_l = true →
        r.e = (p.e_p * ((lit 1 / exactMad p.r_p + lit 1 / exactMad l.r_l)
              / (lit 1 / exactMad l.r_l))
            + l.e_l * ((lit 1 / exactMad p.r_p + lit 1 / exactMad l.r_l)
              / (lit 1 / exactMad p.r_p)))
          / lit ((l.N_l + p.N_p : Int) : ℚ)) :=
  have e0 := (Option.some_get mixed_tracks).symm
  have e1 := (Option.some_get mixed_pass_runs).symm
  match balancing_factors balancedConfig exactEnv _ _ false _ e1 with
  | ⟨p, l, _, _, hp, hl, rfl, rfl, _, c, _⟩ => ⟨_, _, p, l, e0, e1, hp, hl, fun hb => (c hb).2.2⟩

/-- C18 as stated fails: on `mixedHandler` (two points, two lines) balancing applies with
`S_p = 1.4826 * 75` and `S_l = 1.4826 * 9075/4`; the error of the pass is
`(e_p * 125/4 + e_l * 125/121) / 4 = 15625/8`, the factors being the reciprocals of the ones
the claim names, with which the error would be `(e_p * 4/125 + e_l * 121/125) / 4`. -/
theorem balancing_uses_reciprocals :
    ((f2fTracking balancedConfig exactEnv mixedMatches mixedHandler).bind fun t =>
      (pointSums balancedConfig exactEnv t.handler Mat4.identity false).bind fun p =>
      (lineSums balancedConfig exactEnv t.handler Mat4.identity false).bind fun l =>
      (optimizeFunctions_nonweighted balancedConfig exactEnv t.handler Mat4.identity).map fun r =>
        (balancingApplies balancedConfig exactEnv p.r_p l.r_l,
         [p.e_p, l.e_l, exactMad p.r_p, exactMad l.r_l, r.e],
         [decide (r.e = (p.e_p * ((1 / exactMad l.r_l) / (1 / exactMad p.r_p + 1 / exactMad l.r_l))
            + l.e_l * ((1 / exactMad p.r_p) / (1 / exactMad p.r_p + 1 / exactMad l.r_l))) / 4),
          decide (r.e = (p.e_p * (4 / 125) + l.e_l * (121 / 125)) / 4),
          decide (r.e = (p.e_p * (125 / 4) + l.e_l * (125 / 121)) / 4)]))
      = some (true, [125, 15125 / 4, 1.4826 * 75, 1.4826 * (9075 / 4), 15625 / 8],
          [false, false, true]) := by decide!

end WitnessC18

/-! ## Rounding in binary64 -/

section RoundingLemmas

theorem pow2_eq (k : Int) : pow2 k = (2 : ℚ) ^ k := by
  unfold pow2
  split
  · rename_i h
    obtain ⟨n, rfl⟩ := Int.eq_ofNat_of_zero_le h
    simp
  · rename_i h
    obtain ⟨n, hn⟩ := Int.eq_ofNat_of_zero_le (show 0 ≤ -k by omega)
    have hk : k = -(n : Int) := by omega
    subst hk
    simp

theorem pow2_pos (k : Int) : 0 < pow2 k := by
  rw [pow2_eq]
  positivity

theorem pow2_add (a b : Int) : pow2 (a + b) = pow2 a * pow2 b := by
  simp only [pow2_eq]
  exact zpow_add₀ (by norm_num) a b

theorem pow2_le_iff (a b : Int) : pow2 a ≤ pow2 b ↔ a ≤ b := by
  simp only [pow2_eq]
  exact zpow_le_zpow_iff_right₀ (by norm_num)

theorem pow2_lt_iff (a b : Int) : pow2 a < pow2 b ↔ a < b := by
  simp only [pow2_eq]
  exact zpow_lt_zpow_iff_right₀ (by norm_num)

theorem bitLogAux_eq (fuel : Nat) : ∀ n acc, n ≤ fuel → bitLogAux fuel n acc = acc + Nat.log2 n := by
  induction fuel with
  | zero =>
    intro n acc h
    have : n = 0 := by omega
    subst this
    simp [bitLogAux, Nat.log2]
  | succ fuel ih =>
    intro n acc h
    rw [bitLogAux]
    split
    · rename_i h2
      rw [Nat.log2]
      simp [show ¬ n ≥ 2 by omega]
    · rename_i h2
      rw [ih _ _ (by omega)]
      conv_rhs => rw [Nat.log2]
      simp [show n ≥ 2 by omega]
      omega

theorem bitLog_eq (n : Nat) : bitLog n = Nat.log2 n := by
  simp [bitLog, bitLogAux_eq n n 0 (le_refl n)]

theorem bitLog_le (n : Nat) (h : n ≠ 0) : 2 ^ bitLog n ≤ n := by
  rw [bitLog_eq]
  exact Nat.log2_self_le h

theorem lt_bitLog (n : Nat) : n < 2 ^ (bitLog n + 1) := by
  rw [bitLog_eq]
  exact Nat.lt_log2_self

end RoundingLemmas

section LogLemmas

theorem abs_eq_natAbs_div (q : ℚ) : |q| = (q.num.natAbs : ℚ) / (q.den : ℚ) := by
  conv_lhs => rw [← Rat.num_div_den q]
  rw [abs_div, Nat.abs_cast]
  congr 1
  rw [← Int.cast_abs, Int.abs_eq_natAbs, Int.cast_natCast]

/-- The exponent `ilog2 q` is the one of the binade of `q`. -/
theorem ilog2_spec (q : ℚ) (h : q ≠ 0) : pow2 (ilog2 q) ≤ |q| ∧ |q| < pow2 (ilog2 q + 1) := by
  have hn : q.num.natAbs ≠ 0 := by
    simpa using h
  have hd : q.den ≠ 0 := q.den_nz
  have n1 : ((2 : ℚ) ^ bitLog q.num.natAbs) ≤ (q.num.natAbs : ℚ) := by
    exact_mod_cast bitLog_le _ hn
  have n2 : (q.num.natAbs : ℚ) < (2 : ℚ) ^ (bitLog q.num.natAbs + 1) := by
    exact_mod_cast lt_bitLog q.num.natAbs
  have d1 : ((2 : ℚ) ^ bitLog q.den) ≤ (q.den : ℚ) := by
    exact_mod_cast bitLog_le _ hd
  have d2 : (q.den : ℚ) < (2 : ℚ) ^ (bitLog q.den + 1) := by
    exact_mod_cast lt_bitLog q.den
  have dpos : (0 : ℚ) < q.den := by
    exact_mod_cast Nat.pos_of_ne_zero hd
  have e := abs_eq_natAbs_div q
  have two : (2 : ℚ) ≠ 0 := by norm_num
  unfold ilog2
  simp only
  split
  · rename_i ht
    refine ⟨ht, ?_⟩
    rw [e, pow2_eq, div_lt_iff₀ dpos]
    calc (q.num.natAbs : ℚ) < 2 ^ (bitLog q.num.natAbs + 1) := n2
      _ = 2 ^ ((bitLog q.num.natAbs : Int) - bitLog q.den + 1) * 2 ^ bitLog q.den := by
        rw [← zpow_natCast, ← zpow_natCast, ← zpow_add₀ two]
        congr 1
        push_cast
        ring
      _ ≤ _ := by
        apply mul_le_mul_of_nonneg_left d1
        positivity
  · rename_i ht
    push_neg at ht
    refine ⟨?_, ?_⟩
    · rw [e, pow2_eq, le_div_iff₀ dpos]
      calc (2 : ℚ) ^ ((bitLog q.num.natAbs : Int) - bitLog q.den - 1) * q.den
          ≤ 2 ^ ((bitLog q.num.natAbs : Int) - bitLog q.den - 1) * 2 ^ (bitLog q.den + 1) := by
            apply mul_le_mul_of_nonneg_left d2.le
            positivity
        _ = 2 ^ bitLog q.num.natAbs := by
            rw [← zpow_natCast, ← zpow_natCast, ← zpow_add₀ two]
            congr 1
            push_cast
            ring
        _ ≤ _ := n1
    · have : (bitLog q.num.natAbs : Int) - bitLog q.den - 1 + 1
          = (bitLog q.num.natAbs : Int) - bitLog q.den := by ring
      rw [this]
      exact ht

theorem ilog2_unique (q : ℚ) (k : Int) (h1 : pow2 k ≤ |q|) (h2 : |q| < pow2 (k + 1)) :
    ilog2 q = k := by
  have hq : q ≠ 0 := by
    intro h
    rw [h, abs_zero] at h1
    exact absurd h1 (not_le.mpr (pow2_pos k))
  obtain ⟨s1, s2⟩ := ilog2_spec q hq
  have a : ilog2 q < k + 1 := (pow2_lt_iff _ _).mp (lt_of_le_of_lt s1 h2)
  have b : k < ilog2 q + 1 := (pow2_lt_iff _ _).mp (lt_of_le_of_lt h1 s2)
  omega

theorem le_ilog2 (q : ℚ) (k : Int) (h1 : pow2 k ≤ |q|) : k ≤ ilog2 q := by
  have hq : q ≠ 0 := by
    intro h
    rw [h, abs_zero] at h1
    exact absurd h1 (not_le.mpr (pow2_pos k))
  obtain ⟨-, s2⟩ := ilog2_spec q hq
  have b : k < ilog2 q + 1 := (pow2_lt_iff _ _).mp (lt_of_le_of_lt h1 s2)
  omega

theorem ilog2_lt (q : ℚ) (k : Int) (hq : q ≠ 0) (h2 : |q| < pow2 k) : ilog2 q < k := by
  obtain ⟨s1, -⟩ := ilog2_spec q hq
  exact (pow2_lt_iff _ _).mp (lt_of_le_of_lt s1 h2)

/-- Scaling by a power of two shifts the exponent. -/
theorem ilog2_scale (q : ℚ) (k : Int) (hq : q ≠ 0) : ilog2 (q * pow2 k) = ilog2 q + k := by
  obtain ⟨s1, s2⟩ := ilog2_spec q hq
  have hp := pow2_pos k
  apply ilog2_unique
  · rw [abs_mul, abs_of_pos hp, pow2_add]
    exact mul_le_mul_of_nonneg_right s1 hp.le
  · rw [abs_mul, abs_of_pos hp, show ilog2 q + k + 1 = (ilog2 q + 1) + k by ring, pow2_add]
    exact mul_lt_mul_of_pos_right s2 hp

end LogLemmas

section RoundLemmas

theorem roundEven_cases (q : ℚ) :
    roundEven q = ⌊q⌋ ∨ (roundEven q = ⌊q⌋ + 1 ∧ (1 : ℚ) / 2 ≤ q - ⌊q⌋) := by
  unfold roundEven
  split
  · exact Or.inl rfl
  · rename_i h
    push_neg at h
    split
    · exact Or.inr ⟨rfl, h⟩
    · split
      · exact Or.inl rfl
      · exact Or.inr ⟨rfl, h⟩

/-- An integer is not rounded. -/
theorem roundEven_intCast (n : Int) : roundEven (n : ℚ) = n := by
  unfold roundEven
  simp

theorem le_roundEven (q : ℚ) (M : Int) (h : (M : ℚ) ≤ q) : M ≤ roundEven q := by
  have hf : M ≤ ⌊q⌋ := Int.le_floor.mpr h
  rcases roundEven_cases q with e | ⟨e, -⟩ <;> omega

theorem roundEven_le (q : ℚ) (M : Int) (h : q ≤ (M : ℚ)) : roundEven q ≤ M := by
  rcases roundEven_cases q with e | ⟨e, hh⟩
  · rw [e]
    exact Int.floor_le_iff.mpr (by linarith)
  · rw [e]
    have : ⌊q⌋ < M := by
      by_contra hc
      push_neg at hc
      have : (M : ℚ) ≤ (⌊q⌋ : ℚ) := by exact_mod_cast hc
      linarith
    omega

theorem abs_roundEven_le (q : ℚ) (M : Int) (h : |q| ≤ (M : ℚ)) : |roundEven q| ≤ M := by
  have h1 := (abs_le.mp h).1
  have h2 := (abs_le.mp h).2
  apply abs_le.mpr
  exact ⟨le_roundEven q (-M) (by push_cast; exact h1), roundEven_le q M h2⟩

/-- A value below one half in magnitude rounds to zero. -/
theorem roundEven_small (q : ℚ) (h : |q| < 1 / 2) : roundEven q = 0 := by
  have h1 := (abs_lt.mp h).1
  have h2 := (abs_lt.mp h).2
  have hle : roundEven q ≤ 0 := by
    rcases roundEven_cases q with e | ⟨e, hh⟩
    · rw [e]
      exact Int.floor_le_iff.mpr (by push_cast; linarith)
    · have hneg : (⌊q⌋ : ℚ) < 0 := by linarith
      have : ⌊q⌋ < 0 := by exact_mod_cast hneg
      omega
  have hge : 0 ≤ roundEven q := by
    rcases roundEven_cases q with e | ⟨e, hh⟩
    · rw [e]
      by_contra hc
      push_neg at hc
      have : ⌊q⌋ ≤ -1 := by omega
      have h3 : (⌊q⌋ : ℚ) ≤ -1 := by exact_mod_cast this
      have h4 := Int.lt_floor_add_one q
      unfold roundEven at e
      split at e
      · rename_i hlt
        have hfl := Int.floor_le q
        have hq : q < 0 := by linarith
        have : ⌊q⌋ = -1 := by
          have : (-1 : Int) ≤ ⌊q⌋ := Int.le_floor.mpr (by push_cast; linarith)
          omega
        rw [this] at hlt
        push_cast at hlt
        linarith
      · rename_i hnlt
        split at e
        · omega
        · split at e
          · rename_i hnlt2 hpar
            push_neg at hnlt hnlt2
            have hq : q - ⌊q⌋ = 1 / 2 := le_antisymm hnlt2 hnlt
            have : ⌊q⌋ = -1 := by
              have : (-1 : Int) ≤ ⌊q⌋ := Int.le_floor.mpr (by push_cast; linarith)
              omega
            rw [this] at hpar
            simp at hpar
          · omega
    · have hf : (-1 : Int) ≤ ⌊q⌋ := Int.le_floor.mpr (by push_cast; linarith)
      omega
  omega

/-- A value that rounds to zero is at most one half in magnitude. -/
theorem abs_le_of_roundEven_eq_zero (q : ℚ) (h : roundEven q = 0) : |q| ≤ 1 / 2 := by
  have hfl := Int.floor_le q
  have hlt := Int.lt_floor_add_one q
  rcases roundEven_cases q with e | ⟨e, hh⟩
  · rw [h] at e
    rw [← e] at hfl hlt
    push_cast at hfl hlt
    unfold roundEven at h
    split at h
    · rename_i c
      rw [← e] at c
      push_cast at c
      rw [abs_le]
      constructor <;> linarith
    · rename_i c
      split at h
      · omega
      · rename_i c2
        push_neg at c c2
        rw [← e] at c c2
        push_cast at c c2
        rw [abs_le]
        constructor <;> linarith
  · rw [h] at e
    have e2 : ⌊q⌋ = -1 := by omega
    rw [e2] at hfl hlt hh
    push_cast at hfl hlt hh
    rw [abs_le]
    constructor <;> linarith

end RoundLemmas

section RoundQLemmas

theorem pow2_natCast (j : Nat) : pow2 (j : Int) = (((2 : Int) ^ j : Int) : ℚ) := by
  rw [pow2_eq, zpow_natCast]
  push_cast
  rfl

theorem pow2_zero : pow2 0 = 1 := by
  rw [pow2_eq]
  simp

theorem pow2_sub (a b : Int) : pow2 (a - b) = pow2 a / pow2 b := by
  rw [eq_div_iff (pow2_pos b).ne', ← pow2_add]
  congr 1
  ring

theorem ulpOf_pos (f : Format) (q : ℚ) : 0 < ulpOf f q := pow2_pos _

/-- Rounding commutes with scaling by a power of two, as long as the value stays normal. -/
theorem roundQ_scale (f : Format) (q : ℚ) (k : Int) (hq : q ≠ 0) (h1 : f.emin ≤ ilog2 q)
    (h2 : f.emin ≤ ilog2 q + k) : roundQ f (q * pow2 k) = roundQ f q * pow2 k := by
  have hk := pow2_pos k
  have hne : q * pow2 k ≠ 0 := mul_ne_zero hq hk.ne'
  have hu : ulpOf f (q * pow2 k) = ulpOf f q * pow2 k := by
    unfold ulpOf
    rw [ilog2_scale q k hq, max_eq_left h1, max_eq_left h2, ← pow2_add]
    congr 1
    ring
  unfold roundQ
  rw [if_neg hq, if_neg hne, hu, mul_div_mul_right _ _ hk.ne']
  ring

theorem roundQ_zero (f : Format) : roundQ f 0 = 0 := by
  simp [roundQ]

theorem roundQ_nonneg (f : Format) (q : ℚ) (h : 0 ≤ q) : 0 ≤ roundQ f q := by
  unfold roundQ
  split
  · exact le_refl 0
  · have hu := ulpOf_pos f q
    have : (0 : Int) ≤ roundEven (q / ulpOf f q) :=
      le_roundEven _ 0 (by push_cast; exact div_nonneg h hu.le)
    have : (0 : ℚ) ≤ (roundEven (q / ulpOf f q) : ℚ) := by exact_mod_cast this
    exact mul_nonneg this hu.le

/-- Rounding does not cross a power of two from below. -/
theorem abs_roundQ_le (f : Format) (hp : 1 ≤ f.prec) (q : ℚ) (k : Int) (hk : f.emin ≤ k)
    (h : |q| ≤ pow2 k) : |roundQ f q| ≤ pow2 k := by
  by_cases hq : q = 0
  · rw [hq, roundQ_zero, abs_zero]
    exact (pow2_pos k).le
  have hlog : ilog2 q ≤ k := by
    have := ilog2_lt q (k + 1) hq (lt_of_le_of_lt h ((pow2_lt_iff _ _).mpr (by omega)))
    omega
  have hE : max (ilog2 q) f.emin ≤ k := max_le hlog hk
  have hu := ulpOf_pos f q
  obtain ⟨j, hj⟩ := Int.eq_ofNat_of_zero_le
    (show 0 ≤ k - (max (ilog2 q) f.emin - ((f.prec : Int) - 1)) by omega)
  have hM : pow2 k / ulpOf f q = (((2 : Int) ^ j : Int) : ℚ) := by
    unfold ulpOf
    rw [← pow2_sub, hj, pow2_natCast]
  have hb : |q / ulpOf f q| ≤ (((2 : Int) ^ j : Int) : ℚ) := by
    rw [abs_div, abs_of_pos hu, ← hM]
    exact div_le_div_of_nonneg_right h hu.le
  have hN := abs_roundEven_le _ _ hb
  unfold roundQ
  rw [if_neg hq, abs_mul, abs_of_pos hu]
  have hN' : |(roundEven (q / ulpOf f q) : ℚ)| ≤ (((2 : Int) ^ j : Int) : ℚ) := by
    rw [← Int.cast_abs]
    exact_mod_cast hN
  calc |(roundEven (q / ulpOf f q) : ℚ)| * ulpOf f q
      ≤ (((2 : Int) ^ j : Int) : ℚ) * ulpOf f q := mul_le_mul_of_nonneg_right hN' hu.le
    _ = pow2 k := by
      rw [← hM]
      field_simp

/-- Rounding does not cross a power of two from above. -/
theorem le_roundQ (f : Format) (hp : 1 ≤ f.prec) (q : ℚ) (k : Int) (hk : f.emin ≤ k)
    (h : pow2 k ≤ q) : pow2 k ≤ roundQ f q := by
  have hpos : 0 < q := lt_of_lt_of_le (pow2_pos k) h
  have hq : q ≠ 0 := hpos.ne'
  have habs : |q| = q := abs_of_pos hpos
  have hlog : k ≤ ilog2 q := le_ilog2 q k (by rw [habs]; exact h)
  have hE : max (ilog2 q) f.emin = ilog2 q := max_eq_left (by omega)
  have hu := ulpOf_pos f q
  obtain ⟨s1, -⟩ := ilog2_spec q hq
  rw [habs] at s1
  obtain ⟨j, hj⟩ := Int.eq_ofNat_of_zero_le (show 0 ≤ (f.prec : Int) - 1 by omega)
  have hM : pow2 (ilog2 q) / ulpOf f q = (((2 : Int) ^ j : Int) : ℚ) := by
    unfold ulpOf
    rw [← pow2_sub, hE, ← pow2_natCast, ← hj]
    congr 1
    ring
  have hb : (((2 : Int) ^ j : Int) : ℚ) ≤ q / ulpOf f q := by
    rw [← hM]
    exact div_le_div_of_nonneg_right s1 hu.le
  have hN := le_roundEven _ _ hb
  have hN' : (((2 : Int) ^ j : Int) : ℚ) ≤ (roundEven (q / ulpOf f q) : ℚ) := by
    exact_mod_cast hN
  unfold roundQ
  rw [if_neg hq]
  calc pow2 k ≤ pow2 (ilog2 q) := (pow2_le_iff _ _).mpr hlog
    _ = (((2 : Int) ^ j : Int) : ℚ) * ulpOf f q := by
      rw [← hM]
      field_simp
    _ ≤ _ := mul_le_mul_of_nonneg_right hN' hu.le

end RoundQLemmas

section IdempotenceLemmas

/-- A value that is an integer number of its own units is not rounded. -/
theorem roundQ_of_int (f : Format) (r : ℚ) (z : Int) (h : r / ulpOf f r = z) :
    roundQ f r = r := by
  unfold roundQ
  split
  · rename_i h0
    exact h0.symm
  · rw [h, roundEven_intCast, ← h]
    exact div_mul_cancel₀ _ (ulpOf_pos f r).ne'

/-- Rounding twice is rounding once: the result of a rounding is a value of the format. -/
theorem roundQ_idem (f : Format) (hp : 1 ≤ f.prec) (q : ℚ) :
    roundQ f (roundQ f q) = roundQ f q := by
  by_cases hq : q = 0
  · rw [hq, roundQ_zero, roundQ_zero]
  by_cases hr : roundQ f q = 0
  · rw [hr, roundQ_zero]
  have hu := ulpOf_pos f q
  obtain ⟨s1, s2⟩ := ilog2_spec q hq
  have hE1 : ilog2 q ≤ max (ilog2 q) f.emin := le_max_left _ _
  have hE2 : f.emin ≤ max (ilog2 q) f.emin := le_max_right _ _
  -- the significand is at most 2^prec
  have hM : pow2 (max (ilog2 q) f.emin + 1) / ulpOf f q = (((2 : Int) ^ f.prec : Int) : ℚ) := by
    unfold ulpOf
    rw [← pow2_sub, ← pow2_natCast]
    congr 1
    ring
  have hb : |q / ulpOf f q| ≤ (((2 : Int) ^ f.prec : Int) : ℚ) := by
    rw [abs_div, abs_of_pos hu, ← hM]
    apply div_le_div_of_nonneg_right _ hu.le
    exact le_trans s2.le ((pow2_le_iff _ _).mpr (by omega))
  have hN := abs_roundEven_le _ _ hb
  have hN' : |(roundEven (q / ulpOf f q) : ℚ)| ≤ (((2 : Int) ^ f.prec : Int) : ℚ) := by
    rw [← Int.cast_abs]
    exact_mod_cast hN
  have hrq : roundQ f q = roundEven (q / ulpOf f q) * ulpOf f q := by
    unfold roundQ
    rw [if_neg hq]
  have hrle : |roundQ f q| ≤ pow2 (max (ilog2 q) f.emin + 1) := by
    rw [hrq, abs_mul, abs_of_pos hu]
    calc |(roundEven (q / ulpOf f q) : ℚ)| * ulpOf f q
        ≤ (((2 : Int) ^ f.prec : Int) : ℚ) * ulpOf f q :=
          mul_le_mul_of_nonneg_right hN' hu.le
      _ = _ := by
        rw [← hM]
        field_simp
  by_cases hc : ilog2 (roundQ f q) ≤ max (ilog2 q) f.emin
  · -- the exponent did not grow: the unit of the result divides the unit of `q`
    obtain ⟨j, hj⟩ := Int.eq_ofNat_of_zero_le
      (show 0 ≤ max (ilog2 q) f.emin - max (ilog2 (roundQ f q)) f.emin by
        have := max_le hc hE2
        omega)
    apply roundQ_of_int f _ (roundEven (q / ulpOf f q) * (2 : Int) ^ j)
    have hu' := ulpOf_pos f (roundQ f q)
    have e : ulpOf f q = (((2 : Int) ^ j : Int) : ℚ) * ulpOf f (roundQ f q) := by
      rw [← pow2_natCast, ← hj]
      unfold ulpOf
      rw [← pow2_add]
      congr 1
      ring
    rw [div_eq_iff hu'.ne']
    calc roundQ f q = (roundEven (q / ulpOf f q) : ℚ) * ulpOf f q := hrq
      _ = (roundEven (q / ulpOf f q) : ℚ)
            * ((((2 : Int) ^ j : Int) : ℚ) * ulpOf f (roundQ f q)) :=
          congrArg (fun x => (roundEven (q / ulpOf f q) : ℚ) * x) e
      _ = _ := by
        push_cast
        ring
  · -- the exponent grew: the result is a power of two
    push_neg at hc
    obtain ⟨t1, -⟩ := ilog2_spec _ hr
    have hlog : ilog2 (roundQ f q) = max (ilog2 q) f.emin + 1 := by
      have := ilog2_lt (roundQ f q) (max (ilog2 q) f.emin + 2) hr
        (lt_of_le_of_lt hrle ((pow2_lt_iff _ _).mpr (by omega)))
      omega
    have habs : |roundQ f q| = pow2 (max (ilog2 q) f.emin + 1) := by
      apply le_antisymm hrle
      rw [← hlog]
      exact t1
    obtain ⟨j, hj⟩ := Int.eq_ofNat_of_zero_le (show 0 ≤ (f.prec : Int) - 1 by omega)
    have hu' : ulpOf f (roundQ f q) = pow2 (max (ilog2 q) f.emin + 1 - ((f.prec : Int) - 1)) := by
      unfold ulpOf
      rw [hlog, max_eq_left (by omega)]
    have hq2 : pow2 (max (ilog2 q) f.emin + 1) / ulpOf f (roundQ f q)
        = (((2 : Int) ^ j : Int) : ℚ) := by
      rw [hu', ← pow2_sub, ← pow2_natCast, ← hj]
      congr 1
      ring
    rcases abs_cases (roundQ f q) with ⟨e, -⟩ | ⟨e, -⟩
    · apply roundQ_of_int f _ ((2 : Int) ^ j)
      rw [← hq2, ← habs, e]
    · apply roundQ_of_int f _ (-(2 : Int) ^ j)
      have : roundQ f q = -pow2 (max (ilog2 q) f.emin + 1) := by
        rw [← habs, e, neg_neg]
      generalize ulpOf f (roundQ f q) = U at hq2 ⊢
      rw [this, neg_div, hq2]
      push_cast
      rfl

/-- A value that rounds to zero still rounds to zero when scaled down. -/
theorem roundQ_zero_scale (f : Format) (hp : 1 ≤ f.prec) (q : ℚ) (k : Int) (hk : k ≤ 0)
    (h : roundQ f q = 0) : roundQ f (q * pow2 k) = 0 := by
  by_cases hq : q = 0
  · rw [hq, zero_mul, roundQ_zero]
  have hu := ulpOf_pos f q
  have hpk := pow2_pos k
  have hne : q * pow2 k ≠ 0 := mul_ne_zero hq hpk.ne'
  have hN : roundEven (q / ulpOf f q) = 0 := by
    unfold roundQ at h
    rw [if_neg hq] at h
    rcases mul_eq_zero.mp h with h | h
    · exact_mod_cast h
    · exact absurd h hu.ne'
  have hsmall := abs_le_of_roundEven_eq_zero _ hN
  rw [abs_div, abs_of_pos hu] at hsmall
  obtain ⟨s1, -⟩ := ilog2_spec q hq
  have hlt : ilog2 q < f.emin := by
    by_contra hc
    push_neg at hc
    obtain ⟨j, hj⟩ := Int.eq_ofNat_of_zero_le (show 0 ≤ (f.prec : Int) - 1 by omega)
    have hM : pow2 (ilog2 q) / ulpOf f q = (((2 : Int) ^ j : Int) : ℚ) := by
      unfold ulpOf
      rw [max_eq_left hc, ← pow2_sub, ← pow2_natCast, ← hj]
      congr 1
      ring
    have h1 : (1 : ℚ) ≤ (((2 : Int) ^ j : Int) : ℚ) := by
      exact_mod_cast (Nat.one_le_two_pow : 1 ≤ 2 ^ j)
    have : pow2 (ilog2 q) / ulpOf f q ≤ |q| / ulpOf f q :=
      div_le_div_of_nonneg_right s1 hu.le
    rw [hM] at this
    linarith
  have hu2 : ulpOf f (q * pow2 k) = ulpOf f q := by
    unfold ulpOf
    rw [ilog2_scale q k hq, max_eq_right (by omega), max_eq_right (by omega)]
  have hk1 : pow2 k ≤ 1 := by
    rw [← pow2_zero]
    exact (pow2_le_iff _ _).mpr hk
  unfold roundQ
  rw [if_neg hne, hu2]
  by_cases hk0 : k = 0
  · rw [hk0, pow2_zero, mul_one, hN]
    simp
  have hk2 : pow2 k ≤ 1 / 2 := by
    have : pow2 k ≤ pow2 (-1) := (pow2_le_iff _ _).mpr (by omega)
    have e : pow2 (-1) = 1 / 2 := by
      rw [pow2_eq]
      norm_num
    rw [e] at this
    exact this
  have : roundEven (q * pow2 k / ulpOf f q) = 0 := by
    apply roundEven_small
    rw [abs_div, abs_mul, abs_of_pos hu, abs_of_pos hpk]
    have h3 : |q| * pow2 k / ulpOf f q = |q| / ulpOf f q * pow2 k := by ring
    rw [h3]
    have h4 : 0 ≤ |q| / ulpOf f q := div_nonneg (abs_nonneg _) hu.le
    nlinarith
  rw [this]
  simp

end IdempotenceLemmas

section ScalingCorollaries

theorem pow2_neg_one : pow2 (-1) = 1 / 2 := by
  rw [pow2_eq]
  norm_num

theorem pow2_neg_two : pow2 (-2) = 1 / 4 := by
  rw [pow2_eq]
  norm_num

theorem pow2_one : pow2 1 = 2 := by
  rw [pow2_eq]
  norm_num

/-- Halving commutes with rounding. -/
theorem roundQ_half (f : Format) (q : ℚ) (h : q = 0 ∨ f.emin + 1 ≤ ilog2 q) :
    roundQ f (q / 2) = roundQ f q / 2 := by
  rcases h with rfl | h
  · simp [roundQ_zero]
  · by_cases hq : q = 0
    · rw [hq]
      simp [roundQ_zero]
    · have := roundQ_scale f q (-1) hq (by omega) (by omega)
      rw [pow2_neg_one] at this
      rw [div_eq_mul_one_div, this]
      ring

/-- Division by four commutes with rounding. -/
theorem roundQ_quarter (f : Format) (q : ℚ) (h : q = 0 ∨ f.emin + 2 ≤ ilog2 q) :
    roundQ f (q / 4) = roundQ f q / 4 := by
  rcases h with rfl | h
  · simp [roundQ_zero]
  · by_cases hq : q = 0
    · rw [hq]
      simp [roundQ_zero]
    · have := roundQ_scale f q (-2) hq (by omega) (by omega)
      rw [pow2_neg_two] at this
      rw [div_eq_mul_one_div, this]
      ring

/-- Doubling commutes with rounding. -/
theorem roundQ_double (f : Format) (q : ℚ) (h : q = 0 ∨ f.emin ≤ ilog2 q) :
    roundQ f (2 * q) = 2 * roundQ f q := by
  rcases h with rfl | h
  · simp [roundQ_zero]
  · by_cases hq : q = 0
    · rw [hq]
      simp [roundQ_zero]
    · have := roundQ_scale f q 1 hq (by omega) (by omega)
      rw [pow2_one] at this
      rw [mul_comm, this]
      ring

/-- The square root of a quarter is half the square root, also after rounding. -/
theorem sqrtQ_quarter (f : Format) (q : ℚ) (hq : q ≠ 0) :
    sqrtQ f (q / 4) = sqrtQ f q / 2 := by
  have e4 : q / 4 = q * pow2 (-2) := by
    rw [pow2_neg_two]
    ring
  have hu : sqrtUlp f (q / 4) = sqrtUlp f q * pow2 (-1) := by
    unfold sqrtUlp
    rw [e4, ilog2_scale q (-2) hq, ← pow2_add]
    congr 1
    omega
  have hpos : 0 < sqrtUlp f q := pow2_pos _
  have ht : q / 4 / (sqrtUlp f (q / 4) * sqrtUlp f (q / 4))
      = q / (sqrtUlp f q * sqrtUlp f q) := by
    rw [hu, pow2_neg_one]
    field_simp
    ring
  unfold sqrtQ
  rw [ht, hu, pow2_neg_one]
  ring

end ScalingCorollaries

section Binary64Lemmas

theorem roundTo_fin (f : Format) (q : ℚ) (h : |roundQ f q| < pow2 f.emax) :
    roundTo f q = .fin (roundQ f q) := by
  unfold roundTo
  rw [if_neg (not_le.mpr h)]

theorem roundTo_eq_fin (f : Format) (q a : ℚ) (h : roundTo f q = .fin a) :
    a = roundQ f q ∧ |a| < pow2 f.emax := by
  unfold roundTo at h
  split at h
  · cases h
  · rename_i hlt
    cases h
    exact ⟨rfl, not_le.mp hlt⟩

/-- The finite results of a rounding are values of the format. -/
theorem round_eq_fin (f : Format) (hp : 1 ≤ f.prec) (d : Dbl) (a : ℚ)
    (h : Dbl.round f d = .fin a) : roundQ f a = a := by
  cases d with
  | fin q =>
    obtain ⟨e, -⟩ := roundTo_eq_fin f q a h
    rw [e]
    exact roundQ_idem f hp q
  | inf b => cases h
  | nan => cases h

theorem moderate_log (q : ℚ) (h : Moderate q) : q = 0 ∨ -510 ≤ ilog2 q := by
  rcases h with h | ⟨h, -⟩
  · exact Or.inl h
  · exact Or.inr (le_ilog2 q _ h)

theorem moderate_abs_lt (q : ℚ) (h : Moderate q) (k : Int) (hk : 511 < k) : |q| < pow2 k := by
  rcases h with h | ⟨-, h⟩
  · rw [h, abs_zero]
    exact pow2_pos k
  · exact lt_of_le_of_lt h ((pow2_lt_iff _ _).mpr hk)

/-- Half of a moderate double is a double. -/
theorem round_half_double (a : ℚ) (ha : roundQ binary64 a = a) (hm : Moderate a) :
    roundTo binary64 (a / 2) = .fin (a / 2) := by
  have hq : roundQ binary64 (a / 2) = a / 2 := by
    rw [roundQ_half binary64 a, ha]
    rcases moderate_log a hm with h | h
    · exact Or.inl h
    · right
      show (-1022 : Int) + 1 ≤ ilog2 a
      omega
  rw [roundTo_fin, hq]
  rw [hq, abs_div, abs_of_pos (show (0 : ℚ) < 2 by norm_num)]
  have := moderate_abs_lt a hm 1024 (by norm_num)
  show |a| / 2 < pow2 1024
  have h0 := abs_nonneg a
  linarith

/-- The difference of the halves is half the difference. -/
theorem round_half_diff (a b v : ℚ) (hv : roundTo binary64 (b - a) = .fin v)
    (hm : Moderate v) : roundTo binary64 (b / 2 - a / 2) = .fin (v / 2) := by
  obtain ⟨e, -⟩ := roundTo_eq_fin _ _ _ hv
  have hx : b / 2 - a / 2 = (b - a) / 2 := by ring
  have hq : roundQ binary64 ((b - a) / 2) = v / 2 := by
    by_cases h0 : v = 0
    · have := roundQ_zero_scale binary64 (by decide) (b - a) (-1) (by omega)
        (by rw [← e]; exact h0)
      rw [pow2_neg_one] at this
      rw [div_eq_mul_one_div, this, h0]
      simp
    · rw [roundQ_half binary64 (b - a), ← e]
      right
      show (-1022 : Int) + 1 ≤ ilog2 (b - a)
      rcases hm with h | ⟨h, -⟩
      · exact absurd h h0
      · by_contra hc
        push_neg at hc
        have hx0 : b - a ≠ 0 := by
          intro hz
          rw [hz, roundQ_zero] at e
          exact h0 e
        obtain ⟨-, s2⟩ := ilog2_spec (b - a) hx0
        have h1 : |b - a| ≤ pow2 (-1021) :=
          le_trans s2.le ((pow2_le_iff _ _).mpr (by omega))
        have h2 := abs_roundQ_le binary64 (by decide) (b - a) (-1021) (by decide) h1
        rw [← e] at h2
        have h3 : pow2 (-1021) < pow2 (-510) := (pow2_lt_iff _ _).mpr (by norm_num)
        linarith
  rw [hx, roundTo_fin, hq]
  rw [hq, abs_div, abs_of_pos (show (0 : ℚ) < 2 by norm_num)]
  have := moderate_abs_lt v hm 1024 (by norm_num)
  show |v| / 2 < pow2 1024
  have h0 := abs_nonneg v
  linarith

theorem moderate_sq (v : ℚ) (hm : Moderate v) :
    v * v = 0 ∨ (pow2 (-1020) ≤ v * v ∧ v * v ≤ pow2 1022) := by
  rcases hm with h | ⟨h1, h2⟩
  · left
    rw [h, mul_zero]
  · right
    have e : v * v = |v| * |v| := (abs_mul_abs_self v).symm
    have p1 : pow2 (-1020) = pow2 (-510) * pow2 (-510) := by
      rw [← pow2_add]
      norm_num
    have p2 : pow2 1022 = pow2 511 * pow2 511 := by
      rw [← pow2_add]
      norm_num
    rw [e, p1, p2]
    have h0 := (pow2_pos (-510)).le
    exact ⟨mul_le_mul h1 h1 h0 (abs_nonneg v),
      mul_le_mul h2 h2 (abs_nonneg v) (pow2_pos 511).le⟩

/-- The rounded square of a moderate value: zero, or between `2^-1020` and `2^1022`. -/
theorem round_sq (v : ℚ) (hm : Moderate v) :
    roundTo binary64 (v * v) = .fin (roundQ binary64 (v * v)) ∧
    0 ≤ roundQ binary64 (v * v) ∧ roundQ binary64 (v * v) ≤ pow2 1022 ∧
    (roundQ binary64 (v * v) = 0 ∨ pow2 (-1020) ≤ roundQ binary64 (v * v)) := by
  have hnn : 0 ≤ v * v := mul_self_nonneg v
  have h0 := roundQ_nonneg binary64 (v * v) hnn
  have hle : roundQ binary64 (v * v) ≤ pow2 1022 := by
    rcases moderate_sq v hm with h | ⟨-, h⟩
    · rw [h, roundQ_zero]
      exact (pow2_pos _).le
    · have := abs_roundQ_le binary64 (by decide) (v * v) 1022 (by decide)
        (by rw [abs_of_nonneg hnn]; exact h)
      rwa [abs_of_nonneg h0] at this
  refine ⟨?_, h0, hle, ?_⟩
  · apply roundTo_fin
    rw [abs_of_nonneg h0]
    exact lt_of_le_of_lt hle ((pow2_lt_iff _ _).mpr (by decide))
  · rcases moderate_sq v hm with h | ⟨h, -⟩
    · left
      rw [h, roundQ_zero]
    · right
      exact le_roundQ binary64 (by decide) (v * v) (-1020) (by decide) h

/-- The rounded square of half a moderate value is a quarter of the rounded square. -/
theorem round_sq_half (v : ℚ) (hm : Moderate v) :
    roundTo binary64 (v / 2 * (v / 2)) = .fin (roundQ binary64 (v * v) / 4) := by
  obtain ⟨-, h0, hle, -⟩ := round_sq v hm
  have hx : v / 2 * (v / 2) = v * v / 4 := by ring
  have hq : roundQ binary64 (v * v / 4) = roundQ binary64 (v * v) / 4 := by
    apply roundQ_quarter
    rcases moderate_sq v hm with h | ⟨h, -⟩
    · exact Or.inl h
    · right
      have := le_ilog2 (v * v) (-1020) (by rw [abs_of_nonneg (mul_self_nonneg v)]; exact h)
      show (-1022 : Int) + 2 ≤ ilog2 (v * v)
      omega
  rw [hx, roundTo_fin, hq]
  rw [hq, abs_of_nonneg (by positivity)]
  have : pow2 1022 < pow2 1024 := (pow2_lt_iff _ _).mpr (by decide)
  show roundQ binary64 (v * v) / 4 < pow2 1024
  linarith

end Binary64Lemmas

section Binary64Gate

theorem moderate_fin {d : Dbl} (h : Dbl.moderate d = true) : ∃ q, d = .fin q ∧ Moderate q := by
  cases d with
  | fin q => exact ⟨q, rfl, by simpa [Dbl.moderate] using h⟩
  | inf b => simp [Dbl.moderate] at h
  | nan => simp [Dbl.moderate] at h

/-- The rounded sum of two rounded squares, and of their quarters. -/
theorem round_sum (A B : ℚ) (hA : 0 ≤ A) (hB : 0 ≤ B) (hA1 : A ≤ pow2 1022)
    (hB1 : B ≤ pow2 1022) (hA0 : A = 0 ∨ pow2 (-1020) ≤ A) (hB0 : B = 0 ∨ pow2 (-1020) ≤ B) :
    roundTo binary64 (A + B) = .fin (roundQ binary64 (A + B)) ∧
    roundTo binary64 (A / 4 + B / 4) = .fin (roundQ binary64 (A + B) / 4) ∧
    0 ≤ roundQ binary64 (A + B) := by
  have hnn : 0 ≤ A + B := add_nonneg hA hB
  have h0 := roundQ_nonneg binary64 (A + B) hnn
  have hle : roundQ binary64 (A + B) ≤ pow2 1023 := by
    have e : pow2 1023 = pow2 1022 * 2 := by
      rw [← pow2_one, ← pow2_add]
      norm_num
    have := abs_roundQ_le binary64 (by decide) (A + B) 1023 (by decide)
      (by rw [abs_of_nonneg hnn, e]; linarith)
    rwa [abs_of_nonneg h0] at this
  have hlt : pow2 1023 < pow2 1024 := (pow2_lt_iff _ _).mpr (by decide)
  refine ⟨?_, ?_, h0⟩
  · apply roundTo_fin
    rw [abs_of_nonneg h0]
    exact lt_of_le_of_lt hle hlt
  · have hx : A / 4 + B / 4 = (A + B) / 4 := by ring
    have hq : roundQ binary64 ((A + B) / 4) = roundQ binary64 (A + B) / 4 := by
      apply roundQ_quarter
      by_cases hz : A + B = 0
      · exact Or.inl hz
      · right
        have hge : pow2 (-1020) ≤ A + B := by
          rcases hA0 with h | h
          · rcases hB0 with h' | h'
            · rw [h, h', add_zero] at hz
              exact absurd rfl hz
            · linarith
          · linarith
        have := le_ilog2 (A + B) (-1020) (by rw [abs_of_nonneg hnn]; exact hge)
        show (-1022 : Int) + 2 ≤ ilog2 (A + B)
        omega
    rw [hx, roundTo_fin, hq]
    rw [hq, abs_of_nonneg (by positivity)]
    show roundQ binary64 (A + B) / 4 < pow2 1024
    linarith

/-- The square root of a quarter is half the square root. -/
theorem sqrt64_quarter (S : ℚ) (hS : 0 ≤ S) :
    ∃ n, Dbl.sqrt64 (.fin S) = .fin n ∧ Dbl.sqrt64 (.fin (S / 4)) = .fin (n / 2) := by
  by_cases h0 : S = 0
  · refine ⟨0, ?_, ?_⟩
    · rw [h0]
      simp [Dbl.sqrt64]
    · rw [h0]
      simp [Dbl.sqrt64]
  · have hpos : 0 < S := lt_of_le_of_ne hS (Ne.symm h0)
    refine ⟨sqrtQ binary64 S, ?_, ?_⟩
    · simp [Dbl.sqrt64, not_lt.mpr hS, h0]
    · have h4 : ¬ S / 4 < 0 := not_lt.mpr (by positivity)
      have h5 : S / 4 ≠ 0 := by positivity
      simp only [Dbl.sqrt64, h4, h5, if_false]
      rw [sqrtQ_quarter binary64 S h0]

/-- Twice a moderate double is a double. -/
theorem round_double (t : ℚ) (ht : roundQ binary64 t = t) (hm : Moderate t) :
    roundTo binary64 (2 * t) = .fin (2 * t) := by
  have hq : roundQ binary64 (2 * t) = 2 * t := by
    rw [roundQ_double binary64 t, ht]
    rcases moderate_log t hm with h | h
    · exact Or.inl h
    · right
      show (-1022 : Int) ≤ ilog2 t
      omega
  rw [roundTo_fin, hq]
  rw [hq, abs_mul, abs_of_pos (show (0 : ℚ) < 2 by norm_num)]
  have e2 : pow2 1024 = pow2 1023 * 2 := by
    rw [← pow2_one, ← pow2_add]
    norm_num
  show 2 * |t| < pow2 1024
  have h3 := moderate_abs_lt t hm 1023 (by norm_num)
  linarith

theorem lit_two : roundTo binary64 2 = .fin 2 := by decide!

end Binary64Gate

section Binary64Main

/-- A component of the midpoint flow is half the component of `x2 - x1`. -/
theorem midpoint_component (p c : LineFeature F64) (i : Fin 2)
    (hp : Dbl.moderate (endSum p i) = true) (hc : Dbl.moderate (endSum c i) = true)
    (hv : Dbl.moderate (flowVector p c i) = true) :
    ∃ v : ℚ, flowVector p c i = Dbl.fin v ∧ Moderate v ∧
      specMidpointFlow p c i = Dbl.fin (v / 2) := by
  obtain ⟨a, ha, hma⟩ := moderate_fin hp
  obtain ⟨b, hb, hmb⟩ := moderate_fin hc
  obtain ⟨v, hv', hmv⟩ := moderate_fin hv
  have ra : roundQ binary64 a = a :=
    round_eq_fin binary64 (by decide) (Dbl.add (p.spl i) (p.epl i)) a ha
  have rb : roundQ binary64 b = b :=
    round_eq_fin binary64 (by decide) (Dbl.add (c.spl i) (c.epl i)) b hb
  refine ⟨v, hv', hmv, ?_⟩
  have hv2 : Dbl.round binary64 (Dbl.add (endSum c i) (Dbl.neg (endSum p i))) = Dbl.fin v :=
    hv'
  rw [ha, hb] at hv2
  have hv3 : roundTo binary64 (b - a) = Dbl.fin v := by
    have e : b - a = b + -a := by ring
    rw [e]
    exact hv2
  show Dbl.round binary64 (Dbl.add
      (Dbl.round binary64 (Dbl.div (endSum c i) (roundTo binary64 2)))
      (Dbl.neg (Dbl.round binary64 (Dbl.div (endSum p i) (roundTo binary64 2))))) = Dbl.fin (v / 2)
  rw [ha, hb, lit_two]
  have d1 : Dbl.round binary64 (Dbl.div (Dbl.fin b) (Dbl.fin 2)) = Dbl.fin (b / 2) := by
    simp only [Dbl.div, Dbl.round, show (2 : ℚ) ≠ 0 by norm_num, if_false]
    exact round_half_double b rb hmb
  have d2 : Dbl.round binary64 (Dbl.div (Dbl.fin a) (Dbl.fin 2)) = Dbl.fin (a / 2) := by
    simp only [Dbl.div, Dbl.round, show (2 : ℚ) ≠ 0 by norm_num, if_false]
    exact round_half_double a ra hma
  rw [d1, d2]
  have e : b / 2 + -(a / 2) = b / 2 - a / 2 := by ring
  simp only [Dbl.neg, Dbl.add, Dbl.round, e]
  exact round_half_diff a b v hv3 hmv

/-- In binary64 arithmetic, for segments whose end point sums and flow vector are moderate and
for a moderate threshold, the flow gate and the test on the midpoints agree. -/
theorem binary64_gate (cfg : Config F64) (p c : LineFeature F64)
    (hp : ∀ i, Dbl.moderate (endSum p i) = true) (hc : ∀ i, Dbl.moderate (endSum c i) = true)
    (hv : ∀ i, Dbl.moderate (flowVector p c i) = true)
    (ht : Dbl.moderate cfg.f2fFlowTh = true)
    (hd : Dbl.round binary64 cfg.f2fFlowTh = cfg.f2fFlowTh) :
    flowGate cfg p c = specMidpointFlowBelow cfg p c := by
  obtain ⟨v0, e0, m0, w0⟩ := midpoint_component p c 0 (hp 0) (hc 0) (hv 0)
  obtain ⟨v1, e1, m1, w1⟩ := midpoint_component p c 1 (hp 1) (hc 1) (hv 1)
  obtain ⟨t, et, mt⟩ := moderate_fin ht
  have rt : roundQ binary64 t = t := by
    rw [et] at hd
    exact round_eq_fin binary64 (by decide) (Dbl.fin t) t hd
  obtain ⟨a1, a2, a3, a4⟩ := round_sq v0 m0
  obtain ⟨b1, b2, b3, b4⟩ := round_sq v1 m1
  obtain ⟨s1, s2, s3⟩ := round_sum _ _ a2 b2 a3 b3 a4 b4
  obtain ⟨n, n1, n2⟩ := sqrt64_quarter _ s3
  have gate : flowGate cfg p c = Dbl.lt (Dbl.fin n) (Dbl.fin (2 * t)) := by
    show Dbl.lt (Dbl.sqrt64 (Dbl.round binary64 (Dbl.add
        (Dbl.round binary64 (Dbl.mul (flowVector p c 0) (flowVector p c 0)))
        (Dbl.round binary64 (Dbl.mul (flowVector p c 1) (flowVector p c 1))))))
      (Dbl.round binary64 (Dbl.mul (roundTo binary64 2) cfg.f2fFlowTh)) = _
    rw [e0, e1, et, lit_two]
    simp only [Dbl.mul, Dbl.round, a1, b1, Dbl.add, s1, n1, round_double t rt mt]
  have mid : specMidpointFlowBelow cfg p c = Dbl.lt (Dbl.fin (n / 2)) (Dbl.fin t) := by
    show Dbl.lt (Dbl.sqrt64 (Dbl.round binary64 (Dbl.add
        (Dbl.round binary64 (Dbl.mul (specMidpointFlow p c 0) (specMidpointFlow p c 0)))
        (Dbl.round binary64 (Dbl.mul (specMidpointFlow p c 1) (specMidpointFlow p c 1))))))
      cfg.f2fFlowTh = _
    rw [w0, w1, et]
    simp only [Dbl.mul, Dbl.round, round_sq_half v0 m0, round_sq_half v1 m1, Dbl.add, s2, n2]
  rw [gate, mid]
  simp only [Dbl.lt]
  exact decide_eq_decide.mpr
    ⟨fun h => by linarith only [h], fun h => by linarith only [h]⟩

end Binary64Main


section LineGates

variable {D : Type} [DoubleOps D]

/-- What one iteration of the line match loop does, with the gates that the accepting branch has
passed. -/
theorem lineMatchStep_gates {cfg : Config D} {env : Ext D} {lm21 : List (List (DMatch D))}
    {th : D} {st st' : LsTrack D} {m : List (DMatch D)}
    (h : lineMatchStep cfg env lm21 th st m = some st') :
    ∃ (m0 : DMatch D) (c p : LineFeature D),
      getI st.curr_ls m0.trainIdx = some c ∧ getI st.prev_ls m0.queryIdx = some p ∧
      ((angleGate cfg env p c = true ∧ flowGate cfg p c = true ∧
          st' = { st with
            prev_ls := setI st.prev_ls m0.queryIdx
              { p with spl_obs := c.spl, epl_obs := c.epl, le_obs := c.le, inlier := true }
            matched_ls := st.matched_ls ++ [m0.queryIdx.toNat]
            curr_ls := setI st.curr_ls m0.trainIdx { c with idx := p.idx }
            accepted := st.accepted ++ [(m0.queryIdx, m0.trainIdx)] }) ∨
        (st' = { st with
            curr_ls := setI st.curr_ls m0.trainIdx { c with idx := st.max_idx_ls }
            max_idx_ls := st.max_idx_ls + 1
            issued := st.issued ++ [st.max_idx_ls] })) := by
  simp only [lineMatchStep, Option.bind_eq_bind, Option.bind_eq_some] at h
  obtain ⟨m0, -, rl, -, m1, -, p, hp, c, hc, h⟩ := h
  refine ⟨m0, c, p, hc, hp, ?_⟩
  split at h
  · rename_i hcond
    simp only [Option.pure_def, Option.some.injEq] at h
    simp only [Bool.and_eq_true] at hcond
    exact Or.inl ⟨hcond.1.2, hcond.2, h.symm⟩
  · simp only [Option.pure_def, Option.bind_eq_some, Option.some.injEq] at h
    obtain ⟨next, hnext, h⟩ := h
    have := checkedInt_eq_some hnext
    subst this
    exact Or.inr h.symm

/-- The gates read the end points and the angle of the two segments only. -/
theorem gates_congr (cfg : Config D) (env : Ext D) {p p' c c' : LineFeature D}
    (hp : (p.spl, p.epl, p.angle) = (p'.spl, p'.epl, p'.angle))
    (hc : (c.spl, c.epl, c.angle) = (c'.spl, c'.epl, c'.angle)) :
    angleGate cfg env p c = angleGate cfg env p' c' ∧ flowGate cfg p c = flowGate cfg p' c' := by
  simp only [Prod.mk.injEq] at hp hc
  obtain ⟨p1, p2, p3⟩ := hp
  obtain ⟨c1, c2, c3⟩ := hc
  have e : flowVector p c = flowVector p' c' := by
    funext i
    simp only [flowVector, p1, p2, c1, c2]
  exact ⟨by simp only [angleGate, p3, c3], by simp only [flowGate, e]⟩

theorem getI_of_map_eq {α β : Type} (f : α → β) {l l0 : List α} {i : Int} {a : α}
    (h : l.map f = l0.map f) (ha : getI l i = some a) :
    ∃ a0, getI l0 i = some a0 ∧ f a0 = f a := by
  have e : (getI l0 i).map f = some (f a) := by
    rw [← getI_map, ← h, getI_map, ha]
    rfl
  exact Option.map_eq_some'.mp e

/-- Every line pair accepted by the line half has passed the angle gate and the flow gate, read
on the segments as the two frames hold them at entry. -/
theorem lineHalf_gates {cfg : Config D} {env : Ext D} {km : KnnMatches D} {s : Handler D}
    {curr : StereoFrame D} {ls : LsTrack D} (h : lineHalf cfg env km s curr = some ls) :
    ∀ a ∈ ls.accepted, ∃ p c, getI s.prev_frame.stereo_ls a.1 = some p ∧
      getI curr.stereo_ls a.2 = some c ∧ angleGate cfg env p c = true ∧
      flowGate cfg p c = true := by
  rcases lineHalf_cases h with ⟨-, -, -, hblk⟩ | ⟨-, rfl⟩
  · obtain ⟨lm12, lm21, st1, rest, -, -, hloop, -, rfl⟩ := lineBlock_eq_some hblk
    have := lineMatchLoop_induct
      (fun st =>
        st.prev_ls.map (fun f => (f.spl, f.epl, f.angle))
          = s.prev_frame.stereo_ls.map (fun f => (f.spl, f.epl, f.angle)) ∧
        st.curr_ls.map (fun f => (f.spl, f.epl, f.angle))
          = curr.stereo_ls.map (fun f => (f.spl, f.epl, f.angle)) ∧
        ∀ a ∈ st.accepted, ∃ p c, getI s.prev_frame.stereo_ls a.1 = some p ∧
          getI curr.stereo_ls a.2 = some c ∧ angleGate cfg env p c = true ∧
          flowGate cfg p c = true) lm12
      (by
        intro m _ st st' hs ⟨i1, i2, i3⟩
        obtain ⟨m0, c, p, hc, hp, hcase⟩ := lineMatchStep_gates hs
        obtain ⟨-, -, hpq⟩ := getI_eq_some hp
        obtain ⟨-, -, hct⟩ := getI_eq_some hc
        rcases hcase with ⟨g1, g2, rfl⟩ | rfl
        · refine ⟨?_, ?_, ?_⟩
          · have e := map_set_same (fun f : LineFeature D => (f.spl, f.epl, f.angle)) hpq
              (show (fun f : LineFeature D => (f.spl, f.epl, f.angle))
                  { p with spl_obs := c.spl, epl_obs := c.epl, le_obs := c.le, inlier := true }
                = (fun f : LineFeature D => (f.spl, f.epl, f.angle)) p from rfl)
            exact e.trans i1
          · have e := map_set_same (fun f : LineFeature D => (f.spl, f.epl, f.angle)) hct
              (show (fun f : LineFeature D => (f.spl, f.epl, f.angle)) { c with idx := p.idx }
                = (fun f : LineFeature D => (f.spl, f.epl, f.angle)) c from rfl)
            exact e.trans i2
          · intro a ha
            simp only [List.mem_append, List.mem_singleton] at ha
            rcases ha with ha | rfl
            · exact i3 a ha
            · obtain ⟨p0, hp0, ep⟩ := getI_of_map_eq _ i1 hp
              obtain ⟨c0, hc0, ec⟩ := getI_of_map_eq _ i2 hc
              obtain ⟨k1, k2⟩ := gates_congr cfg env ep ec
              exact ⟨p0, c0, hp0, hc0, by rw [k1]; exact g1, by rw [k2]; exact g2⟩
        · refine ⟨i1, ?_, i3⟩
          have e := map_set_same (fun f : LineFeature D => (f.spl, f.epl, f.angle)) hct
            (show (fun f : LineFeature D => (f.spl, f.epl, f.angle))
                { c with idx := st.max_idx_ls }
              = (fun f : LineFeature D => (f.spl, f.epl, f.angle)) c from rfl)
          exact e.trans i2) _ _ hloop ⟨rfl, rfl, by simp⟩
    exact this.2.2
  · simp

end LineGates

section ClaimC19

end ClaimC19

section WitnessC19

theorem line_tracks :
    (f2fTracking ieeeConfig ieeeEnv lineMatches lineHandler).isSome = true := by decide!

/-- The arithmetic of `ieeeOps` on values that an IEEE 754 machine is known to compute:
the doubles nearest to 1/10 and 1/3, the square root of 2, the overflow threshold, rounding to
even among the subnormal numbers, the `float` nearest to 1/10, and the rounded results of
`0.1 + 0.2`, `0.1 * 0.1`, `1.0 / 3.0`, `sqrt(0.1)`, `1e308 * 10.0` and `1e-200 * 1e-150`. -/
theorem binary64_conformance :
    roundTo binary64 (1 / 10) = Dbl.fin (3602879701896397 / 36028797018963968) ∧
    roundTo binary64 (1 / 3) = Dbl.fin (6004799503160661 / 18014398509481984) ∧
    Dbl.sqrt64 (Dbl.fin 2) = Dbl.fin (6369051672525773 / 4503599627370496) ∧
    roundTo binary64 (pow2 1024 - pow2 970) = Dbl.inf false ∧
    roundTo binary64 (pow2 1024 - pow2 970 - 1) = Dbl.fin (pow2 1024 - pow2 971) ∧
    roundTo binary64 (pow2 (-1075)) = Dbl.fin 0 ∧
    roundTo binary64 (3 * pow2 (-1075)) = Dbl.fin (pow2 (-1073)) ∧
    roundTo binary32 (1 / 10) = Dbl.fin (13421773 / 134217728) ∧
    (lit 0.1 + lit 0.2 : F64) = Dbl.fin (1351079888211149 / 4503599627370496) ∧
    (lit 0.1 * lit 0.1 : F64) = Dbl.fin (1441151880758559 / 144115188075855872) ∧
    (1 / 3 : F64) = Dbl.fin (6004799503160661 / 18014398509481984) ∧
    (DoubleOps.sqrt (lit 0.1) : F64) = Dbl.fin (5696652996790543 / 18014398509481984) ∧
    (lit 1e308 * 10 : F64) = Dbl.inf false ∧
    (lit 1e-200 * lit 1e-150 : F64) = Dbl.fin 0 := by decide!

end WitnessC19

end StVO
